import Mathlib

/-!
# libchess: bitboards, attack tables, move generation and the apply/undo state machine

A shallow embedding of `include/libchess/*.h` and `src/*.cc`.

Conventions of the embedding.

* `uint64_t` bitboards are natural numbers; bit `i` is `Nat.testBit _ i`.  A shift
  `1ull << index` is `(1 <<< index) % 2 ^ 64`, complement is taken inside the word.
* `uint8_t` square indices are natural numbers reduced modulo 256 by every constructor.
* `int` values that may be negative (`piece_type_at`, directions, clocks) are integers.
* Arrays indexed by side / piece type / square are functions of the index.
* Only the MSVC branch of `platform.h` is embedded: under GCC the header stops at
  `#error TODO: gcc find_last_set`, so that branch has no behaviour to model.
-/

namespace chess

/-! ## platform.h -/

namespace platform

/-- Forward bit scan behind `_BitScanForward64`: the first set bit at position `i` or above,
looking at `fuel` positions; `0` when none is found (the out-parameter keeps its initial `0`). -/
def bit_scan_forward (data : Nat) : Nat → Nat → Nat
  | 0, _ => 0
  | fuel + 1, i => if data.testBit i then i else bit_scan_forward data fuel (i + 1)

/-- Index of the lowest set bit of a 64-bit word. -/
def find_first_set (data : Nat) : Nat := bit_scan_forward data 64 0

/-- Reverse bit scan behind `_BitScanReverse64`: the highest set bit strictly below position
`n`; `0` when none is found. -/
def bit_scan_reverse (data : Nat) : Nat → Nat
  | 0 => 0
  | i + 1 => if data.testBit i then i else bit_scan_reverse data i

/-- Index of the highest set bit of a 64-bit word. -/
def find_last_set (data : Nat) : Nat := bit_scan_reverse data 64

/-- Number of set bits of a 64-bit word. -/
def popcount (data : Nat) : Nat := ((List.range 64).filter (fun i => data.testBit i)).length

end platform

/-! ## square.h -/

/-- Conversion of an `int` argument to `uint8_t`. -/
def u8 (x : Int) : Nat := (x % 256).toNat

/-! A `Square` is its `uint8_t` index, a natural number below 256. -/

namespace Square

/-- The private static `index(file, rank)`: `(rank * 8) + file`, returned as `uint8_t`. -/
def index (file rank : Nat) : Nat := (rank * 8 + file) % 256

/-- Constructor `Square(uint8_t file, uint8_t rank)`. -/
def mk (file rank : Int) : Nat := index (u8 file) (u8 rank)

/-- Member `offset(uint8_t file, uint8_t rank)`: `Square(index_ + index(file, rank))`. -/
def offset (sq : Nat) (file rank : Int) : Nat := (sq + index (u8 file) (u8 rank)) % 256

/-- Member `file()`. -/
def file (sq : Nat) : Nat := sq % 8

/-- Member `rank()`: `(index_ - file()) / 8`. -/
def rank (sq : Nat) : Nat := (sq - file sq) / 8

end Square

/-- The reserved square `null_square(0xff)`. -/
def null_square : Nat := 0xff

/-! ## bitboard.h, bitboard_iterator.h -/

/-! A `Bitboard` is its `uint64_t` word, a natural number. -/

namespace Bitboard

/-- The private `mask(index)`: `1ull << index`. -/
def mask (index : Nat) : Nat := (1 <<< index) % 2 ^ 64

/-- Member `occupied(square)`: `data_ & mask(square.index())`. -/
def occupied (b : Nat) (sq : Nat) : Nat := b &&& mask sq

/-- Member `find_first()`. -/
def find_first (b : Nat) : Nat := platform.find_first_set b

/-- Member `find_last()`: `0` on the empty word. -/
def find_last (b : Nat) : Nat := if b = 0 then 0 else platform.find_last_set b

/-- Member `count()`. -/
def count (b : Nat) : Nat := platform.popcount b

/-- Member `set(Square)`. -/
def set (b : Nat) (sq : Nat) : Nat := b ||| mask sq

/-- Member `set(Bitboard)`. -/
def set_board (b other : Nat) : Nat := b ||| other

/-- Operator `~` on the 64-bit word. -/
def compl (b : Nat) : Nat := (b ^^^ (2 ^ 64 - 1)) % 2 ^ 64

/-- Member `unset(Square)`: `data_ &= ~mask(index)`. -/
def unset (b : Nat) (sq : Nat) : Nat := b &&& compl (mask sq)

/-- Member `unset(Bitboard)`. -/
def unset_board (b other : Nat) : Nat := b &&& compl other

end Bitboard

namespace BitboardIterator

/-- The loop `while (it.has_data()) { sq = it.next(); ... }`, collecting the squares returned by
`next()`; the iterator is built from the 64-bit word of the board.  `fuel` bounds the number of
rounds. -/
def drain : Nat → Nat → List Nat
  | 0, _ => []
  | fuel + 1, board =>
    if board = 0 then []
    else
      let index := Bitboard.find_first board
      index :: drain fuel (Bitboard.unset board index)

/-- All squares produced by iterating over `board`; a 64-bit word has at most 64 set bits. -/
def squares (board : Nat) : List Nat := drain 64 (board % 2 ^ 64)

end BitboardIterator

/-! ## piece.cc: attack tables -/

/-- Side indices. -/
abbrev kSideWhite : Nat := 0
/-- Side indices. -/
abbrev kSideBlack : Nat := 1

/-- Piece-type indices. -/
abbrev kPiecePawn : Nat := 0
/-- Piece-type indices. -/
abbrev kPieceKnight : Nat := 1
/-- Piece-type indices. -/
abbrev kPieceBishop : Nat := 2
/-- Piece-type indices. -/
abbrev kPieceRook : Nat := 3
/-- Piece-type indices. -/
abbrev kPieceQueen : Nat := 4
/-- Piece-type indices. -/
abbrev kPieceKing : Nat := 5

/-- Entry `[side][square]` of `compute_pawn_move_tables()`. -/
def compute_pawn_move_tables (side : Nat) (square : Nat) : Nat :=
  let direction : Int := if side = 0 then 1 else -1
  let file := Square.file square
  let rank := Square.rank square
  let rank_offset : Int := (rank : Int) + direction
  if rank_offset < 0 ∨ rank_offset > 7 then 0
  else Bitboard.set 0 (Square.mk file rank_offset)

/-- Entry `[side][square]` of `compute_pawn_double_move_tables()`. -/
def compute_pawn_double_move_tables (side : Nat) (square : Nat) : Nat :=
  let direction : Int := if side = 0 then 2 else -2
  let double_move_rank : Int := if side = kSideWhite then 1 else 6
  if (Square.rank square : Int) = double_move_rank then
    Bitboard.set 0 (Square.mk (Square.file square) (double_move_rank + direction))
  else 0

/-- The body shared by the leaper-table builders: for each `(file, rank)` offset that stays on
the board, set the target square. -/
def offsets_board (offsets : List (Int × Int)) (square : Nat) : Nat :=
  offsets.foldl
    (fun board offset =>
      let file_offset : Int := (Square.file square : Int) + offset.1
      let rank_offset : Int := (Square.rank square : Int) + offset.2
      if file_offset < 0 ∨ file_offset > 7 then board
      else if rank_offset < 0 ∨ rank_offset > 7 then board
      else Bitboard.set board (Square.mk file_offset rank_offset))
    0

/-- Entry `[side][square]` of `compute_pawn_capture_tables()`. -/
def compute_pawn_capture_tables (side : Nat) (square : Nat) : Nat :=
  let direction : Int := if side = 0 then 1 else -1
  offsets_board [(-1, direction), (1, direction)] square

/-- Entry `[square]` of `compute_knight_table()`. -/
def compute_knight_table (square : Nat) : Nat :=
  offsets_board [(-2, 1), (-1, 2), (1, 2), (2, 1), (2, -1), (1, -2), (-1, -2), (-2, -1)] square

/-- Entry `[square]` of `compute_king_table()`. -/
def compute_king_table (square : Nat) : Nat :=
  offsets_board [(-1, -1), (-1, 0), (-1, 1), (0, 1), (1, 1), (1, 0), (1, -1), (0, -1)] square

/-- The `while (true)` loop of `compute_ray_table`: walk from `(file, rank)` in steps of
`(file_offset, rank_offset)` until the board is left.  `none` when `fuel` rounds do not reach
the exit. -/
def ray_walk (file_offset rank_offset : Int) : Nat → Int → Int → Nat → Option Nat
  | 0, _, _, _ => none
  | fuel + 1, file, rank, board =>
    if file < 0 ∨ file > 7 then some board
    else if rank < 0 ∨ rank > 7 then some board
    else
      ray_walk file_offset rank_offset fuel (file + file_offset) (rank + rank_offset)
        (Bitboard.set board (Square.mk file rank))

/-- Entry `[square]` of `compute_ray_table<file_offset, rank_offset>()`.  Nine rounds always
reach the exit for the eight directions used (see `ray_walk_exits`). -/
def compute_ray_table (file_offset rank_offset : Int) (square : Nat) : Nat :=
  (ray_walk file_offset rank_offset 9
    ((Square.file square : Int) + file_offset) ((Square.rank square : Int) + rank_offset) 0).getD 0

/-- Table `pawn_move_tables`. -/
def pawn_move_tables : Nat → Nat → Nat := compute_pawn_move_tables
/-- Table `pawn_double_move_tables`. -/
def pawn_double_move_tables : Nat → Nat → Nat := compute_pawn_double_move_tables
/-- Table `pawn_capture_tables`. -/
def pawn_capture_tables : Nat → Nat → Nat := compute_pawn_capture_tables
/-- Table `knight_attack_table`. -/
def knight_attack_table : Nat → Nat := compute_knight_table
/-- Table `king_attack_table`. -/
def king_attack_table : Nat → Nat := compute_king_table

/-- Table `ray_n_table`. -/
def ray_n_table : Nat → Nat := compute_ray_table 0 1
/-- Table `ray_e_table`. -/
def ray_e_table : Nat → Nat := compute_ray_table 1 0
/-- Table `ray_s_table`. -/
def ray_s_table : Nat → Nat := compute_ray_table 0 (-1)
/-- Table `ray_w_table`. -/
def ray_w_table : Nat → Nat := compute_ray_table (-1) 0
/-- Table `ray_nw_table`. -/
def ray_nw_table : Nat → Nat := compute_ray_table (-1) 1
/-- Table `ray_ne_table`. -/
def ray_ne_table : Nat → Nat := compute_ray_table 1 1
/-- Table `ray_se_table`. -/
def ray_se_table : Nat → Nat := compute_ray_table 1 (-1)
/-- Table `ray_sw_table`. -/
def ray_sw_table : Nat → Nat := compute_ray_table (-1) (-1)

/-- The four-line block of `ray_attack_table` for a ray toward increasing indices
(N, E, NE, NW): blockers get the sentinel bit 63, the nearest one is `find_first`. -/
def ray_toward_high (table : Nat → Nat) (occupied : Nat) (from_ : Nat) :
    Nat :=
  let attacked := table from_
  let blockers := (attacked &&& occupied) ||| 0x8000000000000000
  let blocking_square := Bitboard.find_first blockers
  attacked ^^^ table blocking_square

/-- The four-line block of `ray_attack_table` for a ray toward decreasing indices
(S, W, SE, SW): blockers get the sentinel bit 0, the nearest one is `find_last`. -/
def ray_toward_low (table : Nat → Nat) (occupied : Nat) (from_ : Nat) :
    Nat :=
  let attacked := table from_
  let blockers := (attacked &&& occupied) ||| 1
  let blocking_square := Bitboard.find_last blockers
  attacked ^^^ table blocking_square

/-- Template `ray_attack_table<generate_diagonal_rays, generate_orthogonal_rays>`. -/
def ray_attack_table (generate_diagonal_rays generate_orthogonal_rays : Bool)
    (occupied : Nat) (from_ : Nat) : Nat :=
  let attacked : Nat := 0
  let attacked :=
    if generate_diagonal_rays then
      let nw_attacked := ray_toward_high ray_nw_table occupied from_
      let ne_attacked := ray_toward_high ray_ne_table occupied from_
      let se_attacked := ray_toward_low ray_se_table occupied from_
      let sw_attacked := ray_toward_low ray_sw_table occupied from_
      attacked ||| (nw_attacked ||| ne_attacked ||| se_attacked ||| sw_attacked)
    else attacked
  let attacked :=
    if generate_orthogonal_rays then
      let n_attacked := ray_toward_high ray_n_table occupied from_
      let e_attacked := ray_toward_high ray_e_table occupied from_
      let s_attacked := ray_toward_low ray_s_table occupied from_
      let w_attacked := ray_toward_low ray_w_table occupied from_
      attacked ||| (n_attacked ||| e_attacked ||| s_attacked ||| w_attacked)
    else attacked
  attacked

/-- Function `pawn_move_board(side, square)`. -/
def pawn_move_board (side : Nat) (square : Nat) : Nat := pawn_move_tables side square
/-- Function `pawn_double_move_board(side, square)`. -/
def pawn_double_move_board (side : Nat) (square : Nat) : Nat :=
  pawn_double_move_tables side square
/-- Function `pawn_attack_board(side, square)`. -/
def pawn_attack_board (side : Nat) (square : Nat) : Nat :=
  pawn_capture_tables side square
/-- Function `knight_attack_board(square)`. -/
def knight_attack_board (square : Nat) : Nat := knight_attack_table square
/-- Function `bishop_attack_board(occupied, square)`. -/
def bishop_attack_board (occupied : Nat) (square : Nat) : Nat :=
  ray_attack_table true false occupied square
/-- Function `rook_attack_board(occupied, square)`. -/
def rook_attack_board (occupied : Nat) (square : Nat) : Nat :=
  ray_attack_table false true occupied square
/-- Function `queen_attack_board(occupied, square)`. -/
def queen_attack_board (occupied : Nat) (square : Nat) : Nat :=
  ray_attack_table true true occupied square
/-- Function `king_attack_board(square)`. -/
def king_attack_board (square : Nat) : Nat := king_attack_table square

/-- The overloads taking a set of squares: union of the per-square boards over the set bits. -/
def attack_union (f : Nat → Nat) (squares : Nat) : Nat :=
  (BitboardIterator.squares squares).foldl (fun attacked square => Bitboard.set_board attacked (f square)) 0


/-! ## Geometry used to state the attack sets -/

/-- A ray table whose bits are described by the relation `R` between square indices. -/
def TableBits (table : Nat → Nat) (R : Nat → Nat → Prop) : Prop :=
  ∀ s, s < 64 → ∀ t, ((table s).testBit t = true ↔ t < 64 ∧ R s t)

/-- Geometry of the north ray: same file, higher rank. -/
def rel_n (s t : Nat) : Prop := t % 8 = s % 8 ∧ s / 8 < t / 8
/-- Geometry of the south ray: same file, lower rank. -/
def rel_s (s t : Nat) : Prop := t % 8 = s % 8 ∧ t / 8 < s / 8
/-- Geometry of the east ray: same rank, higher file. -/
def rel_e (s t : Nat) : Prop := t / 8 = s / 8 ∧ s % 8 < t % 8
/-- Geometry of the west ray: same rank, lower file. -/
def rel_w (s t : Nat) : Prop := t / 8 = s / 8 ∧ t % 8 < s % 8
/-- Geometry of the north-east ray: file and rank grow together. -/
def rel_ne (s t : Nat) : Prop := s % 8 < t % 8 ∧ t % 8 + s / 8 = t / 8 + s % 8
/-- Geometry of the south-west ray: file and rank shrink together. -/
def rel_sw (s t : Nat) : Prop := t % 8 < s % 8 ∧ t % 8 + s / 8 = t / 8 + s % 8
/-- Geometry of the north-west ray: file shrinks as rank grows. -/
def rel_nw (s t : Nat) : Prop := t % 8 < s % 8 ∧ t % 8 + t / 8 = s % 8 + s / 8
/-- Geometry of the south-east ray: file grows as rank shrinks. -/
def rel_se (s t : Nat) : Prop := s % 8 < t % 8 ∧ t % 8 + t / 8 = s % 8 + s / 8

instance (s t : Nat) : Decidable (rel_n s t) := by unfold rel_n; infer_instance
instance (s t : Nat) : Decidable (rel_s s t) := by unfold rel_s; infer_instance
instance (s t : Nat) : Decidable (rel_e s t) := by unfold rel_e; infer_instance
instance (s t : Nat) : Decidable (rel_w s t) := by unfold rel_w; infer_instance
instance (s t : Nat) : Decidable (rel_ne s t) := by unfold rel_ne; infer_instance
instance (s t : Nat) : Decidable (rel_sw s t) := by unfold rel_sw; infer_instance
instance (s t : Nat) : Decidable (rel_nw s t) := by unfold rel_nw; infer_instance
instance (s t : Nat) : Decidable (rel_se s t) := by unfold rel_se; infer_instance

/-- Square `u` lies strictly between `s` and `t` on a common file or rank. -/
def rook_between (s t u : Nat) : Prop :=
  (Square.file u = Square.file s ∧ Square.file t = Square.file s ∧
    (Square.rank s < Square.rank u ∧ Square.rank u < Square.rank t ∨
     Square.rank t < Square.rank u ∧ Square.rank u < Square.rank s)) ∨
  (Square.rank u = Square.rank s ∧ Square.rank t = Square.rank s ∧
    (Square.file s < Square.file u ∧ Square.file u < Square.file t ∨
     Square.file t < Square.file u ∧ Square.file u < Square.file s))

/-- Squares `s` and `t` lie on a common diagonal or anti-diagonal. -/
def common_diagonal (s t : Nat) : Prop :=
  Square.file t + Square.rank s = Square.file s + Square.rank t ∨
  Square.file t + Square.rank t = Square.file s + Square.rank s

/-- Square `u` lies strictly between `s` and `t` on a common diagonal or anti-diagonal. -/
def bishop_between (s t u : Nat) : Prop :=
  ((Square.file u + Square.rank s = Square.file s + Square.rank u ∧
    Square.file t + Square.rank s = Square.file s + Square.rank t) ∨
   (Square.file u + Square.rank u = Square.file s + Square.rank s ∧
    Square.file t + Square.rank t = Square.file s + Square.rank s)) ∧
  (Square.rank s < Square.rank u ∧ Square.rank u < Square.rank t ∨
   Square.rank t < Square.rank u ∧ Square.rank u < Square.rank s)


/-! ## board.h, move.h -/

/-- Castling-right indices. -/
abbrev kCastleWhiteKingSide : Nat := 0
/-- Castling-right indices. -/
abbrev kCastleWhiteQueenSide : Nat := 1
/-- Castling-right indices. -/
abbrev kCastleBlackKingSide : Nat := 2
/-- Castling-right indices. -/
abbrev kCastleBlackQueenSide : Nat := 3

/-- The value of `!side` used as a side index: 1 for side 0, otherwise 0. -/
def not_side (side : Nat) : Nat := if side = 0 then 1 else 0

/-- Class `Board`: `pieces_[side][piece]`, `occupied_[side]`, `castling_[right]`, `side_`,
`half_move_`, `full_move_`, `ep_square_`. -/
structure Board where
  pieces_ : Nat → Nat → Nat
  occupied_ : Nat → Nat
  castling_ : Nat → Bool
  side_ : Nat
  half_move_ : Int
  full_move_ : Int
  ep_square_ : Nat

namespace Board

/-- Member `piece_board(side, piece_type)`. -/
def piece_board (b : Board) (side piece_type : Nat) : Nat := b.pieces_ side piece_type
/-- Member `pawns(side)`. -/
def pawns (b : Board) (side : Nat) : Nat := b.pieces_ side kPiecePawn
/-- Member `knights(side)`. -/
def knights (b : Board) (side : Nat) : Nat := b.pieces_ side kPieceKnight
/-- Member `bishops(side)`. -/
def bishops (b : Board) (side : Nat) : Nat := b.pieces_ side kPieceBishop
/-- Member `rooks(side)`. -/
def rooks (b : Board) (side : Nat) : Nat := b.pieces_ side kPieceRook
/-- Member `queens(side)`. -/
def queens (b : Board) (side : Nat) : Nat := b.pieces_ side kPieceQueen
/-- Member `kings(side)`. -/
def kings (b : Board) (side : Nat) : Nat := b.pieces_ side kPieceKing

/-- Member `turn()`. -/
def turn (b : Board) : Nat := b.side_
/-- Member `ep_square()`. -/
def ep_square (b : Board) : Nat := b.ep_square_
/-- Member `half_move()`. -/
def half_move (b : Board) : Int := b.half_move_
/-- Member `full_move()`. -/
def full_move (b : Board) : Int := b.full_move_
/-- Member `castling(castle_side)`. -/
def castling (b : Board) (castle_side : Nat) : Bool := b.castling_ castle_side

/-- Member `set_piece_board(side, piece_type, board)`. -/
def set_piece_board (b : Board) (side piece_type : Nat) (board : Nat) : Board :=
  { b with pieces_ := fun s p => if s = side ∧ p = piece_type then board else b.pieces_ s p }

/-- Member `set_castling(castle_side, value)`. -/
def set_castling (b : Board) (castle_side : Nat) (value : Bool) : Board :=
  { b with castling_ := fun c => if c = castle_side then value else b.castling_ c }

/-- Member `set_turn(side)`. -/
def set_turn (b : Board) (side : Nat) : Board := { b with side_ := side }
/-- Member `set_ep_square(ep_square)`. -/
def set_ep_square (b : Board) (ep_square : Nat) : Board := { b with ep_square_ := ep_square }
/-- Member `set_half_move(half_move)`. -/
def set_half_move (b : Board) (half_move : Int) : Board := { b with half_move_ := half_move }
/-- Member `set_full_move(full_move)`. -/
def set_full_move (b : Board) (full_move : Int) : Board := { b with full_move_ := full_move }

/-- Member `occupied(side)`. -/
def occupied_side (b : Board) (side : Nat) : Nat := b.occupied_ side
/-- Member `occupied()`: both sides. -/
def occupied (b : Board) : Nat := b.occupied_ kSideWhite ||| b.occupied_ kSideBlack

/-- Member `square_occupied(side, square)`. -/
def square_occupied_side (b : Board) (side : Nat) (square : Nat) : Bool :=
  decide (Bitboard.occupied (b.occupied_ side) square ≠ 0)

/-- Member `square_occupied(square)`. -/
def square_occupied (b : Board) (square : Nat) : Bool :=
  b.square_occupied_side kSideWhite square || b.square_occupied_side kSideBlack square

/-- The `for` loop of `piece_type_at`: the first piece type, from `i` on, whose board of `side`
holds `square`; `-1` when the loop runs out. -/
def piece_scan (b : Board) (side : Nat) (square : Nat) : Nat → Nat → Int
  | 0, _ => -1
  | fuel + 1, i =>
    if Bitboard.occupied (b.pieces_ side i) square ≠ 0 then (i : Int)
    else piece_scan b side square fuel (i + 1)

/-- Member `piece_type_at(side, square)`; `-1` means no piece. -/
def piece_type_at (b : Board) (side : Nat) (square : Nat) : Int :=
  if ¬ b.square_occupied square = true then -1
  else piece_scan b side square 6 0

/-- Member `piece_type_at(square)`: White first, then Black. -/
def piece_type_at_any (b : Board) (square : Nat) : Int :=
  let piece := b.piece_type_at kSideWhite square
  if piece = -1 then b.piece_type_at kSideBlack square else piece

/-- The union of the six piece boards of one side, as accumulated by `update_occupied`. -/
def side_union (b : Board) (side : Nat) : Nat :=
  (List.range 6).foldl (fun acc piece => Bitboard.set_board acc (b.piece_board side piece)) 0

/-- Member `update_occupied()`. -/
def update_occupied (b : Board) : Board :=
  { b with occupied_ := fun side => if side < 2 then b.side_union side else b.occupied_ side }

/-- The constructor `Board(pawns, knights, bishops, rooks, queens, kings, castling, side,
ep_square, half_move, full_move)`; the vectors are read at indices 0 and 1 (castling: 0..3). -/
def new (pawns knights bishops rooks queens kings : List Nat) (castling : List Bool)
    (side : Nat) (ep_square : Nat) (half_move full_move : Int) : Board :=
  update_occupied
    { pieces_ := fun s p =>
        if s < 2 then
          if p = kPiecePawn then pawns.getD s 0
          else if p = kPieceKnight then knights.getD s 0
          else if p = kPieceBishop then bishops.getD s 0
          else if p = kPieceRook then rooks.getD s 0
          else if p = kPieceQueen then queens.getD s 0
          else if p = kPieceKing then kings.getD s 0
          else 0
        else 0
      occupied_ := fun _ => 0
      castling_ := fun c => castling.getD c false
      side_ := side
      half_move_ := half_move
      full_move_ := full_move
      ep_square_ := ep_square }

/-- Operator `==`: the twelve piece boards, the four castling rights, the side to move, the
en-passant square and both clocks. -/
def beq (a b : Board) : Bool :=
  (List.range 2).all (fun side =>
    decide (a.pawns side = b.pawns side) && decide (a.knights side = b.knights side) &&
    decide (a.bishops side = b.bishops side) && decide (a.rooks side = b.rooks side) &&
    decide (a.queens side = b.queens side) && decide (a.kings side = b.kings side) &&
    (List.range 4).all (fun castle_side => a.castling castle_side == b.castling castle_side)) &&
  decide (a.turn = b.turn) && decide (a.ep_square = b.ep_square) &&
  decide (a.half_move = b.half_move) && decide (a.full_move = b.full_move)

/-- Member `attacks_to_square(side, square)`: non-zero iff `side` attacks `square`. -/
def attacks_to_square (b : Board) (side : Nat) (square : Nat) : Nat :=
  let pawn_attacks := attack_union (pawn_attack_board side) (b.piece_board side kPiecePawn)
  let knight_attacks := attack_union knight_attack_board (b.piece_board side kPieceKnight)
  let bishop_attacks :=
    attack_union (bishop_attack_board b.occupied) (b.piece_board side kPieceBishop)
  let rook_attacks := attack_union (rook_attack_board b.occupied) (b.piece_board side kPieceRook)
  let queen_attacks :=
    attack_union (queen_attack_board b.occupied) (b.piece_board side kPieceQueen)
  let king_attacks := attack_union king_attack_board (b.piece_board side kPieceKing)
  Bitboard.occupied pawn_attacks square ||| Bitboard.occupied knight_attacks square |||
    Bitboard.occupied bishop_attacks square ||| Bitboard.occupied rook_attacks square |||
    Bitboard.occupied queen_attacks square ||| Bitboard.occupied king_attacks square

/-- Member `check(side)`: the first king square of `side`, if any, is attacked by the other
side. -/
def check (b : Board) (side : Nat) : Bool :=
  match BitboardIterator.squares (b.kings side) with
  | [] => false
  | square :: _ => decide (b.attacks_to_square (not_side side) square ≠ 0)

end Board

/-- Class `Move`: 6-bit `from_` and `to_`, the capture and en-passant flags, a 2-bit
promotion selector (0 queen, 1 rook, 2 bishop, 3 knight). -/
structure Move where
  from_ : Fin 64
  to_ : Fin 64
  capture_ : Bool
  ep_ : Bool
  promotion_ : Fin 4
deriving DecidableEq

/-- Promotion selectors. -/
abbrev kPromoteQueen : Fin 4 := 0
/-- Promotion selectors. -/
abbrev kPromoteRook : Fin 4 := 1
/-- Promotion selectors. -/
abbrev kPromoteBishop : Fin 4 := 2
/-- Promotion selectors. -/
abbrev kPromoteKnight : Fin 4 := 3

namespace Move

/-- The constructor `Move(from, to, capture, ep, promotion)`; the square indices are stored in
6-bit fields. -/
def new (from_sq to_sq : Nat) (capture ep : Bool) (promotion : Fin 4) : Move :=
  { from_ := ⟨from_sq % 64, Nat.mod_lt _ (by decide)⟩
    to_ := ⟨to_sq % 64, Nat.mod_lt _ (by decide)⟩
    capture_ := capture
    ep_ := ep
    promotion_ := promotion }

/-- Member `promotion_piece_type()`. -/
def promotion_piece_type (m : Move) : Nat :=
  [kPieceQueen, kPieceRook, kPieceBishop, kPieceKnight].getD m.promotion_.val kPieceQueen

/-- Member `castling(board)`: the move starts on a king of the side to move, stays on its rank
and changes file by more than one. -/
def castling (m : Move) (board : Board) : Bool :=
  let kings := board.kings board.turn
  if Bitboard.occupied kings m.from_.val = 0 then false
  else if Square.rank m.from_.val ≠ Square.rank m.to_.val then false
  else
    let distance := ((Square.file m.from_.val : Int) - (Square.file m.to_.val : Int)).natAbs
    decide (distance > 1)

/-- Member `null()`. -/
def null (m : Move) : Bool := decide (m.from_.val = 0) && decide (m.to_.val = 0)

end Move

/-! ## game.h, game.cc -/

/-- Class `Game`: the current board and the vector of earlier boards (oldest first). -/
structure Game where
  board_ : Board
  old_boards_ : List Board

namespace Game

/-- The castling branch of `make_move`: relocate king and rook. -/
def castle_pieces (board : Board) (side : Nat) (from_sq to_sq : Nat) : Board :=
  let king_board := board.piece_board side kPieceKing
  let rook_board := board.piece_board side kPieceRook
  let king_board := Bitboard.unset king_board from_sq
  let king_board := Bitboard.set king_board to_sq
  let rook_rank := Square.rank to_sq
  let old_rook_file : Int := if Square.file to_sq = 2 then 0 else 7
  let new_rook_file : Int := if Square.file to_sq = 2 then 3 else 5
  let old_rook_square := Square.mk old_rook_file rook_rank
  let new_rook_square := Square.mk new_rook_file rook_rank
  let rook_board := Bitboard.unset rook_board old_rook_square
  let rook_board := Bitboard.set rook_board new_rook_square
  let board := board.set_piece_board side kPieceKing king_board
  board.set_piece_board side kPieceRook rook_board

/-- The non-castling branch of `make_move`: relocate the moving piece, promoting a pawn that
reaches the promotion rank.  `none` when no piece of `side` is found on the from-square (the
source then indexes `pieces_[side][-1]`). -/
def move_piece (board : Board) (side : Nat) (from_piece_type : Int) (move : Move) :
    Option Board :=
  if from_piece_type < 0 then none
  else
    let piece := from_piece_type.toNat
    let move_piece_board := board.piece_board side piece
    let move_piece_board := Bitboard.unset move_piece_board move.from_.val
    let promote_rank : Nat := if side = kSideWhite then 7 else 0
    if from_piece_type = kPiecePawn ∧ Square.rank move.to_.val = promote_rank then
      let promote_type := move.promotion_piece_type
      let promote_board := board.piece_board side promote_type
      let promote_board := Bitboard.set promote_board move.to_.val
      let board := board.set_piece_board side promote_type promote_board
      some (board.set_piece_board side piece move_piece_board)
    else
      let move_piece_board := Bitboard.set move_piece_board move.to_.val
      some (board.set_piece_board side piece move_piece_board)

/-- The square `capture_square` of `make_move`: the destination, or for an en-passant capture
the square one rank behind it. -/
def capture_square (side : Nat) (move : Move) : Nat :=
  if move.ep_ = true then
    let ep_capture_direction : Int := if side = kSideWhite then -1 else 1
    Square.offset move.to_.val 0 ep_capture_direction
  else move.to_.val

/-- The `if (move.capture())` block of `make_move`: remove the captured piece and clear the
castling right of a captured corner rook.  `none` when no piece of the other side is found on
the capture square. -/
def capture_piece (board : Board) (side : Nat) (move : Move) : Option Board :=
  if move.capture_ = true then
    let to_sq : Nat := move.to_.val
    let capture_square := capture_square side move
    let capture_side := not_side side
    let capture_piece_type := board.piece_type_at capture_side capture_square
    if capture_piece_type < 0 then none
    else
      let piece := capture_piece_type.toNat
      let capture_piece_board := board.piece_board capture_side piece
      let capture_piece_board := Bitboard.unset capture_piece_board capture_square
      let board := board.set_piece_board capture_side piece capture_piece_board
      if capture_piece_type = kPieceRook then
        if capture_side = kSideWhite then
          if to_sq = Square.mk 0 0 then some (board.set_castling kCastleWhiteQueenSide false)
          else if to_sq = Square.mk 7 0 then some (board.set_castling kCastleWhiteKingSide false)
          else some board
        else
          if to_sq = Square.mk 0 7 then some (board.set_castling kCastleBlackQueenSide false)
          else if to_sq = Square.mk 7 7 then some (board.set_castling kCastleBlackKingSide false)
          else some board
      else some board
  else some board

/-- The castling-rights update of `make_move` for a moving king or rook. -/
def moved_rights (board : Board) (side : Nat) (from_piece_type : Int) (from_sq : Nat) :
    Board :=
  if from_piece_type = kPieceKing then
    if side = kSideWhite then
      (board.set_castling kCastleWhiteKingSide false).set_castling kCastleWhiteQueenSide false
    else
      (board.set_castling kCastleBlackKingSide false).set_castling kCastleBlackQueenSide false
  else if from_piece_type = kPieceRook then
    if side = kSideWhite then
      if from_sq = Square.mk 0 0 then board.set_castling kCastleWhiteQueenSide false
      else if from_sq = Square.mk 7 0 then board.set_castling kCastleWhiteKingSide false
      else board
    else
      if from_sq = Square.mk 0 7 then board.set_castling kCastleBlackQueenSide false
      else if from_sq = Square.mk 7 7 then board.set_castling kCastleBlackKingSide false
      else board
  else board

/-- Member `make_move(move)`.  `none` where the source leaves the behaviour undefined: a null
move (the assertion), no piece of the mover on the from-square of a non-castling move, no enemy
piece on the capture square of a capture. -/
def make_move (game : Game) (move : Move) : Option Game :=
  if move.null = true then none
  else
    let old_board := game.board_
    let old_boards := game.old_boards_ ++ [old_board]
    let side := old_board.turn
    let from_sq : Nat := move.from_.val
    let to_sq : Nat := move.to_.val
    let from_piece_type := old_board.piece_type_at side from_sq
    let ep_direction : Int := if side = kSideWhite then -1 else 1
    let ep_offset := Square.offset to_sq 0 (ep_direction * 2)
    let ep_square : Nat :=
      if from_piece_type = kPiecePawn ∧ ep_offset = from_sq then Square.offset to_sq 0 ep_direction
      else null_square
    let moved : Option Board :=
      if move.castling old_board = true then some (castle_pieces old_board side from_sq to_sq)
      else move_piece old_board side from_piece_type move
    match moved with
    | none => none
    | some board1 =>
      match capture_piece board1 side move with
      | none => none
      | some board2 =>
        let half_move : Int :=
          if move.capture_ = true ∨ from_piece_type = kPiecePawn then 0
          else old_board.half_move + 1
        let board3 := moved_rights board2 side from_piece_type from_sq
        let board4 := board3.set_ep_square ep_square
        let board5 := board4.set_half_move half_move
        let board6 := board5.set_turn (not_side side)
        let board7 := board6.set_full_move (board6.full_move + side)
        some { board_ := board7.update_occupied, old_boards_ := old_boards }

/-- Member `make_null_move()`. -/
def make_null_move (game : Game) : Game :=
  let old_board := game.board_
  let old_boards := game.old_boards_ ++ [old_board]
  let side := old_board.turn
  let board := old_board.set_turn (not_side side)
  { board_ := board.set_half_move 0, old_boards_ := old_boards }

/-- Member `unmake_move()`.  `none` on an empty history (`back()` of an empty vector). -/
def unmake_move (game : Game) : Option Game :=
  match game.old_boards_.getLast? with
  | none => none
  | some board => some { board_ := board, old_boards_ := game.old_boards_.dropLast }

/-- Member `is_stalemate()`. -/
def is_stalemate (game : Game) : Bool := decide (Bitboard.count game.board_.occupied = 2)

/-- Member `is_fifty_move()`. -/
def is_fifty_move (game : Game) : Bool := decide (game.board_.half_move ≥ 50)

/-- Member `is_repetition()`. -/
def is_repetition (game : Game) : Bool :=
  decide ((game.old_boards_.filter (fun board => Board.beq board game.board_)).length ≥ 2)

/-- Member `drawn()`. -/
def drawn (game : Game) : Bool := game.is_stalemate || game.is_fifty_move || game.is_repetition

end Game

/-! ## move_generator.h, move_generator.cc -/

/-- Class `MoveList`: the moves added so far, in insertion order.  The source keeps them in a
fixed array of 256 entries with a counter and does not check the bound; the list here is the
sequence of `add_move` calls. -/
abbrev MoveList := List Move

namespace MoveList

/-- Member `add_move(move)`. -/
def add_move (moves : MoveList) (move : Move) : MoveList := moves ++ [move]

/-- Member `moves()`: the whole array, whose unused entries are the default `Move()`. -/
def moves (l : MoveList) : List Move :=
  l ++ List.replicate (256 - l.length) (Move.new 0 0 false false kPromoteQueen)

/-- Member `size()`. -/
def size (l : MoveList) : Nat := l.length

end MoveList

namespace MoveGenerator

/-- The array `promotion_types` of `generate_pawn_moves`. -/
def promotion_types : List (Fin 4) := [kPromoteKnight, kPromoteBishop, kPromoteRook, kPromoteQueen]

/-- The push loop and the capture loop of `generate_pawn_moves` share this body: every target
on the promotion rank yields one move per promotion type, any other target one move. -/
def pawn_targets (from_sq : Nat) (targets : Nat) (promotion_rank : Nat) (capture : Bool) :
    List Move :=
  (BitboardIterator.squares targets).flatMap (fun to_sq =>
    if Square.rank to_sq = promotion_rank then
      promotion_types.map (fun promote => Move.new from_sq to_sq capture false promote)
    else [Move.new from_sq to_sq capture false kPromoteQueen])

/-- The en-passant board computed for one pawn in `generate_pawn_moves`. -/
def ep_board (board : Board) (side : Nat) (from_sq : Nat) : Nat :=
  let ep_square := board.ep_square
  if ep_square ≠ null_square then
    let side_offset : Int := if side = 0 then -1 else 1
    if Square.offset ep_square (-1) side_offset = from_sq ∨
        Square.offset ep_square 1 side_offset = from_sq then
      Bitboard.set 0 ep_square
    else 0
  else 0

/-- The moves `generate_pawn_moves` adds for the pawn on `from_sq`. -/
def pawn_moves_from (board : Board) (from_sq : Nat) : List Move :=
  let side := board.turn
  let occupied := board.occupied
  let enemy_occupied := board.occupied_side (not_side side)
  let move_board := pawn_move_board side from_sq &&& Bitboard.compl occupied
  let move_board :=
    if move_board ≠ 0 then
      move_board ||| (pawn_double_move_board side from_sq &&& Bitboard.compl occupied)
    else move_board
  let capture_board := pawn_attack_board side from_sq &&& enemy_occupied
  let ep := ep_board board side from_sq
  let promotion_rank : Nat := if side = kSideWhite then 7 else 0
  pawn_targets from_sq move_board promotion_rank false ++
    pawn_targets from_sq capture_board promotion_rank true ++
    (BitboardIterator.squares ep).map
      (fun to_sq => Move.new from_sq to_sq true true kPromoteQueen)

/-- Member `generate_pawn_moves(board, moves)`: the moves it adds. -/
def generate_pawn_moves (board : Board) : List Move :=
  (BitboardIterator.squares (board.pawns board.turn)).flatMap (pawn_moves_from board)

/-- The inner loop shared by the knight, king and ray generators: one move per target square,
flagged as capture when the enemy occupies the target. -/
def moves_to (board : Board) (from_sq : Nat) (targets : Nat) : List Move :=
  let enemy_occupied := board.occupied_side (not_side board.turn)
  (BitboardIterator.squares targets).map (fun to_sq =>
    let capture := decide (Bitboard.occupied enemy_occupied to_sq ≠ 0)
    Move.new from_sq to_sq capture false kPromoteQueen)

/-- Member `generate_knight_moves(board, moves)`: the moves it adds. -/
def generate_knight_moves (board : Board) : List Move :=
  (BitboardIterator.squares (board.knights board.turn)).flatMap (fun from_sq =>
    let dest_squares :=
      knight_attack_board from_sq &&& Bitboard.compl (board.occupied_side board.turn)
    moves_to board from_sq dest_squares)

/-- Function `generate_ray_moves(board, from, attack_table, moves)`: the moves it adds. -/
def generate_ray_moves (board : Board) (from_sq : Nat) (attack_table : Nat) :
    List Move :=
  let attacked := attack_table &&& Bitboard.compl (board.occupied_side board.turn)
  moves_to board from_sq attacked

/-- Member `generate_bishop_moves(board, moves)`: the moves it adds. -/
def generate_bishop_moves (board : Board) : List Move :=
  (BitboardIterator.squares (board.bishops board.turn)).flatMap (fun from_sq =>
    generate_ray_moves board from_sq (bishop_attack_board board.occupied from_sq))

/-- Member `generate_rook_moves(board, moves)`: the moves it adds. -/
def generate_rook_moves (board : Board) : List Move :=
  (BitboardIterator.squares (board.rooks board.turn)).flatMap (fun from_sq =>
    generate_ray_moves board from_sq (rook_attack_board board.occupied from_sq))

/-- Member `generate_queen_moves(board, moves)`: the moves it adds. -/
def generate_queen_moves (board : Board) : List Move :=
  (BitboardIterator.squares (board.queens board.turn)).flatMap (fun from_sq =>
    generate_ray_moves board from_sq (queen_attack_board board.occupied from_sq))

/-- Member `generate_king_moves(board, moves)`: the moves it adds. -/
def generate_king_moves (board : Board) : List Move :=
  (BitboardIterator.squares (board.kings board.turn)).flatMap (fun from_sq =>
    let attacked := king_attack_board from_sq &&& Bitboard.compl (board.occupied_side board.turn)
    moves_to board from_sq attacked)

/-- Member `generate_pseudolegal_moves(board)`. -/
def generate_pseudolegal_moves (board : Board) : MoveList :=
  generate_pawn_moves board ++ generate_knight_moves board ++ generate_bishop_moves board ++
    generate_rook_moves board ++ generate_queen_moves board ++ generate_king_moves board

/-- The scan of `generate_castling_moves` over the opponent's move array: destinations are
collected until the first null move. -/
def attacked_squares (opponent_moves : MoveList) : Nat :=
  ((MoveList.moves opponent_moves).takeWhile (fun move => !move.null)).foldl
    (fun attacked move => Bitboard.set attacked move.to_.val) 0

/-- The loop over the squares of one wing in `generate_castling_moves`: the wing stays safe
when no listed square is occupied or attacked. -/
def wing_clear (board : Board) (attacked : Nat) (squares : List Nat) : Bool :=
  squares.all (fun square =>
    !(board.square_occupied square || decide (Bitboard.occupied attacked square ≠ 0)))

/-- The per-wing test of `generate_castling_moves`: the right is held, the listed squares are
neither occupied nor attacked, and the corner square is occupied. -/
def wing_safe (board : Board) (attacked : Nat) (right : Nat) (squares : List Nat)
    (corner : Nat) : Bool :=
  let safe := board.castling right
  if safe = true then
    let safe := wing_clear board attacked squares
    if ¬ board.square_occupied corner = true then false else safe
  else safe

/-- Member `generate_castling_moves(game, moves)`: the game after the call and the moves it
adds.  `none` only if `unmake_move` is undefined, which the preceding `make_null_move` rules
out. -/
def generate_castling_moves (game : Game) : Option (Game × List Move) :=
  let side := game.board_.turn
  let castle_squares : List Nat :=
    [Square.mk 6 0, Square.mk 2 0, Square.mk 6 7, Square.mk 2 7]
  let king_squares : List Nat := [Square.mk 4 0, Square.mk 4 7]
  let game1 := game.make_null_move
  let opponent_moves := generate_pseudolegal_moves game1.board_
  match game1.unmake_move with
  | none => none
  | some game2 =>
    let board := game2.board_
    let attacked := attacked_squares opponent_moves
    let king_square := king_squares.getD side 0
    if side = kSideWhite then
      let kingside_castle_safe :=
        wing_safe board attacked kCastleWhiteKingSide [Square.mk 5 0, Square.mk 6 0]
          (Square.mk 7 0)
      let queenside_castle_safe :=
        wing_safe board attacked kCastleWhiteQueenSide
          [Square.mk 1 0, Square.mk 2 0, Square.mk 3 0] (Square.mk 0 0)
      some (game2,
        (if kingside_castle_safe = true then
          [Move.new king_square (castle_squares.getD kCastleWhiteKingSide 0) false false
            kPromoteQueen]
         else []) ++
        (if queenside_castle_safe = true then
          [Move.new king_square (castle_squares.getD kCastleWhiteQueenSide 0) false false
            kPromoteQueen]
         else []))
    else
      let kingside_castle_safe :=
        wing_safe board attacked kCastleBlackKingSide [Square.mk 5 7, Square.mk 6 7]
          (Square.mk 7 7)
      let queenside_castle_safe :=
        wing_safe board attacked kCastleBlackQueenSide
          [Square.mk 1 7, Square.mk 2 7, Square.mk 3 7] (Square.mk 0 7)
      some (game2,
        (if kingside_castle_safe = true then
          [Move.new king_square (castle_squares.getD kCastleBlackKingSide 0) false false
            kPromoteQueen]
         else []) ++
        (if queenside_castle_safe = true then
          [Move.new king_square (castle_squares.getD kCastleBlackQueenSide 0) false false
            kPromoteQueen]
         else []))

/-- One round of the filter loop of `generate_legal_moves`: apply the move, test the mover's
king, undo, and keep the move unless the king is attacked. -/
def legal_step (side : Nat) (state : Game × MoveList) (move : Move) : Option (Game × MoveList) :=
  match state.1.make_move move with
  | none => none
  | some game1 =>
    let check := game1.board_.check side
    match game1.unmake_move with
    | none => none
    | some game2 =>
      if check = true then some (game2, state.2)
      else some (game2, MoveList.add_move state.2 move)

/-- The filter loop of `generate_legal_moves` over the pseudo-legal moves. -/
def legal_loop (side : Nat) : List Move → Game × MoveList → Option (Game × MoveList)
  | [], state => some state
  | move :: rest, state =>
    match legal_step side state move with
    | none => none
    | some state1 => legal_loop side rest state1

/-- Member `generate_legal_moves(game)`: the game after the call and the returned list.  `none`
when some `make_move` of the filter loop is undefined. -/
def generate_legal_moves (game : Game) : Option (Game × MoveList) :=
  let board := game.board_
  let in_check := board.check board.turn
  let side := board.turn
  let pseudolegal_moves := generate_pseudolegal_moves board
  match legal_loop side pseudolegal_moves (game, []) with
  | none => none
  | some (game1, legal_moves) =>
    if ¬ in_check = true then
      match generate_castling_moves game1 with
      | none => none
      | some (game2, castling_moves) => some (game2, legal_moves ++ castling_moves)
    else some (game1, legal_moves)

end MoveGenerator

/-! ## board.cc: the FEN codec

A `std::string` is the list of its `char`s.  `from_fen` has three outcomes: a parsed board, the
sentinel `null_board` (the regular expression does not match), or no defined result (`none`):
an exception of `at` / `stoi`, a null token handed to `std::string`, a shift by 64 or more, a
non-ASCII `char` handed to `isdigit`, a placement field that fills the 1024-byte token buffer. -/

/-- The global `null_board`. -/
def null_board : Board :=
  Board.new [0, 0] [0, 0] [0, 0] [0, 0] [0, 0] [0, 0] [true, true, true, true] 0 (u8 (-1)) 0 0

namespace fen_codec

/-- The items of the pattern `(.+) (.) (.+) (.+) (.+) (.+)`. -/
inductive Item where
  | dot_plus : Item
  | dot : Item
  | space : Item
deriving DecidableEq

/-- The pattern `fen_exp`. -/
def fen_exp : List Item :=
  [Item.dot_plus, Item.space, Item.dot, Item.space, Item.dot_plus, Item.space, Item.dot_plus,
    Item.space, Item.dot_plus, Item.space, Item.dot_plus]

/-- What `.` matches: any `char` except the line terminators. -/
def is_dot (c : Char) : Bool := !(c = '\n' || c = '\r')

/-- The greedy `.+` followed by the rest of the pattern `rest`: try the longest run first, then
give characters back one at a time. -/
def match_plus (rest : List Char → Option (List (List Char))) (s : List Char) :
    Nat → Option (List (List Char))
  | 0 => none
  | k + 1 =>
    match rest (s.drop (k + 1)) with
    | some gs => some (s.take (k + 1) :: gs)
    | none => match_plus rest s k

/-- Backtracking match of a pattern at the head of `s`, returning the captured groups. -/
def match_here : List Item → List Char → Option (List (List Char))
  | [], _ => some []
  | Item.space :: p, s =>
    match s with
    | [] => none
    | c :: r => if c = ' ' then match_here p r else none
  | Item.dot :: p, s =>
    match s with
    | [] => none
    | c :: r => if is_dot c = true then (match_here p r).map (fun gs => [c] :: gs) else none
  | Item.dot_plus :: p, s => match_plus (match_here p) s ((s.takeWhile is_dot).length)

/-- Function `std::regex_search` with a pattern: the match at the leftmost position of the text
that admits one. -/
def regex_search (p : List Item) : List Char → Option (List (List Char))
  | [] => match_here p []
  | c :: r =>
    match match_here p (c :: r) with
    | some gs => some gs
    | none => regex_search p r

/-- Function `std::isdigit` on an ASCII `char`. -/
def isdigit (c : Char) : Bool := decide ('0'.toNat ≤ c.toNat ∧ c.toNat ≤ '9'.toNat)
/-- Function `std::isupper` on an ASCII `char`. -/
def isupper (c : Char) : Bool := decide ('A'.toNat ≤ c.toNat ∧ c.toNat ≤ 'Z'.toNat)
/-- Function `std::tolower` on an ASCII `char`. -/
def tolower (c : Char) : Char := if isupper c = true then Char.ofNat (c.toNat + 32) else c
/-- Function `std::toupper` on an ASCII `char`. -/
def toupper (c : Char) : Char :=
  if decide ('a'.toNat ≤ c.toNat ∧ c.toNat ≤ 'z'.toNat) = true then Char.ofNat (c.toNat - 32) else c
/-- Function `std::isspace` on a `char`. -/
def isspace (c : Char) : Bool :=
  c = ' ' || c = '\t' || c = '\n' || c = Char.ofNat 11 || c = Char.ofNat 12 || c = '\r'

/-- Function `char_to_int`. -/
def char_to_int (ch : Char) : Int := (ch.toNat : Int) - 48

/-- The repeated `std::strtok(..., "/")` calls: the non-empty runs between `/` characters.
`cur` is the run being read (reversed). -/
def strtok_all : List Char → List Char → List (List Char)
  | [], cur => if cur = [] then [] else [cur.reverse]
  | c :: r, cur =>
    if c = '/' then
      if cur = [] then strtok_all r [] else cur.reverse :: strtok_all r []
    else strtok_all r (c :: cur)

/-- The piece boards under construction (`pawns`, `knights`, ... of `from_fen`), indexed by
side and piece type. -/
abbrev Pieces := Nat → Nat → Nat

/-- The index of the piece letter, if it is one of `p n b r q k`. -/
def piece_of_letter (c : Char) : Option Nat :=
  if c = 'p' then some kPiecePawn
  else if c = 'n' then some kPieceKnight
  else if c = 'b' then some kPieceBishop
  else if c = 'r' then some kPieceRook
  else if c = 'q' then some kPieceQueen
  else if c = 'k' then some kPieceKing
  else none

/-- The loop over the characters of one rank string in `from_fen`. -/
def parse_rank (rank_offset : Int) : List Char → Int → Pieces → Option Pieces
  | [], _, pieces => some pieces
  | ch :: rest, rank_filled, pieces =>
    if ch.toNat ≥ 128 then none
    else if isdigit ch = true then
      parse_rank rank_offset rest (rank_filled + char_to_int ch) pieces
    else
      let piece_side : Nat := if isupper ch = true then 0 else 1
      let piece_type := tolower ch
      let square : Nat := u8 (rank_offset + rank_filled)
      if square ≥ 64 then none
      else
        match piece_of_letter piece_type with
        | some piece =>
          let board := Bitboard.set (pieces piece_side piece) square
          parse_rank rank_offset rest (rank_filled + 1)
            (fun s p => if s = piece_side ∧ p = piece then board else pieces s p)
        | none => parse_rank rank_offset rest (rank_filled + 1) pieces

/-- The loop `for (i = 0; i < 8; i++)` over the rank strings, highest rank first. -/
def parse_ranks : List (List Char) → Nat → Pieces → Option Pieces
  | [], _, pieces => some pieces
  | rank_str :: rest, i, pieces =>
    match parse_rank (8 * (7 - (i : Int))) rank_str 0 pieces with
    | none => none
    | some pieces1 => parse_ranks rest (i + 1) pieces1

/-- Member `std::string::find` of a single character, compared with `npos`. -/
def contains (s : List Char) (c : Char) : Bool := s.any (fun x => x = c)

/-- Function `square_name_to_offset`; `none` when `at(1)` is out of range. -/
def square_name_to_offset (square_name : List Char) : Option Int :=
  match square_name with
  | c0 :: c1 :: _ =>
    let file_offset : Int := (c0.toNat : Int) - ('a'.toNat : Int)
    let rank_offset : Int := ((c1.toNat : Int) - ('1'.toNat : Int)) * 8
    some (file_offset + rank_offset)
  | _ => none

/-- Function `square_index_to_name`. -/
def square_index_to_name (square : Nat) : List Char :=
  [Char.ofNat (Square.file square + 'a'.toNat), Char.ofNat (Square.rank square + '1'.toNat)]

/-- Function `std::stoi`: leading white space, an optional sign, then decimal digits; `none`
when there is no digit or the value does not fit an `int`. -/
def stoi (s : List Char) : Option Int :=
  let s1 := s.dropWhile isspace
  let negative := decide (s1.head? = some '-')
  let s2 := if s1.head? = some '-' ∨ s1.head? = some '+' then s1.tail else s1
  let digits := s2.takeWhile isdigit
  if digits = [] then none
  else
    let magnitude : Nat := digits.foldl (fun acc c => acc * 10 + (c.toNat - 48)) 0
    let value : Int := if negative = true then -(magnitude : Int) else (magnitude : Int)
    if value < -2147483648 ∨ value > 2147483647 then none else some value

/-- Decimal digits of a natural number, least significant first. -/
def digits_rev : Nat → Nat → List Char
  | 0, _ => []
  | fuel + 1, n =>
    if n < 10 then [Char.ofNat (n + 48)]
    else Char.ofNat (n % 10 + 48) :: digits_rev fuel (n / 10)

/-- The text `operator<<` writes for an `int`. -/
def int_text (n : Int) : List Char :=
  if n < 0 then '-' :: (digits_rev (n.natAbs + 1) n.natAbs).reverse
  else (digits_rev (n.natAbs + 1) n.natAbs).reverse

/-- The array `piece_symbols`. -/
def piece_symbols : List Char := ['p', 'n', 'b', 'r', 'q', 'k']

/-- The loop over the files of one rank in `fen()`: `empty` counts the pending empty squares. -/
def rank_text (b : Board) (rank : Nat) : Nat → Nat → Nat → List Char
  | 0, _, empty => if empty ≠ 0 then int_text empty else []
  | fuel + 1, file, empty =>
    let square := Square.mk file rank
    let white_piece := b.piece_type_at kSideWhite square
    let black_piece := b.piece_type_at kSideBlack square
    if white_piece = -1 ∧ black_piece = -1 then rank_text b rank fuel (file + 1) (empty + 1)
    else
      let flushed := if empty ≠ 0 then int_text empty else []
      let symbol :=
        if white_piece ≥ 0 then toupper (piece_symbols.getD white_piece.toNat 'p')
        else piece_symbols.getD black_piece.toNat 'p'
      flushed ++ symbol :: rank_text b rank fuel (file + 1) 0

/-- The placement field written by `fen()`: ranks 7 down to 0, separated by `/`. -/
def placement_text (b : Board) : List Char :=
  [7, 6, 5, 4, 3, 2, 1, 0].flatMap (fun rank =>
    (if rank < 7 then ['/'] else []) ++ rank_text b rank 8 0 0)

/-- The castling field written by `fen()`. -/
def castling_text (b : Board) : List Char :=
  let symbols :=
    (if b.castling 0 = true then ['K'] else []) ++ (if b.castling 1 = true then ['Q'] else []) ++
    (if b.castling 2 = true then ['k'] else []) ++ (if b.castling 3 = true then ['q'] else [])
  if symbols = [] then ['-'] else symbols

/-- The en-passant field written by `fen()`. -/
def ep_text (b : Board) : List Char :=
  if b.ep_square = null_square then ['-'] else square_index_to_name b.ep_square

end fen_codec

namespace Board

/-- The parse of the six matched fields in `from_fen`.  The first test is the source's
`fen_match.length() < 7`, the length in characters of the whole match. -/
def from_fields (groups : List (List Char)) : Option Board :=
  match groups with
  | [fen_pieces, fen_side, fen_castling, fen_ep, fen_halfmove, fen_fullmove] =>
    if fen_pieces.length + fen_side.length + fen_castling.length + fen_ep.length +
        fen_halfmove.length + fen_fullmove.length + 5 < 7 then some null_board
    else if fen_pieces.length ≥ 1024 then none
    else
      let tokens := fen_codec.strtok_all (fen_pieces.takeWhile (fun c => c ≠ Char.ofNat 0)) []
      if tokens.length < 8 then none
      else
        match fen_codec.parse_ranks (tokens.take 8) 0 (fun _ _ => 0) with
        | none => none
        | some pieces =>
          let side : Nat := if fen_side = ['w'] then kSideWhite else kSideBlack
          let has := fun (c : Char) =>
            decide (fen_castling ≠ ['-']) && fen_codec.contains fen_castling c
          let castling : List Bool := [has 'K', has 'Q', has 'k', has 'q']
          let ep : Option Int :=
            if fen_ep ≠ ['-'] then fen_codec.square_name_to_offset fen_ep else some (-1)
          match ep, fen_codec.stoi fen_halfmove, fen_codec.stoi fen_fullmove with
          | some ep_square, some halfmove, some fullmove =>
            some (Board.new
              [pieces 0 kPiecePawn, pieces 1 kPiecePawn]
              [pieces 0 kPieceKnight, pieces 1 kPieceKnight]
              [pieces 0 kPieceBishop, pieces 1 kPieceBishop]
              [pieces 0 kPieceRook, pieces 1 kPieceRook]
              [pieces 0 kPieceQueen, pieces 1 kPieceQueen]
              [pieces 0 kPieceKing, pieces 1 kPieceKing]
              castling side (u8 ep_square) halfmove fullmove)
          | _, _, _ => none
  | _ => none

/-- The fields `std::regex_search` extracts from the input; `none` is the failure path that
returns `null_board`. -/
def fen_match (fen : List Char) : Option (List (List Char)) :=
  fen_codec.regex_search fen_codec.fen_exp fen

/-- Static member `from_fen(fen)`. -/
def from_fen (fen : String) : Option Board :=
  match fen_match fen.toList with
  | none => some null_board
  | some groups => from_fields groups

/-- Member `fen()`; `none` when the side to move indexes outside `turn_symbols`. -/
def fen (b : Board) : Option String :=
  if b.turn ≥ 2 then none
  else
    some (String.mk
      (fen_codec.placement_text b ++ [' ', (['w', 'b'].getD b.turn 'w'), ' '] ++
        fen_codec.castling_text b ++ [' '] ++ fen_codec.ep_text b ++ [' '] ++
        fen_codec.int_text b.half_move ++ [' '] ++ fen_codec.int_text b.full_move))

end Board

namespace Game

/-- The constant `default_fen`. -/
def default_fen : String := "rnbqkbnr/pppppppp/8/8/8/8/PPPPPPPP/RNBQKBNR w KQkq - 0 1"

/-- Constructor `Game(const Board &board)`. -/
def of_board (board : Board) : Game := { board_ := board, old_boards_ := [] }

/-- Constructor `Game(const std::string &fen)`. -/
def of_fen (fen : String) : Option Game := (Board.from_fen fen).map of_board

end Game

/-! ## Notions used to state the move-generation properties -/

/-- Kings move one step: the target differs from the source by at most one file and one
rank. -/
def king_step (s t : Nat) : Prop :=
  s ≠ t ∧ Square.file s ≤ Square.file t + 1 ∧ Square.file t ≤ Square.file s + 1 ∧
    Square.rank s ≤ Square.rank t + 1 ∧ Square.rank t ≤ Square.rank s + 1

instance (s t : Nat) : Decidable (king_step s t) := by unfold king_step; infer_instance

/-- The mover's king is attacked on the board reached by `make_move(move)`: the test
`board.check(side)` of the filter loop. -/
def check_after (side : Nat) (game : Game) (move : Move) : Bool :=
  match game.make_move move with
  | some game1 => game1.board_.check side
  | none => false

/-- Occupancy invariant: for both sides `occupied_[side]` is the union of the six piece boards
of that side. -/
def occupancy_invariant (b : Board) : Prop :=
  ∀ side, side < 2 → b.occupied_ side = b.side_union side

instance (b : Board) : Decidable (occupancy_invariant b) := by
  unfold occupancy_invariant; infer_instance

/-- No square of the king board of `side` is set in another piece board of `side`. -/
def king_disjoint (b : Board) (side : Nat) : Prop :=
  ∀ piece, piece < 5 → ∀ square, square < 64 →
    ¬ ((b.pieces_ side piece).testBit square = true ∧
       (b.pieces_ side kPieceKing).testBit square = true)

instance (b : Board) (side : Nat) : Decidable (king_disjoint b side) := by
  unfold king_disjoint; infer_instance

/-- The moves `generate_castling_moves` adds on `game` (none where it is undefined). -/
def castling_moves_of (game : Game) : List Move :=
  match MoveGenerator.generate_castling_moves game with
  | some result => result.2
  | none => []

/-- The back rank of a side: rank 0 for White (side 0), rank 7 otherwise. -/
def back_rank (side : Nat) : Int := if side = kSideWhite then 0 else 7

/-- The king's home square of a side: the e-file square of its back rank. -/
def king_home (side : Nat) : Nat := Square.mk 4 (back_rank side)

/-- The squares strictly between the king's home square and the rook's corner on a wing:
files f, g on the king side, files b, c, d on the queen side. -/
def wing_between (side : Nat) (queenside : Bool) : List Nat :=
  if queenside = true then
    [Square.mk 1 (back_rank side), Square.mk 2 (back_rank side), Square.mk 3 (back_rank side)]
  else [Square.mk 5 (back_rank side), Square.mk 6 (back_rank side)]

/-- The king's destination when castling on a wing: the g-file or the c-file square. -/
def castle_dest (side : Nat) (queenside : Bool) : Nat :=
  if queenside = true then Square.mk 2 (back_rank side) else Square.mk 6 (back_rank side)

/-- The rook's corner on a wing: the h-file or the a-file square. -/
def rook_corner (side : Nat) (queenside : Bool) : Nat :=
  if queenside = true then Square.mk 0 (back_rank side) else Square.mk 7 (back_rank side)

/-- The index of the castling right of a side on a wing. -/
def castle_right (side : Nat) (queenside : Bool) : Nat :=
  if side = kSideWhite then (if queenside = true then kCastleWhiteQueenSide else kCastleWhiteKingSide)
  else (if queenside = true then kCastleBlackQueenSide else kCastleBlackKingSide)

/-- The castling move of a side on a wing: from the king's home square to its destination,
with no capture and no en-passant flag. -/
def castle_move (side : Nat) (queenside : Bool) : Move :=
  Move.new (king_home side) (castle_dest side queenside) false false kPromoteQueen

/-- The list part of the result of `generate_legal_moves`. -/
def legal_moves_list (game : Game) : Option MoveList :=
  (MoveGenerator.generate_legal_moves game).map (fun result => result.2)

/-- The game set up on the board `from_fen` parses from a string (on the sentinel board when
`from_fen` has no result); used for concrete positions. -/
def game_of_fen (fen : String) : Game := Game.of_board ((Board.from_fen fen).getD null_board)

/-- Shape of a generated move: it goes from `f` to a square of `targets`. -/
def FromTo (m : Move) (f : Nat) (targets : Nat) : Prop :=
  m.from_.val = f ∧ m.to_.val < 64 ∧ targets.testBit m.to_.val = true


/-! ## Notions used to state the FEN round trip -/

/-- No square holds two pieces: a square below 64 is set in at most one of the twelve piece
boards. -/
def pieces_disjoint (b : Board) : Prop :=
  ∀ s, s < 2 → ∀ p, p < 6 → ∀ s', s' < 2 → ∀ p', p' < 6 → ∀ sq, sq < 64 →
    (b.pieces_ s p).testBit sq = true → (b.pieces_ s' p').testBit sq = true → s = s' ∧ p = p'

/-- The boards `pout` are the boards `pin` with, for both sides and all six piece types, the
squares of `b` in the range `lo ≤ i < hi` added. -/
def adds_squares (b : Board) (lo hi : Nat) (pin pout : Nat → Nat → Nat) : Prop :=
  ∀ s p i, (pout s p).testBit i =
    ((pin s p).testBit i ||
      (decide (lo ≤ i ∧ i < hi ∧ s < 2 ∧ p < 6) && (b.pieces_ s p).testBit i))

/-- A character that may stand inside a rank of the placement field: not `/`, not the
terminating zero, not a space, and matched by `.`. -/
def plain_char (c : Char) : Prop :=
  c ≠ '/' ∧ c ≠ Char.ofNat 0 ∧ c ≠ ' ' ∧ fen_codec.is_dot c = true

/-- A field of the FEN text: not empty, no space, and every character is matched by `.`. -/
def fen_field (f : List Char) : Prop :=
  f ≠ [] ∧ ∀ c, c ∈ f → c ≠ ' ' ∧ fen_codec.is_dot c = true

/-- The number of `space` items of a pattern. -/
def space_items (p : List fen_codec.Item) : Nat :=
  (p.filter (fun i => decide (i = fen_codec.Item.space))).length

/-- The number of spaces of a string. -/
def spaces (s : List Char) : Nat := (s.filter (fun c => decide (c = ' '))).length

/-- The board `from_fen` constructs from the parsed piece boards and fields. -/
def board_of (pieces : Nat → Nat → Nat) (castling : List Bool) (side : Nat) (ep_square : Nat)
    (half_move full_move : Int) : Board :=
  Board.new
    [pieces 0 kPiecePawn, pieces 1 kPiecePawn]
    [pieces 0 kPieceKnight, pieces 1 kPieceKnight]
    [pieces 0 kPieceBishop, pieces 1 kPieceBishop]
    [pieces 0 kPieceRook, pieces 1 kPieceRook]
    [pieces 0 kPieceQueen, pieces 1 kPieceQueen]
    [pieces 0 kPieceKing, pieces 1 kPieceKing]
    castling side ep_square half_move full_move

/-- A computable test of `pieces_disjoint`: two different piece boards have no common bit. -/
def pieces_disjoint_check (b : Board) : Bool :=
  (List.range 2).all (fun s => (List.range 6).all (fun p =>
    (List.range 2).all (fun s' => (List.range 6).all (fun p' =>
      decide ((s = s' ∧ p = p') ∨ b.pieces_ s p &&& b.pieces_ s' p' = 0)))))

/-! ## Notions used to state the properties of `make_move` -/

/-- The rook's square after castling on a wing: the f-file or the d-file square of the back
rank. -/
def castle_rook_dest (side : Nat) (queenside : Bool) : Nat :=
  if queenside = true then Square.mk 3 (back_rank side) else Square.mk 5 (back_rank side)

/-- The promotion rank of a side: rank index 7 for White, 0 otherwise. -/
def promotion_rank (side : Nat) : Nat := if side = kSideWhite then 7 else 0

/-! ## Notions used to state the properties of the non-pawn generators -/

/-- The attack set the generator of a non-pawn piece type uses from a square: the table entry
for a knight, the ray attack against the combined occupancy for bishop, rook and queen, and
the table entry for a king. -/
def piece_attack_board (b : Board) (piece : Nat) (from_sq : Nat) : Nat :=
  if piece = kPieceKnight then knight_attack_board from_sq
  else if piece = kPieceBishop then bishop_attack_board b.occupied from_sq
  else if piece = kPieceRook then rook_attack_board b.occupied from_sq
  else if piece = kPieceQueen then queen_attack_board b.occupied from_sq
  else king_attack_board from_sq

/-- The moves `generate_pseudolegal_moves` collects for a non-pawn piece type: the result of
`generate_knight_moves`, `generate_bishop_moves`, `generate_rook_moves`,
`generate_queen_moves`, and otherwise of `generate_king_moves`. -/
def piece_moves (b : Board) (piece : Nat) : List Move :=
  if piece = kPieceKnight then MoveGenerator.generate_knight_moves b
  else if piece = kPieceBishop then MoveGenerator.generate_bishop_moves b
  else if piece = kPieceRook then MoveGenerator.generate_rook_moves b
  else if piece = kPieceQueen then MoveGenerator.generate_queen_moves b
  else MoveGenerator.generate_king_moves b

/-! ## Geometry used to state the pawn, knight and check properties -/

/-- Forward direction of a side's pawns, in ranks: 1 for White (side 0), -1 otherwise. -/
def pawn_direction (side : Nat) : Int := if side = 0 then 1 else -1

/-- The rank from which a pawn of a side may move two squares: 1 for White, 6 otherwise. -/
def pawn_start_rank (side : Nat) : Nat := if side = kSideWhite then 1 else 6

/-- Square `t` is on the file of `s`, `n` ranks ahead of it for a pawn of `side`. -/
def ranks_ahead (side n s t : Nat) : Prop :=
  Square.file t = Square.file s ∧
    (Square.rank t : Int) = (Square.rank s : Int) + (n : Int) * pawn_direction side

instance (side n s t : Nat) : Decidable (ranks_ahead side n s t) := by
  unfold ranks_ahead; infer_instance

/-- Square `t` is diagonally in front of `s` for a pawn of `side`: on a neighbouring file, one
rank ahead. -/
def diagonal_ahead (side s t : Nat) : Prop :=
  ((Square.file t : Int) = (Square.file s : Int) + 1 ∨
      (Square.file t : Int) + 1 = (Square.file s : Int)) ∧
    (Square.rank t : Int) = (Square.rank s : Int) + pawn_direction side

instance (side s t : Nat) : Decidable (diagonal_ahead side s t) := by
  unfold diagonal_ahead; infer_instance

/-- Squares `s` and `t` are a knight's move apart: one file and two ranks, or two files and one
rank. -/
def knight_step (s t : Nat) : Prop :=
  (((Square.file s : Int) - (Square.file t : Int)).natAbs = 1 ∧
      ((Square.rank s : Int) - (Square.rank t : Int)).natAbs = 2) ∨
    (((Square.file s : Int) - (Square.file t : Int)).natAbs = 2 ∧
      ((Square.rank s : Int) - (Square.rank t : Int)).natAbs = 1)

instance (s t : Nat) : Decidable (knight_step s t) := by unfold knight_step; infer_instance

/-- The push targets `generate_pawn_moves` computes for the pawn on `from_sq`: the local
`move_board` after the double-move step. -/
def pawn_push_board (board : Board) (from_sq : Nat) : Nat :=
  let move_board := pawn_move_board board.turn from_sq &&& Bitboard.compl board.occupied
  if move_board ≠ 0 then
    move_board ||| (pawn_double_move_board board.turn from_sq &&& Bitboard.compl board.occupied)
  else move_board

/-- The capture targets `generate_pawn_moves` computes for the pawn on `from_sq`: the local
`capture_board`. -/
def pawn_capture_board (board : Board) (from_sq : Nat) : Nat :=
  pawn_attack_board board.turn from_sq &&& board.occupied_side (not_side board.turn)

/-- The moves one pawn destination yields: on the promotion rank of the side one move per
promotion choice, in the order knight, bishop, rook, queen; elsewhere a single move with the
default promotion field. -/
def promotion_fan (side s t : Nat) (capture : Bool) : List Move :=
  if Square.rank t = promotion_rank side then
    [Move.new s t capture false kPromoteKnight, Move.new s t capture false kPromoteBishop,
      Move.new s t capture false kPromoteRook, Move.new s t capture false kPromoteQueen]
  else [Move.new s t capture false kPromoteQueen]

/-- Square `t` is a destination of the pawn of the side to move on `s`: with `capture` false a
push (one rank ahead onto a free square, or two ranks ahead from the starting rank with both
squares free), with `capture` true a diagonal step onto a square the enemy occupies. -/
def pawn_destination (b : Board) (s t : Nat) (capture : Bool) : Prop :=
  if capture = true then
    diagonal_ahead b.turn s t ∧ b.square_occupied_side (not_side b.turn) t = true
  else
    (ranks_ahead b.turn 1 s t ∧ b.square_occupied t = false) ∨
    (Square.rank s = pawn_start_rank b.turn ∧ ranks_ahead b.turn 2 s t ∧
      b.square_occupied t = false ∧
      ∃ u, u < 64 ∧ ranks_ahead b.turn 1 s u ∧ b.square_occupied u = false)

instance (b : Board) (s t : Nat) (capture : Bool) : Decidable (pawn_destination b s t capture) := by
  unfold pawn_destination; infer_instance

/-! ## Positions of the test suite and boards with two pieces on one square -/

/-- The test position with a single white pawn on b2 and black queens on a3 and c3. -/
def pawn_test_position : Board := (game_of_fen "8/8/8/8/8/q1q5/1P6/8 w - - 0 1").board_

/-- The test position with a white pawn on c7 and a black queen on d8. -/
def promotion_test_position : Board := (game_of_fen "3q4/2P5/8/8/8/8/8/8 w - - 0 1").board_

/-- The board `from_fen` builds from a placement whose second rank `93R` runs past the h-file:
the white rook lands on e3, the square of the white pawn. -/
def shared_square_position : Board :=
  (game_of_fen "4k3/8/8/8/8/4P3/93R/4K3 w - - 0 1").board_

/-- The board with a white pawn on e7, a black rook on d8 and the en-passant target d8. -/
def last_rank_target_position : Board :=
  (game_of_fen "k2r4/3pP3/8/8/8/8/8/4K3 w - d8 0 1").board_

/-! ## Notions used to state check detection -/

/-- No piece stands on the square: it is set in none of the twelve piece boards. -/
def square_empty (b : Board) (u : Nat) : Prop :=
  ∀ side, side < 2 → ∀ piece, piece < 6 → (b.pieces_ side piece).testBit u = false

/-- A piece of `side` attacks `square` under chess geometry: a pawn for which the square is
diagonally ahead, a knight a knight's move away, a king on an adjacent square, a bishop or
queen on a common diagonal, or a rook or queen on a common file or rank, with every square
strictly in between empty. -/
def attacked_by (b : Board) (side : Nat) (square : Nat) : Prop :=
  ∃ f, f < 64 ∧
    (((b.pawns side).testBit f = true ∧ diagonal_ahead side f square) ∨
     ((b.knights side).testBit f = true ∧ knight_step f square) ∨
     ((b.kings side).testBit f = true ∧ king_step f square) ∨
     (((b.bishops side).testBit f = true ∨ (b.queens side).testBit f = true) ∧
        f ≠ square ∧ common_diagonal f square ∧
        ∀ u, u < 64 → bishop_between f square u → square_empty b u) ∨
     (((b.rooks side).testBit f = true ∨ (b.queens side).testBit f = true) ∧
        f ≠ square ∧ (Square.file square = Square.file f ∨ Square.rank square = Square.rank f) ∧
        ∀ u, u < 64 → rook_between f square u → square_empty b u))

/-- A position with the black king on e8 facing a white rook on e2 along the free e-file. -/
def rook_check_position : Board := (game_of_fen "4k3/8/8/8/8/8/4R3/4K3 b - - 0 1").board_

/-! ## Sequences of calls on a game -/

/-- One call on a game: `make_move(move)`, `make_null_move()` or `unmake_move()`. -/
inductive Call where
  | make_move (move : Move) : Call
  | make_null_move : Call
  | unmake_move : Call
deriving DecidableEq

/-- The game after one call; `none` where the call is undefined. -/
def Game.call (game : Game) : Call → Option Game
  | Call.make_move move => game.make_move move
  | Call.make_null_move => some game.make_null_move
  | Call.unmake_move => game.unmake_move

/-- The game after a sequence of calls, each made on the result of the one before; `none` as
soon as a call is undefined. -/
def Game.calls (game : Game) : List Call → Option Game
  | [] => some game
  | c :: cs =>
    match game.call c with
    | none => none
    | some game1 => game1.calls cs

/-- A board comes from the `Board` constructor or from `from_fen`. -/
def Board.constructed (b : Board) : Prop :=
  (∃ (pawns knights bishops rooks queens kings : List Nat) (castling : List Bool)
      (side ep_square : Nat) (half_move full_move : Int),
    b = Board.new pawns knights bishops rooks queens kings castling side ep_square half_move
      full_move) ∨
  ∃ fen, Board.from_fen fen = some b

/-- A short sequence of calls from the starting position: 1. e4, a null move, Nf3, and the
last move taken back. -/
def opening_calls : List Call :=
  [Call.make_move (Move.new 12 28 false false kPromoteQueen), Call.make_null_move,
    Call.make_move (Move.new 6 21 false false kPromoteQueen), Call.unmake_move]

/-! ## Play by moves of the legal list -/

/-- One step of play: `make_move` of a move, or `unmake_move`. -/
inductive Play where
  | move (move : Move) : Play
  | unmake : Play
deriving DecidableEq

/-- The game after one step of play: `make_move(move)` for a move of the list returned by
`generate_legal_moves` on the current game, or `unmake_move()`; `none` where the move is not
in that list or the call is undefined. -/
def Game.play (game : Game) : Play → Option Game
  | Play.move move =>
    match legal_moves_list game with
    | none => none
    | some moves => if move ∈ moves then game.make_move move else none
  | Play.unmake => game.unmake_move

/-- The game after a sequence of steps of play. -/
def Game.plays (game : Game) : List Play → Option Game
  | [] => some game
  | p :: ps =>
    match game.play p with
    | none => none
    | some game1 => game1.plays ps

/-- The conditions carried along play from the starting position: no square holds two pieces,
the occupancy invariant, a side to move of 0 or 1, and an en-passant target that, when on the
board, is an empty square. -/
def play_invariant (b : Board) : Prop :=
  pieces_disjoint b ∧ occupancy_invariant b ∧ b.turn < 2 ∧
    (b.ep_square < 64 → square_empty b b.ep_square)

/-- A short line of play from the starting position: 1. e4 e5, and the reply taken back. -/
def opening_play : List Play :=
  [Play.move (Move.new 12 28 false false kPromoteQueen),
    Play.move (Move.new 52 36 false false kPromoteQueen), Play.unmake]

/-! ## Small positions used as concrete inputs -/

/-- A position with the two kings only, White to move. -/
def bare_kings_position : Game := game_of_fen "7k/8/8/8/8/8/8/K7 w - - 0 1"

/-! ## Notions used to state that real moves never repeat a board -/

/-- The counter `2 * fullmove + side to move` of a board. -/
def move_counter (b : Board) : Int := 2 * b.full_move + (b.turn : Int)

/-- A sequence of calls without a null move, from the starting position: 1. e4 e5 Nf3, and
the last move taken back. -/
def opening_moves : List Call :=
  [Call.make_move (Move.new 12 28 false false kPromoteQueen),
    Call.make_move (Move.new 52 36 false false kPromoteQueen),
    Call.make_move (Move.new 6 21 false false kPromoteQueen), Call.unmake_move]

/-- The game reached by `opening_moves` from the starting position. -/
def opening_moves_game : Game :=
  ((Game.of_board (game_of_fen Game.default_fen).board_).calls opening_moves).getD
    (Game.of_board null_board)

/-! ## bitboard_iterator.h: the two members and the loop over them -/

namespace BitboardIterator

/-- Member `has_data()` on the working copy `board_`. -/
def has_data (board_ : Nat) : Bool := decide (board_ ≠ 0)

/-- Member `next()`: the returned square and the working copy after the call. -/
def next (board_ : Nat) : Nat × Nat :=
  let index := Bitboard.find_first board_
  (index, Bitboard.unset board_ index)

/-- The loop `while (it.has_data()) it.next();` cut off after `n` calls of `next()`: the
squares returned so far and the working copy left. -/
def iterate : Nat → Nat → List Nat × Nat
  | 0, board_ => ([], board_)
  | n + 1, board_ =>
    if has_data board_ = true then
      ((next board_).1 :: (iterate n (next board_).2).1, (iterate n (next board_).2).2)
    else ([], board_)

end BitboardIterator

/-- The indices below 64 of the set bits of a word, in ascending order. -/
def set_bits (b : Nat) : List Nat := (List.range 64).filter (fun i => b.testBit i)

/-! ## Boards holding pieces of one type of the side to move only -/

/-- The only pieces of the board are those of type `piece` of the side to move, on the squares
of `word`; the board satisfies the occupancy invariant and has no en-passant target. -/
def only_pieces (b : Board) (piece word : Nat) : Prop :=
  b.turn < 2 ∧ occupancy_invariant b ∧ b.ep_square = null_square ∧
    ∀ s, s < 2 → ∀ p, p < 6 →
      b.pieces_ s p = if s = b.turn ∧ p = piece then word else 0

instance (b : Board) (piece word : Nat) : Decidable (only_pieces b piece word) := by
  unfold only_pieces; infer_instance

/-- The board the constructor builds from piece vectors that hold `word` for the type `piece`
of `side` and are empty otherwise, with `side` to move. -/
def word_board (side piece word : Nat) : Board :=
  Board.new
    [if 0 = side ∧ kPiecePawn = piece then word else 0,
      if 1 = side ∧ kPiecePawn = piece then word else 0]
    [if 0 = side ∧ kPieceKnight = piece then word else 0,
      if 1 = side ∧ kPieceKnight = piece then word else 0]
    [if 0 = side ∧ kPieceBishop = piece then word else 0,
      if 1 = side ∧ kPieceBishop = piece then word else 0]
    [if 0 = side ∧ kPieceRook = piece then word else 0,
      if 1 = side ∧ kPieceRook = piece then word else 0]
    [if 0 = side ∧ kPieceQueen = piece then word else 0,
      if 1 = side ∧ kPieceQueen = piece then word else 0]
    [if 0 = side ∧ kPieceKing = piece then word else 0,
      if 1 = side ∧ kPieceKing = piece then word else 0]
    [false, false, false, false] side null_square 0 1

/-- The position of the queen test: a lone white queen on d4. -/
def lone_queen_position : Board := (game_of_fen "8/8/8/8/3Q4/8/8/8 w - - 0 1").board_

/-! ## Fields of a FEN text -/

/-- The fields of a text: the runs between its space characters (a text with `n` spaces has
`n + 1` fields, some of them possibly empty). -/
def space_fields : List Char → List (List Char)
  | [] => [[]]
  | c :: r =>
    if c = ' ' then [] :: space_fields r
    else
      match space_fields r with
      | [] => [[c]]
      | f :: fs => (c :: f) :: fs

/-- The input of the header test of the board initialisation tests. -/
def header_test_fen : String := "8/8/8/8/8/8/8/P7 b KQq h8 0 1"

/-! ## The placement field of a FEN text -/

instance (f : List Char) : Decidable (fen_field f) := by
  unfold fen_field; infer_instance

/-- The characters of a rank of the placement field: the digits 1 to 8 and the twelve piece
letters. -/
def rank_chars : List Char := "12345678pnbrqkPNBRQK".toList

/-- The squares a rank text describes, from file a on: a digit stands for that many empty
squares, any other character for itself. -/
def expand_rank : List Char → List (Option Char)
  | [] => []
  | c :: r =>
    (if '1'.toNat ≤ c.toNat ∧ c.toNat ≤ '8'.toNat then List.replicate (c.toNat - '0'.toNat) none
      else [some c]) ++ expand_rank r

/-- The letter of a piece type: upper case for White, lower case for Black. -/
def piece_letter (side piece : Nat) : Char :=
  if side = kSideWhite then fen_codec.toupper (fen_codec.piece_symbols.getD piece 'p')
  else fen_codec.piece_symbols.getD piece 'p'

/-- The placement field made of the given rank texts, separated by `/`. -/
def join_ranks : List (List Char) → List Char
  | [] => []
  | [r] => r
  | r :: r1 :: rs => r ++ '/' :: join_ranks (r1 :: rs)

/-- The rank texts of the pawn test of the board initialisation tests, highest rank first. -/
def pawn_rows : List (List Char) :=
  ["8".toList, "pppppppp".toList, "8".toList, "8".toList, "8".toList, "8".toList,
    "PPPPPPPP".toList, "8".toList]

/-! ## The pieces `fen()` writes -/

/-- The squares on which `fen()` writes the letter of piece type `p` of side `s`: for White,
`piece_type_at` of White answers `p`; for Black, that of White answers `-1` and that of Black
answers `p`. -/
def shown_pieces (b : Board) (s p : Nat) : Nat :=
  ((List.range 64).filter (fun sq =>
    decide ((s = kSideWhite ∧ b.piece_type_at kSideWhite sq = (p : Int)) ∨
      (s = kSideBlack ∧ b.piece_type_at kSideWhite sq = -1 ∧
        b.piece_type_at kSideBlack sq = (p : Int))))).foldl Bitboard.set 0

/-- The board of the pieces `fen()` writes, with the other fields of `b`. -/
def shown_board (b : Board) : Board :=
  board_of (shown_pieces b) [b.castling 0, b.castling 1, b.castling 2, b.castling 3] b.turn
    b.ep_square b.half_move b.full_move

/-! ## Bit-level facts about the primitives -/

theorem testBit_false_of_word {n t : Nat} (h : n < 2 ^ 64) (ht : 64 ≤ t) :
    n.testBit t = false :=
  Nat.testBit_lt_two_pow (lt_of_lt_of_le h (Nat.pow_le_pow_right (by norm_num) ht))

theorem mask_testBit (i t : Nat) :
    (Bitboard.mask i).testBit t = decide (t < 64 ∧ i = t) := by
  unfold Bitboard.mask
  rw [Nat.testBit_mod_two_pow, Nat.one_shiftLeft, Nat.testBit_two_pow]
  by_cases h1 : t < 64 <;> by_cases h2 : i = t <;> simp [h1, h2]

theorem bit_scan_forward_spec (data : Nat) :
    ∀ fuel i, (∃ j, i ≤ j ∧ j < i + fuel ∧ data.testBit j = true) →
      data.testBit (platform.bit_scan_forward data fuel i) = true ∧
      i ≤ platform.bit_scan_forward data fuel i ∧
      platform.bit_scan_forward data fuel i < i + fuel ∧
      ∀ j, i ≤ j → j < platform.bit_scan_forward data fuel i → data.testBit j = false := by
  intro fuel
  induction fuel with
  | zero =>
    intro i h
    obtain ⟨j, h1, h2, _⟩ := h
    omega
  | succ n ih =>
    intro i h
    obtain ⟨j, h1, h2, h3⟩ := h
    unfold platform.bit_scan_forward
    by_cases hb : data.testBit i = true
    · rw [if_pos hb]
      refine ⟨hb, le_refl _, by omega, ?_⟩
      intro k hk1 hk2
      omega
    · rw [if_neg hb]
      have hne : j ≠ i := by
        intro e
        rw [e] at h3
        exact hb h3
      obtain ⟨r1, r2, r3, r4⟩ := ih (i + 1) ⟨j, by omega, by omega, h3⟩
      refine ⟨r1, by omega, by omega, ?_⟩
      intro k hk1 hk2
      by_cases hki : k = i
      · rw [hki]
        simpa using hb
      · exact r4 k (by omega) hk2

theorem bit_scan_reverse_spec (data : Nat) :
    ∀ n, (∃ j, j < n ∧ data.testBit j = true) →
      data.testBit (platform.bit_scan_reverse data n) = true ∧
      platform.bit_scan_reverse data n < n ∧
      ∀ j, platform.bit_scan_reverse data n < j → j < n → data.testBit j = false := by
  intro n
  induction n with
  | zero =>
    intro h
    obtain ⟨j, h1, _⟩ := h
    omega
  | succ n ih =>
    intro h
    obtain ⟨j, h1, h3⟩ := h
    unfold platform.bit_scan_reverse
    by_cases hb : data.testBit n = true
    · rw [if_pos hb]
      refine ⟨hb, by omega, ?_⟩
      intro k hk1 hk2
      omega
    · rw [if_neg hb]
      have hne : j ≠ n := by
        intro e
        rw [e] at h3
        exact hb h3
      obtain ⟨r1, r2, r4⟩ := ih ⟨j, by omega, h3⟩
      refine ⟨r1, by omega, ?_⟩
      intro k hk1 hk2
      by_cases hki : k = n
      · rw [hki]
        simpa using hb
      · exact r4 k hk1 (by omega)

/-- What `find_first` returns on a word with some bit below 64 set. -/
theorem find_first_spec (data : Nat) (h : ∃ j, j < 64 ∧ data.testBit j = true) :
    data.testBit (Bitboard.find_first data) = true ∧ Bitboard.find_first data < 64 ∧
      ∀ j, j < Bitboard.find_first data → data.testBit j = false := by
  obtain ⟨j, hj, hb⟩ := h
  obtain ⟨r1, _, r3, r4⟩ := bit_scan_forward_spec data 64 0 ⟨j, by omega, by omega, hb⟩
  exact ⟨r1, by simpa using r3, fun k hk => r4 k (by omega) hk⟩

/-- What `find_last` returns on a word with some bit below 64 set. -/
theorem find_last_spec (data : Nat) (h : ∃ j, j < 64 ∧ data.testBit j = true) :
    data.testBit (Bitboard.find_last data) = true ∧ Bitboard.find_last data < 64 ∧
      ∀ j, Bitboard.find_last data < j → j < 64 → data.testBit j = false := by
  have hne : data ≠ 0 := by
    intro e
    obtain ⟨j, _, hb⟩ := h
    rw [e] at hb
    simp at hb
  unfold Bitboard.find_last
  rw [if_neg hne]
  exact bit_scan_reverse_spec data 64 h

/-! ## Blocker resolution along one ray -/

theorem ray_toward_high_bits (table : Nat → Nat) (R : Nat → Nat → Prop)
    (hT : TableBits table R)
    (hSuffix : ∀ s b t, s < 64 → b < 64 → t < 64 → R s b → (R b t ↔ R s t ∧ b < t))
    (hTop : ∀ t, t < 64 → ¬ R 63 t)
    (occ s t : Nat) (hs : s < 64) :
    (ray_toward_high table occ s).testBit t = true ↔
      t < 64 ∧ R s t ∧ ∀ u, u < 64 → R s u → u < t → occ.testBit u = false := by
  unfold ray_toward_high
  simp only []
  have h63 : (0x8000000000000000 : Nat) = 2 ^ 63 := by norm_num
  rw [h63]
  have hex : ∃ j, j < 64 ∧ (table s &&& occ ||| 2 ^ 63).testBit j = true :=
    ⟨63, by omega, by rw [Nat.testBit_or, Nat.testBit_two_pow_self, Bool.or_true]⟩
  obtain ⟨hb, hlt, hmin⟩ := find_first_spec _ hex
  generalize Bitboard.find_first (table s &&& occ ||| 2 ^ 63) = b at hb hlt hmin
  rw [Nat.testBit_xor]
  by_cases hcase : (table s).testBit b = true ∧ occ.testBit b = true
  · obtain ⟨hsb, hob⟩ := hcase
    have hRsb : R s b := ((hT s hs b).1 hsb).2
    constructor
    · intro h
      by_cases hst : (table s).testBit t = true
      · obtain ⟨ht64, hRst⟩ := (hT s hs t).1 hst
        have hbt : ¬ (table b).testBit t = true := by
          intro hbt
          rw [hst, hbt] at h
          simp at h
        have hnlt : ¬ b < t := by
          intro hlt2
          exact hbt ((hT b hlt t).2 ⟨ht64, (hSuffix s b t hs hlt ht64 hRsb).2 ⟨hRst, hlt2⟩⟩)
        refine ⟨ht64, hRst, ?_⟩
        intro u hu hRsu hut
        by_contra hou
        have hou2 : occ.testBit u = true := by simpa using hou
        have hbu := hmin u (by omega)
        rw [Nat.testBit_or, Nat.testBit_and, (hT s hs u).2 ⟨hu, hRsu⟩, hou2] at hbu
        simp at hbu
      · have hbt : (table b).testBit t = true := by
          cases hx : (table b).testBit t
          · rw [hx] at h
            simp at h
            exact absurd h hst
          · rfl
        obtain ⟨ht64, hRbt⟩ := (hT b hlt t).1 hbt
        exact absurd ((hT s hs t).2 ⟨ht64, ((hSuffix s b t hs hlt ht64 hRsb).1 hRbt).1⟩) hst
    · rintro ⟨ht64, hRst, hall⟩
      have hst : (table s).testBit t = true := (hT s hs t).2 ⟨ht64, hRst⟩
      have hnlt : ¬ b < t := by
        intro hlt2
        have := hall b hlt hRsb hlt2
        rw [hob] at this
        exact Bool.noConfusion this
      have hbt : (table b).testBit t = false := by
        cases hx : (table b).testBit t
        · rfl
        · exact absurd ((hSuffix s b t hs hlt ht64 hRsb).1 ((hT b hlt t).1 hx).2).2 hnlt
      rw [hst, hbt]
      rfl
  · have hb63 : b = 63 := by
      rw [Nat.testBit_or, Nat.testBit_and, Nat.testBit_two_pow] at hb
      by_contra hne
      have hd : decide (63 = b) = false := by
        simp only [decide_eq_false_iff_not]
        omega
      rw [hd, Bool.or_false, Bool.and_eq_true] at hb
      exact hcase hb
    have hzero : (table b).testBit t = false := by
      cases hx : (table b).testBit t
      · rfl
      · rw [hb63] at hx
        obtain ⟨ht64, hR⟩ := (hT 63 (by decide) t).1 hx
        exact absurd hR (hTop t ht64)
    rw [hzero, Bool.xor_false]
    constructor
    · intro hst
      obtain ⟨ht64, hRst⟩ := (hT s hs t).1 hst
      refine ⟨ht64, hRst, ?_⟩
      intro u hu hRsu _
      by_contra hou
      have hou2 : occ.testBit u = true := by simpa using hou
      have hsu : (table s).testBit u = true := (hT s hs u).2 ⟨hu, hRsu⟩
      by_cases hub : u = b
      · rw [hub] at hsu hou2
        exact hcase ⟨hsu, hou2⟩
      · have hbu := hmin u (by omega)
        rw [Nat.testBit_or, Nat.testBit_and, hsu, hou2] at hbu
        simp at hbu
    · rintro ⟨ht64, hRst, _⟩
      exact (hT s hs t).2 ⟨ht64, hRst⟩

theorem ray_toward_low_bits (table : Nat → Nat) (R : Nat → Nat → Prop)
    (hT : TableBits table R)
    (hSuffix : ∀ s b t, s < 64 → b < 64 → t < 64 → R s b → (R b t ↔ R s t ∧ t < b))
    (hBot : ∀ t, t < 64 → ¬ R 0 t)
    (occ s t : Nat) (hs : s < 64) :
    (ray_toward_low table occ s).testBit t = true ↔
      t < 64 ∧ R s t ∧ ∀ u, u < 64 → R s u → t < u → occ.testBit u = false := by
  unfold ray_toward_low
  simp only []
  have h1 : (1 : Nat) = 2 ^ 0 := by norm_num
  rw [h1]
  have hex : ∃ j, j < 64 ∧ (table s &&& occ ||| 2 ^ 0).testBit j = true :=
    ⟨0, by omega, by rw [Nat.testBit_or, Nat.testBit_two_pow_self, Bool.or_true]⟩
  obtain ⟨hb, hlt, hmax⟩ := find_last_spec _ hex
  generalize Bitboard.find_last (table s &&& occ ||| 2 ^ 0) = b at hb hlt hmax
  rw [Nat.testBit_xor]
  by_cases hcase : (table s).testBit b = true ∧ occ.testBit b = true
  · obtain ⟨hsb, hob⟩ := hcase
    have hRsb : R s b := ((hT s hs b).1 hsb).2
    constructor
    · intro h
      by_cases hst : (table s).testBit t = true
      · obtain ⟨ht64, hRst⟩ := (hT s hs t).1 hst
        have hbt : ¬ (table b).testBit t = true := by
          intro hbt
          rw [hst, hbt] at h
          simp at h
        have hnlt : ¬ t < b := by
          intro hlt2
          exact hbt ((hT b hlt t).2 ⟨ht64, (hSuffix s b t hs hlt ht64 hRsb).2 ⟨hRst, hlt2⟩⟩)
        refine ⟨ht64, hRst, ?_⟩
        intro u hu hRsu hut
        by_contra hou
        have hou2 : occ.testBit u = true := by simpa using hou
        have hbu := hmax u (by omega) hu
        rw [Nat.testBit_or, Nat.testBit_and, (hT s hs u).2 ⟨hu, hRsu⟩, hou2] at hbu
        simp at hbu
      · have hbt : (table b).testBit t = true := by
          cases hx : (table b).testBit t
          · rw [hx] at h
            simp at h
            exact absurd h hst
          · rfl
        obtain ⟨ht64, hRbt⟩ := (hT b hlt t).1 hbt
        exact absurd ((hT s hs t).2 ⟨ht64, ((hSuffix s b t hs hlt ht64 hRsb).1 hRbt).1⟩) hst
    · rintro ⟨ht64, hRst, hall⟩
      have hst : (table s).testBit t = true := (hT s hs t).2 ⟨ht64, hRst⟩
      have hnlt : ¬ t < b := by
        intro hlt2
        have := hall b hlt hRsb hlt2
        rw [hob] at this
        exact Bool.noConfusion this
      have hbt : (table b).testBit t = false := by
        cases hx : (table b).testBit t
        · rfl
        · exact absurd ((hSuffix s b t hs hlt ht64 hRsb).1 ((hT b hlt t).1 hx).2).2 hnlt
      rw [hst, hbt]
      rfl
  · have hb0 : b = 0 := by
      rw [Nat.testBit_or, Nat.testBit_and, Nat.testBit_two_pow] at hb
      by_contra hne
      have hd : decide (0 = b) = false := by
        simp only [decide_eq_false_iff_not]
        omega
      rw [hd, Bool.or_false, Bool.and_eq_true] at hb
      exact hcase hb
    have hzero : (table b).testBit t = false := by
      cases hx : (table b).testBit t
      · rfl
      · rw [hb0] at hx
        obtain ⟨ht64, hR⟩ := (hT 0 (by decide) t).1 hx
        exact absurd hR (hBot t ht64)
    rw [hzero, Bool.xor_false]
    constructor
    · intro hst
      obtain ⟨ht64, hRst⟩ := (hT s hs t).1 hst
      refine ⟨ht64, hRst, ?_⟩
      intro u hu hRsu _
      by_contra hou
      have hou2 : occ.testBit u = true := by simpa using hou
      have hsu : (table s).testBit u = true := (hT s hs u).2 ⟨hu, hRsu⟩
      by_cases hub : u = b
      · rw [hub] at hsu hou2
        exact hcase ⟨hsu, hou2⟩
      · have hbu := hmax u (by omega) hu
        rw [Nat.testBit_or, Nat.testBit_and, hsu, hou2] at hbu
        simp at hbu
    · rintro ⟨ht64, hRst, _⟩
      exact (hT s hs t).2 ⟨ht64, hRst⟩

/-! ## The eight ray tables -/

/-- Every ray-table loop leaves the board within the nine rounds granted to it. -/
theorem ray_walk_exits :
    ∀ d ∈ [((0 : Int), (1 : Int)), (1, 0), (0, -1), (-1, 0), (-1, 1), (1, 1), (1, -1), (-1, -1)],
      ∀ s, s < 64 →
        (ray_walk d.1 d.2 9 ((Square.file s : Int) + d.1) ((Square.rank s : Int) + d.2) 0).isSome
          = true := by
  decide!

theorem ray_tables_word :
    ∀ s, s < 64 →
      ray_n_table s < 2 ^ 64 ∧ ray_e_table s < 2 ^ 64 ∧ ray_s_table s < 2 ^ 64 ∧
      ray_w_table s < 2 ^ 64 ∧ ray_nw_table s < 2 ^ 64 ∧ ray_ne_table s < 2 ^ 64 ∧
      ray_se_table s < 2 ^ 64 ∧ ray_sw_table s < 2 ^ 64 := by
  decide!

theorem tableBits_of_check (table : Nat → Nat) (R : Nat → Nat → Prop)
    [∀ s t, Decidable (R s t)]
    (hw : ∀ s, s < 64 → table s < 2 ^ 64)
    (hc : ∀ s, s < 64 → ∀ t, t < 64 → (table s).testBit t = decide (R s t)) :
    TableBits table R := by
  intro s hs t
  by_cases ht : t < 64
  · rw [hc s hs t ht]
    simp [ht]
  · rw [testBit_false_of_word (hw s hs) (by omega)]
    simp [ht]

theorem ray_n_check : ∀ s, s < 64 → ∀ t, t < 64 →
    (ray_n_table s).testBit t = decide (rel_n s t) := by decide!
theorem ray_s_check : ∀ s, s < 64 → ∀ t, t < 64 →
    (ray_s_table s).testBit t = decide (rel_s s t) := by decide!
theorem ray_e_check : ∀ s, s < 64 → ∀ t, t < 64 →
    (ray_e_table s).testBit t = decide (rel_e s t) := by decide!
theorem ray_w_check : ∀ s, s < 64 → ∀ t, t < 64 →
    (ray_w_table s).testBit t = decide (rel_w s t) := by decide!
theorem ray_ne_check : ∀ s, s < 64 → ∀ t, t < 64 →
    (ray_ne_table s).testBit t = decide (rel_ne s t) := by decide!
theorem ray_sw_check : ∀ s, s < 64 → ∀ t, t < 64 →
    (ray_sw_table s).testBit t = decide (rel_sw s t) := by decide!
theorem ray_nw_check : ∀ s, s < 64 → ∀ t, t < 64 →
    (ray_nw_table s).testBit t = decide (rel_nw s t) := by decide!
theorem ray_se_check : ∀ s, s < 64 → ∀ t, t < 64 →
    (ray_se_table s).testBit t = decide (rel_se s t) := by decide!

theorem ray_n_bits : TableBits ray_n_table rel_n :=
  tableBits_of_check _ _ (fun s hs => (ray_tables_word s hs).1) ray_n_check
theorem ray_e_bits : TableBits ray_e_table rel_e :=
  tableBits_of_check _ _ (fun s hs => (ray_tables_word s hs).2.1) ray_e_check
theorem ray_s_bits : TableBits ray_s_table rel_s :=
  tableBits_of_check _ _ (fun s hs => (ray_tables_word s hs).2.2.1) ray_s_check
theorem ray_w_bits : TableBits ray_w_table rel_w :=
  tableBits_of_check _ _ (fun s hs => (ray_tables_word s hs).2.2.2.1) ray_w_check
theorem ray_nw_bits : TableBits ray_nw_table rel_nw :=
  tableBits_of_check _ _ (fun s hs => (ray_tables_word s hs).2.2.2.2.1) ray_nw_check
theorem ray_ne_bits : TableBits ray_ne_table rel_ne :=
  tableBits_of_check _ _ (fun s hs => (ray_tables_word s hs).2.2.2.2.2.1) ray_ne_check
theorem ray_se_bits : TableBits ray_se_table rel_se :=
  tableBits_of_check _ _ (fun s hs => (ray_tables_word s hs).2.2.2.2.2.2.1) ray_se_check
theorem ray_sw_bits : TableBits ray_sw_table rel_sw :=
  tableBits_of_check _ _ (fun s hs => (ray_tables_word s hs).2.2.2.2.2.2.2) ray_sw_check

/-! ## Ray attacks in each direction -/

theorem ray_n_attack (occ s t : Nat) (hs : s < 64) :
    (ray_toward_high ray_n_table occ s).testBit t = true ↔
      t < 64 ∧ rel_n s t ∧ ∀ u, u < 64 → rel_n s u → u < t → occ.testBit u = false := by
  apply ray_toward_high_bits ray_n_table rel_n ray_n_bits _ _ occ s t hs
  · intro s b t hs hb ht
    unfold rel_n
    omega
  · intro t ht
    unfold rel_n
    omega

theorem ray_e_attack (occ s t : Nat) (hs : s < 64) :
    (ray_toward_high ray_e_table occ s).testBit t = true ↔
      t < 64 ∧ rel_e s t ∧ ∀ u, u < 64 → rel_e s u → u < t → occ.testBit u = false := by
  apply ray_toward_high_bits ray_e_table rel_e ray_e_bits _ _ occ s t hs
  · intro s b t hs hb ht
    unfold rel_e
    omega
  · intro t ht
    unfold rel_e
    omega

theorem ray_ne_attack (occ s t : Nat) (hs : s < 64) :
    (ray_toward_high ray_ne_table occ s).testBit t = true ↔
      t < 64 ∧ rel_ne s t ∧ ∀ u, u < 64 → rel_ne s u → u < t → occ.testBit u = false := by
  apply ray_toward_high_bits ray_ne_table rel_ne ray_ne_bits _ _ occ s t hs
  · intro s b t hs hb ht
    unfold rel_ne
    omega
  · intro t ht
    unfold rel_ne
    omega

theorem ray_nw_attack (occ s t : Nat) (hs : s < 64) :
    (ray_toward_high ray_nw_table occ s).testBit t = true ↔
      t < 64 ∧ rel_nw s t ∧ ∀ u, u < 64 → rel_nw s u → u < t → occ.testBit u = false := by
  apply ray_toward_high_bits ray_nw_table rel_nw ray_nw_bits _ _ occ s t hs
  · intro s b t hs hb ht
    unfold rel_nw
    omega
  · intro t ht
    unfold rel_nw
    omega

theorem ray_s_attack (occ s t : Nat) (hs : s < 64) :
    (ray_toward_low ray_s_table occ s).testBit t = true ↔
      t < 64 ∧ rel_s s t ∧ ∀ u, u < 64 → rel_s s u → t < u → occ.testBit u = false := by
  apply ray_toward_low_bits ray_s_table rel_s ray_s_bits _ _ occ s t hs
  · intro s b t hs hb ht
    unfold rel_s
    omega
  · intro t ht
    unfold rel_s
    omega

theorem ray_w_attack (occ s t : Nat) (hs : s < 64) :
    (ray_toward_low ray_w_table occ s).testBit t = true ↔
      t < 64 ∧ rel_w s t ∧ ∀ u, u < 64 → rel_w s u → t < u → occ.testBit u = false := by
  apply ray_toward_low_bits ray_w_table rel_w ray_w_bits _ _ occ s t hs
  · intro s b t hs hb ht
    unfold rel_w
    omega
  · intro t ht
    unfold rel_w
    omega

theorem ray_se_attack (occ s t : Nat) (hs : s < 64) :
    (ray_toward_low ray_se_table occ s).testBit t = true ↔
      t < 64 ∧ rel_se s t ∧ ∀ u, u < 64 → rel_se s u → t < u → occ.testBit u = false := by
  apply ray_toward_low_bits ray_se_table rel_se ray_se_bits _ _ occ s t hs
  · intro s b t hs hb ht
    unfold rel_se
    omega
  · intro t ht
    unfold rel_se
    omega

theorem ray_sw_attack (occ s t : Nat) (hs : s < 64) :
    (ray_toward_low ray_sw_table occ s).testBit t = true ↔
      t < 64 ∧ rel_sw s t ∧ ∀ u, u < 64 → rel_sw s u → t < u → occ.testBit u = false := by
  apply ray_toward_low_bits ray_sw_table rel_sw ray_sw_bits _ _ occ s t hs
  · intro s b t hs hb ht
    unfold rel_sw
    omega
  · intro t ht
    unfold rel_sw
    omega

/-! ## Rook and bishop attack sets -/

theorem rook_attack_bits (occ s t : Nat) :
    (rook_attack_board occ s).testBit t = true ↔
      (ray_toward_high ray_n_table occ s).testBit t = true ∨
      (ray_toward_high ray_e_table occ s).testBit t = true ∨
      (ray_toward_low ray_s_table occ s).testBit t = true ∨
      (ray_toward_low ray_w_table occ s).testBit t = true := by
  unfold rook_attack_board ray_attack_table
  simp [Nat.testBit_or, or_assoc]

theorem bishop_attack_bits (occ s t : Nat) :
    (bishop_attack_board occ s).testBit t = true ↔
      (ray_toward_high ray_nw_table occ s).testBit t = true ∨
      (ray_toward_high ray_ne_table occ s).testBit t = true ∨
      (ray_toward_low ray_se_table occ s).testBit t = true ∨
      (ray_toward_low ray_sw_table occ s).testBit t = true := by
  unfold bishop_attack_board ray_attack_table
  simp [Nat.testBit_or, or_assoc]

/-- The rook attack board holds exactly the squares `t ≠ s` on the file or rank of `s` such
that no square strictly between `s` and `t` is occupied. -/
theorem rook_attack_iff (occ s t : Nat) (hs : s < 64) :
    (rook_attack_board occ s).testBit t = true ↔
      t < 64 ∧ t ≠ s ∧ (Square.file t = Square.file s ∨ Square.rank t = Square.rank s) ∧
        ∀ u, u < 64 → rook_between s t u → occ.testBit u = false := by
  rw [rook_attack_bits, ray_n_attack occ s t hs, ray_e_attack occ s t hs,
    ray_s_attack occ s t hs, ray_w_attack occ s t hs]
  unfold rook_between rel_n rel_e rel_s rel_w Square.rank Square.file
  constructor
  · rintro (⟨h1, h2, h3⟩ | ⟨h1, h2, h3⟩ | ⟨h1, h2, h3⟩ | ⟨h1, h2, h3⟩)
    all_goals
      refine ⟨h1, by omega, by omega, ?_⟩
      intro u hu hb
      apply h3 u hu <;> omega
  · rintro ⟨h1, h2, h3, h4⟩
    by_cases c1 : t % 8 = s % 8
    · by_cases c2 : s / 8 < t / 8
      · refine Or.inl ⟨h1, by omega, ?_⟩
        intro u hu hr hlt
        apply h4 u hu
        omega
      · refine Or.inr (Or.inr (Or.inl ⟨h1, by omega, ?_⟩))
        intro u hu hr hlt
        apply h4 u hu
        omega
    · by_cases c2 : s % 8 < t % 8
      · refine Or.inr (Or.inl ⟨h1, by omega, ?_⟩)
        intro u hu hr hlt
        apply h4 u hu
        omega
      · refine Or.inr (Or.inr (Or.inr ⟨h1, by omega, ?_⟩))
        intro u hu hr hlt
        apply h4 u hu
        omega

/-- The bishop attack board holds exactly the squares `t ≠ s` on a diagonal through `s` such
that no square strictly between `s` and `t` on that diagonal is occupied. -/
theorem bishop_attack_iff (occ s t : Nat) (hs : s < 64) :
    (bishop_attack_board occ s).testBit t = true ↔
      t < 64 ∧ t ≠ s ∧ common_diagonal s t ∧
        ∀ u, u < 64 → bishop_between s t u → occ.testBit u = false := by
  rw [bishop_attack_bits, ray_nw_attack occ s t hs, ray_ne_attack occ s t hs,
    ray_se_attack occ s t hs, ray_sw_attack occ s t hs]
  unfold bishop_between common_diagonal rel_nw rel_ne rel_se rel_sw Square.rank Square.file
  constructor
  · rintro (⟨h1, h2, h3⟩ | ⟨h1, h2, h3⟩ | ⟨h1, h2, h3⟩ | ⟨h1, h2, h3⟩)
    all_goals
      refine ⟨h1, by omega, by omega, ?_⟩
      intro u hu hb
      apply h3 u hu <;> omega
  · rintro ⟨h1, h2, h3, h4⟩
    by_cases c1 : t % 8 + (s - s % 8) / 8 = s % 8 + (t - t % 8) / 8
    · by_cases c2 : s % 8 < t % 8
      · refine Or.inr (Or.inl ⟨h1, by omega, ?_⟩)
        intro u hu hr hlt
        apply h4 u hu
        omega
      · refine Or.inr (Or.inr (Or.inr ⟨h1, by omega, ?_⟩))
        intro u hu hr hlt
        apply h4 u hu
        omega
    · by_cases c2 : s % 8 < t % 8
      · refine Or.inr (Or.inr (Or.inl ⟨h1, by omega, ?_⟩))
        intro u hu hr hlt
        apply h4 u hu
        omega
      · refine Or.inl ⟨h1, by omega, ?_⟩
        intro u hu hr hlt
        apply h4 u hu
        omega

/-! ## Apply and undo -/

theorem not_side_ne (side : Nat) : not_side side ≠ side := by
  unfold not_side
  split <;> omega

theorem piece_type_at_congr (b1 b : Board) (side : Nat) (square : Nat)
    (hocc : b1.occupied_ = b.occupied_) (hp : b1.pieces_ side = b.pieces_ side) :
    b1.piece_type_at side square = b.piece_type_at side square := by
  have hscan : ∀ fuel i, Board.piece_scan b1 side square fuel i =
      Board.piece_scan b side square fuel i := by
    intro fuel
    induction fuel with
    | zero => intro i; rfl
    | succ n ih =>
      intro i
      unfold Board.piece_scan
      rw [hp, ih]
  unfold Board.piece_type_at Board.square_occupied Board.square_occupied_side
  rw [hocc, hscan]

theorem set_piece_board_occupied (b : Board) (side piece : Nat) (board : Nat) :
    (b.set_piece_board side piece board).occupied_ = b.occupied_ := rfl

theorem set_piece_board_other (b : Board) (side piece : Nat) (board : Nat) (other : Nat)
    (h : other ≠ side) :
    (b.set_piece_board side piece board).pieces_ other = b.pieces_ other := by
  funext p
  unfold Board.set_piece_board
  simp only []
  rw [if_neg]
  intro hc
  exact h hc.1

theorem castle_pieces_occupied (b : Board) (side : Nat) (f t : Nat) :
    (Game.castle_pieces b side f t).occupied_ = b.occupied_ := rfl

theorem castle_pieces_other (b : Board) (side : Nat) (f t : Nat) (other : Nat)
    (h : other ≠ side) :
    (Game.castle_pieces b side f t).pieces_ other = b.pieces_ other := by
  unfold Game.castle_pieces
  simp only []
  rw [set_piece_board_other _ _ _ _ _ h, set_piece_board_other _ _ _ _ _ h]

theorem move_piece_occupied (b b1 : Board) (side : Nat) (pt : Int) (m : Move)
    (h : Game.move_piece b side pt m = some b1) : b1.occupied_ = b.occupied_ := by
  unfold Game.move_piece at h
  split at h
  · exact Option.noConfusion h
  · simp only [] at h
    split at h <;> split at h <;> (injection h with h; rw [← h]; rfl)

theorem move_piece_other (b b1 : Board) (side : Nat) (pt : Int) (m : Move) (other : Nat)
    (ho : other ≠ side) (h : Game.move_piece b side pt m = some b1) :
    b1.pieces_ other = b.pieces_ other := by
  unfold Game.move_piece at h
  split at h
  · exact Option.noConfusion h
  · simp only [] at h
    split at h <;> split at h <;> injection h with h <;> rw [← h] <;>
      simp only [set_piece_board_other _ _ _ _ _ ho]

theorem move_piece_defined (b : Board) (side : Nat) (pt : Int) (m : Move) (h : 0 ≤ pt) :
    ∃ b1, Game.move_piece b side pt m = some b1 := by
  unfold Game.move_piece
  rw [if_neg (by omega)]
  simp only []
  split <;> split <;> exact ⟨_, rfl⟩

theorem capture_piece_defined (b : Board) (side : Nat) (m : Move)
    (h : m.capture_ = true →
      0 ≤ b.piece_type_at (not_side side) (Game.capture_square side m)) :
    ∃ b2, Game.capture_piece b side m = some b2 := by
  unfold Game.capture_piece
  by_cases hc : m.capture_ = true
  · rw [if_pos hc]
    simp only []
    rw [if_neg (by have := h hc; omega)]
    repeat' split
    all_goals exact ⟨_, rfl⟩
  · rw [if_neg hc]
    exact ⟨_, rfl⟩

/-- The board on which `make_move` looks up the captured piece agrees, for the enemy side,
with the board before the move. -/
theorem moved_board_enemy (g : Game) (m : Move) (b1 : Board) (square : Nat)
    (h : (if m.castling g.board_ = true then
            some (Game.castle_pieces g.board_ g.board_.turn m.from_.val m.to_.val)
          else Game.move_piece g.board_ g.board_.turn
            (g.board_.piece_type_at g.board_.turn m.from_.val) m) = some b1) :
    b1.piece_type_at (not_side g.board_.turn) square =
      g.board_.piece_type_at (not_side g.board_.turn) square := by
  split at h
  · injection h with h
    rw [← h]
    exact piece_type_at_congr _ _ _ _ (castle_pieces_occupied _ _ _ _)
      (castle_pieces_other _ _ _ _ _ (not_side_ne _))
  · exact piece_type_at_congr _ _ _ _ (move_piece_occupied _ _ _ _ _ h)
      (move_piece_other _ _ _ _ _ _ (not_side_ne _) h)

theorem make_move_old_boards (g g1 : Game) (m : Move) (h : g.make_move m = some g1) :
    g1.old_boards_ = g.old_boards_ ++ [g.board_] := by
  unfold Game.make_move at h
  split at h
  · exact Option.noConfusion h
  · simp only [] at h
    split at h
    · exact Option.noConfusion h
    · split at h
      · exact Option.noConfusion h
      · injection h with h
        rw [← h]

theorem unmake_after_push (g1 g : Game) (h : g1.old_boards_ = g.old_boards_ ++ [g.board_]) :
    g1.unmake_move = some g := by
  unfold Game.unmake_move
  rw [h, List.getLast?_concat]
  simp only [List.dropLast_concat]

theorem make_move_unmake (g g1 : Game) (m : Move) (h : g.make_move m = some g1) :
    g1.unmake_move = some g :=
  unmake_after_push g1 g (make_move_old_boards g g1 m h)

theorem make_null_move_unmake (g : Game) : g.make_null_move.unmake_move = some g :=
  unmake_after_push _ g rfl

theorem make_move_defined (g : Game) (m : Move) (hnull : m.null = false)
    (hfrom : m.castling g.board_ = true ∨
      0 ≤ g.board_.piece_type_at g.board_.turn m.from_.val)
    (hcap : m.capture_ = true →
      0 ≤ g.board_.piece_type_at (not_side g.board_.turn)
        (Game.capture_square g.board_.turn m)) :
    ∃ g1, g.make_move m = some g1 := by
  unfold Game.make_move
  rw [if_neg (by rw [hnull]; exact Bool.noConfusion)]
  simp only []
  have hmoved : ∃ b1, (if m.castling g.board_ = true then
            some (Game.castle_pieces g.board_ g.board_.turn m.from_.val m.to_.val)
          else Game.move_piece g.board_ g.board_.turn
            (g.board_.piece_type_at g.board_.turn m.from_.val) m) = some b1 := by
    by_cases hc : m.castling g.board_ = true
    · rw [if_pos hc]
      exact ⟨_, rfl⟩
    · rw [if_neg hc]
      rcases hfrom with hf | hf
      · exact absurd hf hc
      · exact move_piece_defined _ _ _ _ hf
  obtain ⟨b1, hb1⟩ := hmoved
  rw [hb1]
  simp only []
  obtain ⟨b2, hb2⟩ := capture_piece_defined b1 g.board_.turn m (by
    intro hc
    rw [moved_board_enemy g m b1 _ hb1]
    exact hcap hc)
  rw [hb2]
  exact ⟨_, rfl⟩

/-! ## The bitboard iterator -/

theorem compl_testBit (b i : Nat) :
    (Bitboard.compl b).testBit i = (decide (i < 64) && !b.testBit i) := by
  unfold Bitboard.compl
  rw [Nat.testBit_mod_two_pow, Nat.testBit_xor, Nat.testBit_two_pow_sub_one]
  by_cases h : i < 64 <;> simp [h]

theorem unset_testBit (b sq i : Nat) :
    (Bitboard.unset b sq).testBit i = (b.testBit i && (decide (i < 64) && decide (sq ≠ i))) := by
  unfold Bitboard.unset
  rw [Nat.testBit_and, compl_testBit, mask_testBit]
  by_cases h : i < 64 <;> by_cases h2 : sq = i <;> simp [h, h2]

theorem set_testBit (b sq i : Nat) :
    (Bitboard.set b sq).testBit i = (b.testBit i || decide (i < 64 ∧ sq = i)) := by
  unfold Bitboard.set
  rw [Nat.testBit_or, mask_testBit]

theorem occupied_ne_zero_iff (b sq : Nat) :
    Bitboard.occupied b sq ≠ 0 ↔ sq < 64 ∧ b.testBit sq = true := by
  unfold Bitboard.occupied
  constructor
  · intro h
    obtain ⟨i, hi⟩ := Nat.ne_zero_implies_bit_true h
    rw [Nat.testBit_and, mask_testBit] at hi
    simp only [Bool.and_eq_true, decide_eq_true_eq] at hi
    obtain ⟨h1, h2, h3⟩ := hi
    rw [h3]
    exact ⟨h2, h1⟩
  · rintro ⟨h1, h2⟩ h
    have : (b &&& Bitboard.mask sq).testBit sq = true := by
      rw [Nat.testBit_and, mask_testBit, h2]
      simp [h1]
    rw [h] at this
    simp at this

theorem occupied_eq_zero_iff (b sq : Nat) :
    Bitboard.occupied b sq = 0 ↔ ¬ (sq < 64 ∧ b.testBit sq = true) := by
  rw [← occupied_ne_zero_iff]
  exact not_not.symm

theorem drain_mem (i : Nat) :
    ∀ fuel lo board, board < 2 ^ 64 → (∀ j, j < lo → board.testBit j = false) →
      64 ≤ lo + fuel →
      (i ∈ BitboardIterator.drain fuel board ↔ i < 64 ∧ board.testBit i = true) := by
  intro fuel
  induction fuel with
  | zero =>
    intro lo board _ hlo hf
    unfold BitboardIterator.drain
    constructor
    · intro h
      cases h
    · rintro ⟨h1, h2⟩
      rw [hlo i (by omega)] at h2
      exact Bool.noConfusion h2
  | succ n ih =>
    intro lo board hw hlo hf
    unfold BitboardIterator.drain
    by_cases hz : board = 0
    · rw [if_pos hz, hz]
      simp
    · rw [if_neg hz]
      simp only []
      obtain ⟨j, hj⟩ := Nat.ne_zero_implies_bit_true hz
      have hj64 : j < 64 := by
        by_contra hc
        rw [testBit_false_of_word hw (by omega)] at hj
        exact Bool.noConfusion hj
      obtain ⟨f1, f2, f3⟩ := find_first_spec board ⟨j, hj64, hj⟩
      generalize Bitboard.find_first board = idx at f1 f2 f3
      have hidx : lo ≤ idx := by
        by_contra hc
        rw [hlo idx (by omega)] at f1
        exact Bool.noConfusion f1
      have hw2 : Bitboard.unset board idx < 2 ^ 64 :=
        lt_of_le_of_lt Nat.and_le_left hw
      have hlo2 : ∀ k, k < idx + 1 → (Bitboard.unset board idx).testBit k = false := by
        intro k hk
        rw [unset_testBit]
        by_cases hki : k = idx
        · simp [hki]
        · rw [f3 k (by omega)]
          rfl
      rw [List.mem_cons, ih (idx + 1) _ hw2 hlo2 (by omega), unset_testBit]
      constructor
      · rintro (h | ⟨h1, h2⟩)
        · rw [h]
          exact ⟨f2, f1⟩
        · simp only [Bool.and_eq_true] at h2
          exact ⟨h1, h2.1⟩
      · rintro ⟨h1, h2⟩
        by_cases hii : i = idx
        · exact Or.inl hii
        · refine Or.inr ⟨h1, ?_⟩
          rw [h2]
          simp [h1]
          omega

/-- The iterator yields exactly the set bits of the word. -/
theorem mem_squares (b i : Nat) :
    i ∈ BitboardIterator.squares b ↔ i < 64 ∧ b.testBit i = true := by
  unfold BitboardIterator.squares
  rw [drain_mem i 64 0 (b % 2 ^ 64) (Nat.mod_lt _ (by norm_num)) (by intro j hj; omega)
    (by omega), Nat.testBit_mod_two_pow]
  constructor
  · rintro ⟨h1, h2⟩
    simp only [Bool.and_eq_true] at h2
    exact ⟨h1, h2.2⟩
  · rintro ⟨h1, h2⟩
    refine ⟨h1, ?_⟩
    rw [h2]
    simp [h1]

/-! ## Facts about the leaper and pawn tables -/

theorem pawn_move_board_side (side : Nat) (s : Nat) :
    pawn_move_board side s = pawn_move_board (if side = 0 then 0 else 1) s := by
  by_cases h : side = 0
  · rw [if_pos h, h]
  · rw [if_neg h]
    unfold pawn_move_board pawn_move_tables compute_pawn_move_tables
    simp [h]

theorem pawn_double_move_board_side (side : Nat) (s : Nat) :
    pawn_double_move_board side s = pawn_double_move_board (if side = 0 then 0 else 1) s := by
  by_cases h : side = 0
  · rw [if_pos h, h]
  · rw [if_neg h]
    unfold pawn_double_move_board pawn_double_move_tables compute_pawn_double_move_tables
    simp [h]

theorem pawn_attack_board_side (side : Nat) (s : Nat) :
    pawn_attack_board side s = pawn_attack_board (if side = 0 then 0 else 1) s := by
  by_cases h : side = 0
  · rw [if_pos h, h]
  · rw [if_neg h]
    unfold pawn_attack_board pawn_capture_tables compute_pawn_capture_tables
    simp [h]

theorem pawn_tables_irrefl_check : ∀ side, side < 2 → ∀ s, s < 64 →
    (pawn_move_board side s).testBit s = false ∧
    (pawn_double_move_board side s).testBit s = false ∧
    (pawn_attack_board side s).testBit s = false := by
  decide!

theorem pawn_tables_irrefl (side s : Nat) (hs : s < 64) :
    (pawn_move_board side s).testBit s = false ∧
    (pawn_double_move_board side s).testBit s = false ∧
    (pawn_attack_board side s).testBit s = false := by
  rw [pawn_move_board_side, pawn_double_move_board_side, pawn_attack_board_side]
  apply pawn_tables_irrefl_check _ _ s hs
  split <;> omega

theorem knight_table_irrefl : ∀ s, s < 64 → (knight_attack_board s).testBit s = false := by
  decide!

theorem king_table_check : ∀ s, s < 64 → ∀ t, t < 64 →
    (king_attack_board s).testBit t = decide (king_step s t) := by
  decide!

theorem king_table_step (s t : Nat) (hs : s < 64) (ht : t < 64)
    (h : (king_attack_board s).testBit t = true) : king_step s t := by
  rw [king_table_check s hs t ht] at h
  exact of_decide_eq_true h

theorem queen_attack_bits (occ s t : Nat) :
    (queen_attack_board occ s).testBit t = true ↔
      (bishop_attack_board occ s).testBit t = true ∨
      (rook_attack_board occ s).testBit t = true := by
  rw [bishop_attack_bits, rook_attack_bits]
  unfold queen_attack_board ray_attack_table
  simp [Nat.testBit_or, or_assoc]

theorem rook_attack_irrefl (occ s : Nat) (hs : s < 64) :
    (rook_attack_board occ s).testBit s = false := by
  cases h : (rook_attack_board occ s).testBit s
  · rfl
  · exact absurd rfl ((rook_attack_iff occ s s hs).1 h).2.1

theorem bishop_attack_irrefl (occ s : Nat) (hs : s < 64) :
    (bishop_attack_board occ s).testBit s = false := by
  cases h : (bishop_attack_board occ s).testBit s
  · rfl
  · exact absurd rfl ((bishop_attack_iff occ s s hs).1 h).2.1

theorem queen_attack_irrefl (occ s : Nat) (hs : s < 64) :
    (queen_attack_board occ s).testBit s = false := by
  cases h : (queen_attack_board occ s).testBit s
  · rfl
  · rcases (queen_attack_bits occ s s).1 h with h1 | h1
    · rw [bishop_attack_irrefl occ s hs] at h1
      exact Bool.noConfusion h1
    · rw [rook_attack_irrefl occ s hs] at h1
      exact Bool.noConfusion h1

/-! ## What the generators put in the list -/

theorem move_new_fields (f t : Nat) (c e : Bool) (p : Fin 4) (hf : f < 64) (ht : t < 64) :
    (Move.new f t c e p).from_.val = f ∧ (Move.new f t c e p).to_.val = t ∧
      (Move.new f t c e p).capture_ = c ∧ (Move.new f t c e p).ep_ = e := by
  unfold Move.new
  simp only [Nat.mod_eq_of_lt hf, Nat.mod_eq_of_lt ht, and_self]

theorem mem_pawn_targets (m : Move) (f : Nat) (targets : Nat) (r : Nat) (c : Bool)
    (hf : f < 64) (h : m ∈ MoveGenerator.pawn_targets f targets r c) :
    FromTo m f targets ∧ m.capture_ = c ∧ m.ep_ = false := by
  unfold MoveGenerator.pawn_targets at h
  rw [List.mem_flatMap] at h
  obtain ⟨t, ht, hm⟩ := h
  obtain ⟨ht1, ht2⟩ := (mem_squares _ _).1 ht
  have key : ∀ p, m = Move.new f t c false p →
      FromTo m f targets ∧ m.capture_ = c ∧ m.ep_ = false := by
    intro p hp
    obtain ⟨a1, a2, a3, a4⟩ := move_new_fields f t c false p hf ht1
    rw [hp]
    refine ⟨⟨a1, ?_, ?_⟩, a3, a4⟩
    · rw [a2]
      exact ht1
    · rw [a2]
      exact ht2
  split at hm
  · rw [List.mem_map] at hm
    obtain ⟨p, _, hp⟩ := hm
    exact key p hp.symm
  · rw [List.mem_singleton] at hm
    exact key _ hm

theorem mem_moves_to (m : Move) (b : Board) (f : Nat) (targets : Nat)
    (hf : f < 64) (h : m ∈ MoveGenerator.moves_to b f targets) :
    FromTo m f targets ∧ m.ep_ = false ∧
      m.capture_ = decide (Bitboard.occupied (b.occupied_side (not_side b.turn)) m.to_.val ≠ 0) := by
  unfold MoveGenerator.moves_to at h
  simp only [] at h
  rw [List.mem_map] at h
  obtain ⟨t, ht, hm⟩ := h
  obtain ⟨ht1, ht2⟩ := (mem_squares _ _).1 ht
  obtain ⟨a1, a2, a3, a4⟩ := move_new_fields f t
    (decide (Bitboard.occupied (b.occupied_side (not_side b.turn)) t ≠ 0)) false kPromoteQueen
    hf ht1
  rw [← hm]
  refine ⟨⟨a1, ?_, ?_⟩, a4, ?_⟩
  · rw [a2]
    exact ht1
  · rw [a2]
    exact ht2
  · rw [a3, a2]

theorem ep_board_bits (b : Board) (side f t : Nat)
    (h : (MoveGenerator.ep_board b side f).testBit t = true) :
    t = b.ep_square ∧ t < 64 ∧ t ≠ f := by
  unfold MoveGenerator.ep_board at h
  simp only [] at h
  have e1 : Square.index (u8 (-1)) (u8 (-1)) = 247 := by decide
  have e2 : Square.index (u8 1) (u8 (-1)) = 249 := by decide
  have e3 : Square.index (u8 (-1)) (u8 1) = 7 := by decide
  have e4 : Square.index (u8 1) (u8 1) = 9 := by decide
  by_cases hne : b.ep_square ≠ null_square
  · rw [if_pos hne] at h
    by_cases hoff : Square.offset b.ep_square (-1) (if side = 0 then -1 else 1) = f ∨
        Square.offset b.ep_square 1 (if side = 0 then -1 else 1) = f
    · rw [if_pos hoff, set_testBit] at h
      simp only [Nat.zero_testBit, Bool.false_or, decide_eq_true_eq] at h
      obtain ⟨h1, h2⟩ := h
      refine ⟨h2.symm, h1, ?_⟩
      intro hc
      rw [h2, hc] at hoff
      unfold Square.offset at hoff
      by_cases hs : side = 0
      · simp only [if_pos hs, e1, e2] at hoff
        omega
      · simp only [if_neg hs, e3, e4] at hoff
        omega
    · rw [if_neg hoff] at h
      simp at h
  · rw [if_neg hne] at h
    simp at h

theorem mem_generate_pawn_moves (b : Board) (m : Move)
    (h : m ∈ MoveGenerator.generate_pawn_moves b) :
    (b.pieces_ b.turn kPiecePawn).testBit m.from_.val = true ∧ m.from_.val ≠ m.to_.val := by
  unfold MoveGenerator.generate_pawn_moves at h
  rw [List.mem_flatMap] at h
  obtain ⟨f, hf, hm⟩ := h
  obtain ⟨hf1, hf2⟩ := (mem_squares _ _).1 hf
  obtain ⟨i1, i2, i3⟩ := pawn_tables_irrefl b.turn f hf1
  unfold MoveGenerator.pawn_moves_from at hm
  simp only [] at hm
  rw [List.mem_append, List.mem_append] at hm
  rcases hm with (hm | hm) | hm
  · obtain ⟨⟨a1, a2, a3⟩, _⟩ := mem_pawn_targets m f _ _ _ hf1 hm
    rw [a1]
    refine ⟨hf2, ?_⟩
    intro hc
    rw [← hc] at a3
    split at a3
    · rw [Nat.testBit_or, Nat.testBit_and, Nat.testBit_and, i1, i2] at a3
      simp at a3
    · rw [Nat.testBit_and, i1] at a3
      simp at a3
  · obtain ⟨⟨a1, a2, a3⟩, _⟩ := mem_pawn_targets m f _ _ _ hf1 hm
    rw [a1]
    refine ⟨hf2, ?_⟩
    intro hc
    rw [← hc, Nat.testBit_and, i3] at a3
    simp at a3
  · rw [List.mem_map] at hm
    obtain ⟨t, ht, hmt⟩ := hm
    obtain ⟨ht1, ht2⟩ := (mem_squares _ _).1 ht
    obtain ⟨e1, e2, e3⟩ := ep_board_bits b b.turn f t ht2
    obtain ⟨a1, a2, _⟩ := move_new_fields f t true true kPromoteQueen hf1 ht1
    rw [← hmt, a1, a2]
    exact ⟨hf2, fun hc => e3 hc.symm⟩

theorem mem_generate_knight_moves (b : Board) (m : Move)
    (h : m ∈ MoveGenerator.generate_knight_moves b) :
    (b.pieces_ b.turn kPieceKnight).testBit m.from_.val = true ∧ m.from_.val ≠ m.to_.val := by
  unfold MoveGenerator.generate_knight_moves at h
  rw [List.mem_flatMap] at h
  obtain ⟨f, hf, hm⟩ := h
  obtain ⟨hf1, hf2⟩ := (mem_squares _ _).1 hf
  obtain ⟨⟨a1, a2, a3⟩, _⟩ := mem_moves_to m b f _ hf1 hm
  rw [a1]
  refine ⟨hf2, ?_⟩
  intro hc
  rw [← hc, Nat.testBit_and, knight_table_irrefl f hf1] at a3
  simp at a3

theorem mem_generate_ray_moves (b : Board) (m : Move) (f : Nat) (table : Nat)
    (hf : f < 64) (hirr : table.testBit f = false)
    (h : m ∈ MoveGenerator.generate_ray_moves b f table) :
    m.from_.val = f ∧ m.from_.val ≠ m.to_.val := by
  unfold MoveGenerator.generate_ray_moves at h
  obtain ⟨⟨a1, a2, a3⟩, _⟩ := mem_moves_to m b f _ hf h
  rw [a1]
  refine ⟨rfl, ?_⟩
  intro hc
  rw [← hc, Nat.testBit_and, hirr] at a3
  simp at a3

theorem mem_generate_bishop_moves (b : Board) (m : Move)
    (h : m ∈ MoveGenerator.generate_bishop_moves b) :
    (b.pieces_ b.turn kPieceBishop).testBit m.from_.val = true ∧ m.from_.val ≠ m.to_.val := by
  unfold MoveGenerator.generate_bishop_moves at h
  rw [List.mem_flatMap] at h
  obtain ⟨f, hf, hm⟩ := h
  obtain ⟨hf1, hf2⟩ := (mem_squares _ _).1 hf
  obtain ⟨a1, a2⟩ := mem_generate_ray_moves b m f _ hf1 (bishop_attack_irrefl _ f hf1) hm
  rw [a1] at a2 ⊢
  exact ⟨hf2, a2⟩

theorem mem_generate_rook_moves (b : Board) (m : Move)
    (h : m ∈ MoveGenerator.generate_rook_moves b) :
    (b.pieces_ b.turn kPieceRook).testBit m.from_.val = true ∧ m.from_.val ≠ m.to_.val := by
  unfold MoveGenerator.generate_rook_moves at h
  rw [List.mem_flatMap] at h
  obtain ⟨f, hf, hm⟩ := h
  obtain ⟨hf1, hf2⟩ := (mem_squares _ _).1 hf
  obtain ⟨a1, a2⟩ := mem_generate_ray_moves b m f _ hf1 (rook_attack_irrefl _ f hf1) hm
  rw [a1] at a2 ⊢
  exact ⟨hf2, a2⟩

theorem mem_generate_queen_moves (b : Board) (m : Move)
    (h : m ∈ MoveGenerator.generate_queen_moves b) :
    (b.pieces_ b.turn kPieceQueen).testBit m.from_.val = true ∧ m.from_.val ≠ m.to_.val := by
  unfold MoveGenerator.generate_queen_moves at h
  rw [List.mem_flatMap] at h
  obtain ⟨f, hf, hm⟩ := h
  obtain ⟨hf1, hf2⟩ := (mem_squares _ _).1 hf
  obtain ⟨a1, a2⟩ := mem_generate_ray_moves b m f _ hf1 (queen_attack_irrefl _ f hf1) hm
  rw [a1] at a2 ⊢
  exact ⟨hf2, a2⟩

theorem mem_generate_king_moves (b : Board) (m : Move)
    (h : m ∈ MoveGenerator.generate_king_moves b) :
    (b.pieces_ b.turn kPieceKing).testBit m.from_.val = true ∧
      king_step m.from_.val m.to_.val := by
  unfold MoveGenerator.generate_king_moves at h
  rw [List.mem_flatMap] at h
  obtain ⟨f, hf, hm⟩ := h
  obtain ⟨hf1, hf2⟩ := (mem_squares _ _).1 hf
  obtain ⟨⟨a1, a2, a3⟩, _⟩ := mem_moves_to m b f _ hf1 hm
  rw [a1]
  refine ⟨hf2, ?_⟩
  rw [Nat.testBit_and] at a3
  simp only [Bool.and_eq_true] at a3
  exact king_table_step f _ hf1 a2 a3.1

/-- Every pseudo-legal move starts on a square set in one of the six piece boards of the side
to move and ends on a different square; a move of the king generator is a king step. -/
theorem mem_generate_pseudolegal_moves (b : Board) (m : Move)
    (h : m ∈ MoveGenerator.generate_pseudolegal_moves b) :
    m.from_.val ≠ m.to_.val ∧
      ((∃ piece, piece < 5 ∧ (b.pieces_ b.turn piece).testBit m.from_.val = true) ∨
       ((b.pieces_ b.turn kPieceKing).testBit m.from_.val = true ∧
          king_step m.from_.val m.to_.val)) := by
  unfold MoveGenerator.generate_pseudolegal_moves at h
  simp only [List.mem_append] at h
  rcases h with ((((h | h) | h) | h) | h) | h
  · obtain ⟨a, b1⟩ := mem_generate_pawn_moves b m h
    exact ⟨b1, Or.inl ⟨kPiecePawn, by decide, a⟩⟩
  · obtain ⟨a, b1⟩ := mem_generate_knight_moves b m h
    exact ⟨b1, Or.inl ⟨kPieceKnight, by decide, a⟩⟩
  · obtain ⟨a, b1⟩ := mem_generate_bishop_moves b m h
    exact ⟨b1, Or.inl ⟨kPieceBishop, by decide, a⟩⟩
  · obtain ⟨a, b1⟩ := mem_generate_rook_moves b m h
    exact ⟨b1, Or.inl ⟨kPieceRook, by decide, a⟩⟩
  · obtain ⟨a, b1⟩ := mem_generate_queen_moves b m h
    exact ⟨b1, Or.inl ⟨kPieceQueen, by decide, a⟩⟩
  · obtain ⟨a, b1⟩ := mem_generate_king_moves b m h
    exact ⟨b1.1, Or.inr ⟨a, b1⟩⟩

theorem pseudolegal_not_null (b : Board) (m : Move)
    (h : m ∈ MoveGenerator.generate_pseudolegal_moves b) : m.null = false := by
  obtain ⟨hne, _⟩ := mem_generate_pseudolegal_moves b m h
  unfold Move.null
  by_cases h1 : m.from_.val = 0
  · have h2 : ¬ m.to_.val = 0 := fun hc => hne (h1.trans hc.symm)
    simp [h1, h2]
  · simp [h1]

/-! ## The filter loop of `generate_legal_moves` -/

theorem legal_step_eq (side : Nat) (g g1 : Game) (acc : List Move) (m : Move)
    (h : g.make_move m = some g1) :
    MoveGenerator.legal_step side (g, acc) m =
      some (g, if check_after side g m = true then acc else acc ++ [m]) := by
  unfold MoveGenerator.legal_step check_after
  simp only [h, make_move_unmake g g1 m h, MoveList.add_move]
  split <;> rfl

theorem legal_step_none (side : Nat) (g : Game) (acc : List Move) (m : Move)
    (h : g.make_move m = none) : MoveGenerator.legal_step side (g, acc) m = none := by
  unfold MoveGenerator.legal_step
  simp only [h]

theorem legal_loop_eq (side : Nat) (g : Game) :
    ∀ (l acc : List Move), (∀ m, m ∈ l → ∃ g1, g.make_move m = some g1) →
      MoveGenerator.legal_loop side l (g, acc) =
        some (g, acc ++ l.filter (fun m => !check_after side g m)) := by
  intro l
  induction l with
  | nil =>
    intro acc _
    simp [MoveGenerator.legal_loop]
  | cons m rest ih =>
    intro acc hdef
    obtain ⟨g1, hg1⟩ := hdef m (List.mem_cons_self _ _)
    unfold MoveGenerator.legal_loop
    rw [legal_step_eq side g g1 acc m hg1]
    simp only []
    rw [ih _ (fun x hx => hdef x (List.mem_cons_of_mem _ hx))]
    by_cases hc : check_after side g m = true
    · simp [hc]
    · simp [hc]

theorem legal_loop_defined (side : Nat) (g : Game) :
    ∀ (l acc : List Move) (st : Game × List Move),
      MoveGenerator.legal_loop side l (g, acc) = some st →
        ∀ m, m ∈ l → ∃ g1, g.make_move m = some g1 := by
  intro l
  induction l with
  | nil =>
    intro acc st _ m hm
    cases hm
  | cons x rest ih =>
    intro acc st h m hm
    unfold MoveGenerator.legal_loop at h
    cases hx : g.make_move x with
    | none =>
      rw [legal_step_none side g acc x hx] at h
      exact Option.noConfusion h
    | some g1 =>
      rw [legal_step_eq side g g1 acc x hx] at h
      simp only [] at h
      rcases List.mem_cons.1 hm with he | hr
      · exact ⟨g1, by rw [he]; exact hx⟩
      · exact ih _ st h m hr

theorem generate_castling_moves_eq (g : Game) :
    MoveGenerator.generate_castling_moves g = some (g, castling_moves_of g) := by
  unfold castling_moves_of
  unfold MoveGenerator.generate_castling_moves
  simp only [make_null_move_unmake g]
  split <;> rfl

/-- The list `generate_legal_moves` returns when every `make_move` of its loop is defined:
the pseudo-legal moves that do not leave the mover in check, in order, followed by the
castling moves unless the mover is in check; the game is handed back unchanged. -/
theorem generate_legal_moves_eq (g : Game)
    (hdef : ∀ m, m ∈ MoveGenerator.generate_pseudolegal_moves g.board_ →
      ∃ g1, g.make_move m = some g1) :
    MoveGenerator.generate_legal_moves g =
      some (g,
        (MoveGenerator.generate_pseudolegal_moves g.board_).filter
            (fun m => !check_after g.board_.turn g m) ++
          (if g.board_.check g.board_.turn = true then [] else castling_moves_of g)) := by
  unfold MoveGenerator.generate_legal_moves
  simp only []
  rw [legal_loop_eq g.board_.turn g _ [] hdef]
  simp only [List.nil_append]
  by_cases hc : g.board_.check g.board_.turn = true
  · simp [hc]
  · simp [hc, generate_castling_moves_eq g]

theorem generate_legal_moves_some (g : Game) (st : Game × List Move)
    (h : MoveGenerator.generate_legal_moves g = some st) :
    st = (g,
        (MoveGenerator.generate_pseudolegal_moves g.board_).filter
            (fun m => !check_after g.board_.turn g m) ++
          (if g.board_.check g.board_.turn = true then [] else castling_moves_of g)) := by
  have hdef : ∀ m, m ∈ MoveGenerator.generate_pseudolegal_moves g.board_ →
      ∃ g1, g.make_move m = some g1 := by
    unfold MoveGenerator.generate_legal_moves at h
    simp only [] at h
    cases hl : MoveGenerator.legal_loop g.board_.turn
        (MoveGenerator.generate_pseudolegal_moves g.board_) (g, []) with
    | none =>
      rw [hl] at h
      exact Option.noConfusion h
    | some st1 => exact legal_loop_defined _ _ _ _ st1 hl
  rw [generate_legal_moves_eq g hdef] at h
  injection h with h
  exact h.symm

/-! ## Occupancy and `piece_type_at` -/

theorem side_union_testBit (b : Board) (side i : Nat) :
    (b.side_union side).testBit i = true ↔
      ∃ piece, piece < 6 ∧ (b.pieces_ side piece).testBit i = true := by
  have hr : List.range 6 = [0, 1, 2, 3, 4, 5] := by decide
  unfold Board.side_union Board.piece_board Bitboard.set_board
  rw [hr]
  simp only [List.foldl, Nat.testBit_or, Nat.zero_testBit, Bool.false_or, Bool.or_eq_true]
  constructor
  · rintro (((((h | h) | h) | h) | h) | h)
    · exact ⟨0, by omega, h⟩
    · exact ⟨1, by omega, h⟩
    · exact ⟨2, by omega, h⟩
    · exact ⟨3, by omega, h⟩
    · exact ⟨4, by omega, h⟩
    · exact ⟨5, by omega, h⟩
  · rintro ⟨p, hp, h⟩
    interval_cases p
    · exact Or.inl (Or.inl (Or.inl (Or.inl (Or.inl h))))
    · exact Or.inl (Or.inl (Or.inl (Or.inl (Or.inr h))))
    · exact Or.inl (Or.inl (Or.inl (Or.inr h)))
    · exact Or.inl (Or.inl (Or.inr h))
    · exact Or.inl (Or.inr h)
    · exact Or.inr h

theorem piece_scan_nonneg (b : Board) (side square : Nat) :
    ∀ fuel i, (∃ p, i ≤ p ∧ p < i + fuel ∧ Bitboard.occupied (b.pieces_ side p) square ≠ 0) →
      0 ≤ Board.piece_scan b side square fuel i := by
  intro fuel
  induction fuel with
  | zero =>
    rintro i ⟨p, h1, h2, _⟩
    omega
  | succ n ih =>
    rintro i ⟨p, h1, h2, h3⟩
    unfold Board.piece_scan
    split
    · exact Int.natCast_nonneg i
    · rename_i hno
      have hne : p ≠ i := by
        intro hc
        rw [hc] at h3
        exact hno h3
      exact ih (i + 1) ⟨p, by omega, by omega, h3⟩

/-- What a non-negative answer of the scan means: the piece index is below `i + fuel` and the
board of that piece holds the square, while no earlier board from `i` on does. -/
theorem piece_scan_found (b : Board) (side square : Nat) :
    ∀ fuel i (r : Int), Board.piece_scan b side square fuel i = r → 0 ≤ r →
      ∃ p : Nat, r = (p : Int) ∧ i ≤ p ∧ p < i + fuel ∧
        Bitboard.occupied (b.pieces_ side p) square ≠ 0 ∧
        ∀ q, i ≤ q → q < p → Bitboard.occupied (b.pieces_ side q) square = 0 := by
  intro fuel
  induction fuel with
  | zero =>
    intro i r h hr
    unfold Board.piece_scan at h
    omega
  | succ n ih =>
    intro i r h hr
    unfold Board.piece_scan at h
    split at h
    · rename_i hocc
      exact ⟨i, h.symm, le_refl _, by omega, hocc, fun q h1 h2 => by omega⟩
    · rename_i hno
      obtain ⟨p, e1, e2, e3, e4, e5⟩ := ih (i + 1) r h hr
      refine ⟨p, e1, by omega, by omega, e4, ?_⟩
      intro q hq1 hq2
      by_cases hqi : q = i
      · rw [hqi]
        exact not_not.1 hno
      · exact e5 q (by omega) hq2

theorem piece_type_at_nonneg (b : Board) (side square : Nat) (hs : side < 2)
    (hinv : occupancy_invariant b) (hsq : square < 64)
    (hp : ∃ piece, piece < 6 ∧ (b.pieces_ side piece).testBit square = true) :
    0 ≤ b.piece_type_at side square := by
  have hocc : Bitboard.occupied (b.occupied_ side) square ≠ 0 := by
    rw [occupied_ne_zero_iff, hinv side hs, side_union_testBit]
    exact ⟨hsq, hp⟩
  have hso : b.square_occupied square = true := by
    unfold Board.square_occupied Board.square_occupied_side
    have h01 : side = 0 ∨ side = 1 := by omega
    rcases h01 with h0 | h1
    · rw [h0] at hocc
      simp [hocc]
    · rw [h1] at hocc
      simp [hocc]
  unfold Board.piece_type_at
  rw [if_neg (by simp [hso])]
  obtain ⟨p, hp1, hp2⟩ := hp
  exact piece_scan_nonneg b side square 6 0
    ⟨p, by omega, by omega, (occupied_ne_zero_iff _ _).2 ⟨hsq, hp2⟩⟩

/-- On a board satisfying the occupancy invariant, `make_move` is defined on every pseudo-legal
move whose capture square, when the move is flagged capture, holds an enemy piece. -/
theorem pseudolegal_make_move_defined (g : Game) (hside : g.board_.turn < 2)
    (hinv : occupancy_invariant g.board_) (m : Move)
    (hm : m ∈ MoveGenerator.generate_pseudolegal_moves g.board_)
    (hcap : m.capture_ = true →
      0 ≤ g.board_.piece_type_at (not_side g.board_.turn)
        (Game.capture_square g.board_.turn m)) :
    ∃ g1, g.make_move m = some g1 := by
  apply make_move_defined g m (pseudolegal_not_null _ m hm) _ hcap
  right
  apply piece_type_at_nonneg _ _ _ hside hinv m.from_.isLt
  obtain ⟨_, h⟩ := mem_generate_pseudolegal_moves _ m hm
  rcases h with ⟨p, hp, hb⟩ | ⟨hb, _⟩
  · exact ⟨p, by omega, hb⟩
  · exact ⟨kPieceKing, by decide, hb⟩

/-! ## The castling generator -/

theorem foldl_set_testBit (t : Nat) :
    ∀ (l : List Move) (acc : Nat),
      (l.foldl (fun attacked move => Bitboard.set attacked move.to_.val) acc).testBit t = true ↔
        acc.testBit t = true ∨ ∃ m, m ∈ l ∧ m.to_.val = t := by
  intro l
  induction l with
  | nil =>
    intro acc
    simp
  | cons x rest ih =>
    intro acc
    rw [List.foldl_cons, ih, set_testBit]
    simp only [Bool.or_eq_true, decide_eq_true_eq, List.mem_cons]
    constructor
    · rintro ((h | ⟨_, h⟩) | ⟨m, hm, h⟩)
      · exact Or.inl h
      · exact Or.inr ⟨x, Or.inl rfl, h⟩
      · exact Or.inr ⟨m, Or.inr hm, h⟩
    · rintro (h | ⟨m, hm | hm, h⟩)
      · exact Or.inl (Or.inl h)
      · rw [hm] at h
        exact Or.inl (Or.inr ⟨by rw [← h]; exact x.to_.isLt, h⟩)
      · exact Or.inr ⟨m, hm, h⟩

theorem null_move_null : (Move.new 0 0 false false kPromoteQueen).null = true := by decide

/-- The attacked board of `generate_castling_moves` holds exactly the destinations of the
opponent's moves, provided none of them is a null move. -/
theorem attacked_squares_testBit (l : List Move) (hnn : ∀ m, m ∈ l → m.null = false) (t : Nat) :
    (MoveGenerator.attacked_squares l).testBit t = true ↔ ∃ m, m ∈ l ∧ m.to_.val = t := by
  unfold MoveGenerator.attacked_squares MoveList.moves
  rw [List.takeWhile_append_of_pos (by
    intro a ha
    rw [hnn a ha]
    rfl)]
  rw [List.takeWhile_replicate]
  simp only [null_move_null, Bool.not_true, Bool.false_eq_true, if_false, List.append_nil]
  rw [foldl_set_testBit]
  simp

theorem wing_clear_iff (b : Board) (attacked : Nat) (squares : List Nat) :
    MoveGenerator.wing_clear b attacked squares = true ↔
      ∀ sq, sq ∈ squares → b.square_occupied sq = false ∧ Bitboard.occupied attacked sq = 0 := by
  unfold MoveGenerator.wing_clear
  rw [List.all_eq_true]
  constructor
  · intro h sq hsq
    have := h sq hsq
    simp only [Bool.not_eq_true', Bool.or_eq_false_iff, decide_eq_false_iff_not, ne_eq,
      not_not] at this
    exact this
  · intro h sq hsq
    obtain ⟨h1, h2⟩ := h sq hsq
    simp [h1, h2]

theorem wing_safe_iff (b : Board) (attacked right : Nat) (squares : List Nat) (corner : Nat) :
    MoveGenerator.wing_safe b attacked right squares corner = true ↔
      b.castling right = true ∧ MoveGenerator.wing_clear b attacked squares = true ∧
        b.square_occupied corner = true := by
  unfold MoveGenerator.wing_safe
  simp only []
  by_cases h1 : b.castling right = true
  · by_cases h2 : b.square_occupied corner = true
    · simp [h1, h2]
    · simp [h1, h2]
  · simp [h1]

/-- The board of attacked squares used by `generate_castling_moves` on `game`. -/
theorem castling_moves_of_eq (g : Game) :
    castling_moves_of g =
      (if MoveGenerator.wing_safe g.board_
            (MoveGenerator.attacked_squares
              (MoveGenerator.generate_pseudolegal_moves g.make_null_move.board_))
            (castle_right g.board_.turn false) (wing_between g.board_.turn false)
            (rook_corner g.board_.turn false) = true
        then [Move.new ([Square.mk 4 0, Square.mk 4 7].getD g.board_.turn 0)
                (castle_dest g.board_.turn false) false false kPromoteQueen]
        else []) ++
      (if MoveGenerator.wing_safe g.board_
            (MoveGenerator.attacked_squares
              (MoveGenerator.generate_pseudolegal_moves g.make_null_move.board_))
            (castle_right g.board_.turn true) (wing_between g.board_.turn true)
            (rook_corner g.board_.turn true) = true
        then [Move.new ([Square.mk 4 0, Square.mk 4 7].getD g.board_.turn 0)
                (castle_dest g.board_.turn true) false false kPromoteQueen]
        else []) := by
  unfold castling_moves_of MoveGenerator.generate_castling_moves
  simp only [make_null_move_unmake g]
  by_cases hs : g.board_.turn = kSideWhite
  · simp [hs, castle_right, wing_between, rook_corner, castle_dest, back_rank]
  · simp [hs, castle_right, wing_between, rook_corner, castle_dest, back_rank]

/-! ## Castling moves in the returned list -/

theorem castling_false_of_no_king (b : Board) (m : Move)
    (h : (b.pieces_ b.turn kPieceKing).testBit m.from_.val = false) : m.castling b = false := by
  unfold Move.castling
  simp only []
  rw [if_pos]
  unfold Board.kings
  rw [occupied_eq_zero_iff]
  rintro ⟨_, h2⟩
  rw [h] at h2
  exact Bool.noConfusion h2

theorem castling_false_of_king_step (b : Board) (m : Move)
    (h : king_step m.from_.val m.to_.val) : m.castling b = false := by
  unfold Move.castling
  simp only []
  unfold king_step at h
  obtain ⟨_, h1, h2, _, _⟩ := h
  split
  · rfl
  · split
    · rfl
    · simp only [gt_iff_lt, decide_eq_false_iff_not, not_lt]
      omega

/-- Under king disjointness no pseudo-legal move is geometrically a castling move. -/
theorem pseudolegal_not_castling (b : Board) (hdisj : king_disjoint b b.turn) (m : Move)
    (hm : m ∈ MoveGenerator.generate_pseudolegal_moves b) : m.castling b = false := by
  obtain ⟨_, h⟩ := mem_generate_pseudolegal_moves b m hm
  rcases h with ⟨p, hp, hb⟩ | ⟨_, hk⟩
  · apply castling_false_of_no_king
    cases hx : (b.pieces_ b.turn kPieceKing).testBit m.from_.val
    · rfl
    · exact absurd ⟨hb, hx⟩ (hdisj p hp m.from_.val m.from_.isLt)
  · exact castling_false_of_king_step b m hk

theorem legal_moves_list_some (g : Game) (l : List Move) (h : legal_moves_list g = some l) :
    l = (MoveGenerator.generate_pseudolegal_moves g.board_).filter
            (fun m => !check_after g.board_.turn g m) ++
          (if g.board_.check g.board_.turn = true then [] else castling_moves_of g) := by
  unfold legal_moves_list at h
  cases hg : MoveGenerator.generate_legal_moves g with
  | none =>
    rw [hg] at h
    exact Option.noConfusion h
  | some st =>
    rw [hg] at h
    simp only [Option.map_some'] at h
    injection h with h
    rw [← h, generate_legal_moves_some g st hg]

theorem attacked_of_destination (g : Game) (m : Move)
    (hm : m ∈ MoveGenerator.generate_pseudolegal_moves g.make_null_move.board_) :
    Bitboard.occupied
      (MoveGenerator.attacked_squares
        (MoveGenerator.generate_pseudolegal_moves g.make_null_move.board_)) m.to_.val ≠ 0 := by
  rw [occupied_ne_zero_iff, attacked_squares_testBit _ (fun x hx => pseudolegal_not_null _ x hx)]
  exact ⟨m.to_.isLt, m, hm, rfl⟩

theorem not_attacked_of_no_destination (g : Game) (sq : Nat)
    (h : ∀ m, m ∈ MoveGenerator.generate_pseudolegal_moves g.make_null_move.board_ →
      m.to_.val ≠ sq) :
    Bitboard.occupied
      (MoveGenerator.attacked_squares
        (MoveGenerator.generate_pseudolegal_moves g.make_null_move.board_)) sq = 0 := by
  rw [occupied_eq_zero_iff, attacked_squares_testBit _ (fun x hx => pseudolegal_not_null _ x hx)]
  rintro ⟨_, m, hm, hto⟩
  exact h m hm hto

theorem move_new_from (f t : Nat) (c e : Bool) (p : Fin 4) :
    (Move.new f t c e p).from_.val = f % 64 := rfl

theorem move_new_to (f t : Nat) (c e : Bool) (p : Fin 4) :
    (Move.new f t c e p).to_.val = t % 64 := rfl

theorem castle_dest_ne (side : Nat) (k : Nat) (q : Bool) :
    (Move.new k (castle_dest side q) false false kPromoteQueen).to_.val ≠
      castle_dest side (!q) := by
  rw [move_new_to]
  unfold castle_dest back_rank
  by_cases hs : side = kSideWhite <;> cases q <;> simp only [hs, if_true, if_false] <;> decide

theorem castle_dest_eq (side : Nat) (k : Nat) (q : Bool) :
    (Move.new k (castle_dest side q) false false kPromoteQueen).to_.val = castle_dest side q := by
  rw [move_new_to]
  unfold castle_dest back_rank
  by_cases hs : side = kSideWhite <;> cases q <;> simp only [hs, if_true, if_false] <;> decide

/-- When some opponent destination lies between king and queen-side rook, the castling
generator adds no move to the queen-side destination. -/
theorem queenside_blocked (g : Game) (m : Move)
    (hm : m ∈ MoveGenerator.generate_pseudolegal_moves g.make_null_move.board_)
    (hto : m.to_.val ∈ wing_between g.board_.turn true) :
    ∀ c, c ∈ castling_moves_of g → c.to_.val ≠ castle_dest g.board_.turn true := by
  have hq : MoveGenerator.wing_safe g.board_
      (MoveGenerator.attacked_squares
        (MoveGenerator.generate_pseudolegal_moves g.make_null_move.board_))
      (castle_right g.board_.turn true) (wing_between g.board_.turn true)
      (rook_corner g.board_.turn true) ≠ true := by
    intro hsafe
    rw [wing_safe_iff, wing_clear_iff] at hsafe
    exact attacked_of_destination g m hm (hsafe.2.1 _ hto).2
  intro c hc
  rw [castling_moves_of_eq, if_neg hq, List.append_nil] at hc
  split at hc
  · rw [List.mem_singleton] at hc
    rw [hc]
    exact castle_dest_ne _ _ false
  · cases hc

theorem piece_type_at_found (b : Board) (side sq : Nat) (k : Nat)
    (h : b.piece_type_at side sq = (k : Int)) :
    b.square_occupied sq = true ∧ Bitboard.occupied (b.pieces_ side k) sq ≠ 0 := by
  unfold Board.piece_type_at at h
  split at h
  · omega
  · rename_i hocc
    obtain ⟨p, e1, _, _, e4, _⟩ := piece_scan_found b side sq 6 0 (k : Int) h (by omega)
    have hpk : p = k := by omega
    rw [hpk] at e4
    exact ⟨not_not.1 hocc, e4⟩

theorem king_home_lt (t : Nat) : king_home t < 64 := by
  unfold king_home back_rank
  split <;> decide

theorem castle_move_is_castling (b : Board) (q : Bool)
    (hk : b.piece_type_at b.turn (king_home b.turn) = (kPieceKing : Int)) :
    (castle_move b.turn q).castling b = true := by
  obtain ⟨_, hocc⟩ := piece_type_at_found b b.turn _ kPieceKing hk
  have hfrom : (castle_move b.turn q).from_.val = king_home b.turn := by
    unfold castle_move
    rw [move_new_from, Nat.mod_eq_of_lt (king_home_lt _)]
  have hto : (castle_move b.turn q).to_.val = castle_dest b.turn q := castle_dest_eq _ _ _
  unfold Move.castling
  simp only []
  rw [hfrom, hto]
  unfold Board.kings
  rw [if_neg hocc]
  unfold king_home castle_dest back_rank
  by_cases hs : b.turn = kSideWhite <;> cases q <;> simp only [hs, if_true, if_false] <;> decide

theorem filter_singleton_append (P : Move → Bool) (a b : Move) (c : Prop) [Decidable c]
    (ha : P a = true) (hb : P b = false) :
    List.filter P ([a] ++ if c then [b] else []) = [a] := by
  by_cases hc : c
  · rw [if_pos hc]
    simp [List.filter, ha, hb]
  · rw [if_neg hc]
    simp [List.filter, ha]

theorem filter_append_singleton (P : Move → Bool) (a b : Move) (c : Prop) [Decidable c]
    (ha : P a = true) (hb : P b = false) :
    List.filter P ((if c then [b] else []) ++ [a]) = [a] := by
  by_cases hc : c
  · rw [if_pos hc]
    simp [List.filter, ha, hb]
  · rw [if_neg hc]
    simp [List.filter, ha]

/-- The castling generator adds the move of a wing when the right is held, the squares
between king and rook are empty and no opponent destination, and the corner is occupied; with
king disjointness that move is the only castling move to the wing's destination in the list
returned by `generate_legal_moves`. -/
theorem castling_generated (g : Game) (q : Bool) (hside : g.board_.turn < 2)
    (hinv : occupancy_invariant g.board_)
    (hcap : ∀ m, m ∈ MoveGenerator.generate_pseudolegal_moves g.board_ → m.capture_ = true →
      0 ≤ g.board_.piece_type_at (not_side g.board_.turn)
        (Game.capture_square g.board_.turn m))
    (hdisj : king_disjoint g.board_ g.board_.turn)
    (hcheck : g.board_.check g.board_.turn = false)
    (hright : g.board_.castling (castle_right g.board_.turn q) = true)
    (hking : g.board_.piece_type_at g.board_.turn (king_home g.board_.turn) = (kPieceKing : Int))
    (hrook : g.board_.piece_type_at g.board_.turn (rook_corner g.board_.turn q) =
      (kPieceRook : Int))
    (hempty : ∀ sq, sq ∈ wing_between g.board_.turn q → g.board_.square_occupied sq = false)
    (hsafe : ∀ sq, sq ∈ wing_between g.board_.turn q →
      ∀ m, m ∈ MoveGenerator.generate_pseudolegal_moves g.make_null_move.board_ →
        m.to_.val ≠ sq) :
    ∃ l, legal_moves_list g = some l ∧
      l.filter (fun m => m.castling g.board_ && decide (m.to_.val = castle_dest g.board_.turn q))
        = [castle_move g.board_.turn q] := by
  have hdef : ∀ m, m ∈ MoveGenerator.generate_pseudolegal_moves g.board_ →
      ∃ g1, g.make_move m = some g1 :=
    fun m hm => pseudolegal_make_move_defined g hside hinv m hm (hcap m hm)
  refine ⟨_, by unfold legal_moves_list; rw [generate_legal_moves_eq g hdef]; rfl, ?_⟩
  rw [List.filter_append]
  have hF : ((MoveGenerator.generate_pseudolegal_moves g.board_).filter
      (fun m => !check_after g.board_.turn g m)).filter
      (fun m => m.castling g.board_ && decide (m.to_.val = castle_dest g.board_.turn q)) = [] := by
    rw [List.filter_eq_nil_iff]
    intro m hm
    rw [pseudolegal_not_castling g.board_ hdisj m (List.mem_filter.1 hm).1]
    simp
  rw [hF, List.nil_append, if_neg (by rw [hcheck]; exact Bool.noConfusion), castling_moves_of_eq]
  have hksq : [Square.mk 4 0, Square.mk 4 7].getD g.board_.turn 0 = king_home g.board_.turn := by
    have h01 : g.board_.turn = 0 ∨ g.board_.turn = 1 := by omega
    rcases h01 with h | h <;> rw [h] <;> decide
  rw [hksq]
  have hsafe_q : MoveGenerator.wing_safe g.board_
      (MoveGenerator.attacked_squares
        (MoveGenerator.generate_pseudolegal_moves g.make_null_move.board_))
      (castle_right g.board_.turn q) (wing_between g.board_.turn q)
      (rook_corner g.board_.turn q) = true := by
    rw [wing_safe_iff, wing_clear_iff]
    exact ⟨hright,
      fun sq hsq => ⟨hempty sq hsq, not_attacked_of_no_destination g sq (hsafe sq hsq)⟩,
      (piece_type_at_found _ _ _ kPieceRook hrook).1⟩
  have hyes : ((castle_move g.board_.turn q).castling g.board_ &&
      decide ((castle_move g.board_.turn q).to_.val = castle_dest g.board_.turn q)) = true := by
    rw [castle_move_is_castling g.board_ q hking]
    simp only [Bool.true_and, decide_eq_true_eq]
    exact castle_dest_eq _ _ _
  have hno : ((castle_move g.board_.turn (!q)).castling g.board_ &&
      decide ((castle_move g.board_.turn (!q)).to_.val = castle_dest g.board_.turn q)) = false := by
    have := castle_dest_ne g.board_.turn (king_home g.board_.turn) (!q)
    rw [Bool.not_not] at this
    simp only [Bool.and_eq_false_imp, decide_eq_false_iff_not]
    intro _
    exact this
  cases q
  · rw [if_pos hsafe_q]
    exact filter_singleton_append _ _ _ _ hyes hno
  · rw [if_pos hsafe_q]
    exact filter_append_singleton _ _ _ _ hyes hno

/-! ## The regular expression on a six-field text -/

theorem spaces_drop_le (s : List Char) (k : Nat) : spaces (s.drop k) ≤ spaces s := by
  unfold spaces
  exact List.Sublist.length_le (List.Sublist.filter _ (List.drop_sublist k s))

theorem spaces_append (s t : List Char) : spaces (s ++ t) = spaces s + spaces t := by
  unfold spaces
  rw [List.filter_append, List.length_append]

theorem spaces_cons_space (s : List Char) : spaces (' ' :: s) = spaces s + 1 := by
  unfold spaces
  simp

theorem spaces_field (f : List Char) (hf : fen_field f) : spaces f = 0 := by
  unfold spaces
  rw [List.length_eq_zero, List.filter_eq_nil_iff]
  intro c hc
  simp only [decide_eq_true_eq]
  exact (hf.2 c hc).1

theorem match_plus_some (rest : List Char → Option (List (List Char))) (s : List Char) :
    ∀ n gs, fen_codec.match_plus rest s n = some gs →
      ∃ k gs1, 1 ≤ k ∧ rest (s.drop k) = some gs1 := by
  intro n
  induction n with
  | zero =>
    intro gs h
    exact Option.noConfusion h
  | succ n ih =>
    intro gs h
    unfold fen_codec.match_plus at h
    cases hr : rest (s.drop (n + 1)) with
    | some gs1 => exact ⟨n + 1, gs1, by omega, hr⟩
    | none =>
      rw [hr] at h
      exact ih gs h

/-- A match needs at least as many spaces in the text as the pattern has `space` items. -/
theorem match_here_spaces :
    ∀ (p : List fen_codec.Item) (s : List Char) (gs : List (List Char)),
      fen_codec.match_here p s = some gs → space_items p ≤ spaces s := by
  intro p
  induction p with
  | nil =>
    intro s gs _
    unfold space_items
    simp
  | cons item p ih =>
    intro s gs h
    cases item with
    | space =>
      unfold fen_codec.match_here at h
      cases s with
      | nil => exact Option.noConfusion h
      | cons c r =>
        simp only [] at h
        split at h
        · rename_i hc
          have := ih r gs h
          rw [hc, spaces_cons_space]
          unfold space_items at this ⊢
          simp only [List.filter_cons_of_pos, decide_True, List.length_cons]
          omega
        · exact Option.noConfusion h
    | dot =>
      unfold fen_codec.match_here at h
      cases s with
      | nil => exact Option.noConfusion h
      | cons c r =>
        simp only [] at h
        split at h
        · cases hm : fen_codec.match_here p r with
          | none =>
            rw [hm] at h
            exact Option.noConfusion h
          | some gs1 =>
            have h1 := ih r gs1 hm
            have h2 : spaces r ≤ spaces (c :: r) := spaces_drop_le (c :: r) 1
            unfold space_items at h1 ⊢
            rw [List.filter_cons_of_neg (by decide)]
            omega
        · exact Option.noConfusion h
    | dot_plus =>
      unfold fen_codec.match_here at h
      obtain ⟨k, gs1, _, hk⟩ := match_plus_some _ s _ gs h
      have h1 := ih _ gs1 hk
      have h2 := spaces_drop_le s k
      unfold space_items at h1 ⊢
      rw [List.filter_cons_of_neg (by decide)]
      omega

/-- The greedy loop returns the longest run after which the rest of the pattern matches. -/
theorem match_plus_longest (rest : List Char → Option (List (List Char))) (s : List Char)
    (m : Nat) (gs : List (List Char)) (hm : 1 ≤ m) (hrest : rest (s.drop m) = some gs) :
    ∀ n, m ≤ n → (∀ k, m < k → k ≤ n → rest (s.drop k) = none) →
      fen_codec.match_plus rest s n = some (s.take m :: gs) := by
  intro n
  induction n with
  | zero =>
    intro h _
    omega
  | succ n ih =>
    intro hmn hnone
    unfold fen_codec.match_plus
    by_cases he : m = n + 1
    · rw [← he, hrest]
    · rw [hnone (n + 1) (by omega) (le_refl _)]
      exact ih (by omega) (fun k h1 h2 => hnone k h1 (by omega))

theorem takeWhile_dot_field (f t : List Char) (hf : fen_field f) :
    f.length ≤ ((f ++ t).takeWhile fen_codec.is_dot).length := by
  rw [List.takeWhile_append_of_pos (fun c hc => (hf.2 c hc).2), List.length_append]
  omega

/-- The last `.+` of the pattern takes a whole final field. -/
theorem match_last_field (f : List Char) (hf : fen_field f) :
    fen_codec.match_here [fen_codec.Item.dot_plus] f = some [f] := by
  unfold fen_codec.match_here
  have hall : f.takeWhile fen_codec.is_dot = f :=
    List.takeWhile_eq_self_iff.2 (fun c hc => (hf.2 c hc).2)
  rw [hall]
  have hlen : 1 ≤ f.length := by
    cases f with
    | nil => exact absurd rfl hf.1
    | cons c r => simp
  have := match_plus_longest (fen_codec.match_here []) f f.length [] hlen
    (by unfold fen_codec.match_here; rfl) f.length (le_refl _) (fun k h1 h2 => by omega)
  rw [this, List.take_length]

/-- A `.+` followed by a pattern that starts with a space item takes exactly the field in
front of the next space, when the remaining text has exactly the spaces the pattern needs. -/
theorem match_field (f t : List Char) (p : List fen_codec.Item) (gs : List (List Char))
    (hf : fen_field f) (hsp : spaces (' ' :: t) = space_items p)
    (hrest : fen_codec.match_here p (' ' :: t) = some gs) :
    fen_codec.match_here (fen_codec.Item.dot_plus :: p) (f ++ ' ' :: t) = some (f :: gs) := by
  unfold fen_codec.match_here
  have hlen : 1 ≤ f.length := by
    cases f with
    | nil => exact absurd rfl hf.1
    | cons c r => simp
  have hdrop : (f ++ ' ' :: t).drop f.length = ' ' :: t := List.drop_left _ _
  have := match_plus_longest (fen_codec.match_here p) (f ++ ' ' :: t) f.length gs hlen
    (by rw [hdrop]; exact hrest) _ (takeWhile_dot_field f (' ' :: t) hf) (by
      intro k hk1 _
      cases hx : fen_codec.match_here p ((f ++ ' ' :: t).drop k) with
      | none => rfl
      | some gs1 =>
        have h1 := match_here_spaces p _ gs1 hx
        have hk : k = f.length + (k - f.length - 1 + 1) := by omega
        rw [hk, ← List.drop_drop, hdrop, List.drop_succ_cons] at h1
        have h2 := spaces_drop_le t (k - f.length - 1)
        rw [spaces_cons_space] at hsp
        omega)
  rw [this, List.take_left]

theorem match_space (t : List Char) (p : List fen_codec.Item) :
    fen_codec.match_here (fen_codec.Item.space :: p) (' ' :: t) = fen_codec.match_here p t := by
  rw [fen_codec.match_here]
  simp

theorem match_dot (c : Char) (t : List Char) (p : List fen_codec.Item)
    (gs : List (List Char)) (hc : fen_codec.is_dot c = true)
    (h : fen_codec.match_here p t = some gs) :
    fen_codec.match_here (fen_codec.Item.dot :: p) (c :: t) = some ([c] :: gs) := by
  rw [fen_codec.match_here]
  simp [hc, h]

/-- On a text of six fields separated by single spaces, the second a single character,
`fen_exp` matches at the start and captures exactly the six fields. -/
theorem fen_match_fields (f1 f3 f4 f5 f6 : List Char) (c2 : Char)
    (h1 : fen_field f1) (h2 : fen_field [c2]) (h3 : fen_field f3) (h4 : fen_field f4)
    (h5 : fen_field f5) (h6 : fen_field f6) :
    Board.fen_match
        (f1 ++ ' ' :: c2 :: ' ' :: (f3 ++ ' ' :: (f4 ++ ' ' :: (f5 ++ ' ' :: f6)))) =
      some [f1, [c2], f3, f4, f5, f6] := by
  have s6 := spaces_field f6 h6
  have s5 := spaces_field f5 h5
  have s4 := spaces_field f4 h4
  have s3 := spaces_field f3 h3
  have m6 : fen_codec.match_here [fen_codec.Item.space, fen_codec.Item.dot_plus] (' ' :: f6) =
      some [f6] := by
    rw [match_space]
    exact match_last_field f6 h6
  have m5 := match_field f5 f6 _ _ h5
    (by rw [spaces_cons_space, s6]; rfl) m6
  have m5' : fen_codec.match_here
      [fen_codec.Item.space, fen_codec.Item.dot_plus, fen_codec.Item.space,
        fen_codec.Item.dot_plus] (' ' :: (f5 ++ ' ' :: f6)) = some [f5, f6] := by
    rw [match_space]
    exact m5
  have m4 := match_field f4 (f5 ++ ' ' :: f6) _ _ h4
    (by rw [spaces_cons_space, spaces_append, spaces_cons_space, s5, s6]; rfl) m5'
  have m4' : fen_codec.match_here
      [fen_codec.Item.space, fen_codec.Item.dot_plus, fen_codec.Item.space,
        fen_codec.Item.dot_plus, fen_codec.Item.space, fen_codec.Item.dot_plus]
      (' ' :: (f4 ++ ' ' :: (f5 ++ ' ' :: f6))) = some [f4, f5, f6] := by
    rw [match_space]
    exact m4
  have m3 := match_field f3 (f4 ++ ' ' :: (f5 ++ ' ' :: f6)) _ _ h3
    (by
      rw [spaces_cons_space, spaces_append, spaces_cons_space, spaces_append,
        spaces_cons_space, s4, s5, s6]
      rfl) m4'
  have m2 : fen_codec.match_here
      [fen_codec.Item.space, fen_codec.Item.dot, fen_codec.Item.space, fen_codec.Item.dot_plus,
        fen_codec.Item.space, fen_codec.Item.dot_plus, fen_codec.Item.space,
        fen_codec.Item.dot_plus, fen_codec.Item.space, fen_codec.Item.dot_plus]
      (' ' :: c2 :: ' ' :: (f3 ++ ' ' :: (f4 ++ ' ' :: (f5 ++ ' ' :: f6)))) =
      some [[c2], f3, f4, f5, f6] := by
    rw [match_space]
    apply match_dot c2 _ _ _ (h2.2 c2 (List.mem_singleton.2 rfl)).2
    rw [match_space]
    exact m3
  have m1 := match_field f1 (c2 :: ' ' :: (f3 ++ ' ' :: (f4 ++ ' ' :: (f5 ++ ' ' :: f6)))) _ _ h1
    (by
      have hc2 : spaces (c2 :: ' ' :: (f3 ++ ' ' :: (f4 ++ ' ' :: (f5 ++ ' ' :: f6)))) =
          spaces (' ' :: (f3 ++ ' ' :: (f4 ++ ' ' :: (f5 ++ ' ' :: f6)))) := by
        have := spaces_append [c2] (' ' :: (f3 ++ ' ' :: (f4 ++ ' ' :: (f5 ++ ' ' :: f6))))
        rw [spaces_field [c2] h2, Nat.zero_add] at this
        exact this
      rw [spaces_cons_space, hc2, spaces_cons_space, spaces_append, spaces_cons_space,
        spaces_append, spaces_cons_space, spaces_append, spaces_cons_space, s3, s4, s5, s6]
      rfl) m2
  unfold Board.fen_match
  have hsearch : ∀ s gs, fen_codec.match_here fen_codec.fen_exp s = some gs →
      fen_codec.regex_search fen_codec.fen_exp s = some gs := by
    intro s gs h
    cases s with
    | nil => rw [fen_codec.regex_search]; exact h
    | cons c r => rw [fen_codec.regex_search, h]
  exact hsearch _ _ m1

/-! ## Decimal text of integers -/

theorem digit_facts (d : Nat) (hd : d < 10) :
    fen_codec.isdigit (Char.ofNat (d + 48)) = true ∧
    fen_codec.isspace (Char.ofNat (d + 48)) = false ∧
    Char.ofNat (d + 48) ≠ '-' ∧ Char.ofNat (d + 48) ≠ '+' ∧
    (Char.ofNat (d + 48)).toNat - 48 = d ∧ (Char.ofNat (d + 48)).toNat < 128 ∧
    Char.ofNat (d + 48) ≠ ' ' ∧ fen_codec.is_dot (Char.ofNat (d + 48)) = true ∧
    Char.ofNat (d + 48) ≠ '/' ∧ Char.ofNat (d + 48) ≠ Char.ofNat 0 := by
  interval_cases d <;> decide

theorem digits_rev_digit :
    ∀ fuel n c, c ∈ fen_codec.digits_rev fuel n → ∃ d, d < 10 ∧ c = Char.ofNat (d + 48) := by
  intro fuel
  induction fuel with
  | zero =>
    intro n c h
    cases h
  | succ k ih =>
    intro n c h
    unfold fen_codec.digits_rev at h
    split at h
    · rw [List.mem_singleton] at h
      exact ⟨n, by omega, h⟩
    · rcases List.mem_cons.1 h with h | h
      · exact ⟨n % 10, Nat.mod_lt _ (by decide), h⟩
      · exact ih _ c h

theorem digits_rev_ne_nil (fuel n : Nat) (h : 0 < fuel) : fen_codec.digits_rev fuel n ≠ [] := by
  cases fuel with
  | zero => omega
  | succ k =>
    unfold fen_codec.digits_rev
    split <;> simp

theorem digits_rev_value :
    ∀ fuel n, n < fuel →
      (fen_codec.digits_rev fuel n).foldr (fun c acc => acc * 10 + (c.toNat - 48)) 0 = n := by
  intro fuel
  induction fuel with
  | zero =>
    intro n h
    omega
  | succ k ih =>
    intro n h
    unfold fen_codec.digits_rev
    split
    · rename_i hlt
      simp only [List.foldr_cons, List.foldr_nil, Nat.zero_mul, Nat.zero_add]
      exact (digit_facts n hlt).2.2.2.2.1
    · rename_i hge
      simp only [List.foldr_cons]
      rw [ih (n / 10) (by omega), (digit_facts (n % 10) (Nat.mod_lt _ (by decide))).2.2.2.2.1]
      omega

/-- The digit string of a natural number. -/
theorem nat_text_props (n : Nat) :
    (fen_codec.digits_rev (n + 1) n).reverse ≠ [] ∧
    (∀ c, c ∈ (fen_codec.digits_rev (n + 1) n).reverse →
      ∃ d, d < 10 ∧ c = Char.ofNat (d + 48)) ∧
    (fen_codec.digits_rev (n + 1) n).reverse.foldl (fun acc c => acc * 10 + (c.toNat - 48)) 0
      = n := by
  refine ⟨?_, ?_, ?_⟩
  · intro h
    exact digits_rev_ne_nil (n + 1) n (by omega) (List.reverse_eq_nil_iff.1 h)
  · intro c hc
    exact digits_rev_digit _ _ c (List.mem_reverse.1 hc)
  · rw [List.foldl_reverse]
    exact digits_rev_value (n + 1) n (by omega)

theorem stoi_digits (ds : List Char) (hne : ds ≠ [])
    (hd : ∀ c, c ∈ ds → ∃ d, d < 10 ∧ c = Char.ofNat (d + 48)) :
    ds.dropWhile fen_codec.isspace = ds ∧ ds.head? ≠ some '-' ∧ ds.head? ≠ some '+' ∧
      ds.takeWhile fen_codec.isdigit = ds := by
  have hall : ds.takeWhile fen_codec.isdigit = ds := by
    rw [List.takeWhile_eq_self_iff]
    intro c hc
    obtain ⟨d, h1, h2⟩ := hd c hc
    rw [h2]
    exact (digit_facts d h1).1
  cases ds with
  | nil => exact absurd rfl hne
  | cons c r =>
    obtain ⟨d, h1, h2⟩ := hd c (List.mem_cons_self _ _)
    obtain ⟨f1, f2, f3, f4, _⟩ := digit_facts d h1
    rw [← h2] at f1 f2 f3 f4
    refine ⟨?_, ?_, ?_, hall⟩
    · rw [List.dropWhile_cons_of_neg (by rw [f2]; exact Bool.noConfusion)]
    · simp only [List.head?_cons, ne_eq, Option.some.injEq]
      exact f3
    · simp only [List.head?_cons, ne_eq, Option.some.injEq]
      exact f4

theorem stoi_unsigned (ds : List Char) (hne : ds ≠ [])
    (hd : ∀ c, c ∈ ds → ∃ d, d < 10 ∧ c = Char.ofNat (d + 48))
    (hhi : ds.foldl (fun acc c => acc * 10 + (c.toNat - 48)) 0 ≤ 2147483647) :
    fen_codec.stoi ds =
      some ((ds.foldl (fun acc c => acc * 10 + (c.toNat - 48)) 0 : Nat) : Int) := by
  obtain ⟨q1, q2, q3, q4⟩ := stoi_digits ds hne hd
  unfold fen_codec.stoi
  simp only []
  rw [q1, if_neg (not_or.2 ⟨q2, q3⟩), q4, if_neg hne]
  have hdec : decide (ds.head? = some '-') = false := decide_eq_false q2
  rw [hdec]
  simp only [Bool.false_eq_true, if_false]
  rw [if_neg (by omega)]

theorem stoi_negative (ds : List Char) (hne : ds ≠ [])
    (hd : ∀ c, c ∈ ds → ∃ d, d < 10 ∧ c = Char.ofNat (d + 48))
    (hhi : ds.foldl (fun acc c => acc * 10 + (c.toNat - 48)) 0 ≤ 2147483648) :
    fen_codec.stoi ('-' :: ds) =
      some (-((ds.foldl (fun acc c => acc * 10 + (c.toNat - 48)) 0 : Nat) : Int)) := by
  obtain ⟨_, _, _, q4⟩ := stoi_digits ds hne hd
  have hdw : ('-' :: ds).dropWhile fen_codec.isspace = '-' :: ds := by
    rw [List.dropWhile_cons_of_neg (by decide)]
  unfold fen_codec.stoi
  simp only []
  rw [hdw]
  simp only [List.head?_cons, true_or, if_true, List.tail_cons, decide_True]
  rw [q4, if_neg hne, if_neg (by omega)]

/-- `stoi` reads back what `operator<<` writes for an `int`. -/
theorem stoi_int_text (n : Int) (hlo : -2147483648 ≤ n) (hhi : n ≤ 2147483647) :
    fen_codec.stoi (fen_codec.int_text n) = some n := by
  obtain ⟨p1, p2, p3⟩ := nat_text_props n.natAbs
  unfold fen_codec.int_text
  by_cases hneg : n < 0
  · rw [if_pos hneg, stoi_negative _ p1 p2 (by rw [p3]; omega), p3]
    congr 1
    omega
  · rw [if_neg hneg, stoi_unsigned _ p1 p2 (by rw [p3]; omega), p3]
    congr 1
    omega

theorem int_text_field (n : Int) : fen_field (fen_codec.int_text n) := by
  obtain ⟨p1, p2, _⟩ := nat_text_props n.natAbs
  have hdig : ∀ c, c ∈ (fen_codec.digits_rev (n.natAbs + 1) n.natAbs).reverse →
      c ≠ ' ' ∧ fen_codec.is_dot c = true := by
    intro c hc
    obtain ⟨d, h1, h2⟩ := p2 c hc
    rw [h2]
    exact ⟨(digit_facts d h1).2.2.2.2.2.2.1, (digit_facts d h1).2.2.2.2.2.2.2.1⟩
  unfold fen_codec.int_text
  split
  · refine ⟨by simp, ?_⟩
    intro c hc
    rcases List.mem_cons.1 hc with h | h
    · rw [h]
      decide
    · exact hdig c h
  · exact ⟨p1, hdig⟩

/-- The text of a count between 1 and 9 is its digit. -/
theorem int_text_digit (e : Nat) (h1 : 1 ≤ e) (h9 : e ≤ 9) :
    fen_codec.int_text (e : Int) = [Char.ofNat (e + 48)] := by
  unfold fen_codec.int_text
  rw [if_neg (by omega)]
  simp only [Int.natAbs_ofNat]
  unfold fen_codec.digits_rev
  rw [if_pos (by omega)]
  rfl

/-! ## The placement field: `fen()` then `from_fen` -/

theorem square_mk_nat (file rank : Nat) (hf : file < 8) (hr : rank < 8) :
    Square.mk (file : Int) (rank : Int) = 8 * rank + file := by
  unfold Square.mk Square.index u8
  omega

theorem piece_scan_cases (b : Board) (side sq : Nat) :
    ∀ fuel i,
      (Board.piece_scan b side sq fuel i = -1 ∧
        ∀ p, i ≤ p → p < i + fuel → Bitboard.occupied (b.pieces_ side p) sq = 0) ∨
      ∃ k : Nat, i ≤ k ∧ k < i + fuel ∧ Board.piece_scan b side sq fuel i = (k : Int) ∧
        Bitboard.occupied (b.pieces_ side k) sq ≠ 0 := by
  intro fuel
  induction fuel with
  | zero =>
    intro i
    left
    exact ⟨rfl, fun p h1 h2 => by omega⟩
  | succ n ih =>
    intro i
    unfold Board.piece_scan
    split
    · rename_i hocc
      right
      exact ⟨i, le_refl _, by omega, rfl, hocc⟩
    · rename_i hno
      rcases ih (i + 1) with ⟨h1, h2⟩ | ⟨k, h1, h2, h3, h4⟩
      · left
        refine ⟨h1, ?_⟩
        intro p hp1 hp2
        by_cases hpi : p = i
        · rw [hpi]
          exact not_not.1 hno
        · exact h2 p (by omega) (by omega)
      · right
        exact ⟨k, by omega, by omega, h3, h4⟩

/-- The answer of `piece_type_at` on a board with the occupancy invariant: `-1` when no piece
board of the side holds the square, otherwise the index of a piece board that holds it. -/
theorem piece_type_at_cases (b : Board) (hinv : occupancy_invariant b) (side sq : Nat)
    (hs : side < 2) (hsq : sq < 64) :
    (b.piece_type_at side sq = -1 ∧ ∀ p, p < 6 → (b.pieces_ side p).testBit sq = false) ∨
    ∃ k : Nat, k < 6 ∧ b.piece_type_at side sq = (k : Int) ∧
      (b.pieces_ side k).testBit sq = true := by
  have hbit : ∀ p, Bitboard.occupied (b.pieces_ side p) sq = 0 →
      (b.pieces_ side p).testBit sq = false := by
    intro p h
    cases hx : (b.pieces_ side p).testBit sq
    · rfl
    · exact absurd ⟨hsq, hx⟩ ((occupied_eq_zero_iff _ _).1 h)
  unfold Board.piece_type_at
  split
  · rename_i hocc
    left
    refine ⟨rfl, ?_⟩
    intro p hp
    cases hx : (b.pieces_ side p).testBit sq
    · rfl
    · exfalso
      apply hocc
      have hne : Bitboard.occupied (b.occupied_ side) sq ≠ 0 := by
        rw [occupied_ne_zero_iff, hinv side hs, side_union_testBit]
        exact ⟨hsq, p, hp, hx⟩
      unfold Board.square_occupied Board.square_occupied_side
      have h01 : side = 0 ∨ side = 1 := by omega
      rcases h01 with h0 | h1
      · rw [h0] at hne
        simp [hne]
      · rw [h1] at hne
        simp [hne]
  · rcases piece_scan_cases b side sq 6 0 with ⟨h1, h2⟩ | ⟨k, _, h2, h3, h4⟩
    · left
      exact ⟨h1, fun p hp => hbit p (h2 p (by omega) (by omega))⟩
    · right
      exact ⟨k, by omega, h3, ((occupied_ne_zero_iff _ _).1 h4).2⟩

theorem symbol_facts (k : Nat) (hk : k < 6) :
    (fen_codec.isdigit (fen_codec.toupper (fen_codec.piece_symbols.getD k 'p')) = false ∧
      ¬ (fen_codec.toupper (fen_codec.piece_symbols.getD k 'p')).toNat ≥ 128 ∧
      fen_codec.isupper (fen_codec.toupper (fen_codec.piece_symbols.getD k 'p')) = true ∧
      fen_codec.piece_of_letter
        (fen_codec.tolower (fen_codec.toupper (fen_codec.piece_symbols.getD k 'p'))) = some k ∧
      plain_char (fen_codec.toupper (fen_codec.piece_symbols.getD k 'p'))) ∧
    (fen_codec.isdigit (fen_codec.piece_symbols.getD k 'p') = false ∧
      ¬ (fen_codec.piece_symbols.getD k 'p').toNat ≥ 128 ∧
      fen_codec.isupper (fen_codec.piece_symbols.getD k 'p') = false ∧
      fen_codec.piece_of_letter (fen_codec.tolower (fen_codec.piece_symbols.getD k 'p')) =
        some k ∧
      plain_char (fen_codec.piece_symbols.getD k 'p')) := by
  unfold plain_char
  interval_cases k <;> decide

theorem parse_rank_digit (ro : Int) (e : Nat) (h1 : 1 ≤ e) (h9 : e ≤ 9) (rest : List Char)
    (rf : Int) (pin : Nat → Nat → Nat) :
    fen_codec.parse_rank ro (fen_codec.int_text (e : Int) ++ rest) rf pin =
      fen_codec.parse_rank ro rest (rf + e) pin := by
  obtain ⟨d1, _, _, _, d5, d6, _⟩ := digit_facts e (by omega)
  rw [int_text_digit e h1 h9, List.singleton_append, fen_codec.parse_rank]
  rw [if_neg (by omega), if_pos d1]
  unfold fen_codec.char_to_int
  congr 1
  omega

theorem parse_rank_symbol (ro : Int) (c : Char) (side k sq : Nat) (rest : List Char)
    (rf : Int) (pin : Nat → Nat → Nat)
    (hd : fen_codec.isdigit c = false) (ha : ¬ c.toNat ≥ 128)
    (hside : (if fen_codec.isupper c = true then 0 else 1) = side)
    (hk : fen_codec.piece_of_letter (fen_codec.tolower c) = some k)
    (hsq : u8 (ro + rf) = sq) (h64 : sq < 64) :
    fen_codec.parse_rank ro (c :: rest) rf pin =
      fen_codec.parse_rank ro rest (rf + 1)
        (fun s p => if s = side ∧ p = k then Bitboard.set (pin side k) sq else pin s p) := by
  rw [fen_codec.parse_rank]
  rw [if_neg ha, if_neg (by rw [hd]; exact Bool.noConfusion)]
  simp only [hside, hsq, hk]
  rw [if_neg (by omega)]

theorem adds_squares_refl (b : Board) (lo : Nat) (pin : Nat → Nat → Nat) :
    adds_squares b lo lo pin pin := by
  intro s p i
  have e : decide (lo ≤ i ∧ i < lo ∧ s < 2 ∧ p < 6) = false := by
    simp only [decide_eq_false_iff_not]
    omega
  rw [e]
  simp

theorem adds_squares_skip (b : Board) (lo hi : Nat) (pin pout : Nat → Nat → Nat)
    (h : adds_squares b (lo + 1) hi pin pout)
    (hno : ∀ s, s < 2 → ∀ p, p < 6 → (b.pieces_ s p).testBit lo = false) :
    adds_squares b lo hi pin pout := by
  intro s p i
  rw [h s p i]
  by_cases hil : i = lo
  · rw [hil]
    have e1 : decide (lo + 1 ≤ lo ∧ lo < hi ∧ s < 2 ∧ p < 6) = false := by
      simp only [decide_eq_false_iff_not]
      omega
    rw [e1]
    by_cases hsp : s < 2 ∧ p < 6
    · rw [hno s hsp.1 p hsp.2]
      simp
    · have e2 : decide (lo ≤ lo ∧ lo < hi ∧ s < 2 ∧ p < 6) = false := by
        simp only [decide_eq_false_iff_not]
        intro hc
        exact hsp hc.2.2
      rw [e2]
  · have e : decide (lo + 1 ≤ i ∧ i < hi ∧ s < 2 ∧ p < 6) =
        decide (lo ≤ i ∧ i < hi ∧ s < 2 ∧ p < 6) := by
      apply decide_eq_decide.2
      omega
    rw [e]

theorem adds_squares_place (b : Board) (hdisj : pieces_disjoint b) (sq hi side k : Nat)
    (pin pout : Nat → Nat → Nat)
    (h : adds_squares b (sq + 1) hi
      (fun s p => if s = side ∧ p = k then Bitboard.set (pin side k) sq else pin s p) pout)
    (hsq : sq < 64) (hhi : sq < hi) (hside : side < 2) (hk : k < 6)
    (hbit : (b.pieces_ side k).testBit sq = true) :
    adds_squares b sq hi pin pout := by
  intro s p i
  rw [h s p i]
  simp only []
  by_cases hil : i = sq
  · rw [hil]
    have e1 : decide (sq + 1 ≤ sq ∧ sq < hi ∧ s < 2 ∧ p < 6) = false := by
      simp only [decide_eq_false_iff_not]
      omega
    rw [e1]
    by_cases hsp : s = side ∧ p = k
    · rw [if_pos hsp, set_testBit, hsp.1, hsp.2, hbit]
      have e2 : decide (sq ≤ sq ∧ sq < hi ∧ side < 2 ∧ k < 6) = true :=
        decide_eq_true ⟨le_refl _, hhi, hside, hk⟩
      have e3 : decide (sq < 64 ∧ sq = sq) = true := decide_eq_true ⟨hsq, rfl⟩
      rw [e2, e3]
      simp
    · rw [if_neg hsp]
      by_cases hr : s < 2 ∧ p < 6
      · have hf : (b.pieces_ s p).testBit sq = false := by
          cases hx : (b.pieces_ s p).testBit sq
          · rfl
          · exact absurd (hdisj s hr.1 p hr.2 side hside k hk sq hsq hx hbit) hsp
        rw [hf]
        simp
      · have e2 : decide (sq ≤ sq ∧ sq < hi ∧ s < 2 ∧ p < 6) = false := by
          simp only [decide_eq_false_iff_not]
          intro hc
          exact hr hc.2.2
        rw [e2]
  · have e : decide (sq + 1 ≤ i ∧ i < hi ∧ s < 2 ∧ p < 6) =
        decide (sq ≤ i ∧ i < hi ∧ s < 2 ∧ p < 6) := by
      apply decide_eq_decide.2
      omega
    rw [e]
    by_cases hsp : s = side ∧ p = k
    · rw [if_pos hsp, set_testBit, hsp.1, hsp.2]
      have e3 : decide (i < 64 ∧ sq = i) = false := by
        simp only [decide_eq_false_iff_not]
        omega
      rw [e3]
      simp
    · rw [if_neg hsp]

theorem adds_squares_trans (b : Board) (lo mid hi : Nat) (p0 p1 p2 : Nat → Nat → Nat)
    (h1 : adds_squares b mid hi p0 p1) (h2 : adds_squares b lo mid p1 p2)
    (hlm : lo ≤ mid) (hmh : mid ≤ hi) : adds_squares b lo hi p0 p2 := by
  intro s p i
  rw [h2 s p i, h1 s p i]
  by_cases ha : mid ≤ i ∧ i < hi ∧ s < 2 ∧ p < 6
  · have e1 : decide (mid ≤ i ∧ i < hi ∧ s < 2 ∧ p < 6) = true := decide_eq_true ha
    have e2 : decide (lo ≤ i ∧ i < hi ∧ s < 2 ∧ p < 6) = true :=
      decide_eq_true ⟨by omega, ha.2⟩
    rw [e1, e2]
    cases (p0 s p).testBit i <;> cases (b.pieces_ s p).testBit i <;> simp
  · have e1 : decide (mid ≤ i ∧ i < hi ∧ s < 2 ∧ p < 6) = false := decide_eq_false ha
    have e2 : decide (lo ≤ i ∧ i < hi ∧ s < 2 ∧ p < 6) =
        decide (lo ≤ i ∧ i < mid ∧ s < 2 ∧ p < 6) := by
      apply decide_eq_decide.2
      constructor
      · intro hc
        refine ⟨hc.1, ?_, hc.2.2⟩
        by_contra hx
        exact ha ⟨by omega, hc.2⟩
      · intro hc
        exact ⟨hc.1, by omega, hc.2.2⟩
    rw [e1, e2]
    simp

/-- Parsing the text `fen()` writes for the files `file .. 7` of a rank adds exactly the pieces
of the board on those squares. -/
theorem parse_rank_text (b : Board) (hinv : occupancy_invariant b) (hdisj : pieces_disjoint b)
    (rank : Nat) (hr : rank < 8) :
    ∀ fuel file empty (pin : Nat → Nat → Nat), file + fuel = 8 → empty ≤ file →
      ∃ pout,
        fen_codec.parse_rank (8 * (rank : Int)) (fen_codec.rank_text b rank fuel file empty)
          ((file : Int) - (empty : Int)) pin = some pout ∧
        adds_squares b (8 * rank + file) (8 * rank + 8) pin pout := by
  intro fuel
  induction fuel with
  | zero =>
    intro file empty pin hf he
    have hfile : file = 8 := by omega
    unfold fen_codec.rank_text
    by_cases h0 : empty = 0
    · rw [if_neg (by simp [h0])]
      refine ⟨pin, by rw [fen_codec.parse_rank], ?_⟩
      rw [hfile]
      exact adds_squares_refl b _ pin
    · rw [if_pos h0]
      have := parse_rank_digit (8 * (rank : Int)) empty (by omega) (by omega) []
        ((file : Int) - (empty : Int)) pin
      rw [List.append_nil] at this
      rw [this]
      refine ⟨pin, by rw [fen_codec.parse_rank], ?_⟩
      rw [hfile]
      exact adds_squares_refl b _ pin
  | succ n ih =>
    intro file empty pin hf he
    have hfile : file < 8 := by omega
    have hsq : Square.mk (file : Int) (rank : Int) = 8 * rank + file :=
      square_mk_nat file rank hfile hr
    have h64 : 8 * rank + file < 64 := by omega
    unfold fen_codec.rank_text
    simp only [hsq]
    rcases piece_type_at_cases b hinv kSideWhite (8 * rank + file) (by decide) h64 with
      ⟨hw, hwno⟩ | ⟨kw, hkw, hw, hwbit⟩
    · rcases piece_type_at_cases b hinv kSideBlack (8 * rank + file) (by decide) h64 with
        ⟨hb, hbno⟩ | ⟨kb, hkb, hb, hbbit⟩
      · -- empty square
        rw [if_pos ⟨hw, hb⟩]
        obtain ⟨pout, h1, h2⟩ := ih (file + 1) (empty + 1) pin (by omega) (by omega)
        have hrf : ((file + 1 : Nat) : Int) - ((empty + 1 : Nat) : Int) =
            (file : Int) - (empty : Int) := by omega
        rw [hrf] at h1
        refine ⟨pout, h1, adds_squares_skip b _ _ pin pout h2 ?_⟩
        intro s hs p hp
        have h01 : s = 0 ∨ s = 1 := by omega
        rcases h01 with h | h
        · rw [h]
          exact hwno p hp
        · rw [h]
          exact hbno p hp
      · -- black piece
        rw [if_neg (by rw [hb]; omega), hw, hb]
        rw [if_neg (by omega : ¬ ((-1 : Int) ≥ 0))]
        simp only [Int.toNat_ofNat]
        obtain ⟨_, s1, s2, s3, s4, _⟩ := symbol_facts kb hkb
        obtain ⟨pout, h1, h2⟩ := ih (file + 1) 0
          (fun s p => if s = 1 ∧ p = kb then
            Bitboard.set (pin 1 kb) (8 * rank + file) else pin s p) (by omega) (by omega)
        have hstep : fen_codec.parse_rank (8 * (rank : Int))
            (fen_codec.piece_symbols.getD kb 'p' :: fen_codec.rank_text b rank n (file + 1) 0)
            (file : Int) pin = some pout := by
          rw [parse_rank_symbol (8 * (rank : Int)) _ 1 kb (8 * rank + file) _ _ pin s1 s2
            (by rw [s3]; rfl) s4 (by unfold u8; omega) h64]
          have hrf : ((file + 1 : Nat) : Int) - ((0 : Nat) : Int) = (file : Int) + 1 := by omega
          rw [hrf] at h1
          exact h1
        refine ⟨pout, ?_, adds_squares_place b hdisj _ _ 1 kb pin pout h2 h64 (by omega)
          (by decide) hkb hbbit⟩
        by_cases h0 : empty = 0
        · rw [if_neg (by simp [h0]), List.nil_append, h0]
          simp only [Nat.cast_zero, sub_zero]
          exact hstep
        · rw [if_pos h0, parse_rank_digit (8 * (rank : Int)) empty (by omega) (by omega)]
          have hrf : (file : Int) - (empty : Int) + (empty : Int) = (file : Int) := by omega
          rw [hrf]
          exact hstep
    · -- white piece
      rw [if_neg (by rw [hw]; omega), hw]
      rw [if_pos (by omega : ((kw : Int) ≥ 0))]
      simp only [Int.toNat_ofNat]
      obtain ⟨⟨s1, s2, s3, s4, _⟩, _⟩ := symbol_facts kw hkw
      obtain ⟨pout, h1, h2⟩ := ih (file + 1) 0
        (fun s p => if s = 0 ∧ p = kw then
          Bitboard.set (pin 0 kw) (8 * rank + file) else pin s p) (by omega) (by omega)
      have hstep : fen_codec.parse_rank (8 * (rank : Int))
          (fen_codec.toupper (fen_codec.piece_symbols.getD kw 'p') ::
            fen_codec.rank_text b rank n (file + 1) 0)
          (file : Int) pin = some pout := by
        rw [parse_rank_symbol (8 * (rank : Int)) _ 0 kw (8 * rank + file) _ _ pin s1 s2
          (by rw [s3]; rfl) s4 (by unfold u8; omega) h64]
        have hrf : ((file + 1 : Nat) : Int) - ((0 : Nat) : Int) = (file : Int) + 1 := by omega
        rw [hrf] at h1
        exact h1
      refine ⟨pout, ?_, adds_squares_place b hdisj _ _ 0 kw pin pout h2 h64 (by omega)
        (by decide) hkw hwbit⟩
      by_cases h0 : empty = 0
      · rw [if_neg (by simp [h0]), List.nil_append, h0]
        simp only [Nat.cast_zero, sub_zero]
        exact hstep
      · rw [if_pos h0, parse_rank_digit (8 * (rank : Int)) empty (by omega) (by omega)]
        have hrf : (file : Int) - (empty : Int) + (empty : Int) = (file : Int) := by omega
        rw [hrf]
        exact hstep

theorem symbol_plain (j : Nat) :
    plain_char (fen_codec.piece_symbols.getD j 'p') ∧
      plain_char (fen_codec.toupper (fen_codec.piece_symbols.getD j 'p')) := by
  by_cases hj : j < 6
  · exact ⟨(symbol_facts j hj).2.2.2.2.2, (symbol_facts j hj).1.2.2.2.2⟩
  · have : fen_codec.piece_symbols.getD j 'p' = 'p' := by
      unfold fen_codec.piece_symbols
      rw [List.getD_eq_default]
      simp only [List.length_cons, List.length_nil]
      omega
    rw [this]
    unfold plain_char
    decide

theorem count_text_plain (e : Nat) (h1 : 1 ≤ e) (h9 : e ≤ 9) :
    ∀ c, c ∈ fen_codec.int_text (e : Int) → plain_char c := by
  intro c hc
  rw [int_text_digit e h1 h9, List.mem_singleton] at hc
  obtain ⟨_, _, _, _, _, _, d7, d8, d9, d10⟩ := digit_facts e (by omega)
  rw [hc]
  exact ⟨d9, d10, d7, d8⟩

/-- The text of a rank holds only digits and piece letters, is not empty and is short. -/
theorem rank_text_props (b : Board) (rank : Nat) :
    ∀ fuel file empty, empty + fuel ≤ 8 →
      (∀ c, c ∈ fen_codec.rank_text b rank fuel file empty → plain_char c) ∧
      (0 < empty + fuel → fen_codec.rank_text b rank fuel file empty ≠ []) ∧
      (fen_codec.rank_text b rank fuel file empty).length ≤ 2 * fuel + 1 := by
  intro fuel
  induction fuel with
  | zero =>
    intro file empty he
    unfold fen_codec.rank_text
    by_cases h0 : empty = 0
    · rw [if_neg (by simp [h0])]
      refine ⟨fun c hc => (by cases hc), fun h => (by omega), (by simp)⟩
    · rw [if_pos h0]
      refine ⟨count_text_plain empty (by omega) (by omega), fun _ => ?_, ?_⟩
      · rw [int_text_digit empty (by omega) (by omega)]
        simp
      · rw [int_text_digit empty (by omega) (by omega)]
        simp
  | succ n ih =>
    intro file empty he
    unfold fen_codec.rank_text
    simp only []
    split
    · obtain ⟨i1, i2, i3⟩ := ih (file + 1) (empty + 1) (by omega)
      exact ⟨i1, fun _ => i2 (by omega), by omega⟩
    · obtain ⟨i1, _, i3⟩ := ih (file + 1) 0 (by omega)
      have hsym : plain_char
          (if b.piece_type_at kSideWhite (Square.mk ↑file ↑rank) ≥ 0 then
            fen_codec.toupper (fen_codec.piece_symbols.getD
              (b.piece_type_at kSideWhite (Square.mk ↑file ↑rank)).toNat 'p')
          else fen_codec.piece_symbols.getD
            (b.piece_type_at kSideBlack (Square.mk ↑file ↑rank)).toNat 'p') := by
        split
        · exact (symbol_plain _).2
        · exact (symbol_plain _).1
      refine ⟨?_, fun _ => by simp, ?_⟩
      · intro c hc
        rcases List.mem_append.1 hc with h | h
        · by_cases h0 : empty = 0
          · rw [if_neg (by simp [h0])] at h
            cases h
          · rw [if_pos h0] at h
            exact count_text_plain empty (by omega) (by omega) c h
        · rcases List.mem_cons.1 h with h | h
          · rw [h]
            exact hsym
          · exact i1 c h
      · rw [List.length_append, List.length_cons]
        have hfl : (if empty ≠ 0 then fen_codec.int_text (empty : Int) else []).length ≤ 1 := by
          by_cases h0 : empty = 0
          · rw [if_neg (by simp [h0])]
            simp
          · rw [if_pos h0, int_text_digit empty (by omega) (by omega)]
            simp
        omega

theorem strtok_run :
    ∀ (f cur rest : List Char), (∀ c, c ∈ f → c ≠ '/') →
      fen_codec.strtok_all (f ++ rest) cur = fen_codec.strtok_all rest (f.reverse ++ cur) := by
  intro f
  induction f with
  | nil =>
    intro cur rest _
    rfl
  | cons c r ih =>
    intro cur rest h
    rw [List.cons_append, fen_codec.strtok_all,
      if_neg (h c (List.mem_cons_self _ _)),
      ih (c :: cur) rest (fun x hx => h x (List.mem_cons_of_mem _ hx))]
    simp

theorem strtok_token (f rest : List Char) (hne : f ≠ []) (h : ∀ c, c ∈ f → c ≠ '/') :
    fen_codec.strtok_all (f ++ '/' :: rest) [] = f :: fen_codec.strtok_all rest [] := by
  rw [strtok_run f [] _ h, List.append_nil, fen_codec.strtok_all, if_pos rfl,
    if_neg (by simpa using hne), List.reverse_reverse]

theorem strtok_last (f : List Char) (hne : f ≠ []) (h : ∀ c, c ∈ f → c ≠ '/') :
    fen_codec.strtok_all f [] = [f] := by
  have := strtok_run f [] [] h
  rw [List.append_nil, List.append_nil] at this
  rw [this, fen_codec.strtok_all, if_neg (by simpa using hne), List.reverse_reverse]

theorem placement_text_eq (b : Board) :
    fen_codec.placement_text b =
      fen_codec.rank_text b 7 8 0 0 ++ '/' :: (fen_codec.rank_text b 6 8 0 0 ++ '/' ::
      (fen_codec.rank_text b 5 8 0 0 ++ '/' :: (fen_codec.rank_text b 4 8 0 0 ++ '/' ::
      (fen_codec.rank_text b 3 8 0 0 ++ '/' :: (fen_codec.rank_text b 2 8 0 0 ++ '/' ::
      (fen_codec.rank_text b 1 8 0 0 ++ '/' :: fen_codec.rank_text b 0 8 0 0)))))) := by
  unfold fen_codec.placement_text
  simp [List.flatMap]

theorem rank_text_token (b : Board) (rank : Nat) :
    fen_codec.rank_text b rank 8 0 0 ≠ [] ∧
    (∀ c, c ∈ fen_codec.rank_text b rank 8 0 0 → plain_char c) ∧
    (fen_codec.rank_text b rank 8 0 0).length ≤ 17 := by
  obtain ⟨h1, h2, h3⟩ := rank_text_props b rank 8 0 0 (by omega)
  exact ⟨h2 (by omega), h1, h3⟩

/-- Every character of the placement field is a rank character or `/`. -/
theorem placement_text_chars (b : Board) :
    ∀ c, c ∈ fen_codec.placement_text b → plain_char c ∨ c = '/' := by
  intro c hc
  rw [placement_text_eq] at hc
  simp only [List.mem_append, List.mem_cons] at hc
  rcases hc with h | h | h | h | h | h | h | h | h | h | h | h | h | h | h
  all_goals first
    | exact Or.inr h
    | exact Or.inl ((rank_text_token b _).2.1 c h)

theorem placement_text_length (b : Board) : (fen_codec.placement_text b).length ≤ 143 := by
  rw [placement_text_eq]
  simp only [List.length_append, List.length_cons]
  have h7 := (rank_text_token b 7).2.2
  have h6 := (rank_text_token b 6).2.2
  have h5 := (rank_text_token b 5).2.2
  have h4 := (rank_text_token b 4).2.2
  have h3 := (rank_text_token b 3).2.2
  have h2 := (rank_text_token b 2).2.2
  have h1 := (rank_text_token b 1).2.2
  have h0 := (rank_text_token b 0).2.2
  omega

/-- The tokens `strtok` cuts out of the placement field are the eight rank texts. -/
theorem placement_tokens (b : Board) :
    fen_codec.strtok_all
        ((fen_codec.placement_text b).takeWhile (fun c => c ≠ Char.ofNat 0)) [] =
      [fen_codec.rank_text b 7 8 0 0, fen_codec.rank_text b 6 8 0 0,
        fen_codec.rank_text b 5 8 0 0, fen_codec.rank_text b 4 8 0 0,
        fen_codec.rank_text b 3 8 0 0, fen_codec.rank_text b 2 8 0 0,
        fen_codec.rank_text b 1 8 0 0, fen_codec.rank_text b 0 8 0 0] := by
  have hall : (fen_codec.placement_text b).takeWhile (fun c => c ≠ Char.ofNat 0) =
      fen_codec.placement_text b := by
    rw [List.takeWhile_eq_self_iff]
    intro c hc
    rcases placement_text_chars b c hc with h | h
    · simp only [ne_eq, decide_not, Bool.not_eq_true', decide_eq_false_iff_not]
      exact h.2.1
    · rw [h]
      decide
  have tok : ∀ rank, fen_codec.rank_text b rank 8 0 0 ≠ [] ∧
      ∀ c, c ∈ fen_codec.rank_text b rank 8 0 0 → c ≠ '/' :=
    fun rank => ⟨(rank_text_token b rank).1, fun c hc => ((rank_text_token b rank).2.1 c hc).1⟩
  rw [hall, placement_text_eq]
  rw [strtok_token _ _ (tok 7).1 (tok 7).2, strtok_token _ _ (tok 6).1 (tok 6).2,
    strtok_token _ _ (tok 5).1 (tok 5).2, strtok_token _ _ (tok 4).1 (tok 4).2,
    strtok_token _ _ (tok 3).1 (tok 3).2, strtok_token _ _ (tok 2).1 (tok 2).2,
    strtok_token _ _ (tok 1).1 (tok 1).2, strtok_last _ (tok 0).1 (tok 0).2]

/-- Parsing the rank texts of ranks `n - 1` down to 0 adds the pieces of the lowest `8 n`
squares. -/
theorem parse_ranks_texts (b : Board) (hinv : occupancy_invariant b)
    (hdisj : pieces_disjoint b) :
    ∀ n, n ≤ 8 → ∀ pin : Nat → Nat → Nat,
      ∃ pout,
        fen_codec.parse_ranks
          ((List.range n).reverse.map (fun rank => fen_codec.rank_text b rank 8 0 0))
          (8 - n) pin = some pout ∧
        adds_squares b 0 (8 * n) pin pout := by
  intro n
  induction n with
  | zero =>
    intro _ pin
    refine ⟨pin, by simp [fen_codec.parse_ranks], adds_squares_refl b 0 pin⟩
  | succ k ih =>
    intro hk pin
    rw [List.range_succ, List.reverse_append, List.reverse_singleton, List.singleton_append,
      List.map_cons, fen_codec.parse_ranks]
    obtain ⟨p1, h1, h2⟩ := parse_rank_text b hinv hdisj k (by omega) 8 0 0 pin rfl (le_refl _)
    have e1 : 8 * (7 - ((8 - (k + 1) : Nat) : Int)) = 8 * (k : Int) := by omega
    have e2 : ((0 : Nat) : Int) - ((0 : Nat) : Int) = 0 := by omega
    rw [e2] at h1
    rw [e1, h1]
    simp only []
    obtain ⟨p2, h3, h4⟩ := ih (by omega) p1
    have e3 : 8 - (k + 1) + 1 = 8 - k := by omega
    rw [e3, h3]
    refine ⟨p2, rfl, ?_⟩
    have h2' : adds_squares b (8 * k) (8 * (k + 1)) pin p1 := by
      have e4 : 8 * k + 0 = 8 * k := by omega
      have e5 : 8 * k + 8 = 8 * (k + 1) := by omega
      rw [e4, e5] at h2
      exact h2
    exact adds_squares_trans b 0 (8 * k) (8 * (k + 1)) pin p1 p2 h2' h4 (by omega) (by omega)

/-! ## The other fields and the round trip -/

theorem char_ofNat_toNat (n : Nat) (h : n < 55296) : (Char.ofNat n).toNat = n := by
  unfold Char.ofNat
  rw [dif_pos (Or.inl h)]
  rfl

theorem char_field (n : Nat) (h33 : 33 ≤ n) (h : n < 55296) :
    Char.ofNat n ≠ ' ' ∧ fen_codec.is_dot (Char.ofNat n) = true := by
  have hn := char_ofNat_toNat n h
  have ne : ∀ c : Char, c.toNat ≠ n → Char.ofNat n ≠ c := by
    intro c hc he
    rw [he] at hn
    exact hc hn
  have t1 : ' '.toNat = 32 := rfl
  have t2 : '\n'.toNat = 10 := rfl
  have t3 : '\r'.toNat = 13 := rfl
  have h1 := ne '\n' (by omega)
  have h2 := ne '\r' (by omega)
  refine ⟨ne ' ' (by omega), ?_⟩
  unfold fen_codec.is_dot
  simp [h1, h2]

theorem occupancy_invariant_update (x : Board) : occupancy_invariant x.update_occupied := by
  intro side hs
  unfold Board.update_occupied
  simp only [hs, if_true]
  rfl

theorem castling_text_back (b : Board) :
    fen_field (fen_codec.castling_text b) ∧
      [decide (fen_codec.castling_text b ≠ ['-']) &&
          fen_codec.contains (fen_codec.castling_text b) 'K',
        decide (fen_codec.castling_text b ≠ ['-']) &&
          fen_codec.contains (fen_codec.castling_text b) 'Q',
        decide (fen_codec.castling_text b ≠ ['-']) &&
          fen_codec.contains (fen_codec.castling_text b) 'k',
        decide (fen_codec.castling_text b ≠ ['-']) &&
          fen_codec.contains (fen_codec.castling_text b) 'q'] =
      [b.castling 0, b.castling 1, b.castling 2, b.castling 3] := by
  unfold fen_codec.castling_text fen_field
  generalize b.castling 0 = c0
  generalize b.castling 1 = c1
  generalize b.castling 2 = c2
  generalize b.castling 3 = c3
  cases c0 <;> cases c1 <;> cases c2 <;> cases c3 <;> decide

theorem side_char_back (side : Nat) (h : side < 2) :
    fen_field [(['w', 'b'].getD side 'w')] ∧
      (if [(['w', 'b'].getD side 'w')] = ['w'] then kSideWhite else kSideBlack) = side := by
  unfold fen_field
  interval_cases side <;> decide

theorem ep_text_back (b : Board) (hep : b.ep_square < 256) :
    fen_field (fen_codec.ep_text b) ∧
      ∃ x : Int,
        (if fen_codec.ep_text b ≠ ['-'] then
            fen_codec.square_name_to_offset (fen_codec.ep_text b)
          else some (-1)) = some x ∧
        u8 x = b.ep_square := by
  unfold fen_codec.ep_text
  by_cases hnull : b.ep_square = null_square
  · rw [if_pos hnull]
    refine ⟨by unfold fen_field; decide, -1, by simp, ?_⟩
    rw [hnull]
    decide
  · rw [if_neg hnull]
    unfold fen_codec.square_index_to_name Square.rank Square.file
    have ha : 'a'.toNat = 97 := rfl
    have h1 : '1'.toNat = 49 := rfl
    rw [ha, h1]
    have hf := char_field (b.ep_square % 8 + 97) (by omega) (by omega)
    have hr := char_field ((b.ep_square - b.ep_square % 8) / 8 + 49) (by omega) (by omega)
    have tf := char_ofNat_toNat (b.ep_square % 8 + 97) (by omega)
    have tr := char_ofNat_toNat ((b.ep_square - b.ep_square % 8) / 8 + 49) (by omega)
    refine ⟨⟨by simp, ?_⟩, ?_⟩
    · intro c hc
      rcases List.mem_cons.1 hc with h | h
      · rw [h]
        exact hf
      · rw [List.mem_singleton.1 h]
        exact hr
    · rw [if_pos (by simp)]
      unfold fen_codec.square_name_to_offset
      simp only [tf, tr, ha, h1]
      refine ⟨_, rfl, ?_⟩
      unfold u8
      push_cast
      omega

theorem placement_text_field (b : Board) : fen_field (fen_codec.placement_text b) := by
  refine ⟨?_, ?_⟩
  · rw [placement_text_eq]
    intro h
    have := congrArg List.length h
    simp at this
  · intro c hc
    rcases placement_text_chars b c hc with h | h
    · exact ⟨h.2.2.1, h.2.2.2⟩
    · rw [h]
      exact ⟨by decide, by decide⟩

theorem board_of_pieces (pieces : Nat → Nat → Nat) (castling : List Bool) (side ep : Nat)
    (half full : Int) (s p : Nat) (hs : s < 2) (hp : p < 6) :
    (board_of pieces castling side ep half full).pieces_ s p = pieces s p := by
  interval_cases s <;> interval_cases p <;> rfl

theorem board_of_word (pieces : Nat → Nat → Nat) (castling : List Bool) (side ep : Nat)
    (half full : Int) (hw : ∀ s p, pieces s p < 2 ^ 64) (s p : Nat) :
    (board_of pieces castling side ep half full).pieces_ s p < 2 ^ 64 := by
  by_cases hs : s < 2
  · by_cases hp : p < 6
    · rw [board_of_pieces pieces castling side ep half full s p hs hp]
      exact hw s p
    · have e : (board_of pieces castling side ep half full).pieces_ s p = 0 := by
        unfold board_of Board.new Board.update_occupied
        simp only [if_pos hs, kPiecePawn, kPieceKnight, kPieceBishop, kPieceRook, kPieceQueen,
          kPieceKing]
        rw [if_neg (by omega), if_neg (by omega), if_neg (by omega), if_neg (by omega),
          if_neg (by omega), if_neg (by omega)]
      rw [e]
      norm_num
  · have e : (board_of pieces castling side ep half full).pieces_ s p = 0 := by
      unfold board_of Board.new Board.update_occupied
      simp only [if_neg hs]
    rw [e]
    norm_num

theorem from_fields_eval (f1 f3 f4 f5 f6 : List Char) (c2 : Char) (pout : Nat → Nat → Nat)
    (x half full : Int) (h1 : f1 ≠ []) (hlen : f1.length < 1024)
    (htok : 8 ≤ (fen_codec.strtok_all (f1.takeWhile (fun c => c ≠ Char.ofNat 0)) []).length)
    (hparse : fen_codec.parse_ranks
      ((fen_codec.strtok_all (f1.takeWhile (fun c => c ≠ Char.ofNat 0)) []).take 8) 0
      (fun _ _ => 0) = some pout)
    (hep : (if f4 ≠ ['-'] then fen_codec.square_name_to_offset f4 else some (-1)) = some x)
    (hhalf : fen_codec.stoi f5 = some half) (hfull : fen_codec.stoi f6 = some full) :
    Board.from_fields [f1, [c2], f3, f4, f5, f6] =
      some (board_of pout
        [decide (f3 ≠ ['-']) && fen_codec.contains f3 'K',
          decide (f3 ≠ ['-']) && fen_codec.contains f3 'Q',
          decide (f3 ≠ ['-']) && fen_codec.contains f3 'k',
          decide (f3 ≠ ['-']) && fen_codec.contains f3 'q']
        (if [c2] = ['w'] then kSideWhite else kSideBlack) (u8 x) half full) := by
  have hpos : 0 < f1.length := List.length_pos.2 h1
  unfold Board.from_fields
  simp only []
  rw [if_neg (by simp only [List.length_singleton]; omega), if_neg (by omega),
    if_neg (by omega), hparse]
  simp only []
  rw [hep, hhalf, hfull]
  rfl

theorem string_mk_toList (l : List Char) : (String.mk l).toList = l := rfl

theorem from_fen_of_match (l : List Char) (groups : List (List Char))
    (h : Board.fen_match l = some groups) :
    Board.from_fen (String.mk l) = Board.from_fields groups := by
  unfold Board.from_fen
  rw [string_mk_toList, h]

theorem board_of_round_trip (pieces : Nat → Nat → Nat) (c0 c1 c2 c3 : Bool) (side ep : Nat)
    (half full : Int) (hw : ∀ s p, pieces s p < 2 ^ 64) (hside : side < 2) (hep : ep < 256)
    (hhalf : -2147483648 ≤ half ∧ half ≤ 2147483647)
    (hfull : -2147483648 ≤ full ∧ full ≤ 2147483647)
    (hdisj : pieces_disjoint (board_of pieces [c0, c1, c2, c3] side ep half full)) :
    ∃ t, (board_of pieces [c0, c1, c2, c3] side ep half full).fen = some t ∧
      Board.fen_match t.toList ≠ none ∧
      Board.from_fen t = some (board_of pieces [c0, c1, c2, c3] side ep half full) := by
  generalize hB : board_of pieces [c0, c1, c2, c3] side ep half full = B at hdisj
  have hturn : B.turn = side := by rw [← hB]; rfl
  have hepsq : B.ep_square = ep := by rw [← hB]; rfl
  have hhm : B.half_move = half := by rw [← hB]; rfl
  have hfm : B.full_move = full := by rw [← hB]; rfl
  have hcs : [B.castling 0, B.castling 1, B.castling 2, B.castling 3] = [c0, c1, c2, c3] := by
    rw [← hB]; rfl
  have hinv : occupancy_invariant B := by
    rw [← hB]
    exact occupancy_invariant_update _
  obtain ⟨pout, hparse, hadds⟩ := parse_ranks_texts B hinv hdisj 8 (le_refl 8) (fun _ _ => 0)
  have hpout : ∀ s p, pout s p = B.pieces_ s p := by
    intro s p
    apply Nat.eq_of_testBit_eq
    intro i
    rw [hadds s p i, Nat.zero_testBit, Bool.false_or]
    by_cases hi : i < 64
    · by_cases hsp : s < 2 ∧ p < 6
      · rw [decide_eq_true (⟨Nat.zero_le i, by omega, hsp.1, hsp.2⟩ :
          0 ≤ i ∧ i < 8 * 8 ∧ s < 2 ∧ p < 6), Bool.true_and]
      · have hz : B.pieces_ s p = 0 := by
          rw [← hB]
          unfold board_of Board.new Board.update_occupied
          simp only [kPiecePawn, kPieceKnight, kPieceBishop, kPieceRook, kPieceQueen, kPieceKing]
          by_cases hs : s < 2
          · rw [if_pos hs, if_neg (by omega), if_neg (by omega), if_neg (by omega),
              if_neg (by omega), if_neg (by omega), if_neg (by omega)]
          · rw [if_neg hs]
        rw [hz, Nat.zero_testBit, Bool.and_false]
    · have hword : B.pieces_ s p < 2 ^ 64 := by
        rw [← hB]
        exact board_of_word pieces _ side ep half full hw s p
      rw [testBit_false_of_word hword (by omega), Bool.and_false]
  obtain ⟨hcf, hcast⟩ := castling_text_back B
  obtain ⟨hsf, hsc⟩ := side_char_back side hside
  obtain ⟨hef, x, hx, hux⟩ := ep_text_back B (by rw [hepsq]; exact hep)
  have hfen : B.fen = some (String.mk
      (fen_codec.placement_text B ++ [' ', (['w', 'b'].getD B.turn 'w'), ' '] ++
        fen_codec.castling_text B ++ [' '] ++ fen_codec.ep_text B ++ [' '] ++
        fen_codec.int_text B.half_move ++ [' '] ++ fen_codec.int_text B.full_move)) := by
    unfold Board.fen
    exact if_neg (by rw [hturn]; omega)
  have hL : fen_codec.placement_text B ++ [' ', (['w', 'b'].getD B.turn 'w'), ' '] ++
        fen_codec.castling_text B ++ [' '] ++ fen_codec.ep_text B ++ [' '] ++
        fen_codec.int_text B.half_move ++ [' '] ++ fen_codec.int_text B.full_move =
      fen_codec.placement_text B ++ ' ' :: (['w', 'b'].getD side 'w') :: ' ' ::
        (fen_codec.castling_text B ++ ' ' :: (fen_codec.ep_text B ++ ' ' ::
          (fen_codec.int_text half ++ ' ' :: fen_codec.int_text full))) := by
    rw [hturn, hhm, hfm]
    simp only [List.append_assoc, List.cons_append, List.nil_append]
  have hmatch := fen_match_fields (fen_codec.placement_text B) (fen_codec.castling_text B)
    (fen_codec.ep_text B) (fen_codec.int_text half) (fen_codec.int_text full)
    (['w', 'b'].getD side 'w') (placement_text_field B) hsf hcf hef (int_text_field half)
    (int_text_field full)
  have htoks := placement_tokens B
  have hfields := from_fields_eval (fen_codec.placement_text B) (fen_codec.castling_text B)
    (fen_codec.ep_text B) (fen_codec.int_text half) (fen_codec.int_text full)
    (['w', 'b'].getD side 'w') pout x half full (placement_text_field B).1
    (lt_of_le_of_lt (placement_text_length B) (by norm_num))
    (by rw [htoks]; simp)
    (by rw [htoks]; exact hparse) hx
    (stoi_int_text half hhalf.1 hhalf.2) (stoi_int_text full hfull.1 hfull.2)
  refine ⟨_, hfen, ?_, ?_⟩
  · rw [string_mk_toList, hL, hmatch]
    exact Option.some_ne_none _
  · rw [from_fen_of_match _ _ (by rw [hL]; exact hmatch), hfields, hcast, hsc, hux, hcs, hepsq,
      ← hB]
    have hfun : pout = (board_of pieces [c0, c1, c2, c3] side ep half full).pieces_ := by
      funext s p
      rw [hpout s p, ← hB]
    rw [hfun]
    rfl

/-! ### The shape of a parsed board -/

theorem set_word (b sq : Nat) (h : b < 2 ^ 64) : Bitboard.set b sq < 2 ^ 64 := by
  unfold Bitboard.set Bitboard.mask
  exact Nat.or_lt_two_pow h (Nat.mod_lt _ (by norm_num))

theorem parse_rank_word (rank_offset : Int) :
    ∀ (l : List Char) (rank_filled : Int) (pin pout : Nat → Nat → Nat),
      (∀ s p, pin s p < 2 ^ 64) → fen_codec.parse_rank rank_offset l rank_filled pin = some pout →
      ∀ s p, pout s p < 2 ^ 64 := by
  intro l
  induction l with
  | nil =>
    intro rf pin pout hw h
    simp only [fen_codec.parse_rank, Option.some.injEq] at h
    rw [← h]
    exact hw
  | cons ch rest ih =>
    intro rf pin pout hw h
    rw [fen_codec.parse_rank] at h
    split at h
    · exact absurd h (by simp)
    · split at h
      · exact ih _ _ _ hw h
      · simp only [] at h
        split at h
        · exact absurd h (by simp)
        · split at h
          · refine ih _ _ _ ?_ h
            intro s p
            split <;> split <;> first | exact set_word _ _ (hw _ _) | exact hw s p
          · exact ih _ _ _ hw h

theorem parse_ranks_word :
    ∀ (l : List (List Char)) (i : Nat) (pin pout : Nat → Nat → Nat),
      (∀ s p, pin s p < 2 ^ 64) → fen_codec.parse_ranks l i pin = some pout →
      ∀ s p, pout s p < 2 ^ 64 := by
  intro l
  induction l with
  | nil =>
    intro i pin pout hw h
    simp only [fen_codec.parse_ranks, Option.some.injEq] at h
    rw [← h]
    exact hw
  | cons r rest ih =>
    intro i pin pout hw h
    rw [fen_codec.parse_ranks] at h
    split at h
    · exact absurd h (by simp)
    · rename_i p1 hp1
      exact ih _ _ _ (parse_rank_word _ _ _ _ _ hw hp1) h

theorem int_range_of_guard (c : Prop) [Decidable c] (v n : Int)
    (h : (if c then none
      else if v < -2147483648 ∨ v > 2147483647 then none else some v) = some n) :
    -2147483648 ≤ n ∧ n ≤ 2147483647 := by
  split at h
  · exact absurd h (by simp)
  · split at h
    · exact absurd h (by simp)
    · simp only [Option.some.injEq] at h
      omega

theorem stoi_range (s : List Char) (n : Int) (h : fen_codec.stoi s = some n) :
    -2147483648 ≤ n ∧ n ≤ 2147483647 := by
  unfold fen_codec.stoi at h
  simp only [] at h
  exact int_range_of_guard _ _ n h

theorem u8_lt (x : Int) : u8 x < 256 := by
  unfold u8
  omega

theorem null_board_shape :
    null_board = board_of (fun _ _ => 0) [true, true, true, true] 0 (u8 (-1)) 0 0 := rfl

theorem from_fields_shape (groups : List (List Char)) (b : Board)
    (h : Board.from_fields groups = some b) :
    ∃ (pieces : Nat → Nat → Nat) (c0 c1 c2 c3 : Bool) (side ep : Nat) (half full : Int),
      b = board_of pieces [c0, c1, c2, c3] side ep half full ∧
      (∀ s p, pieces s p < 2 ^ 64) ∧ side < 2 ∧ ep < 256 ∧
      (-2147483648 ≤ half ∧ half ≤ 2147483647) ∧
      (-2147483648 ≤ full ∧ full ≤ 2147483647) := by
  unfold Board.from_fields at h
  split at h
  · rename_i f1 f2 f3 f4 f5 f6
    by_cases hshort : f1.length + f2.length + f3.length + f4.length + f5.length + f6.length + 5 < 7
    · rw [if_pos hshort] at h
      simp only [Option.some.injEq] at h
      rw [← h]
      exact ⟨fun _ _ => 0, true, true, true, true, 0, u8 (-1), 0, 0, null_board_shape,
        fun _ _ => by norm_num, by norm_num, u8_lt _, by norm_num, by norm_num⟩
    · rw [if_neg hshort] at h
      by_cases hlong : f1.length ≥ 1024
      · rw [if_pos hlong] at h
        exact absurd h (by simp)
      · rw [if_neg hlong] at h
        simp only [] at h
        by_cases htok : (fen_codec.strtok_all (f1.takeWhile (fun c => c ≠ Char.ofNat 0)) []).length < 8
        · rw [if_pos htok] at h
          exact absurd h (by simp)
        · rw [if_neg htok] at h
          split at h
          · exact absurd h (by simp)
          · rename_i pout hparse
            split at h
            · rename_i x half full hx hhalf hfull
              simp only [Option.some.injEq] at h
              refine ⟨pout, _, _, _, _, _, _, _, _, h.symm,
                parse_ranks_word _ _ _ _ (fun _ _ => by norm_num) hparse, ?_, u8_lt _,
                stoi_range _ _ hhalf, stoi_range _ _ hfull⟩
              split
              · decide
              · decide
            · exact absurd h (by simp)
  · exact absurd h (by simp)

/-! ### The round trip -/

theorem pieces_disjoint_of_check (b : Board) (h : pieces_disjoint_check b = true) :
    pieces_disjoint b := by
  unfold pieces_disjoint_check at h
  simp only [List.all_eq_true, List.mem_range, decide_eq_true_eq] at h
  intro s hs p hp s' hs' p' hp' sq _ h1 h2
  rcases h s hs p hp s' hs' p' hp' with he | hz
  · exact he
  · have hand := Nat.testBit_and (b.pieces_ s p) (b.pieces_ s' p') sq
    rw [hz, Nat.zero_testBit, h1, h2] at hand
    exact absurd hand (by decide)

theorem some_getD_of_isSome {α : Type} (o : Option α) (d : α) (h : o.isSome = true) :
    o = some (o.getD d) := by
  cases o with
  | none => simp at h
  | some v => rfl

theorem from_fen_shape (s : String) (b : Board) (h : Board.from_fen s = some b) :
    ∃ (pieces : Nat → Nat → Nat) (c0 c1 c2 c3 : Bool) (side ep : Nat) (half full : Int),
      b = board_of pieces [c0, c1, c2, c3] side ep half full ∧
      (∀ s p, pieces s p < 2 ^ 64) ∧ side < 2 ∧ ep < 256 ∧
      (-2147483648 ≤ half ∧ half ≤ 2147483647) ∧
      (-2147483648 ≤ full ∧ full ≤ 2147483647) := by
  unfold Board.from_fen at h
  split at h
  · simp only [Option.some.injEq] at h
    rw [← h]
    exact ⟨fun _ _ => 0, true, true, true, true, 0, u8 (-1), 0, 0, null_board_shape,
      fun _ _ => by norm_num, by norm_num, u8_lt _, by norm_num, by norm_num⟩
  · exact from_fields_shape _ b h

theorem fen_round_trip (s : String) (b : Board) (h : Board.from_fen s = some b)
    (hdisj : pieces_disjoint b) :
    ∃ t, b.fen = some t ∧ Board.fen_match t.toList ≠ none ∧ Board.from_fen t = some b := by
  obtain ⟨pieces, c0, c1, c2, c3, side, ep, half, full, hb, hw, hside, hep, hhalf, hfull⟩ :=
    from_fen_shape s b h
  rw [hb] at hdisj ⊢
  exact board_of_round_trip pieces c0 c1 c2 c3 side ep half full hw hside hep hhalf hfull hdisj

/-! ## The board after `make_move` -/

theorem moved_rights_fields (b : Board) (side : Nat) (pt : Int) (f : Nat) :
    (Game.moved_rights b side pt f).pieces_ = b.pieces_ ∧
    (Game.moved_rights b side pt f).full_move_ = b.full_move_ := by
  unfold Game.moved_rights
  repeat' split
  all_goals exact ⟨rfl, rfl⟩

theorem capture_piece_fields (b b2 : Board) (side : Nat) (m : Move)
    (h : Game.capture_piece b side m = some b2) : b2.full_move_ = b.full_move_ := by
  unfold Game.capture_piece at h
  simp only [] at h
  repeat' split at h
  all_goals first
    | exact Option.noConfusion h
    | (injection h with h; subst h; rfl)

theorem moved_fields (b b1 : Board) (m : Move)
    (h : (if m.castling b = true then
          some (Game.castle_pieces b b.turn m.from_.val m.to_.val)
        else Game.move_piece b b.turn (b.piece_type_at b.turn m.from_.val) m) = some b1) :
    b1.full_move_ = b.full_move_ ∧ b1.castling_ = b.castling_ := by
  split at h
  · injection h with h
    rw [← h]
    exact ⟨rfl, rfl⟩
  · unfold Game.move_piece at h
    simp only [] at h
    repeat' split at h
    all_goals first
      | exact Option.noConfusion h
      | (injection h with h; subst h; exact ⟨rfl, rfl⟩)

theorem make_move_result (g g1 : Game) (m : Move) (h : g.make_move m = some g1) :
    m.null = false ∧
    ∃ b1 b2,
      (if m.castling g.board_ = true then
          some (Game.castle_pieces g.board_ g.board_.turn m.from_.val m.to_.val)
        else Game.move_piece g.board_ g.board_.turn
          (g.board_.piece_type_at g.board_.turn m.from_.val) m) = some b1 ∧
      Game.capture_piece b1 g.board_.turn m = some b2 ∧
      g1.board_.pieces_ =
        (Game.moved_rights b2 g.board_.turn (g.board_.piece_type_at g.board_.turn m.from_.val)
          m.from_.val).pieces_ ∧
      g1.board_.castling_ =
        (Game.moved_rights b2 g.board_.turn (g.board_.piece_type_at g.board_.turn m.from_.val)
          m.from_.val).castling_ ∧
      g1.board_.side_ = not_side g.board_.turn ∧
      g1.board_.ep_square_ =
        (if g.board_.piece_type_at g.board_.turn m.from_.val = kPiecePawn ∧
            Square.offset m.to_.val 0
              ((if g.board_.turn = kSideWhite then -1 else 1) * 2) = m.from_.val then
          Square.offset m.to_.val 0 (if g.board_.turn = kSideWhite then -1 else 1)
        else null_square) ∧
      g1.board_.half_move_ =
        (if m.capture_ = true ∨ g.board_.piece_type_at g.board_.turn m.from_.val = kPiecePawn
          then 0 else g.board_.half_move + 1) ∧
      g1.board_.full_move_ =
        (Game.moved_rights b2 g.board_.turn (g.board_.piece_type_at g.board_.turn m.from_.val)
          m.from_.val).full_move_ + (g.board_.turn : Int) := by
  unfold Game.make_move at h
  split at h
  · exact Option.noConfusion h
  · rename_i hnull
    refine ⟨by simpa using hnull, ?_⟩
    simp only [] at h
    split at h
    · exact Option.noConfusion h
    · rename_i b1 hb1
      split at h
      · exact Option.noConfusion h
      · rename_i b2 hb2
        injection h with h
        rw [← h]
        exact ⟨b1, b2, hb1, hb2, rfl, rfl, rfl, rfl, rfl, rfl⟩

theorem offset_back_white (sq : Nat) : Square.offset sq 0 (-1) = (sq + 248) % 256 := rfl

theorem offset_back_black (sq : Nat) : Square.offset sq 0 1 = (sq + 8) % 256 := rfl

theorem offset_two_white (sq : Nat) : Square.offset sq 0 (-1 * 2) = (sq + 240) % 256 := rfl

theorem offset_two_black (sq : Nat) : Square.offset sq 0 (1 * 2) = (sq + 16) % 256 := rfl

/-- The en-passant square computed by `make_move`, in terms of files and ranks. -/
theorem ep_square_value (side : Nat) (pt : Int) (f t : Nat) (hf : f < 64) (ht : t < 64) :
    (if pt = kPiecePawn ∧
        Square.offset t 0 ((if side = kSideWhite then -1 else 1) * 2) = f then
      Square.offset t 0 (if side = kSideWhite then -1 else 1)
    else null_square) =
    (if pt = kPiecePawn ∧ Square.file t = Square.file f ∧
        (if side = kSideWhite then Square.rank t = Square.rank f + 2
          else Square.rank f = Square.rank t + 2) then
      (f + t) / 2
    else null_square) := by
  unfold Square.rank Square.file
  by_cases hs : side = kSideWhite
  · simp only [if_pos hs, offset_two_white, offset_back_white]
    by_cases hp : pt = kPiecePawn
    · by_cases hg : (t + 240) % 256 = f
      · rw [if_pos ⟨hp, hg⟩, if_pos ⟨hp, by omega, by omega⟩]
        omega
      · rw [if_neg (fun h => hg h.2), if_neg (fun h => hg (by omega))]
    · rw [if_neg (fun h => hp h.1), if_neg (fun h => hp h.1)]
  · simp only [if_neg hs, offset_two_black, offset_back_black]
    by_cases hp : pt = kPiecePawn
    · by_cases hg : (t + 16) % 256 = f
      · rw [if_pos ⟨hp, hg⟩, if_pos ⟨hp, by omega, by omega⟩]
        omega
      · rw [if_neg (fun h => hg h.2), if_neg (fun h => hg (by omega))]
    · rw [if_neg (fun h => hp h.1), if_neg (fun h => hp h.1)]

/-- The side to move, the en-passant square and both clocks after `make_move`. -/
theorem make_move_fields (g g1 : Game) (m : Move) (h : g.make_move m = some g1) :
    g1.board_.turn = not_side g.board_.turn ∧
    g1.board_.full_move = g.board_.full_move + (g.board_.turn : Int) ∧
    g1.board_.half_move =
      (if m.capture_ = true ∨ g.board_.piece_type_at g.board_.turn m.from_.val = kPiecePawn
        then 0 else g.board_.half_move + 1) ∧
    g1.board_.ep_square =
      (if g.board_.piece_type_at g.board_.turn m.from_.val = kPiecePawn ∧
          Square.file m.to_.val = Square.file m.from_.val ∧
          (if g.board_.turn = kSideWhite then Square.rank m.to_.val = Square.rank m.from_.val + 2
            else Square.rank m.from_.val = Square.rank m.to_.val + 2) then
        (m.from_.val + m.to_.val) / 2
      else null_square) := by
  obtain ⟨_, b1, b2, hb1, hb2, _, _, hside, hep, hhalf, hfull⟩ := make_move_result g g1 m h
  refine ⟨hside, ?_, hhalf, ?_⟩
  · unfold Board.full_move
    rw [hfull, (moved_rights_fields _ _ _ _).2, capture_piece_fields b1 b2 _ m hb2,
      (moved_fields g.board_ b1 m hb1).1]
  · unfold Board.ep_square
    rw [hep]
    exact ep_square_value _ _ _ _ m.from_.isLt m.to_.isLt

/-! ### Castling rights -/

theorem corner_a1 : Square.mk 0 0 = 0 := by decide

theorem corner_h1 : Square.mk 7 0 = 7 := by decide

theorem corner_a8 : Square.mk 0 7 = 56 := by decide

theorem corner_h8 : Square.mk 7 7 = 63 := by decide

theorem not_side_cases (side : Nat) :
    (side = 0 ∧ not_side side = 1) ∨ (side ≠ 0 ∧ not_side side = 0) := by
  unfold not_side
  by_cases h : side = 0
  · exact Or.inl ⟨h, if_pos h⟩
  · exact Or.inr ⟨h, if_neg h⟩

theorem capture_piece_castling (b b2 : Board) (side : Nat) (m : Move)
    (h : Game.capture_piece b side m = some b2) (s : Nat) (hs : s < 2) (q : Bool) :
    b2.castling (castle_right s q) =
      (b.castling (castle_right s q) &&
        !decide (m.capture_ = true ∧
          b.piece_type_at (not_side side) (Game.capture_square side m) = kPieceRook ∧
          not_side side = s ∧ m.to_.val = rook_corner s q)) := by
  unfold Game.capture_piece at h
  simp only [corner_a1, corner_h1, corner_a8, corner_h8] at h
  by_cases hc : m.capture_ = true
  · rw [if_pos hc] at h
    split at h
    · exact Option.noConfusion h
    · by_cases hr : b.piece_type_at (not_side side) (Game.capture_square side m) = kPieceRook
      · rw [if_pos hr] at h
        rcases not_side_cases side with ⟨_, hn⟩ | ⟨_, hn⟩
        · rw [if_neg (by rw [hn]; decide)] at h
          interval_cases s <;> cases q <;> split at h <;> try split at h
          all_goals (injection h with h; subst h)
          all_goals simp_all [Board.castling, Board.set_castling, Board.set_piece_board,
            castle_right, rook_corner, back_rank, corner_a1, corner_h1, corner_a8, corner_h8]
        · rw [if_pos (by rw [hn])] at h
          interval_cases s <;> cases q <;> split at h <;> try split at h
          all_goals (injection h with h; subst h)
          all_goals simp_all [Board.castling, Board.set_castling, Board.set_piece_board,
            castle_right, rook_corner, back_rank, corner_a1, corner_h1, corner_a8, corner_h8]
      · rw [if_neg hr] at h
        injection h with h
        subst h
        rw [decide_eq_false (fun hx => hr hx.2.1)]
        simp [Board.castling, Board.set_piece_board]
  · rw [if_neg hc] at h
    injection h with h
    subst h
    rw [decide_eq_false (fun hx => hc hx.1)]
    simp

theorem moved_rights_castling (b : Board) (side : Nat) (pt : Int) (f : Nat) (hside : side < 2)
    (s : Nat) (hs : s < 2) (q : Bool) :
    (Game.moved_rights b side pt f).castling (castle_right s q) =
      (b.castling (castle_right s q) && !decide (pt = kPieceKing ∧ side = s) &&
        !decide (pt = kPieceRook ∧ side = s ∧ f = rook_corner s q)) := by
  unfold Game.moved_rights
  simp only [corner_a1, corner_h1, corner_a8, corner_h8]
  by_cases hk : pt = kPieceKing
  · have hnr : ¬ pt = kPieceRook := by
      rw [hk]
      decide
    have e : decide (pt = kPieceRook ∧ side = s ∧ f = rook_corner s q) = false :=
      decide_eq_false (fun hx => hnr hx.1)
    rw [if_pos hk, e]
    interval_cases side <;> interval_cases s <;> cases q <;>
      simp [hk, Board.castling, Board.set_castling, castle_right]
  · have e : decide (pt = kPieceKing ∧ side = s) = false := decide_eq_false (fun hx => hk hx.1)
    rw [if_neg hk, e]
    by_cases hr : pt = kPieceRook
    · rw [if_pos hr]
      interval_cases side <;> interval_cases s <;> cases q <;>
        simp only [kSideWhite, if_true, if_false] <;> repeat' split
      all_goals simp_all [Board.castling, Board.set_castling, castle_right, rook_corner,
        back_rank, corner_a1, corner_h1, corner_a8, corner_h8]
    · have e2 : decide (pt = kPieceRook ∧ side = s ∧ f = rook_corner s q) = false :=
        decide_eq_false (fun hx => hr hx.1)
      rw [if_neg hr, e2]
      simp

/-- The castling rights after `make_move`. -/
theorem make_move_castling (g g1 : Game) (m : Move) (hside : g.board_.turn < 2)
    (h : g.make_move m = some g1) (s : Nat) (hs : s < 2) (q : Bool) :
    g1.board_.castling (castle_right s q) =
      (g.board_.castling (castle_right s q) &&
        !decide (g.board_.piece_type_at g.board_.turn m.from_.val = kPieceKing ∧
          g.board_.turn = s) &&
        !decide (g.board_.piece_type_at g.board_.turn m.from_.val = kPieceRook ∧
          g.board_.turn = s ∧ m.from_.val = rook_corner s q) &&
        !decide (m.capture_ = true ∧
          g.board_.piece_type_at (not_side g.board_.turn)
            (Game.capture_square g.board_.turn m) = kPieceRook ∧
          not_side g.board_.turn = s ∧ m.to_.val = rook_corner s q)) := by
  obtain ⟨_, b1, b2, hb1, hb2, _, hcast, _⟩ := make_move_result g g1 m h
  have e1 : g1.board_.castling (castle_right s q) =
      (Game.moved_rights b2 g.board_.turn (g.board_.piece_type_at g.board_.turn m.from_.val)
        m.from_.val).castling (castle_right s q) := by
    unfold Board.castling
    rw [hcast]
  have e2 : b1.castling (castle_right s q) = g.board_.castling (castle_right s q) := by
    unfold Board.castling
    rw [(moved_fields g.board_ b1 m hb1).2]
  rw [e1, moved_rights_castling _ _ _ _ hside s hs q,
    capture_piece_castling b1 b2 _ m hb2 s hs q, moved_board_enemy g m b1 _ hb1, e2]
  generalize g.board_.castling (castle_right s q) = x
  generalize decide (g.board_.piece_type_at g.board_.turn m.from_.val = kPieceKing ∧
    g.board_.turn = s) = k
  generalize decide (g.board_.piece_type_at g.board_.turn m.from_.val = kPieceRook ∧
    g.board_.turn = s ∧ m.from_.val = rook_corner s q) = r
  generalize decide (m.capture_ = true ∧
    g.board_.piece_type_at (not_side g.board_.turn)
      (Game.capture_square g.board_.turn m) = kPieceRook ∧
    not_side g.board_.turn = s ∧ m.to_.val = rook_corner s q) = c
  cases x <;> cases k <;> cases r <;> cases c <;> rfl

/-! ### Piece boards -/

theorem capture_piece_pieces (b b2 : Board) (side : Nat) (m : Move)
    (h : Game.capture_piece b side m = some b2) :
    (m.capture_ = false ∧ b2.pieces_ = b.pieces_) ∨
    (m.capture_ = true ∧
      ∃ k : Nat, b.piece_type_at (not_side side) (Game.capture_square side m) = (k : Int) ∧
        b2.pieces_ = fun s p =>
          if s = not_side side ∧ p = k then
            Bitboard.unset (b.pieces_ (not_side side) k) (Game.capture_square side m)
          else b.pieces_ s p) := by
  unfold Game.capture_piece at h
  by_cases hc : m.capture_ = true
  · rw [if_pos hc] at h
    simp only [] at h
    by_cases hneg : b.piece_type_at (not_side side) (Game.capture_square side m) < 0
    · rw [if_pos hneg] at h
      exact Option.noConfusion h
    · rw [if_neg hneg] at h
      refine Or.inr ⟨hc, (b.piece_type_at (not_side side) (Game.capture_square side m)).toNat,
        (Int.toNat_of_nonneg (by omega)).symm, ?_⟩
      repeat' split at h
      all_goals (injection h with h; subst h; rfl)
  · rw [if_neg hc] at h
    injection h with h
    subst h
    exact Or.inl ⟨by simpa using hc, rfl⟩

theorem make_move_pieces (g g1 : Game) (m : Move) (h : g.make_move m = some g1) :
    ∃ b1 b2,
      (if m.castling g.board_ = true then
          some (Game.castle_pieces g.board_ g.board_.turn m.from_.val m.to_.val)
        else Game.move_piece g.board_ g.board_.turn
          (g.board_.piece_type_at g.board_.turn m.from_.val) m) = some b1 ∧
      Game.capture_piece b1 g.board_.turn m = some b2 ∧
      g1.board_.pieces_ = b2.pieces_ := by
  obtain ⟨_, b1, b2, hb1, hb2, hp, _⟩ := make_move_result g g1 m h
  exact ⟨b1, b2, hb1, hb2, by rw [hp, (moved_rights_fields _ _ _ _).1]⟩

theorem move_piece_pieces (b b1 : Board) (side : Nat) (k : Nat) (m : Move)
    (h : Game.move_piece b side (k : Int) m = some b1) :
    b1.pieces_ =
      (if k = kPiecePawn ∧ Square.rank m.to_.val = (if side = kSideWhite then 7 else 0) then
        fun s p =>
          if s = side ∧ p = k then Bitboard.unset (b.pieces_ side k) m.from_.val
          else if s = side ∧ p = m.promotion_piece_type then
            Bitboard.set (b.pieces_ side m.promotion_piece_type) m.to_.val
          else b.pieces_ s p
      else
        fun s p =>
          if s = side ∧ p = k then
            Bitboard.set (Bitboard.unset (b.pieces_ side k) m.from_.val) m.to_.val
          else b.pieces_ s p) := by
  unfold Game.move_piece at h
  rw [if_neg (by omega)] at h
  simp only [Int.toNat_ofNat] at h
  by_cases hp : k = kPiecePawn ∧ Square.rank m.to_.val = (if side = kSideWhite then 7 else 0)
  · rw [if_pos ⟨by rw [hp.1], hp.2⟩] at h
    rw [if_pos hp]
    injection h with h
    subst h
    rfl
  · rw [if_neg (by
      intro hx
      apply hp
      exact ⟨by have := hx.1; exact_mod_cast this, hx.2⟩)] at h
    rw [if_neg hp]
    injection h with h
    subst h
    rfl

theorem castle_pieces_pieces (b : Board) (side f t : Nat) :
    (Game.castle_pieces b side f t).pieces_ = fun s p =>
      if s = side ∧ p = kPieceRook then
        Bitboard.set
          (Bitboard.unset (b.pieces_ side kPieceRook)
            (Square.mk (if Square.file t = 2 then 0 else 7) (Square.rank t)))
          (Square.mk (if Square.file t = 2 then 3 else 5) (Square.rank t))
      else if s = side ∧ p = kPieceKing then
        Bitboard.set (Bitboard.unset (b.pieces_ side kPieceKing) f) t
      else b.pieces_ s p := rfl

theorem castle_squares (side : Nat) (hside : side < 2) (q : Bool) :
    king_home side < 64 ∧ king_home side ≠ 0 ∧ castle_dest side q < 64 ∧
    castle_dest side q ≠ king_home side ∧
    Square.rank (king_home side) = Square.rank (castle_dest side q) ∧
    ((Square.file (king_home side) : Int) - (Square.file (castle_dest side q) : Int)).natAbs > 1 ∧
    Square.mk (if Square.file (castle_dest side q) = 2 then 0 else 7)
      (Square.rank (castle_dest side q)) = rook_corner side q ∧
    Square.mk (if Square.file (castle_dest side q) = 2 then 3 else 5)
      (Square.rank (castle_dest side q)) = castle_rook_dest side q ∧
    rook_corner side q ≠ castle_rook_dest side q := by
  interval_cases side <;> cases q <;> decide

theorem castling_of_from_to (b : Board) (m : Move) (q : Bool) (hside : b.turn < 2)
    (hking : b.piece_type_at b.turn (king_home b.turn) = (kPieceKing : Int))
    (hfrom : m.from_.val = king_home b.turn) (hto : m.to_.val = castle_dest b.turn q) :
    m.castling b = true := by
  obtain ⟨_, hocc⟩ := piece_type_at_found b b.turn _ kPieceKing hking
  obtain ⟨_, _, _, _, hrank, hdist, _⟩ := castle_squares b.turn hside q
  unfold Move.castling
  simp only []
  rw [hfrom, hto]
  unfold Board.kings
  rw [if_neg hocc, if_neg (not_not.2 hrank)]
  exact decide_eq_true hdist

theorem moved_bit (b f t sq : Nat) (hsq : sq < 64) :
    (Bitboard.set (Bitboard.unset b f) t).testBit sq =
      (decide (sq = t) || (b.testBit sq && decide (sq ≠ f))) := by
  rw [set_testBit, unset_testBit]
  have d1 : decide (sq < 64) = true := decide_eq_true hsq
  have d2 : decide (sq < 64 ∧ t = sq) = decide (sq = t) := by
    apply decide_eq_decide.2
    constructor
    · intro h
      exact h.2.symm
    · intro h
      exact ⟨hsq, h.symm⟩
  have d3 : decide (f ≠ sq) = decide (sq ≠ f) := decide_eq_decide.2 ne_comm
  rw [d1, d2, d3, Bool.true_and, Bool.or_comm]

theorem cleared_bit (b f sq : Nat) (hsq : sq < 64) :
    (Bitboard.unset b f).testBit sq = (b.testBit sq && decide (sq ≠ f)) := by
  rw [unset_testBit]
  have d1 : decide (sq < 64) = true := decide_eq_true hsq
  have d3 : decide (f ≠ sq) = decide (sq ≠ f) := decide_eq_decide.2 ne_comm
  rw [d1, d3, Bool.true_and]

theorem placed_bit (b t sq : Nat) (hsq : sq < 64) :
    (Bitboard.set b t).testBit sq = (decide (sq = t) || b.testBit sq) := by
  rw [set_testBit]
  have d2 : decide (sq < 64 ∧ t = sq) = decide (sq = t) := by
    apply decide_eq_decide.2
    constructor
    · intro h
      exact h.2.symm
    · intro h
      exact ⟨hsq, h.symm⟩
  rw [d2, Bool.or_comm]

theorem null_of_from_ne (m : Move) (h : m.from_.val ≠ 0) : m.null = false := by
  unfold Move.null
  rw [decide_eq_false h]
  rfl

/-- The board after castling. -/
theorem castle_apply (g : Game) (m : Move) (q : Bool) (hside : g.board_.turn < 2)
    (hking : g.board_.piece_type_at g.board_.turn (king_home g.board_.turn) = (kPieceKing : Int))
    (hfrom : m.from_.val = king_home g.board_.turn)
    (hto : m.to_.val = castle_dest g.board_.turn q) (hcap : m.capture_ = false) :
    ∃ g1, g.make_move m = some g1 ∧
      (∀ sq, sq < 64 →
        (g1.board_.kings g.board_.turn).testBit sq =
          (decide (sq = castle_dest g.board_.turn q) ||
            ((g.board_.kings g.board_.turn).testBit sq &&
              decide (sq ≠ king_home g.board_.turn)))) ∧
      (∀ sq, sq < 64 →
        (g1.board_.rooks g.board_.turn).testBit sq =
          (decide (sq = castle_rook_dest g.board_.turn q) ||
            ((g.board_.rooks g.board_.turn).testBit sq &&
              decide (sq ≠ rook_corner g.board_.turn q)))) ∧
      (∀ s p, ¬ (s = g.board_.turn ∧ (p = kPieceKing ∨ p = kPieceRook)) →
        g1.board_.pieces_ s p = g.board_.pieces_ s p) ∧
      (∀ q' : Bool, g1.board_.castling (castle_right g.board_.turn q') = false) := by
  obtain ⟨_, hne, _, _, _, _, hcorner, hdest, _⟩ := castle_squares g.board_.turn hside q
  have hcastle := castling_of_from_to g.board_ m q hside hking hfrom hto
  obtain ⟨g1, h1⟩ := make_move_defined g m (null_of_from_ne m (by rw [hfrom]; exact hne))
    (Or.inl hcastle) (fun hc => by rw [hcap] at hc; exact Bool.noConfusion hc)
  obtain ⟨b1, b2, hb1, hb2, hp⟩ := make_move_pieces g g1 m h1
  rw [if_pos hcastle] at hb1
  injection hb1 with hb1
  have hb2p : b2.pieces_ = b1.pieces_ := by
    rcases capture_piece_pieces b1 b2 _ m hb2 with ⟨_, e⟩ | ⟨hc, _⟩
    · exact e
    · rw [hcap] at hc
      exact Bool.noConfusion hc
  have hpieces : g1.board_.pieces_ = fun s p =>
      if s = g.board_.turn ∧ p = kPieceRook then
        Bitboard.set
          (Bitboard.unset (g.board_.pieces_ g.board_.turn kPieceRook)
            (rook_corner g.board_.turn q))
          (castle_rook_dest g.board_.turn q)
      else if s = g.board_.turn ∧ p = kPieceKing then
        Bitboard.set
          (Bitboard.unset (g.board_.pieces_ g.board_.turn kPieceKing) (king_home g.board_.turn))
          (castle_dest g.board_.turn q)
      else g.board_.pieces_ s p := by
    rw [hp, hb2p, ← hb1, castle_pieces_pieces, hfrom, hto, hcorner, hdest]
  refine ⟨g1, h1, ?_, ?_, ?_, ?_⟩
  · intro sq hsq
    unfold Board.kings
    rw [hpieces]
    simp only [true_and, if_neg (show ¬ kPieceKing = kPieceRook by decide), if_true]
    exact moved_bit _ _ _ _ hsq
  · intro sq hsq
    unfold Board.rooks
    rw [hpieces]
    simp only [true_and, if_true]
    exact moved_bit _ _ _ _ hsq
  · intro s p hsp
    rw [hpieces]
    simp only []
    rw [if_neg (fun hx => hsp ⟨hx.1, Or.inr hx.2⟩), if_neg (fun hx => hsp ⟨hx.1, Or.inl hx.2⟩)]
  · intro q'
    rw [make_move_castling g g1 m hside h1 g.board_.turn hside q', hfrom, hking]
    simp

theorem null_of_ne (m : Move) (h : m.from_.val ≠ m.to_.val) : m.null = false := by
  unfold Move.null
  by_cases hf : m.from_.val = 0
  · rw [decide_eq_false (show ¬ m.to_.val = 0 by omega)]
    exact Bool.and_false _
  · rw [decide_eq_false hf]
    rfl

theorem piece_type_at_occupied (b : Board) (side sq : Nat) (k : Nat)
    (h : b.piece_type_at side sq = (k : Int)) :
    b.square_occupied sq = true ∧ sq < 64 ∧ (b.pieces_ side k).testBit sq = true := by
  obtain ⟨h1, h2⟩ := piece_type_at_found b side sq k h
  exact ⟨h1, (occupied_ne_zero_iff _ _).1 h2⟩

/-- The board after a non-castling pawn move that does not reach the promotion rank and is
flagged as an en-passant capture. -/
theorem ep_apply (g : Game) (m : Move) (behind : Nat)
    (hpawn : g.board_.piece_type_at g.board_.turn m.from_.val = (kPiecePawn : Int))
    (hempty : g.board_.square_occupied m.to_.val = false)
    (hbehind : if g.board_.turn = kSideWhite then m.to_.val = behind + 8
      else behind = m.to_.val + 8)
    (henemy : g.board_.piece_type_at (not_side g.board_.turn) behind = (kPiecePawn : Int))
    (hcap : m.capture_ = true) (hep : m.ep_ = true)
    (hrank : Square.rank m.to_.val ≠ promotion_rank g.board_.turn)
    (hcastle : m.castling g.board_ = false) :
    ∃ g1, g.make_move m = some g1 ∧
      (∀ sq, sq < 64 →
        (g1.board_.pawns g.board_.turn).testBit sq =
          (decide (sq = m.to_.val) ||
            ((g.board_.pawns g.board_.turn).testBit sq && decide (sq ≠ m.from_.val)))) ∧
      (∀ sq, sq < 64 →
        (g1.board_.pawns (not_side g.board_.turn)).testBit sq =
          ((g.board_.pawns (not_side g.board_.turn)).testBit sq && decide (sq ≠ behind))) ∧
      (∀ s p, p ≠ kPiecePawn → g1.board_.pieces_ s p = g.board_.pieces_ s p) := by
  obtain ⟨hfocc, _, _⟩ := piece_type_at_occupied _ _ _ _ hpawn
  obtain ⟨_, hb64, _⟩ := piece_type_at_occupied _ _ _ _ henemy
  have hsq : Game.capture_square g.board_.turn m = behind := by
    unfold Game.capture_square
    rw [if_pos hep]
    simp only []
    by_cases hw : g.board_.turn = kSideWhite
    · rw [if_pos hw] at hbehind ⊢
      rw [offset_back_white]
      omega
    · rw [if_neg hw] at hbehind ⊢
      rw [offset_back_black]
      omega
  have hne : m.from_.val ≠ m.to_.val := by
    intro he
    rw [he, hempty] at hfocc
    exact Bool.noConfusion hfocc
  obtain ⟨g1, h1⟩ := make_move_defined g m (null_of_ne m hne)
    (Or.inr (by rw [hpawn]; decide)) (fun _ => by rw [hsq, henemy]; decide)
  obtain ⟨b1, b2, hb1, hb2, hp⟩ := make_move_pieces g g1 m h1
  have hk := moved_board_enemy g m b1 behind hb1
  rw [if_neg (by rw [hcastle]; exact Bool.noConfusion), hpawn] at hb1
  have hp1 := move_piece_pieces _ _ _ _ _ hb1
  rw [if_neg (fun hx => hrank hx.2)] at hp1
  have hns := not_side_ne g.board_.turn
  rcases capture_piece_pieces b1 b2 _ m hb2 with ⟨hc, _⟩ | ⟨_, k, hk1, hp2⟩
  · rw [hcap] at hc
    exact Bool.noConfusion hc
  · rw [hsq] at hk1 hp2
    rw [hk, henemy] at hk1
    have hk0 : k = kPiecePawn := by exact_mod_cast hk1.symm
    rw [hk0] at hp2
    refine ⟨g1, h1, ?_, ?_, ?_⟩
    · intro sq hsq64
      unfold Board.pawns
      rw [hp, hp2, hp1]
      simp only [if_neg (fun hx : g.board_.turn = not_side g.board_.turn ∧ _ => hns hx.1.symm),
        true_and, if_true]
      exact moved_bit _ _ _ _ hsq64
    · intro sq hsq64
      unfold Board.pawns
      rw [hp, hp2, hp1]
      simp only [true_and, if_true,
        if_neg (fun hx : not_side g.board_.turn = g.board_.turn ∧ _ => hns hx.1)]
      exact cleared_bit _ _ _ hsq64
    · intro s p hpp
      rw [hp, hp2, hp1]
      simp only []
      rw [if_neg (fun hx => hpp hx.2), if_neg (fun hx => hpp hx.2)]

theorem unset_self (b f : Nat) : (Bitboard.unset b f).testBit f = false := by
  rw [unset_testBit]
  simp

theorem set_self (b t : Nat) (ht : t < 64) : (Bitboard.set b t).testBit t = true := by
  rw [set_testBit, decide_eq_true (⟨ht, rfl⟩ : t < 64 ∧ t = t), Bool.or_true]

theorem promotion_piece_type_ne_pawn (m : Move) : m.promotion_piece_type ≠ kPiecePawn := by
  unfold Move.promotion_piece_type
  have h : ∀ i : Fin 4,
      [kPieceQueen, kPieceRook, kPieceBishop, kPieceKnight].getD i.val kPieceQueen ≠
        kPiecePawn := by
    decide
  exact h m.promotion_

/-- The board after a non-castling pawn move to the promotion rank that is not flagged en
passant. -/
theorem promotion_apply (g : Game) (m : Move)
    (hpawn : g.board_.piece_type_at g.board_.turn m.from_.val = (kPiecePawn : Int))
    (hrank : Square.rank m.to_.val = promotion_rank g.board_.turn)
    (hcastle : m.castling g.board_ = false)
    (hown : (g.board_.pawns g.board_.turn).testBit m.to_.val = false)
    (hep : m.ep_ = false)
    (hcap : m.capture_ = true →
      0 ≤ g.board_.piece_type_at (not_side g.board_.turn) m.to_.val) :
    ∃ g1, g.make_move m = some g1 ∧
      (g1.board_.pawns g.board_.turn).testBit m.from_.val = false ∧
      (g1.board_.pawns g.board_.turn).testBit m.to_.val = false ∧
      (g1.board_.pieces_ g.board_.turn m.promotion_piece_type).testBit m.to_.val = true ∧
      (m.capture_ = true →
        ∃ k : Nat, g.board_.piece_type_at (not_side g.board_.turn) m.to_.val = (k : Int) ∧
          (g1.board_.pieces_ (not_side g.board_.turn) k).testBit m.to_.val = false) := by
  obtain ⟨_, _, hfbit⟩ := piece_type_at_occupied _ _ _ _ hpawn
  have hsq : Game.capture_square g.board_.turn m = m.to_.val := by
    unfold Game.capture_square
    rw [if_neg (by rw [hep]; exact Bool.noConfusion)]
  have hne : m.from_.val ≠ m.to_.val := by
    intro he
    unfold Board.pawns at hown
    rw [he, hown] at hfbit
    exact Bool.noConfusion hfbit
  obtain ⟨g1, h1⟩ := make_move_defined g m (null_of_ne m hne)
    (Or.inr (by rw [hpawn]; decide)) (fun hc => by rw [hsq]; exact hcap hc)
  obtain ⟨b1, b2, hb1, hb2, hp⟩ := make_move_pieces g g1 m h1
  have hk := moved_board_enemy g m b1 m.to_.val hb1
  rw [if_neg (by rw [hcastle]; exact Bool.noConfusion), hpawn] at hb1
  have hp1 := move_piece_pieces _ _ _ _ _ hb1
  rw [if_pos ⟨rfl, hrank⟩] at hp1
  have hns := not_side_ne g.board_.turn
  have hpromo := promotion_piece_type_ne_pawn m
  have hmine : ∀ p, b2.pieces_ g.board_.turn p = b1.pieces_ g.board_.turn p := by
    intro p
    rcases capture_piece_pieces b1 b2 _ m hb2 with ⟨_, e⟩ | ⟨_, k, _, e⟩
    · rw [e]
    · rw [e]
      simp only []
      rw [if_neg (fun hx => hns hx.1.symm)]
  refine ⟨g1, h1, ?_, ?_, ?_, ?_⟩
  · unfold Board.pawns
    rw [hp, hmine, hp1]
    simp only [true_and, if_true]
    exact unset_self _ _
  · unfold Board.pawns at hown ⊢
    rw [hp, hmine, hp1]
    simp only [true_and, if_true]
    rw [unset_testBit, hown, Bool.false_and]
  · rw [hp, hmine, hp1]
    simp only [true_and, if_neg hpromo, if_true]
    exact set_self _ _ m.to_.isLt
  · intro hc
    rcases capture_piece_pieces b1 b2 _ m hb2 with ⟨hc', _⟩ | ⟨_, k, hk1, e⟩
    · rw [hc] at hc'
      exact Bool.noConfusion hc'
    · rw [hsq] at hk1 e
      rw [hk] at hk1
      refine ⟨k, hk1, ?_⟩
      rw [hp, e]
      simp only [true_and, if_true]
      exact unset_self _ _

/-! ## Castling moves in the list of legal moves -/

theorem mem_castling_moves_of (g : Game) (m : Move) (h : m ∈ castling_moves_of g) :
    ∃ q : Bool,
      MoveGenerator.wing_safe g.board_
        (MoveGenerator.attacked_squares
          (MoveGenerator.generate_pseudolegal_moves g.make_null_move.board_))
        (castle_right g.board_.turn q) (wing_between g.board_.turn q)
        (rook_corner g.board_.turn q) = true ∧
      m = Move.new ([Square.mk 4 0, Square.mk 4 7].getD g.board_.turn 0)
        (castle_dest g.board_.turn q) false false kPromoteQueen := by
  rw [castling_moves_of_eq, List.mem_append] at h
  rcases h with h | h
  · split at h
    · rename_i hs
      exact ⟨false, hs, List.mem_singleton.1 h⟩
    · exact absurd h (List.not_mem_nil _)
  · split at h
    · rename_i hs
      exact ⟨true, hs, List.mem_singleton.1 h⟩
    · exact absurd h (List.not_mem_nil _)

/-- With king disjointness, a move of the legal list that `Move::castling` accepts and that
goes to the castling destination of a wing was added by the castling generator for that wing:
the mover is not in check, holds the right, the squares between king and corner are empty and
no opponent destination, and the corner is occupied. -/
theorem castling_in_legal_list (g : Game) (l : List Move) (q : Bool) (m : Move)
    (hdisj : king_disjoint g.board_ g.board_.turn)
    (hl : legal_moves_list g = some l) (hm : m ∈ l) (hc : m.castling g.board_ = true)
    (hto : m.to_.val = castle_dest g.board_.turn q) :
    g.board_.check g.board_.turn = false ∧
    g.board_.castling (castle_right g.board_.turn q) = true ∧
    (∀ sq, sq ∈ wing_between g.board_.turn q →
      g.board_.square_occupied sq = false ∧
      Bitboard.occupied
        (MoveGenerator.attacked_squares
          (MoveGenerator.generate_pseudolegal_moves g.make_null_move.board_)) sq = 0) ∧
    g.board_.square_occupied (rook_corner g.board_.turn q) = true := by
  rw [legal_moves_list_some g l hl, List.mem_append] at hm
  rcases hm with hm | hm
  · have := pseudolegal_not_castling g.board_ hdisj m (List.mem_filter.1 hm).1
    rw [hc] at this
    exact Bool.noConfusion this
  · by_cases hcheck : g.board_.check g.board_.turn = true
    · rw [if_pos hcheck] at hm
      exact absurd hm (List.not_mem_nil _)
    · rw [if_neg hcheck] at hm
      obtain ⟨q', hsafe, hmq⟩ := mem_castling_moves_of g m hm
      have hqq : q' = q := by
        by_contra hne
        have hq : q = !q' := by
          cases q <;> cases q' <;> simp_all
        have := castle_dest_ne g.board_.turn
          ([Square.mk 4 0, Square.mk 4 7].getD g.board_.turn 0) q'
        rw [← hmq, ← hq] at this
        exact this hto
      rw [hqq, wing_safe_iff, wing_clear_iff] at hsafe
      exact ⟨by simpa using hcheck, hsafe⟩

/-! ## The knight, bishop, rook, queen and king generators -/

theorem drain_nodup :
    ∀ fuel lo board, board < 2 ^ 64 → (∀ j, j < lo → board.testBit j = false) →
      64 ≤ lo + fuel → (BitboardIterator.drain fuel board).Nodup := by
  intro fuel
  induction fuel with
  | zero =>
    intro lo board _ _ _
    unfold BitboardIterator.drain
    exact List.nodup_nil
  | succ n ih =>
    intro lo board hw hlo hf
    unfold BitboardIterator.drain
    by_cases hz : board = 0
    · rw [if_pos hz]
      exact List.nodup_nil
    · rw [if_neg hz]
      simp only []
      obtain ⟨j, hj⟩ := Nat.ne_zero_implies_bit_true hz
      have hj64 : j < 64 := by
        by_contra hc
        rw [testBit_false_of_word hw (by omega)] at hj
        exact Bool.noConfusion hj
      obtain ⟨f1, f2, f3⟩ := find_first_spec board ⟨j, hj64, hj⟩
      generalize Bitboard.find_first board = idx at f1 f2 f3
      have hidx : lo ≤ idx := by
        by_contra hc
        rw [hlo idx (by omega)] at f1
        exact Bool.noConfusion f1
      have hw2 : Bitboard.unset board idx < 2 ^ 64 :=
        lt_of_le_of_lt Nat.and_le_left hw
      have hlo2 : ∀ k, k < idx + 1 → (Bitboard.unset board idx).testBit k = false := by
        intro k hk
        rw [unset_testBit]
        by_cases hki : k = idx
        · simp [hki]
        · rw [f3 k (by omega)]
          rfl
      refine List.nodup_cons.2 ⟨?_, ih (idx + 1) _ hw2 hlo2 (by omega)⟩
      intro hmem
      have h := ((drain_mem idx n (idx + 1) _ hw2 hlo2 (by omega)).1 hmem).2
      rw [hlo2 idx (by omega)] at h
      exact Bool.noConfusion h

theorem squares_nodup (b : Nat) : (BitboardIterator.squares b).Nodup := by
  unfold BitboardIterator.squares
  exact drain_nodup 64 0 (b % 2 ^ 64) (Nat.mod_lt _ (by norm_num)) (by intro j hj; omega)
    (by omega)

theorem filter_flatMap_nil {α β : Type} (p : β → Bool) (g : α → List β) :
    ∀ xs : List α, (∀ x, x ∈ xs → (g x).filter p = []) → (xs.flatMap g).filter p = [] := by
  intro xs
  induction xs with
  | nil =>
    intro _
    rfl
  | cons y ys ih =>
    intro h
    rw [List.flatMap_cons, List.filter_append, h y (List.mem_cons_self _ _),
      ih (fun x hx => h x (List.mem_cons_of_mem _ hx))]
    rfl

/-- In the concatenation of the lists `g x` over a duplicate-free list, the entries passing a
test number one when they number one in `g x0` and none in the other lists. -/
theorem filter_flatMap_one {α β : Type} (p : β → Bool) (g : α → List β) (x0 : α) :
    ∀ xs : List α, xs.Nodup → x0 ∈ xs → (∀ x, x ∈ xs → x ≠ x0 → (g x).filter p = []) →
      ((g x0).filter p).length = 1 → ((xs.flatMap g).filter p).length = 1 := by
  intro xs
  induction xs with
  | nil =>
    intro _ hmem _ _
    cases hmem
  | cons y ys ih =>
    intro hnd hmem hother hone
    obtain ⟨hy, hnd2⟩ := List.nodup_cons.1 hnd
    rw [List.flatMap_cons, List.filter_append, List.length_append]
    by_cases hyx : y = x0
    · have hrest : (ys.flatMap g).filter p = [] := by
        apply filter_flatMap_nil
        intro x hx
        apply hother x (List.mem_cons_of_mem _ hx)
        intro hxx
        rw [hxx, ← hyx] at hx
        exact hy hx
      rw [hrest, hyx, hone]
      rfl
    · have hmem2 : x0 ∈ ys := by
        rcases List.mem_cons.1 hmem with h | h
        · exact absurd h.symm hyx
        · exact h
      rw [hother y (List.mem_cons_self _ _) hyx,
        ih hnd2 hmem2 (fun x hx => hother x (List.mem_cons_of_mem _ hx)) hone]
      rfl

theorem map_eq_flatMap_singleton {α β : Type} (f : α → β) :
    ∀ xs : List α, xs.map f = xs.flatMap (fun x => [f x]) := by
  intro xs
  induction xs with
  | nil => rfl
  | cons y ys ih =>
    rw [List.map_cons, List.flatMap_cons, ih]
    rfl

theorem own_free_bit (own attack t : Nat) (ht : t < 64) :
    (attack &&& Bitboard.compl own).testBit t = true ↔
      attack.testBit t = true ∧ decide (Bitboard.occupied own t ≠ 0) = false := by
  rw [Nat.testBit_and, compl_testBit, decide_eq_false_iff_not, not_not, occupied_eq_zero_iff]
  simp [ht]

/-- The shape shared by the five generators: for every set square `f` of the piece board `P`,
one move to every square of the attack set `A f` that the mover does not occupy. -/
theorem generator_spec (b : Board) (P : Nat) (A : Nat → Nat) :
    (∀ m, m ∈ (BitboardIterator.squares P).flatMap (fun f =>
        MoveGenerator.moves_to b f (A f &&& Bitboard.compl (b.occupied_side b.turn))) →
      P.testBit m.from_.val = true ∧ (A m.from_.val).testBit m.to_.val = true ∧
      b.square_occupied_side b.turn m.to_.val = false ∧
      m.capture_ = b.square_occupied_side (not_side b.turn) m.to_.val ∧ m.ep_ = false) ∧
    (∀ f t, f < 64 → t < 64 → P.testBit f = true → (A f).testBit t = true →
      b.square_occupied_side b.turn t = false →
      (((BitboardIterator.squares P).flatMap (fun f =>
          MoveGenerator.moves_to b f (A f &&& Bitboard.compl (b.occupied_side b.turn)))).filter
        (fun m => decide (m.from_.val = f ∧ m.to_.val = t))).length = 1) := by
  constructor
  · intro m hm
    rw [List.mem_flatMap] at hm
    obtain ⟨f, hf, hmf⟩ := hm
    obtain ⟨hf1, hf2⟩ := (mem_squares _ _).1 hf
    obtain ⟨⟨a1, a2, a3⟩, a4, a5⟩ := mem_moves_to m b f _ hf1 hmf
    obtain ⟨c1, c2⟩ := (own_free_bit _ _ _ a2).1 a3
    rw [a1]
    exact ⟨hf2, c1, c2, a5, a4⟩
  · intro f t hf ht hP hA hown
    apply filter_flatMap_one _ _ f _ (squares_nodup P) ((mem_squares _ _).2 ⟨hf, hP⟩)
    · intro f' hf' hne
      obtain ⟨hf1, _⟩ := (mem_squares _ _).1 hf'
      rw [List.filter_eq_nil_iff]
      intro m hm
      obtain ⟨⟨a1, _, _⟩, _⟩ := mem_moves_to m b f' _ hf1 hm
      rw [decide_eq_true_eq, a1]
      exact fun hx => hne hx.1
    · unfold MoveGenerator.moves_to
      simp only []
      rw [map_eq_flatMap_singleton]
      apply filter_flatMap_one _ _ t _ (squares_nodup _)
        ((mem_squares _ _).2 ⟨ht, (own_free_bit _ _ _ ht).2 ⟨hA, hown⟩⟩)
      · intro t' ht' hne
        obtain ⟨ht1, _⟩ := (mem_squares _ _).1 ht'
        obtain ⟨_, e2, _, _⟩ := move_new_fields f t'
          (decide (Bitboard.occupied (b.occupied_side (not_side b.turn)) t' ≠ 0)) false
          kPromoteQueen hf ht1
        rw [List.filter_eq_nil_iff]
        intro m hm
        rw [List.mem_singleton.1 hm, decide_eq_true_eq, e2]
        exact fun hx => hne hx.2
      · obtain ⟨e1, e2, _, _⟩ := move_new_fields f t
          (decide (Bitboard.occupied (b.occupied_side (not_side b.turn)) t ≠ 0)) false
          kPromoteQueen hf ht
        rw [List.filter_cons_of_pos (by rw [decide_eq_true_eq]; exact ⟨e1, e2⟩)]
        rfl

theorem piece_moves_cases (b : Board) :
    piece_moves b kPieceKnight = MoveGenerator.generate_knight_moves b ∧
    piece_moves b kPieceBishop = MoveGenerator.generate_bishop_moves b ∧
    piece_moves b kPieceRook = MoveGenerator.generate_rook_moves b ∧
    piece_moves b kPieceQueen = MoveGenerator.generate_queen_moves b ∧
    piece_moves b kPieceKing = MoveGenerator.generate_king_moves b := by
  unfold piece_moves
  refine ⟨if_pos rfl, ?_, ?_, ?_, ?_⟩
  · rw [if_neg (by decide), if_pos rfl]
  · rw [if_neg (by decide), if_neg (by decide), if_pos rfl]
  · rw [if_neg (by decide), if_neg (by decide), if_neg (by decide), if_pos rfl]
  · rw [if_neg (by decide), if_neg (by decide), if_neg (by decide), if_neg (by decide)]

theorem piece_attack_cases (b : Board) (f : Nat) :
    piece_attack_board b kPieceKnight f = knight_attack_board f ∧
    piece_attack_board b kPieceBishop f = bishop_attack_board b.occupied f ∧
    piece_attack_board b kPieceRook f = rook_attack_board b.occupied f ∧
    piece_attack_board b kPieceQueen f = queen_attack_board b.occupied f ∧
    piece_attack_board b kPieceKing f = king_attack_board f := by
  unfold piece_attack_board
  refine ⟨if_pos rfl, ?_, ?_, ?_, ?_⟩
  · rw [if_neg (by decide), if_pos rfl]
  · rw [if_neg (by decide), if_neg (by decide), if_pos rfl]
  · rw [if_neg (by decide), if_neg (by decide), if_neg (by decide), if_pos rfl]
  · rw [if_neg (by decide), if_neg (by decide), if_neg (by decide), if_neg (by decide)]

theorem pseudolegal_moves_eq (b : Board) :
    MoveGenerator.generate_pseudolegal_moves b =
      MoveGenerator.generate_pawn_moves b ++ piece_moves b kPieceKnight ++
        piece_moves b kPieceBishop ++ piece_moves b kPieceRook ++ piece_moves b kPieceQueen ++
        piece_moves b kPieceKing := by
  obtain ⟨e1, e2, e3, e4, e5⟩ := piece_moves_cases b
  rw [e1, e2, e3, e4, e5]
  unfold MoveGenerator.generate_pseudolegal_moves
  exact Eq.refl _

theorem piece_moves_eq (b : Board) (piece : Nat) (h1 : 1 ≤ piece) (h5 : piece ≤ 5) :
    piece_moves b piece =
      (BitboardIterator.squares (b.piece_board b.turn piece)).flatMap (fun f =>
        MoveGenerator.moves_to b f
          (piece_attack_board b piece f &&& Bitboard.compl (b.occupied_side b.turn))) := by
  obtain ⟨e1, e2, e3, e4, e5⟩ := piece_moves_cases b
  have a := fun f => piece_attack_cases b f
  interval_cases piece
  · rw [e1]
    simp only [(a _).1]
    unfold MoveGenerator.generate_knight_moves Board.knights Board.piece_board
    exact Eq.refl _
  · rw [e2]
    simp only [(a _).2.1]
    unfold MoveGenerator.generate_bishop_moves MoveGenerator.generate_ray_moves Board.bishops
      Board.piece_board
    exact Eq.refl _
  · rw [e3]
    simp only [(a _).2.2.1]
    unfold MoveGenerator.generate_rook_moves MoveGenerator.generate_ray_moves Board.rooks
      Board.piece_board
    exact Eq.refl _
  · rw [e4]
    simp only [(a _).2.2.2.1]
    unfold MoveGenerator.generate_queen_moves MoveGenerator.generate_ray_moves Board.queens
      Board.piece_board
    exact Eq.refl _
  · rw [e5]
    simp only [(a _).2.2.2.2]
    unfold MoveGenerator.generate_king_moves Board.kings Board.piece_board
    exact Eq.refl _

/-! ## Draw detection, board equality, null moves -/

theorem beq_iff (a b : Board) :
    Board.beq a b = true ↔
      (∀ side, side < 2 → ∀ piece, piece < 6 →
        a.piece_board side piece = b.piece_board side piece) ∧
      (∀ c, c < 4 → a.castling c = b.castling c) ∧
      a.turn = b.turn ∧ a.ep_square = b.ep_square ∧ a.half_move = b.half_move ∧
      a.full_move = b.full_move := by
  have r2 : List.range 2 = [0, 1] := by decide
  have r4 : List.range 4 = [0, 1, 2, 3] := by decide
  unfold Board.beq
  rw [r2, r4]
  simp only [List.all_cons, List.all_nil, Bool.and_true, Bool.and_eq_true, decide_eq_true_eq,
    beq_iff_eq, Board.pawns, Board.knights, Board.bishops, Board.rooks, Board.queens,
    Board.kings, Board.piece_board]
  constructor
  · rintro ⟨⟨⟨⟨⟨⟨⟨⟨⟨⟨⟨p0, n0⟩, b0⟩, r0⟩, q0⟩, k0⟩, c0, c1, c2, c3⟩,
      ⟨⟨⟨⟨⟨p1, n1⟩, b1⟩, r1⟩, q1⟩, k1⟩, _⟩, ht⟩, he⟩, hh⟩, hf⟩
    refine ⟨?_, ?_, ht, he, hh, hf⟩
    · intro side hs piece hp
      interval_cases side <;> interval_cases piece <;> assumption
    · intro c hc
      interval_cases c <;> assumption
  · rintro ⟨hp, hc, ht, he, hh, hf⟩
    repeat' constructor
    all_goals first
      | exact ht
      | exact he
      | exact hh
      | exact hf
      | exact hp _ (by decide) _ (by decide)
      | exact hc _ (by decide)

theorem drawn_cases (g : Game) :
    g.drawn = true ↔
      ((List.range 64).filter (fun sq => g.board_.occupied.testBit sq)).length = 2 ∨
      g.board_.half_move ≥ 50 ∨
      (g.old_boards_.filter (fun b => Board.beq b g.board_)).length ≥ 2 := by
  unfold Game.drawn Game.is_stalemate Game.is_fifty_move Game.is_repetition Bitboard.count
    platform.popcount
  simp only [Bool.or_eq_true, decide_eq_true_eq, or_assoc]

theorem set_castling_false_mono (b : Board) (c x : Nat)
    (h : (b.set_castling c false).castling x = true) : b.castling x = true := by
  unfold Board.set_castling Board.castling at h
  simp only [] at h
  split at h
  · exact Bool.noConfusion h
  · exact h

theorem moved_rights_mono (b : Board) (side : Nat) (pt : Int) (f x : Nat)
    (h : (Game.moved_rights b side pt f).castling x = true) : b.castling x = true := by
  unfold Game.moved_rights at h
  repeat' split at h
  all_goals first
    | exact h
    | exact set_castling_false_mono _ _ _ h
    | exact set_castling_false_mono _ _ _ (set_castling_false_mono _ _ _ h)

theorem capture_piece_mono (b b2 : Board) (side : Nat) (m : Move) (x : Nat)
    (hb : Game.capture_piece b side m = some b2) (h : b2.castling x = true) :
    b.castling x = true := by
  unfold Game.capture_piece at hb
  simp only [] at hb
  repeat' split at hb
  all_goals first
    | exact Option.noConfusion hb
    | (injection hb with hb; subst hb; exact h)
    | (injection hb with hb; subst hb; exact set_castling_false_mono _ _ _ h)

/-- A castling right that holds after `make_move` held before it. -/
theorem make_move_castling_mono (g g1 : Game) (m : Move) (x : Nat)
    (h : g.make_move m = some g1) (hx : g1.board_.castling x = true) :
    g.board_.castling x = true := by
  obtain ⟨_, b1, b2, hb1, hb2, _, hcast, _⟩ := make_move_result g g1 m h
  have e1 : (Game.moved_rights b2 g.board_.turn
      (g.board_.piece_type_at g.board_.turn m.from_.val) m.from_.val).castling x = true := by
    unfold Board.castling at hx ⊢
    rw [← hcast]
    exact hx
  have e2 := capture_piece_mono b1 b2 _ m x hb2 (moved_rights_mono _ _ _ _ _ e1)
  unfold Board.castling at e2 ⊢
  rw [← (moved_fields g.board_ b1 m hb1).2]
  exact e2

/-! ## Texts the FEN pattern does not match -/

theorem spaces_tail_le (c : Char) (r : List Char) : spaces r ≤ spaces (c :: r) :=
  spaces_drop_le (c :: r) 1

theorem fen_exp_space_items : space_items fen_codec.fen_exp = 5 := by decide

/-- The pattern is not found in a text with fewer spaces than the pattern has. -/
theorem regex_search_few_spaces (p : List fen_codec.Item) :
    ∀ s : List Char, spaces s < space_items p → fen_codec.regex_search p s = none := by
  intro s
  induction s with
  | nil =>
    intro h
    rw [fen_codec.regex_search]
    cases hm : fen_codec.match_here p [] with
    | none => rfl
    | some gs =>
      have := match_here_spaces p [] gs hm
      omega
  | cons c r ih =>
    intro h
    rw [fen_codec.regex_search]
    cases hm : fen_codec.match_here p (c :: r) with
    | none =>
      simp only []
      exact ih (lt_of_le_of_lt (spaces_tail_le c r) h)
    | some gs =>
      have := match_here_spaces p (c :: r) gs hm
      omega

theorem fen_match_few_spaces (s : List Char) (h : spaces s < 5) : Board.fen_match s = none := by
  unfold Board.fen_match
  exact regex_search_few_spaces _ s (by rw [fen_exp_space_items]; exact h)

theorem from_fen_no_match (s : String) (h : Board.fen_match s.toList = none) :
    Board.from_fen s = some null_board := by
  unfold Board.from_fen
  rw [h]

theorem from_fen_match (s : String) (groups : List (List Char))
    (h : Board.fen_match s.toList = some groups) :
    Board.from_fen s = Board.from_fields groups := by
  unfold Board.from_fen
  rw [h]

/-! ## The pawn and knight tables, square by square -/

theorem leaper_tables_word : ∀ side, side < 2 → ∀ s, s < 64 →
    pawn_move_board side s < 2 ^ 64 ∧ pawn_double_move_board side s < 2 ^ 64 ∧
    pawn_attack_board side s < 2 ^ 64 ∧ knight_attack_board s < 2 ^ 64 ∧
    king_attack_board s < 2 ^ 64 := by
  decide!

theorem pawn_move_check : ∀ side, side < 2 → ∀ s, s < 64 → ∀ t, t < 64 →
    (pawn_move_board side s).testBit t = decide (ranks_ahead side 1 s t) := by
  decide!

theorem pawn_double_move_check : ∀ side, side < 2 → ∀ s, s < 64 → ∀ t, t < 64 →
    (pawn_double_move_board side s).testBit t =
      decide (Square.rank s = pawn_start_rank side ∧ ranks_ahead side 2 s t) := by
  decide!

theorem pawn_attack_check : ∀ side, side < 2 → ∀ s, s < 64 → ∀ t, t < 64 →
    (pawn_attack_board side s).testBit t = decide (diagonal_ahead side s t) := by
  decide!

theorem knight_table_check : ∀ s, s < 64 → ∀ t, t < 64 →
    (knight_attack_board s).testBit t = decide (knight_step s t) := by
  decide!

/-! ## The pawn generator -/

theorem square_eq_of_file_rank (u t : Nat) (hf : Square.file u = Square.file t)
    (hr : Square.rank u = Square.rank t) : u = t := by
  unfold Square.rank Square.file at *
  omega

theorem testBit_ne_zero (x i : Nat) (h : x.testBit i = true) : x ≠ 0 := by
  intro hx
  rw [hx, Nat.zero_testBit] at h
  exact Bool.noConfusion h

theorem pawn_moves_from_eq (b : Board) (s : Nat) :
    MoveGenerator.pawn_moves_from b s =
      MoveGenerator.pawn_targets s (pawn_push_board b s) (promotion_rank b.turn) false ++
        MoveGenerator.pawn_targets s (pawn_capture_board b s) (promotion_rank b.turn) true ++
        (BitboardIterator.squares (MoveGenerator.ep_board b b.turn s)).map
          (fun to_sq => Move.new s to_sq true true kPromoteQueen) := by
  unfold MoveGenerator.pawn_moves_from pawn_push_board pawn_capture_board promotion_rank
  exact Eq.refl _

theorem free_bit (occ x u : Nat) (hu : u < 64) :
    (x &&& Bitboard.compl occ).testBit u = true ↔ x.testBit u = true ∧ occ.testBit u = false := by
  rw [Nat.testBit_and, compl_testBit]
  simp [hu]

theorem free_bit_lt (occ x u : Nat) (h : (x &&& Bitboard.compl occ).testBit u = true) :
    u < 64 := by
  rw [Nat.testBit_and, compl_testBit] at h
  simp only [Bool.and_eq_true, decide_eq_true_eq] at h
  exact h.2.1

theorem single_push_free (b : Board) (s : Nat) (hside : b.turn < 2) (hs : s < 64) :
    pawn_move_board b.turn s &&& Bitboard.compl b.occupied ≠ 0 ↔
      ∃ u, u < 64 ∧ ranks_ahead b.turn 1 s u ∧ b.occupied.testBit u = false := by
  constructor
  · intro h
    obtain ⟨u, hu⟩ := Nat.ne_zero_implies_bit_true h
    have hu64 : u < 64 := free_bit_lt _ _ _ hu
    obtain ⟨h1, h2⟩ := (free_bit _ _ u hu64).1 hu
    rw [pawn_move_check _ hside s hs u hu64, decide_eq_true_eq] at h1
    exact ⟨u, hu64, h1, h2⟩
  · rintro ⟨u, hu64, h1, h2⟩
    apply testBit_ne_zero _ u
    rw [free_bit _ _ u hu64, pawn_move_check _ hside s hs u hu64, decide_eq_true_eq]
    exact ⟨h1, h2⟩

/-- The push targets of a pawn: the square one rank ahead when it is free, and the square two
ranks ahead when the pawn is on its starting rank and both squares are free. -/
theorem pawn_push_board_bit (b : Board) (s t : Nat) (hside : b.turn < 2) (hs : s < 64)
    (ht : t < 64) :
    (pawn_push_board b s).testBit t = true ↔
      (ranks_ahead b.turn 1 s t ∧ b.occupied.testBit t = false) ∨
      (Square.rank s = pawn_start_rank b.turn ∧ ranks_ahead b.turn 2 s t ∧
        b.occupied.testBit t = false ∧
        ∃ u, u < 64 ∧ ranks_ahead b.turn 1 s u ∧ b.occupied.testBit u = false) := by
  have hone := single_push_free b s hside hs
  unfold pawn_push_board
  simp only []
  by_cases hz : pawn_move_board b.turn s &&& Bitboard.compl b.occupied ≠ 0
  · rw [if_pos hz, Nat.testBit_or, Bool.or_eq_true, free_bit _ _ t ht, free_bit _ _ t ht,
      pawn_move_check _ hside s hs t ht, pawn_double_move_check _ hside s hs t ht,
      decide_eq_true_eq, decide_eq_true_eq]
    constructor
    · rintro (h | ⟨⟨h1, h2⟩, h3⟩)
      · exact Or.inl h
      · exact Or.inr ⟨h1, h2, h3, hone.1 hz⟩
    · rintro (h | ⟨h1, h2, h3, _⟩)
      · exact Or.inl h
      · exact Or.inr ⟨⟨h1, h2⟩, h3⟩
  · rw [if_neg hz, free_bit _ _ t ht, pawn_move_check _ hside s hs t ht, decide_eq_true_eq]
    constructor
    · exact Or.inl
    · rintro (h | ⟨_, _, _, hex⟩)
      · exact h
      · exact absurd (hone.2 hex) hz

/-- The capture targets of a pawn: the squares diagonally ahead that the enemy occupies. -/
theorem pawn_capture_board_bit (b : Board) (s t : Nat) (hside : b.turn < 2) (hs : s < 64)
    (ht : t < 64) :
    (pawn_capture_board b s).testBit t = true ↔
      diagonal_ahead b.turn s t ∧ b.square_occupied_side (not_side b.turn) t = true := by
  unfold pawn_capture_board Board.square_occupied_side Board.occupied_side
  rw [Nat.testBit_and, Bool.and_eq_true, pawn_attack_check _ hside s hs t ht, decide_eq_true_eq,
    decide_eq_true_eq, occupied_ne_zero_iff]
  constructor
  · rintro ⟨h1, h2⟩
    exact ⟨h1, ht, h2⟩
  · rintro ⟨h1, _, h2⟩
    exact ⟨h1, h2⟩

theorem square_occupied_false_iff (b : Board) (t : Nat) (ht : t < 64) :
    b.square_occupied t = false ↔ b.occupied.testBit t = false := by
  unfold Board.square_occupied Board.square_occupied_side Board.occupied
  rw [Nat.testBit_or, Bool.or_eq_false_iff, Bool.or_eq_false_iff, decide_eq_false_iff_not,
    decide_eq_false_iff_not, not_not, not_not, occupied_eq_zero_iff, occupied_eq_zero_iff]
  simp [ht]

theorem mem_pawn_moves_from (b : Board) (f : Nat) (m : Move) (hf : f < 64)
    (h : m ∈ MoveGenerator.pawn_moves_from b f) :
    m.from_.val = f ∧ m.to_.val < 64 ∧
      ((m.capture_ = false ∧ m.ep_ = false ∧ (pawn_push_board b f).testBit m.to_.val = true) ∨
       (m.capture_ = true ∧ m.ep_ = false ∧
          (pawn_capture_board b f).testBit m.to_.val = true) ∨
       (m.capture_ = true ∧ m.ep_ = true ∧ m.to_.val = b.ep_square)) := by
  rw [pawn_moves_from_eq, List.mem_append, List.mem_append] at h
  rcases h with (h | h) | h
  · obtain ⟨⟨a1, a2, a3⟩, a4, a5⟩ := mem_pawn_targets m f _ _ _ hf h
    exact ⟨a1, a2, Or.inl ⟨a4, a5, a3⟩⟩
  · obtain ⟨⟨a1, a2, a3⟩, a4, a5⟩ := mem_pawn_targets m f _ _ _ hf h
    exact ⟨a1, a2, Or.inr (Or.inl ⟨a4, a5, a3⟩)⟩
  · rw [List.mem_map] at h
    obtain ⟨t, ht, hmt⟩ := h
    obtain ⟨ht1, ht2⟩ := (mem_squares _ _).1 ht
    obtain ⟨e1, _, _⟩ := ep_board_bits b b.turn f t ht2
    obtain ⟨a1, a2, a3, a4⟩ := move_new_fields f t true true kPromoteQueen hf ht1
    rw [← hmt, a1, a2, a3, a4]
    exact ⟨rfl, ht1, Or.inr (Or.inr ⟨rfl, rfl, e1⟩)⟩

theorem pawn_targets_intro (f t targets r : Nat) (c : Bool) (hf : f < 64) (ht : t < 64)
    (h : targets.testBit t = true) :
    ∃ m, m ∈ MoveGenerator.pawn_targets f targets r c ∧ m.from_.val = f ∧ m.to_.val = t ∧
      m.capture_ = c ∧ m.ep_ = false := by
  refine ⟨Move.new f t c false kPromoteQueen, ?_,
    move_new_fields f t c false kPromoteQueen hf ht⟩
  unfold MoveGenerator.pawn_targets
  rw [List.mem_flatMap]
  refine ⟨t, (mem_squares _ _).2 ⟨ht, h⟩, ?_⟩
  split
  · rw [List.mem_map]
    exact ⟨kPromoteQueen, by decide, rfl⟩
  · exact List.mem_singleton.2 rfl

theorem pawn_moves_intro (b : Board) (s : Nat) (m : Move) (hs : s < 64)
    (hp : (b.pawns b.turn).testBit s = true) (h : m ∈ MoveGenerator.pawn_moves_from b s) :
    m ∈ MoveGenerator.generate_pseudolegal_moves b := by
  unfold MoveGenerator.generate_pseudolegal_moves MoveGenerator.generate_pawn_moves
  simp only [List.mem_append, List.mem_flatMap]
  exact Or.inl (Or.inl (Or.inl (Or.inl (Or.inl ⟨s, (mem_squares _ _).2 ⟨hs, hp⟩, h⟩))))

/-- Every pseudo-legal move comes from the pawn on its from-square or from the generator of a
non-pawn piece type, whose board holds the from-square. -/
theorem mem_pseudolegal_cases (b : Board) (m : Move)
    (h : m ∈ MoveGenerator.generate_pseudolegal_moves b) :
    (m.from_.val < 64 ∧ (b.pawns b.turn).testBit m.from_.val = true ∧
        m ∈ MoveGenerator.pawn_moves_from b m.from_.val) ∨
    (∃ piece, 1 ≤ piece ∧ piece ≤ 5 ∧
      (b.piece_board b.turn piece).testBit m.from_.val = true ∧
      (piece_attack_board b piece m.from_.val).testBit m.to_.val = true ∧
      b.square_occupied_side b.turn m.to_.val = false ∧
      m.capture_ = b.square_occupied_side (not_side b.turn) m.to_.val ∧ m.ep_ = false) := by
  have hpiece : ∀ piece, 1 ≤ piece → piece ≤ 5 → m ∈ piece_moves b piece →
      (b.piece_board b.turn piece).testBit m.from_.val = true ∧
      (piece_attack_board b piece m.from_.val).testBit m.to_.val = true ∧
      b.square_occupied_side b.turn m.to_.val = false ∧
      m.capture_ = b.square_occupied_side (not_side b.turn) m.to_.val ∧ m.ep_ = false := by
    intro piece h1 h5 hm
    rw [piece_moves_eq b piece h1 h5] at hm
    exact (generator_spec b (b.piece_board b.turn piece) (piece_attack_board b piece)).1 m hm
  rw [pseudolegal_moves_eq] at h
  simp only [List.mem_append] at h
  rcases h with ((((h | h) | h) | h) | h) | h
  · left
    unfold MoveGenerator.generate_pawn_moves at h
    rw [List.mem_flatMap] at h
    obtain ⟨f, hf, hm⟩ := h
    obtain ⟨hf1, hf2⟩ := (mem_squares _ _).1 hf
    obtain ⟨a1, _⟩ := mem_pawn_moves_from b f m hf1 hm
    rw [a1]
    exact ⟨hf1, hf2, hm⟩
  · exact Or.inr ⟨kPieceKnight, by decide, by decide, hpiece _ (by decide) (by decide) h⟩
  · exact Or.inr ⟨kPieceBishop, by decide, by decide, hpiece _ (by decide) (by decide) h⟩
  · exact Or.inr ⟨kPieceRook, by decide, by decide, hpiece _ (by decide) (by decide) h⟩
  · exact Or.inr ⟨kPieceQueen, by decide, by decide, hpiece _ (by decide) (by decide) h⟩
  · exact Or.inr ⟨kPieceKing, by decide, by decide, hpiece _ (by decide) (by decide) h⟩

theorem ranks_ahead_excl (side s t : Nat) (h1 : ranks_ahead side 1 s t)
    (h2 : ranks_ahead side 2 s t) : False := by
  unfold ranks_ahead pawn_direction at *
  obtain ⟨_, a⟩ := h1
  obtain ⟨_, c⟩ := h2
  split at a <;> omega

theorem ranks_ahead_unique (side n s t u : Nat) (h1 : ranks_ahead side n s t)
    (h2 : ranks_ahead side n s u) : u = t := by
  unfold ranks_ahead at *
  apply square_eq_of_file_rank
  · rw [h1.1, h2.1]
  · have := h1.2
    have := h2.2
    omega

theorem side_occupied_cases (b : Board) (t : Nat) (hside : b.turn < 2) :
    b.square_occupied t =
      (b.square_occupied_side b.turn t || b.square_occupied_side (not_side b.turn) t) := by
  unfold Board.square_occupied not_side kSideWhite kSideBlack
  have h : b.turn = 0 ∨ b.turn = 1 := by omega
  rcases h with h | h
  · rw [h]
    rfl
  · rw [h, Bool.or_comm]
    rfl

theorem no_straight_double (b : Board) (piece s t : Nat) (hs : s < 64)
    (hpiece : piece = kPieceKnight ∨ piece = kPieceBishop ∨ piece = kPieceKing)
    (hbit : (piece_attack_board b piece s).testBit t = true) (ht : t < 64)
    (h2 : ranks_ahead b.turn 2 s t) : False := by
  obtain ⟨e1, e2, _, _, e5⟩ := piece_attack_cases b s
  have hdir : pawn_direction b.turn = 1 ∨ pawn_direction b.turn = -1 := by
    unfold pawn_direction
    split
    · exact Or.inl rfl
    · exact Or.inr rfl
  obtain ⟨hfile, hrank⟩ := h2
  rcases hpiece with h | h | h
  · rw [h, e1, knight_table_check s hs t ht, decide_eq_true_eq] at hbit
    unfold knight_step at hbit
    rw [hfile] at hbit
    simp at hbit
  · rw [h, e2, bishop_attack_iff _ s t hs] at hbit
    obtain ⟨_, _, hd, _⟩ := hbit
    unfold common_diagonal at hd
    rcases hdir with hd1 | hd1 <;> rw [hd1] at hrank <;> omega
  · rw [h, e5] at hbit
    obtain ⟨_, _, _, k1, k2⟩ := king_table_step s t hs ht hbit
    rcases hdir with hd1 | hd1 <;> rw [hd1] at hrank <;> omega

/-- The pushes and captures in the pseudo-legal list, for a pawn of the side to move on `s`:
the single push, the double push (where no rook or queen of the mover shares the square) and
the diagonal captures. -/
theorem pawn_push_capture_spec (b : Board) (s : Nat) (hside : b.turn < 2) (hs : s < 64)
    (hpawn : (b.pawns b.turn).testBit s = true) :
    (∀ t, t < 64 → ranks_ahead b.turn 1 s t →
      ((∃ m, m ∈ MoveGenerator.generate_pseudolegal_moves b ∧ m.from_.val = s ∧
          m.to_.val = t ∧ m.capture_ = false) ↔ b.square_occupied t = false)) ∧
    (∀ t1 t2, t1 < 64 → t2 < 64 → ranks_ahead b.turn 1 s t1 → ranks_ahead b.turn 2 s t2 →
      ((Square.rank s = pawn_start_rank b.turn ∧ b.square_occupied t1 = false ∧
          b.square_occupied t2 = false) →
        ∃ m, m ∈ MoveGenerator.generate_pseudolegal_moves b ∧ m.from_.val = s ∧
          m.to_.val = t2 ∧ m.capture_ = false) ∧
      ((b.rooks b.turn).testBit s = false → (b.queens b.turn).testBit s = false →
        (∃ m, m ∈ MoveGenerator.generate_pseudolegal_moves b ∧ m.from_.val = s ∧
          m.to_.val = t2 ∧ m.capture_ = false) →
        Square.rank s = pawn_start_rank b.turn ∧ b.square_occupied t1 = false ∧
          b.square_occupied t2 = false)) ∧
    (∀ t, t < 64 → diagonal_ahead b.turn s t →
      ((∃ m, m ∈ MoveGenerator.generate_pseudolegal_moves b ∧ m.from_.val = s ∧
          m.to_.val = t ∧ m.capture_ = true ∧ m.ep_ = false) ↔
        b.square_occupied_side (not_side b.turn) t = true)) := by
  have hcap : ∀ m : Move, m.capture_ = false → (m.capture_ = true ∧ m.ep_ = false ∧
      (pawn_capture_board b m.from_.val).testBit m.to_.val = true) ∨
      (m.capture_ = true ∧ m.ep_ = true ∧ m.to_.val = b.ep_square) → False := by
    intro m hc h
    rcases h with h | h <;> rw [hc] at h <;> exact Bool.noConfusion h.1
  refine ⟨?_, ?_, ?_⟩
  · intro t ht hra
    constructor
    · rintro ⟨m, hm, hf, hto, hc⟩
      rcases mem_pseudolegal_cases b m hm with ⟨_, _, hmem⟩ | ⟨piece, _, _, _, _, a3, a4, _⟩
      · obtain ⟨_, _, hk⟩ := mem_pawn_moves_from b _ m (hf ▸ hs) hmem
        rcases hk with ⟨_, _, hbit⟩ | hk
        · rw [hf, hto, pawn_push_board_bit b s t hside hs ht] at hbit
          rcases hbit with ⟨_, hfree⟩ | ⟨_, h2, _, _⟩
          · exact (square_occupied_false_iff b t ht).2 hfree
          · exact (ranks_ahead_excl _ _ _ hra h2).elim
        · exact (hcap m hc hk).elim
      · rw [side_occupied_cases b t hside, ← hto, a3, ← a4, hc]
        rfl
    · intro hfree
      have hbit : (pawn_push_board b s).testBit t = true :=
        (pawn_push_board_bit b s t hside hs ht).2
          (Or.inl ⟨hra, (square_occupied_false_iff b t ht).1 hfree⟩)
      obtain ⟨m, hm, e1, e2, e3, _⟩ :=
        pawn_targets_intro s t _ (promotion_rank b.turn) false hs ht hbit
      refine ⟨m, pawn_moves_intro b s m hs hpawn ?_, e1, e2, e3⟩
      rw [pawn_moves_from_eq, List.mem_append, List.mem_append]
      exact Or.inl (Or.inl hm)
  · intro t1 t2 ht1 ht2 hra1 hra2
    constructor
    · rintro ⟨hstart, hf1, hf2⟩
      have hbit : (pawn_push_board b s).testBit t2 = true :=
        (pawn_push_board_bit b s t2 hside hs ht2).2
          (Or.inr ⟨hstart, hra2, (square_occupied_false_iff b t2 ht2).1 hf2, t1, ht1, hra1,
            (square_occupied_false_iff b t1 ht1).1 hf1⟩)
      obtain ⟨m, hm, e1, e2, e3, _⟩ :=
        pawn_targets_intro s t2 _ (promotion_rank b.turn) false hs ht2 hbit
      refine ⟨m, pawn_moves_intro b s m hs hpawn ?_, e1, e2, e3⟩
      rw [pawn_moves_from_eq, List.mem_append, List.mem_append]
      exact Or.inl (Or.inl hm)
    · rintro hrook hqueen ⟨m, hm, hf, hto, hc⟩
      rcases mem_pseudolegal_cases b m hm with ⟨_, _, hmem⟩ | ⟨piece, p1, p5, a1, a2, _, _, _⟩
      · obtain ⟨_, _, hk⟩ := mem_pawn_moves_from b _ m (hf ▸ hs) hmem
        rcases hk with ⟨_, _, hbit⟩ | hk
        · rw [hf, hto, pawn_push_board_bit b s t2 hside hs ht2] at hbit
          rcases hbit with ⟨h1, _⟩ | ⟨hstart, _, hfree2, u, hu, hrau, hfreeu⟩
          · exact (ranks_ahead_excl _ _ _ h1 hra2).elim
          · rw [ranks_ahead_unique _ _ _ _ _ hra1 hrau] at hfreeu
            exact ⟨hstart, (square_occupied_false_iff b t1 ht1).2 hfreeu,
              (square_occupied_false_iff b t2 ht2).2 hfree2⟩
        · exact (hcap m hc hk).elim
      · rw [hf] at a1 a2
        rw [hto] at a2
        have hp : piece = kPieceKnight ∨ piece = kPieceBishop ∨ piece = kPieceRook ∨
            piece = kPieceQueen ∨ piece = kPieceKing := by
          unfold kPieceKnight kPieceBishop kPieceRook kPieceQueen kPieceKing
          omega
        rcases hp with h | h | h | h | h
        · exact (no_straight_double b piece s t2 hs (Or.inl h) a2 ht2 hra2).elim
        · exact (no_straight_double b piece s t2 hs (Or.inr (Or.inl h)) a2 ht2 hra2).elim
        · rw [h] at a1
          unfold Board.rooks at hrook
          unfold Board.piece_board at a1
          rw [hrook] at a1
          exact Bool.noConfusion a1
        · rw [h] at a1
          unfold Board.queens at hqueen
          unfold Board.piece_board at a1
          rw [hqueen] at a1
          exact Bool.noConfusion a1
        · exact (no_straight_double b piece s t2 hs (Or.inr (Or.inr h)) a2 ht2 hra2).elim
  · intro t ht hda
    constructor
    · rintro ⟨m, hm, hf, hto, hc, hep⟩
      rcases mem_pseudolegal_cases b m hm with ⟨_, _, hmem⟩ | ⟨piece, _, _, _, _, _, a4, _⟩
      · obtain ⟨_, _, hk⟩ := mem_pawn_moves_from b _ m (hf ▸ hs) hmem
        rcases hk with ⟨hc0, _, _⟩ | ⟨_, _, hbit⟩ | ⟨_, hep1, _⟩
        · rw [hc] at hc0
          exact Bool.noConfusion hc0
        · rw [hf, hto, pawn_capture_board_bit b s t hside hs ht] at hbit
          exact hbit.2
        · rw [hep] at hep1
          exact Bool.noConfusion hep1
      · rw [← hto, ← a4, hc]
    · intro henemy
      have hbit : (pawn_capture_board b s).testBit t = true :=
        (pawn_capture_board_bit b s t hside hs ht).2 ⟨hda, henemy⟩
      obtain ⟨m, hm, e1, e2, e3, e4⟩ :=
        pawn_targets_intro s t _ (promotion_rank b.turn) true hs ht hbit
      refine ⟨m, pawn_moves_intro b s m hs hpawn ?_, e1, e2, e3, e4⟩
      rw [pawn_moves_from_eq, List.mem_append, List.mem_append]
      exact Or.inl (Or.inr hm)

/-! ## Counting the moves of one pawn to one destination -/

/-- In the concatenation of the lists `g x` over a duplicate-free list, the entries passing a
test are those of `g x0` when the other lists have none. -/
theorem filter_flatMap_eq {α β : Type} (p : β → Bool) (g : α → List β) (x0 : α) :
    ∀ xs : List α, xs.Nodup → x0 ∈ xs → (∀ x, x ∈ xs → x ≠ x0 → (g x).filter p = []) →
      (xs.flatMap g).filter p = (g x0).filter p := by
  intro xs
  induction xs with
  | nil =>
    intro _ hmem _
    cases hmem
  | cons y ys ih =>
    intro hnd hmem hother
    obtain ⟨hy, hnd2⟩ := List.nodup_cons.1 hnd
    rw [List.flatMap_cons, List.filter_append]
    by_cases hyx : y = x0
    · have hrest : (ys.flatMap g).filter p = [] := by
        apply filter_flatMap_nil
        intro x hx
        apply hother x (List.mem_cons_of_mem _ hx)
        intro hxx
        rw [hxx, ← hyx] at hx
        exact hy hx
      rw [hrest, hyx, List.append_nil]
    · have hmem2 : x0 ∈ ys := by
        rcases List.mem_cons.1 hmem with h | h
        · exact absurd h.symm hyx
        · exact h
      rw [hother y (List.mem_cons_self _ _) hyx,
        ih hnd2 hmem2 (fun x hx => hother x (List.mem_cons_of_mem _ hx)), List.nil_append]

theorem promotion_fan_eq (side f t : Nat) (c : Bool) :
    (if Square.rank t = promotion_rank side then
        MoveGenerator.promotion_types.map (fun promote => Move.new f t c false promote)
      else [Move.new f t c false kPromoteQueen]) = promotion_fan side f t c := by
  unfold promotion_fan MoveGenerator.promotion_types
  simp only [List.map]

theorem mem_promotion_fan (side f t : Nat) (c : Bool) (m : Move) (hf : f < 64) (ht : t < 64)
    (h : m ∈ promotion_fan side f t c) :
    m.from_.val = f ∧ m.to_.val = t ∧ m.ep_ = false := by
  have key : ∀ p, m = Move.new f t c false p →
      m.from_.val = f ∧ m.to_.val = t ∧ m.ep_ = false := by
    intro p hp
    obtain ⟨a1, a2, _, a4⟩ := move_new_fields f t c false p hf ht
    rw [hp]
    exact ⟨a1, a2, a4⟩
  unfold promotion_fan at h
  split at h
  · simp only [List.mem_cons, List.mem_singleton, List.not_mem_nil, or_false] at h
    rcases h with h | h | h | h <;> exact key _ h
  · exact key _ (List.mem_singleton.1 h)

theorem pawn_targets_filter (side f t targets : Nat) (c : Bool) (hf : f < 64) (ht : t < 64) :
    (MoveGenerator.pawn_targets f targets (promotion_rank side) c).filter
        (fun m => decide (m.from_.val = f ∧ m.to_.val = t ∧ m.ep_ = false)) =
      if targets.testBit t = true then promotion_fan side f t c else [] := by
  unfold MoveGenerator.pawn_targets
  simp only [promotion_fan_eq]
  by_cases hbit : targets.testBit t = true
  · rw [if_pos hbit]
    refine (filter_flatMap_eq _ _ t _ (squares_nodup _) ((mem_squares _ _).2 ⟨ht, hbit⟩)
      ?_).trans ?_
    · intro t' ht' hne
      rw [List.filter_eq_nil_iff]
      intro m hm
      obtain ⟨_, a2, _⟩ := mem_promotion_fan side f t' c m hf ((mem_squares _ _).1 ht').1 hm
      rw [decide_eq_true_eq, a2]
      exact fun hx => hne hx.2.1
    · rw [List.filter_eq_self]
      intro m hm
      rw [decide_eq_true_eq]
      exact mem_promotion_fan side f t c m hf ht hm
  · rw [if_neg hbit]
    apply filter_flatMap_nil
    intro t' ht'
    obtain ⟨h1, h2⟩ := (mem_squares _ _).1 ht'
    rw [List.filter_eq_nil_iff]
    intro m hm
    obtain ⟨_, a2, _⟩ := mem_promotion_fan side f t' c m hf h1 hm
    rw [decide_eq_true_eq, a2]
    rintro ⟨_, hx, _⟩
    rw [hx] at h2
    exact hbit h2

theorem pawn_moves_from_filter (b : Board) (s t : Nat) (hs : s < 64) (ht : t < 64) :
    (MoveGenerator.pawn_moves_from b s).filter
        (fun m => decide (m.from_.val = s ∧ m.to_.val = t ∧ m.ep_ = false)) =
      (if (pawn_push_board b s).testBit t = true then promotion_fan b.turn s t false else []) ++
      (if (pawn_capture_board b s).testBit t = true then promotion_fan b.turn s t true
        else []) := by
  have hep : ((BitboardIterator.squares (MoveGenerator.ep_board b b.turn s)).map
      (fun to_sq => Move.new s to_sq true true kPromoteQueen)).filter
        (fun m => decide (m.from_.val = s ∧ m.to_.val = t ∧ m.ep_ = false)) = [] := by
    rw [List.filter_eq_nil_iff]
    intro m hm
    rw [List.mem_map] at hm
    obtain ⟨t', ht', hmt⟩ := hm
    obtain ⟨_, _, _, a4⟩ :=
      move_new_fields s t' true true kPromoteQueen hs ((mem_squares _ _).1 ht').1
    rw [decide_eq_true_eq, ← hmt, a4]
    exact fun hx => Bool.noConfusion hx.2.2
  rw [pawn_moves_from_eq, List.filter_append, List.filter_append,
    pawn_targets_filter _ _ _ _ _ hs ht, pawn_targets_filter _ _ _ _ _ hs ht, hep,
    List.append_nil]

theorem piece_moves_filter_nil (b : Board) (piece s : Nat) (p : Move → Bool)
    (h1 : 1 ≤ piece) (h5 : piece ≤ 5) (hp : ∀ m, p m = true → m.from_.val = s)
    (hno : (b.piece_board b.turn piece).testBit s = false) :
    (piece_moves b piece).filter p = [] := by
  rw [List.filter_eq_nil_iff]
  intro m hm hpm
  rw [piece_moves_eq b piece h1 h5] at hm
  have hmem :=
    ((generator_spec b (b.piece_board b.turn piece) (piece_attack_board b piece)).1 m hm).1
  rw [hp m hpm, hno] at hmem
  exact Bool.noConfusion hmem

/-- Where the pawn is the only piece of the mover on `s`, the pseudo-legal moves from `s` to
`t` not flagged en passant are the fan of the push target followed by the fan of the capture
target. -/
theorem pseudolegal_filter_pawn (b : Board) (s t : Nat) (hs : s < 64) (ht : t < 64)
    (hpawn : (b.pawns b.turn).testBit s = true)
    (honly : ∀ piece, 1 ≤ piece → piece ≤ 5 →
      (b.piece_board b.turn piece).testBit s = false) :
    (MoveGenerator.generate_pseudolegal_moves b).filter
        (fun m => decide (m.from_.val = s ∧ m.to_.val = t ∧ m.ep_ = false)) =
      (if (pawn_push_board b s).testBit t = true then promotion_fan b.turn s t false else []) ++
      (if (pawn_capture_board b s).testBit t = true then promotion_fan b.turn s t true
        else []) := by
  have hp : ∀ m : Move, decide (m.from_.val = s ∧ m.to_.val = t ∧ m.ep_ = false) = true →
      m.from_.val = s := by
    intro m hm
    rw [decide_eq_true_eq] at hm
    exact hm.1
  have hpawns : (MoveGenerator.generate_pawn_moves b).filter
      (fun m => decide (m.from_.val = s ∧ m.to_.val = t ∧ m.ep_ = false)) =
      (MoveGenerator.pawn_moves_from b s).filter
        (fun m => decide (m.from_.val = s ∧ m.to_.val = t ∧ m.ep_ = false)) := by
    unfold MoveGenerator.generate_pawn_moves
    refine filter_flatMap_eq _ _ s _ (squares_nodup _) ((mem_squares _ _).2 ⟨hs, hpawn⟩) ?_
    intro f hf hne
    rw [List.filter_eq_nil_iff]
    intro m hm
    obtain ⟨a1, _⟩ := mem_pawn_moves_from b f m ((mem_squares _ _).1 hf).1 hm
    rw [decide_eq_true_eq, a1]
    exact fun hx => hne hx.1
  rw [pseudolegal_moves_eq]
  simp only [List.filter_append]
  rw [piece_moves_filter_nil b kPieceKnight s _ (by decide) (by decide) hp
      (honly _ (by decide) (by decide)),
    piece_moves_filter_nil b kPieceBishop s _ (by decide) (by decide) hp
      (honly _ (by decide) (by decide)),
    piece_moves_filter_nil b kPieceRook s _ (by decide) (by decide) hp
      (honly _ (by decide) (by decide)),
    piece_moves_filter_nil b kPieceQueen s _ (by decide) (by decide) hp
      (honly _ (by decide) (by decide)),
    piece_moves_filter_nil b kPieceKing s _ (by decide) (by decide) hp
      (honly _ (by decide) (by decide)), hpawns, pawn_moves_from_filter b s t hs ht]
  simp only [List.append_nil]

theorem pawn_destination_bits (b : Board) (s t : Nat) (c : Bool) (hside : b.turn < 2)
    (hs : s < 64) (ht : t < 64) (h : pawn_destination b s t c) :
    (pawn_push_board b s).testBit t = !c ∧ (pawn_capture_board b s).testBit t = c := by
  have hexcl : ∀ n, ranks_ahead b.turn n s t → diagonal_ahead b.turn s t → False := by
    intro n h1 h2
    unfold ranks_ahead at h1
    unfold diagonal_ahead at h2
    omega
  have hpush_diag : (pawn_push_board b s).testBit t = true → diagonal_ahead b.turn s t →
      False := by
    intro hb hd
    rcases (pawn_push_board_bit b s t hside hs ht).1 hb with ⟨h1, _⟩ | ⟨_, h2, _⟩
    · exact hexcl _ h1 hd
    · exact hexcl _ h2 hd
  unfold pawn_destination at h
  cases c
  · simp only [Bool.false_eq_true, if_false] at h
    have hb : (pawn_push_board b s).testBit t = true := by
      rw [pawn_push_board_bit b s t hside hs ht]
      rcases h with ⟨h1, h2⟩ | ⟨h1, h2, h3, u, hu, h4, h5⟩
      · exact Or.inl ⟨h1, (square_occupied_false_iff b t ht).1 h2⟩
      · exact Or.inr ⟨h1, h2, (square_occupied_false_iff b t ht).1 h3, u, hu, h4,
          (square_occupied_false_iff b u hu).1 h5⟩
    refine ⟨hb, ?_⟩
    rw [Bool.eq_false_iff]
    intro hc
    exact hpush_diag hb ((pawn_capture_board_bit b s t hside hs ht).1 hc).1
  · simp only [if_true] at h
    have hc : (pawn_capture_board b s).testBit t = true :=
      (pawn_capture_board_bit b s t hside hs ht).2 h
    refine ⟨?_, hc⟩
    rw [Bool.not_true, Bool.eq_false_iff]
    intro hb
    exact hpush_diag hb h.1

/-- The promotion fan-out, for a destination of a pawn that is the only piece of the mover on
its square, counted among the moves not flagged en passant. -/
theorem promotion_fan_out_spec (b : Board) (s t : Nat) (c : Bool) (hside : b.turn < 2)
    (hs : s < 64) (ht : t < 64) (hpawn : (b.pawns b.turn).testBit s = true)
    (honly : ∀ piece, 1 ≤ piece → piece ≤ 5 →
      (b.piece_board b.turn piece).testBit s = false)
    (hdest : pawn_destination b s t c) :
    (MoveGenerator.generate_pseudolegal_moves b).filter
        (fun m => decide (m.from_.val = s ∧ m.to_.val = t ∧ m.ep_ = false)) =
      promotion_fan b.turn s t c := by
  obtain ⟨h1, h2⟩ := pawn_destination_bits b s t c hside hs ht hdest
  rw [pseudolegal_filter_pawn b s t hs ht hpawn honly, h1, h2]
  cases c
  · simp
  · simp

/-! ## Check detection -/

theorem squares_of_empty (w : Nat) (h : ∀ k, k < 64 → w.testBit k = false) :
    BitboardIterator.squares w = [] := by
  rw [List.eq_nil_iff_forall_not_mem]
  intro k hk
  obtain ⟨h1, h2⟩ := (mem_squares _ _).1 hk
  rw [h k h1] at h2
  exact Bool.noConfusion h2

/-- The iterator starts with the lowest set bit. -/
theorem squares_head (w k : Nat) (hk : k < 64) (hbit : w.testBit k = true)
    (hlow : ∀ j, j < k → w.testBit j = false) :
    ∃ rest, BitboardIterator.squares w = k :: rest := by
  have hd : ∀ j, j < 64 → (w % 2 ^ 64).testBit j = w.testBit j := by
    intro j hj
    rw [Nat.testBit_mod_two_pow]
    simp [hj]
  have hdk : (w % 2 ^ 64).testBit k = true := by rw [hd k hk, hbit]
  obtain ⟨f1, f2, f3⟩ := find_first_spec (w % 2 ^ 64) ⟨k, hk, hdk⟩
  have hff : Bitboard.find_first (w % 2 ^ 64) = k := by
    rcases Nat.lt_trichotomy (Bitboard.find_first (w % 2 ^ 64)) k with h | h | h
    · rw [hd _ f2, hlow _ h] at f1
      exact Bool.noConfusion f1
    · exact h
    · rw [f3 k h] at hdk
      exact Bool.noConfusion hdk
  unfold BitboardIterator.squares
  rw [show (64 : Nat) = 63 + 1 from rfl]
  unfold BitboardIterator.drain
  rw [if_neg (testBit_ne_zero _ k hdk)]
  simp only []
  rw [hff]
  exact ⟨_, rfl⟩

theorem foldl_set_board_testBit (f : Nat → Nat) (t : Nat) :
    ∀ (l : List Nat) (init : Nat),
      (l.foldl (fun attacked square => Bitboard.set_board attacked (f square)) init).testBit t
          = true ↔
        init.testBit t = true ∨ ∃ s, s ∈ l ∧ (f s).testBit t = true := by
  intro l
  induction l with
  | nil =>
    intro init
    simp
  | cons x xs ih =>
    intro init
    rw [List.foldl_cons, ih]
    unfold Bitboard.set_board
    rw [Nat.testBit_or, Bool.or_eq_true]
    constructor
    · rintro ((h | h) | ⟨s, hs, h⟩)
      · exact Or.inl h
      · exact Or.inr ⟨x, List.mem_cons_self _ _, h⟩
      · exact Or.inr ⟨s, List.mem_cons_of_mem _ hs, h⟩
    · rintro (h | ⟨s, hs, h⟩)
      · exact Or.inl (Or.inl h)
      · rcases List.mem_cons.1 hs with e | e
        · rw [e] at h
          exact Or.inl (Or.inr h)
        · exact Or.inr ⟨s, e, h⟩

/-- The union of the per-square attack boards over the set squares of a word. -/
theorem attack_union_testBit (f : Nat → Nat) (w t : Nat) :
    (attack_union f w).testBit t = true ↔
      ∃ s, s < 64 ∧ w.testBit s = true ∧ (f s).testBit t = true := by
  unfold attack_union
  rw [foldl_set_board_testBit]
  simp only [Nat.zero_testBit, Bool.false_eq_true, false_or, mem_squares, and_assoc]

theorem or_ne_zero (a b : Nat) : a ||| b ≠ 0 ↔ a ≠ 0 ∨ b ≠ 0 := by
  constructor
  · intro h
    obtain ⟨i, hi⟩ := Nat.ne_zero_implies_bit_true h
    rw [Nat.testBit_or, Bool.or_eq_true] at hi
    rcases hi with hi | hi
    · exact Or.inl (testBit_ne_zero _ i hi)
    · exact Or.inr (testBit_ne_zero _ i hi)
  · rintro (h | h)
    · obtain ⟨i, hi⟩ := Nat.ne_zero_implies_bit_true h
      exact testBit_ne_zero _ i (by rw [Nat.testBit_or, hi]; rfl)
    · obtain ⟨i, hi⟩ := Nat.ne_zero_implies_bit_true h
      exact testBit_ne_zero _ i (by rw [Nat.testBit_or, hi, Bool.or_true])

theorem attacked_bit (f : Nat → Nat) (w sq : Nat) (hsq : sq < 64) :
    Bitboard.occupied (attack_union f w) sq ≠ 0 ↔
      ∃ s, s < 64 ∧ w.testBit s = true ∧ (f s).testBit sq = true := by
  rw [occupied_ne_zero_iff, attack_union_testBit]
  constructor
  · exact fun h => h.2
  · exact fun h => ⟨hsq, h⟩

/-- The word `attacks_to_square` returns is non-zero iff the attack board of some piece of the
side, taken from the square of the piece, holds the square. -/
theorem attacks_to_square_ne_zero (b : Board) (side sq : Nat) (hsq : sq < 64) :
    b.attacks_to_square side sq ≠ 0 ↔
      ∃ f, f < 64 ∧
        (((b.pawns side).testBit f = true ∧ (pawn_attack_board side f).testBit sq = true) ∨
         ((b.knights side).testBit f = true ∧ (knight_attack_board f).testBit sq = true) ∨
         ((b.bishops side).testBit f = true ∧
            (bishop_attack_board b.occupied f).testBit sq = true) ∨
         ((b.rooks side).testBit f = true ∧
            (rook_attack_board b.occupied f).testBit sq = true) ∨
         ((b.queens side).testBit f = true ∧
            (queen_attack_board b.occupied f).testBit sq = true) ∨
         ((b.kings side).testBit f = true ∧ (king_attack_board f).testBit sq = true)) := by
  unfold Board.attacks_to_square Board.pawns Board.knights Board.bishops Board.rooks
    Board.queens Board.kings Board.piece_board
  simp only []
  rw [or_ne_zero, or_ne_zero, or_ne_zero, or_ne_zero, or_ne_zero, attacked_bit _ _ _ hsq,
    attacked_bit _ _ _ hsq, attacked_bit _ _ _ hsq, attacked_bit _ _ _ hsq,
    attacked_bit _ _ _ hsq, attacked_bit _ _ _ hsq]
  constructor
  · rintro (((((⟨f, hf, h⟩ | ⟨f, hf, h⟩) | ⟨f, hf, h⟩) | ⟨f, hf, h⟩) | ⟨f, hf, h⟩) |
      ⟨f, hf, h⟩)
    · exact ⟨f, hf, Or.inl h⟩
    · exact ⟨f, hf, Or.inr (Or.inl h)⟩
    · exact ⟨f, hf, Or.inr (Or.inr (Or.inl h))⟩
    · exact ⟨f, hf, Or.inr (Or.inr (Or.inr (Or.inl h)))⟩
    · exact ⟨f, hf, Or.inr (Or.inr (Or.inr (Or.inr (Or.inl h))))⟩
    · exact ⟨f, hf, Or.inr (Or.inr (Or.inr (Or.inr (Or.inr h))))⟩
  · rintro ⟨f, hf, h | h | h | h | h | h⟩
    · exact Or.inl (Or.inl (Or.inl (Or.inl (Or.inl ⟨f, hf, h⟩))))
    · exact Or.inl (Or.inl (Or.inl (Or.inl (Or.inr ⟨f, hf, h⟩))))
    · exact Or.inl (Or.inl (Or.inl (Or.inr ⟨f, hf, h⟩)))
    · exact Or.inl (Or.inl (Or.inr ⟨f, hf, h⟩))
    · exact Or.inl (Or.inr ⟨f, hf, h⟩)
    · exact Or.inr ⟨f, hf, h⟩

theorem occupied_testBit_false_iff (b : Board) (hinv : occupancy_invariant b) (u : Nat) :
    b.occupied.testBit u = false ↔ square_empty b u := by
  have h0 : b.occupied_ kSideWhite = b.side_union 0 := hinv 0 (by decide)
  have h1 : b.occupied_ kSideBlack = b.side_union 1 := hinv 1 (by decide)
  unfold Board.occupied square_empty
  rw [h0, h1, Nat.testBit_or, Bool.or_eq_false_iff, Bool.eq_false_iff, Bool.eq_false_iff,
    Ne, Ne, side_union_testBit, side_union_testBit]
  constructor
  · rintro ⟨a0, a1⟩ side hside piece hpiece
    rw [Bool.eq_false_iff]
    intro hc
    have hs : side = 0 ∨ side = 1 := by omega
    rcases hs with hs | hs
    · exact a0 ⟨piece, hpiece, hs ▸ hc⟩
    · exact a1 ⟨piece, hpiece, hs ▸ hc⟩
  · intro h
    constructor
    · rintro ⟨piece, hpiece, hc⟩
      rw [h 0 (by decide) piece hpiece] at hc
      exact Bool.noConfusion hc
    · rintro ⟨piece, hpiece, hc⟩
      rw [h 1 (by decide) piece hpiece] at hc
      exact Bool.noConfusion hc

theorem bishop_line (b : Board) (hinv : occupancy_invariant b) (f k : Nat) (hf : f < 64)
    (hk : k < 64) :
    (bishop_attack_board b.occupied f).testBit k = true ↔
      f ≠ k ∧ common_diagonal f k ∧ ∀ u, u < 64 → bishop_between f k u → square_empty b u := by
  rw [bishop_attack_iff _ f k hf]
  simp only [occupied_testBit_false_iff b hinv]
  constructor
  · rintro ⟨_, h1, h2, h3⟩
    exact ⟨Ne.symm h1, h2, h3⟩
  · rintro ⟨h1, h2, h3⟩
    exact ⟨hk, Ne.symm h1, h2, h3⟩

theorem rook_line (b : Board) (hinv : occupancy_invariant b) (f k : Nat) (hf : f < 64)
    (hk : k < 64) :
    (rook_attack_board b.occupied f).testBit k = true ↔
      f ≠ k ∧ (Square.file k = Square.file f ∨ Square.rank k = Square.rank f) ∧
        ∀ u, u < 64 → rook_between f k u → square_empty b u := by
  rw [rook_attack_iff _ f k hf]
  simp only [occupied_testBit_false_iff b hinv]
  constructor
  · rintro ⟨_, h1, h2, h3⟩
    exact ⟨Ne.symm h1, h2, h3⟩
  · rintro ⟨h1, h2, h3⟩
    exact ⟨hk, Ne.symm h1, h2, h3⟩

theorem check_no_king (b : Board) (side : Nat)
    (h : ∀ k, k < 64 → (b.kings side).testBit k = false) : b.check side = false := by
  unfold Board.check
  rw [squares_of_empty _ h]

/-- With the king of `side` on `k`, its lowest king square, `check(side)` holds iff a piece of
the other side attacks `k` under chess geometry. -/
theorem check_iff_attacked (b : Board) (side k : Nat)
    (hinv : occupancy_invariant b) (hk : k < 64) (hbit : (b.kings side).testBit k = true)
    (hlow : ∀ j, j < k → (b.kings side).testBit j = false) :
    b.check side = true ↔ attacked_by b (not_side side) k := by
  obtain ⟨rest, hsq⟩ := squares_head (b.kings side) k hk hbit hlow
  have he : not_side side < 2 := by
    unfold not_side
    split <;> omega
  unfold Board.check
  rw [hsq]
  simp only []
  rw [decide_eq_true_eq, attacks_to_square_ne_zero b _ k hk]
  unfold attacked_by
  constructor
  · rintro ⟨f, hf, h⟩
    refine ⟨f, hf, ?_⟩
    rcases h with ⟨h1, h2⟩ | ⟨h1, h2⟩ | ⟨h1, h2⟩ | ⟨h1, h2⟩ | ⟨h1, h2⟩ | ⟨h1, h2⟩
    · rw [pawn_attack_check _ he f hf k hk, decide_eq_true_eq] at h2
      exact Or.inl ⟨h1, h2⟩
    · rw [knight_table_check f hf k hk, decide_eq_true_eq] at h2
      exact Or.inr (Or.inl ⟨h1, h2⟩)
    · exact Or.inr (Or.inr (Or.inr (Or.inl ⟨Or.inl h1, (bishop_line b hinv f k hf hk).1 h2⟩)))
    · exact Or.inr (Or.inr (Or.inr (Or.inr ⟨Or.inl h1, (rook_line b hinv f k hf hk).1 h2⟩)))
    · rcases (queen_attack_bits _ _ _).1 h2 with h3 | h3
      · exact Or.inr (Or.inr (Or.inr (Or.inl
          ⟨Or.inr h1, (bishop_line b hinv f k hf hk).1 h3⟩)))
      · exact Or.inr (Or.inr (Or.inr (Or.inr
          ⟨Or.inr h1, (rook_line b hinv f k hf hk).1 h3⟩)))
    · rw [king_table_check f hf k hk, decide_eq_true_eq] at h2
      exact Or.inr (Or.inr (Or.inl ⟨h1, h2⟩))
  · rintro ⟨f, hf, h⟩
    refine ⟨f, hf, ?_⟩
    rcases h with ⟨h1, h2⟩ | ⟨h1, h2⟩ | ⟨h1, h2⟩ | ⟨h1 | h1, h2⟩ | ⟨h1 | h1, h2⟩
    · refine Or.inl ⟨h1, ?_⟩
      rw [pawn_attack_check _ he f hf k hk, decide_eq_true_eq]
      exact h2
    · refine Or.inr (Or.inl ⟨h1, ?_⟩)
      rw [knight_table_check f hf k hk, decide_eq_true_eq]
      exact h2
    · refine Or.inr (Or.inr (Or.inr (Or.inr (Or.inr ⟨h1, ?_⟩))))
      rw [king_table_check f hf k hk, decide_eq_true_eq]
      exact h2
    · exact Or.inr (Or.inr (Or.inl ⟨h1, (bishop_line b hinv f k hf hk).2 h2⟩))
    · exact Or.inr (Or.inr (Or.inr (Or.inr (Or.inl
        ⟨h1, (queen_attack_bits _ _ _).2 (Or.inl ((bishop_line b hinv f k hf hk).2 h2))⟩))))
    · exact Or.inr (Or.inr (Or.inr (Or.inl ⟨h1, (rook_line b hinv f k hf hk).2 h2⟩)))
    · exact Or.inr (Or.inr (Or.inr (Or.inr (Or.inl
        ⟨h1, (queen_attack_bits _ _ _).2 (Or.inr ((rook_line b hinv f k hf hk).2 h2))⟩))))

/-! ## The occupancy invariant along sequences of calls -/

theorem make_move_updated (g g1 : Game) (m : Move) (h : g.make_move m = some g1) :
    ∃ x : Board, g1.board_ = x.update_occupied := by
  unfold Game.make_move at h
  split at h
  · exact Option.noConfusion h
  · simp only [] at h
    split at h
    · exact Option.noConfusion h
    · split at h
      · exact Option.noConfusion h
      · injection h with h
        rw [← h]
        exact ⟨_, rfl⟩

theorem constructed_invariant (b : Board) (h : b.constructed) : occupancy_invariant b := by
  rcases h with ⟨p, n, bi, r, q, k, c, s, e, hm, fm, hb⟩ | ⟨fen, hf⟩
  · rw [hb]
    unfold Board.new
    exact occupancy_invariant_update _
  · obtain ⟨pieces, c0, c1, c2, c3, side, ep, half, full, hb, _⟩ := from_fen_shape fen b hf
    rw [hb]
    unfold board_of Board.new
    exact occupancy_invariant_update _

theorem make_null_move_invariant (g : Game) (h : occupancy_invariant g.board_) :
    occupancy_invariant g.make_null_move.board_ := by
  intro side hs
  exact h side hs

/-- One call keeps the occupancy invariant on the current board and on every board of the
history. -/
theorem call_invariant (g g1 : Game) (c : Call) (h0 : occupancy_invariant g.board_)
    (hh : ∀ b, b ∈ g.old_boards_ → occupancy_invariant b) (h : g.call c = some g1) :
    occupancy_invariant g1.board_ ∧ ∀ b, b ∈ g1.old_boards_ → occupancy_invariant b := by
  cases c with
  | make_move m =>
    have h1 : g.make_move m = some g1 := h
    obtain ⟨x, hx⟩ := make_move_updated g g1 m h1
    refine ⟨?_, ?_⟩
    · rw [hx]
      exact occupancy_invariant_update x
    · intro b hb
      rw [make_move_old_boards g g1 m h1, List.mem_append, List.mem_singleton] at hb
      rcases hb with hb | hb
      · exact hh b hb
      · rw [hb]
        exact h0
  | make_null_move =>
    have h1 : some g.make_null_move = some g1 := h
    injection h1 with h1
    rw [← h1]
    refine ⟨make_null_move_invariant g h0, ?_⟩
    intro b hb
    have hb1 : b ∈ g.old_boards_ ++ [g.board_] := hb
    rw [List.mem_append, List.mem_singleton] at hb1
    rcases hb1 with hb1 | hb1
    · exact hh b hb1
    · rw [hb1]
      exact h0
  | unmake_move =>
    have h1 : g.unmake_move = some g1 := h
    unfold Game.unmake_move at h1
    split at h1
    · exact Option.noConfusion h1
    · rename_i last hlast
      injection h1 with h1
      rw [← h1]
      refine ⟨hh last (List.mem_of_getLast?_eq_some hlast), ?_⟩
      intro b hb
      exact hh b (List.dropLast_subset _ hb)

theorem calls_invariant (cs : List Call) :
    ∀ (g g1 : Game), occupancy_invariant g.board_ →
      (∀ b, b ∈ g.old_boards_ → occupancy_invariant b) → g.calls cs = some g1 →
      occupancy_invariant g1.board_ ∧ ∀ b, b ∈ g1.old_boards_ → occupancy_invariant b := by
  induction cs with
  | nil =>
    intro g g1 h0 hh h
    have h1 : some g = some g1 := h
    injection h1 with h1
    rw [← h1]
    exact ⟨h0, hh⟩
  | cons c cs ih =>
    intro g g1 h0 hh h
    unfold Game.calls at h
    split at h
    · exact Option.noConfusion h
    · rename_i g2 hg2
      obtain ⟨a0, ah⟩ := call_invariant g g2 c h0 hh hg2
      exact ih g2 g1 a0 ah h

/-! ## Piece disjointness along play -/

/-- The piece boards stay disjoint when every bit of the new boards is either the piece placed
on its square or an old bit on a square where nothing is placed. -/
theorem disjoint_step (b b1 : Board) (T : Nat → Option (Nat × Nat)) (hd : pieces_disjoint b)
    (hA : ∀ s, s < 2 → ∀ p, p < 6 → ∀ sq, sq < 64 → (b1.pieces_ s p).testBit sq = true →
      T sq = some (s, p) ∨ (T sq = none ∧ (b.pieces_ s p).testBit sq = true)) :
    pieces_disjoint b1 := by
  intro s hs p hp s' hs' p' hp' sq hsq h1 h2
  rcases hA s hs p hp sq hsq h1 with a | ⟨a, a'⟩
  · rcases hA s' hs' p' hp' sq hsq h2 with c | ⟨c, _⟩
    · rw [a] at c
      simp only [Option.some.injEq, Prod.mk.injEq] at c
      exact c
    · rw [a] at c
      exact Option.noConfusion c
  · rcases hA s' hs' p' hp' sq hsq h2 with c | ⟨_, c'⟩
    · rw [a] at c
      exact Option.noConfusion c
    · exact hd s hs p hp s' hs' p' hp' sq hsq a' c'

theorem enemy_of_ne (side s : Nat) (hside : side < 2) (hs : s < 2) (hne : s ≠ side) :
    s = not_side side := by
  unfold not_side
  split <;> omega

/-- The bits of the boards after `move_piece`: the piece placed on the destination, or old
bits. -/
theorem move_piece_bits (b b1 : Board) (side k : Nat) (m : Move)
    (h : Game.move_piece b side (k : Int) m = some b1) (s p sq : Nat) (hsq : sq < 64)
    (hbit : (b1.pieces_ s p).testBit sq = true) :
    (s = side ∧ sq = m.to_.val ∧
      p = (if k = kPiecePawn ∧ Square.rank m.to_.val = (if side = kSideWhite then 7 else 0)
        then m.promotion_piece_type else k)) ∨
    (b.pieces_ s p).testBit sq = true := by
  rw [move_piece_pieces b b1 side k m h] at hbit
  by_cases hp : k = kPiecePawn ∧ Square.rank m.to_.val = (if side = kSideWhite then 7 else 0)
  · rw [if_pos hp] at hbit
    rw [if_pos hp]
    by_cases c1 : s = side ∧ p = k
    · rw [if_pos c1, cleared_bit _ _ _ hsq, Bool.and_eq_true] at hbit
      rw [c1.1, c1.2]
      exact Or.inr hbit.1
    · rw [if_neg c1] at hbit
      by_cases c2 : s = side ∧ p = m.promotion_piece_type
      · rw [if_pos c2, placed_bit _ _ _ hsq, Bool.or_eq_true, decide_eq_true_eq] at hbit
        rcases hbit with hbit | hbit
        · exact Or.inl ⟨c2.1, hbit, c2.2⟩
        · rw [c2.1, c2.2]
          exact Or.inr hbit
      · rw [if_neg c2] at hbit
        exact Or.inr hbit
  · rw [if_neg hp] at hbit
    rw [if_neg hp]
    by_cases c1 : s = side ∧ p = k
    · rw [if_pos c1, moved_bit _ _ _ _ hsq, Bool.or_eq_true, decide_eq_true_eq,
        Bool.and_eq_true] at hbit
      rcases hbit with hbit | hbit
      · exact Or.inl ⟨c1.1, hbit, c1.2⟩
      · rw [c1.1, c1.2]
        exact Or.inr hbit.1
    · rw [if_neg c1] at hbit
      exact Or.inr hbit

theorem move_piece_enemy (b b1 : Board) (side k : Nat) (m : Move)
    (h : Game.move_piece b side (k : Int) m = some b1) :
    ∀ p, b1.pieces_ (not_side side) p = b.pieces_ (not_side side) p := by
  intro p
  have := move_piece_other b b1 side (k : Int) m (not_side side) (not_side_ne side) h
  rw [this]

/-- The bits of the boards after `capture_piece`: bits of the boards before, and after a
capture not flagged en passant no enemy bit on the destination. -/
theorem capture_piece_bits (b0 b1 b2 : Board) (side : Nat) (m : Move)
    (hd : pieces_disjoint b0)
    (henemy : ∀ p, b1.pieces_ (not_side side) p = b0.pieces_ (not_side side) p)
    (h : Game.capture_piece b1 side m = some b2) (s p sq : Nat) (hp : p < 6) (hsq : sq < 64)
    (hbit : (b2.pieces_ s p).testBit sq = true) :
    (b1.pieces_ s p).testBit sq = true ∧
      ¬ (m.capture_ = true ∧ m.ep_ = false ∧ s = not_side side ∧ sq = m.to_.val) := by
  have he : not_side side < 2 := by
    unfold not_side
    split <;> omega
  rcases capture_piece_pieces b1 b2 side m h with ⟨hc, hp2⟩ | ⟨hc, k, hk, hp2⟩
  · rw [hp2] at hbit
    refine ⟨hbit, ?_⟩
    rintro ⟨hx, _⟩
    rw [hc] at hx
    exact Bool.noConfusion hx
  · rw [hp2] at hbit
    simp only [] at hbit
    obtain ⟨_, hk64, hkbit⟩ := piece_type_at_occupied b1 (not_side side) _ k hk
    have hk6 : k < 6 := by
      unfold Board.piece_type_at at hk
      split at hk
      · omega
      · obtain ⟨p', e1, _, e3, _⟩ := piece_scan_found b1 (not_side side) _ 6 0 (k : Int) hk
          (by omega)
        omega
    by_cases c1 : s = not_side side ∧ p = k
    · rw [if_pos c1, cleared_bit _ _ _ hsq, Bool.and_eq_true, decide_eq_true_eq] at hbit
      rw [c1.1, c1.2]
      refine ⟨hbit.1, ?_⟩
      rintro ⟨_, hep, _, hto⟩
      apply hbit.2
      rw [hto]
      unfold Game.capture_square
      rw [if_neg (by rw [hep]; exact Bool.false_ne_true)]
    · rw [if_neg c1] at hbit
      refine ⟨hbit, ?_⟩
      rintro ⟨_, hep, hs, hto⟩
      have hcs : Game.capture_square side m = m.to_.val := by
        unfold Game.capture_square
        rw [if_neg (by rw [hep]; exact Bool.false_ne_true)]
      rw [hcs, henemy] at hkbit
      rw [hs, henemy, hto] at hbit
      have := hd (not_side side) he p hp (not_side side) he k hk6 m.to_.val m.to_.isLt hbit hkbit
      exact c1 ⟨hs, this.2⟩

/-- A non-castling move keeps the piece boards disjoint when no piece of the mover stands on
the destination and any enemy piece there is removed by the capture. -/
theorem plain_move_disjoint (b b1 b2 : Board) (side k : Nat) (m : Move) (hside : side < 2)
    (hd : pieces_disjoint b)
    (h1 : Game.move_piece b side (k : Int) m = some b1)
    (h2 : Game.capture_piece b1 side m = some b2)
    (hown : ∀ p, p < 6 → (b.pieces_ side p).testBit m.to_.val = false)
    (henemy : (m.capture_ = true ∧ m.ep_ = false) ∨
      ∀ p, p < 6 → (b.pieces_ (not_side side) p).testBit m.to_.val = false) :
    pieces_disjoint b2 ∧
    ∀ s, s < 2 → ∀ p, p < 6 → ∀ sq, sq < 64 → sq ≠ m.to_.val →
      (b2.pieces_ s p).testBit sq = true → (b.pieces_ s p).testBit sq = true := by
  have hen := move_piece_enemy b b1 side k m h1
  have hold : ∀ s, s < 2 → ∀ p, p < 6 → ∀ sq, sq < 64 →
      (b2.pieces_ s p).testBit sq = true →
      (sq = m.to_.val ∧ s = side ∧
        p = (if k = kPiecePawn ∧ Square.rank m.to_.val = (if side = kSideWhite then 7 else 0)
          then m.promotion_piece_type else k)) ∨
      (sq ≠ m.to_.val ∧ (b.pieces_ s p).testBit sq = true) := by
    intro s hs p hp sq hsq hbit
    obtain ⟨hb1, hnot⟩ := capture_piece_bits b b1 b2 side m hd hen h2 s p sq hp hsq hbit
    rcases move_piece_bits b b1 side k m h1 s p sq hsq hb1 with ⟨a1, a2, a3⟩ | hb
    · exact Or.inl ⟨a2, a1, a3⟩
    · by_cases hto : sq = m.to_.val
      · exfalso
        rw [hto] at hb
        by_cases hss : s = side
        · rw [hss, hown p hp] at hb
          exact Bool.noConfusion hb
        · have hse := enemy_of_ne side s hside hs hss
          rcases henemy with ⟨c1, c2⟩ | hfree
          · exact hnot ⟨c1, c2, hse, hto⟩
          · rw [hse, hfree p hp] at hb
            exact Bool.noConfusion hb
      · exact Or.inr ⟨hto, hb⟩
  refine ⟨?_, ?_⟩
  · apply disjoint_step b b2 (fun sq => if sq = m.to_.val then some (side,
      (if k = kPiecePawn ∧ Square.rank m.to_.val = (if side = kSideWhite then 7 else 0)
        then m.promotion_piece_type else k)) else none) hd
    intro s hs p hp sq hsq hbit
    rcases hold s hs p hp sq hsq hbit with ⟨a1, a2, a3⟩ | ⟨a1, a2⟩
    · left
      rw [if_pos a1, a2, a3]
    · right
      rw [if_neg a1]
      exact ⟨rfl, a2⟩
  · intro s hs p hp sq hsq hne hbit
    rcases hold s hs p hp sq hsq hbit with ⟨a1, _⟩ | ⟨_, a2⟩
    · exact absurd a1 hne
    · exact a2

/-- Castling keeps the piece boards disjoint when the destinations of king and rook are
empty. -/
theorem castle_disjoint (b : Board) (side f t : Nat) (hd : pieces_disjoint b)
    (ht : square_empty b t)
    (hr : square_empty b (Square.mk (if Square.file t = 2 then 3 else 5) (Square.rank t)))
    (hne : t ≠ Square.mk (if Square.file t = 2 then 3 else 5) (Square.rank t)) :
    pieces_disjoint (Game.castle_pieces b side f t) := by
  generalize hrd : Square.mk (if Square.file t = 2 then 3 else 5) (Square.rank t) = rdest
    at hr hne
  have hold : ∀ s, s < 2 → ∀ p, p < 6 → ∀ sq, (b.pieces_ s p).testBit sq = true →
      sq ≠ t ∧ sq ≠ rdest := by
    intro s hs p hp sq hbit
    constructor
    · intro hc
      rw [hc, ht s hs p hp] at hbit
      exact Bool.noConfusion hbit
    · intro hc
      rw [hc, hr s hs p hp] at hbit
      exact Bool.noConfusion hbit
  apply disjoint_step b _ (fun sq => if sq = t then some (side, kPieceKing)
    else if sq = rdest then some (side, kPieceRook) else none) hd
  intro s hs p hp sq hsq hbit
  rw [castle_pieces_pieces, hrd] at hbit
  beta_reduce at hbit
  have hkeep : (b.pieces_ s p).testBit sq = true →
      (if sq = t then some (side, kPieceKing)
        else if sq = rdest then some (side, kPieceRook) else none) = some (s, p) ∨
      ((if sq = t then some (side, kPieceKing)
        else if sq = rdest then some (side, kPieceRook) else none) = none ∧
        (b.pieces_ s p).testBit sq = true) := by
    intro hb
    obtain ⟨n1, n2⟩ := hold s hs p hp sq hb
    right
    rw [if_neg n1, if_neg n2]
    exact ⟨rfl, hb⟩
  by_cases c1 : s = side ∧ p = kPieceRook
  · rw [if_pos c1, moved_bit _ _ _ _ hsq, Bool.or_eq_true, decide_eq_true_eq,
      Bool.and_eq_true] at hbit
    rcases hbit with hbit | hbit
    · left
      rw [if_neg (by rw [hbit]; exact Ne.symm hne), if_pos hbit, c1.1, c1.2]
    · apply hkeep
      rw [c1.1, c1.2]
      exact hbit.1
  · rw [if_neg c1] at hbit
    by_cases c2 : s = side ∧ p = kPieceKing
    · rw [if_pos c2, moved_bit _ _ _ _ hsq, Bool.or_eq_true, decide_eq_true_eq,
        Bool.and_eq_true] at hbit
      rcases hbit with hbit | hbit
      · left
        rw [if_pos hbit, c2.1, c2.2]
      · apply hkeep
        rw [c2.1, c2.2]
        exact hbit.1
    · rw [if_neg c2] at hbit
      exact hkeep hbit

theorem empty_of_unoccupied (b : Board) (hinv : occupancy_invariant b) (sq : Nat)
    (hsq : sq < 64) (h : b.square_occupied sq = false) : square_empty b sq :=
  (occupied_testBit_false_iff b hinv sq).1 ((square_occupied_false_iff b sq hsq).1 h)

theorem side_bits_of_unoccupied (b : Board) (hinv : occupancy_invariant b) (side sq : Nat)
    (hside : side < 2) (hsq : sq < 64) (h : b.square_occupied_side side sq = false) :
    ∀ p, p < 6 → (b.pieces_ side p).testBit sq = false := by
  intro p hp
  unfold Board.square_occupied_side at h
  rw [decide_eq_false_iff_not, not_not, occupied_eq_zero_iff, hinv side hside] at h
  rw [Bool.eq_false_iff]
  intro hc
  exact h ⟨hsq, (side_union_testBit b side sq).2 ⟨p, hp, hc⟩⟩

theorem side_bit_of_occupied (b : Board) (hinv : occupancy_invariant b) (side sq : Nat)
    (hside : side < 2) (h : b.square_occupied_side side sq = true) :
    ∃ p, p < 6 ∧ (b.pieces_ side p).testBit sq = true := by
  unfold Board.square_occupied_side at h
  rw [decide_eq_true_eq, occupied_ne_zero_iff, hinv side hside] at h
  exact (side_union_testBit b side sq).1 h.2

theorem not_side_lt (side : Nat) : not_side side < 2 := by
  unfold not_side
  split <;> omega

/-- On a board satisfying the conditions of play, the destination of a pseudo-legal move holds
no piece of the mover, and an enemy piece only if the move is a capture not flagged en
passant. -/
theorem pseudolegal_targets (b : Board) (m : Move) (hinv : play_invariant b)
    (hm : m ∈ MoveGenerator.generate_pseudolegal_moves b) :
    (∀ p, p < 6 → (b.pieces_ b.turn p).testBit m.to_.val = false) ∧
    ((m.capture_ = true ∧ m.ep_ = false) ∨
      ∀ p, p < 6 → (b.pieces_ (not_side b.turn) p).testBit m.to_.val = false) := by
  obtain ⟨hd, hocc, hside, hep⟩ := hinv
  have he := not_side_lt b.turn
  have hempty : square_empty b m.to_.val →
      (∀ p, p < 6 → (b.pieces_ b.turn p).testBit m.to_.val = false) ∧
      ((m.capture_ = true ∧ m.ep_ = false) ∨
        ∀ p, p < 6 → (b.pieces_ (not_side b.turn) p).testBit m.to_.val = false) :=
    fun h => ⟨fun p hp => h b.turn hside p hp, Or.inr (fun p hp => h _ he p hp)⟩
  rcases mem_pseudolegal_cases b m hm with ⟨hf, _, hmem⟩ | ⟨piece, _, _, _, _, a3, a4, a5⟩
  · obtain ⟨_, hto, hk⟩ := mem_pawn_moves_from b _ m hf hmem
    rcases hk with ⟨_, _, hbit⟩ | ⟨hc, hne, hbit⟩ | ⟨_, _, htoep⟩
    · apply hempty
      apply (occupied_testBit_false_iff b hocc _).1
      rcases (pawn_push_board_bit b _ _ hside hf hto).1 hbit with ⟨_, h⟩ | ⟨_, _, h, _⟩
      · exact h
      · exact h
    · obtain ⟨_, hen⟩ := (pawn_capture_board_bit b _ _ hside hf hto).1 hbit
      obtain ⟨p', hp', hb'⟩ := side_bit_of_occupied b hocc _ _ he hen
      refine ⟨?_, Or.inl ⟨hc, hne⟩⟩
      intro p hp
      rw [Bool.eq_false_iff]
      intro hx
      exact not_side_ne b.turn (hd _ he p' hp' _ hside p hp _ hto hb' hx).1
    · apply hempty
      rw [htoep]
      apply hep
      rw [← htoep]
      exact hto
  · refine ⟨side_bits_of_unoccupied b hocc _ _ hside m.to_.isLt a3, ?_⟩
    cases hc : m.capture_
    · right
      rw [hc] at a4
      exact side_bits_of_unoccupied b hocc _ _ he m.to_.isLt a4.symm
    · exact Or.inl ⟨rfl, a5⟩

theorem castle_wing_facts (side : Nat) (hside : side < 2) (q : Bool) :
    (Move.new ([Square.mk 4 0, Square.mk 4 7].getD side 0) (castle_dest side q) false false
      kPromoteQueen).to_.val = castle_dest side q ∧
    (Move.new ([Square.mk 4 0, Square.mk 4 7].getD side 0) (castle_dest side q) false false
      kPromoteQueen).capture_ = false ∧
    Square.rank (Move.new ([Square.mk 4 0, Square.mk 4 7].getD side 0) (castle_dest side q)
      false false kPromoteQueen).from_.val = Square.rank (castle_dest side q) ∧
    castle_dest side q ∈ wing_between side q ∧ castle_dest side q < 64 ∧
    Square.mk (if Square.file (castle_dest side q) = 2 then 3 else 5)
      (Square.rank (castle_dest side q)) ∈ wing_between side q ∧
    Square.mk (if Square.file (castle_dest side q) = 2 then 3 else 5)
      (Square.rank (castle_dest side q)) < 64 ∧
    castle_dest side q ≠ Square.mk (if Square.file (castle_dest side q) = 2 then 3 else 5)
      (Square.rank (castle_dest side q)) := by
  interval_cases side <;> cases q <;> decide

/-- The destinations of a move of the castling generator are empty squares. -/
theorem castling_targets (g : Game) (m : Move) (hinv : play_invariant g.board_)
    (hm : m ∈ castling_moves_of g) :
    m.capture_ = false ∧ Square.rank m.from_.val = Square.rank m.to_.val ∧
    square_empty g.board_ m.to_.val ∧
    square_empty g.board_
      (Square.mk (if Square.file m.to_.val = 2 then 3 else 5) (Square.rank m.to_.val)) ∧
    m.to_.val ≠
      Square.mk (if Square.file m.to_.val = 2 then 3 else 5) (Square.rank m.to_.val) := by
  obtain ⟨_, hocc, hside, _⟩ := hinv
  obtain ⟨q, hsafe, hmq⟩ := mem_castling_moves_of g m hm
  rw [wing_safe_iff, wing_clear_iff] at hsafe
  obtain ⟨_, hclear, _⟩ := hsafe
  obtain ⟨f1, f2, f3, f4, f5, f6, f7, f8⟩ := castle_wing_facts g.board_.turn hside q
  rw [hmq, f1]
  exact ⟨f2, f3, empty_of_unoccupied g.board_ hocc _ f5 (hclear _ f4).1,
    empty_of_unoccupied g.board_ hocc _ f7 (hclear _ f6).1, f8⟩

theorem pieces_disjoint_congr (b b1 : Board) (h : b1.pieces_ = b.pieces_)
    (hd : pieces_disjoint b) : pieces_disjoint b1 := by
  intro s hs p hp s' hs' p' hp' sq hsq h1 h2
  rw [h] at h1 h2
  exact hd s hs p hp s' hs' p' hp' sq hsq h1 h2

/-- An en-passant target never lies on the file of the capturing pawn. -/
theorem ep_board_file (b : Board) (side f t : Nat)
    (h : (MoveGenerator.ep_board b side f).testBit t = true) :
    Square.file t ≠ Square.file f := by
  unfold MoveGenerator.ep_board at h
  simp only [] at h
  have e1 : Square.index (u8 (-1)) (u8 (-1)) = 247 := by decide
  have e2 : Square.index (u8 1) (u8 (-1)) = 249 := by decide
  have e3 : Square.index (u8 (-1)) (u8 1) = 7 := by decide
  have e4 : Square.index (u8 1) (u8 1) = 9 := by decide
  by_cases hne : b.ep_square ≠ null_square
  · rw [if_pos hne] at h
    by_cases hoff : Square.offset b.ep_square (-1) (if side = 0 then -1 else 1) = f ∨
        Square.offset b.ep_square 1 (if side = 0 then -1 else 1) = f
    · rw [if_pos hoff, set_testBit] at h
      simp only [Nat.zero_testBit, Bool.false_or, decide_eq_true_eq] at h
      obtain ⟨h1, h2⟩ := h
      rw [h2] at hoff
      unfold Square.offset at hoff
      unfold Square.file
      by_cases hs : side = 0
      · simp only [if_pos hs, e1, e2] at hoff
        omega
      · simp only [if_neg hs, e3, e4] at hoff
        omega
    · rw [if_neg hoff] at h
      simp at h
  · rw [if_neg hne] at h
    simp at h

theorem pawn_ep_move_file (b : Board) (f : Nat) (m : Move) (hf : f < 64)
    (h : m ∈ MoveGenerator.pawn_moves_from b f) (hep : m.ep_ = true) :
    Square.file m.to_.val ≠ Square.file f := by
  rw [pawn_moves_from_eq, List.mem_append, List.mem_append] at h
  rcases h with (h | h) | h
  · obtain ⟨_, _, a5⟩ := mem_pawn_targets m f _ _ _ hf h
    rw [hep] at a5
    exact Bool.noConfusion a5
  · obtain ⟨_, _, a5⟩ := mem_pawn_targets m f _ _ _ hf h
    rw [hep] at a5
    exact Bool.noConfusion a5
  · rw [List.mem_map] at h
    obtain ⟨t, ht, hmt⟩ := h
    obtain ⟨ht1, ht2⟩ := (mem_squares _ _).1 ht
    obtain ⟨_, a2, _⟩ := move_new_fields f t true true kPromoteQueen hf ht1
    rw [← hmt, a2]
    exact ep_board_file b b.turn f t ht2

theorem ranks_diagonal_excl (side n f t : Nat) (h1 : ranks_ahead side n f t)
    (h2 : diagonal_ahead side f t) : False := by
  unfold ranks_ahead at h1
  unfold diagonal_ahead at h2
  omega

/-- The conditions under which `make_move` sets the en-passant square, in terms of the pawn
geometry. -/
theorem double_step_facts (side f t : Nat) (hside : side < 2)
    (hfile : Square.file t = Square.file f)
    (hrank : if side = kSideWhite then Square.rank t = Square.rank f + 2
      else Square.rank f = Square.rank t + 2) :
    ranks_ahead side 2 f t ∧ (f + t) / 2 ≠ t ∧ Square.rank f ≠ Square.rank t ∧
      ∀ u, ranks_ahead side 1 f u → (f + t) / 2 = u := by
  unfold ranks_ahead pawn_direction
  unfold Square.rank Square.file at *
  by_cases hs : side = 0
  · rw [if_pos hs] at hrank
    simp only [if_pos hs]
    refine ⟨⟨hfile, by omega⟩, by omega, by omega, ?_⟩
    intro u hu
    omega
  · rw [if_neg hs] at hrank
    simp only [if_neg hs]
    refine ⟨⟨hfile, by omega⟩, by omega, by omega, ?_⟩
    intro u hu
    omega

/-- The square a double pawn push passes over is empty before the move, for a move of the
legal list that makes `make_move` set the en-passant square. -/
theorem passed_square_empty (g : Game) (l : List Move) (m : Move)
    (hinv : play_invariant g.board_) (hl : legal_moves_list g = some l) (hm : m ∈ l)
    (hpawn : g.board_.piece_type_at g.board_.turn m.from_.val = (kPiecePawn : Int))
    (hfile : Square.file m.to_.val = Square.file m.from_.val)
    (hrank : if g.board_.turn = kSideWhite then
        Square.rank m.to_.val = Square.rank m.from_.val + 2
      else Square.rank m.from_.val = Square.rank m.to_.val + 2) :
    square_empty g.board_ ((m.from_.val + m.to_.val) / 2) := by
  have hinv0 := hinv
  obtain ⟨hd, hocc, hside, _⟩ := hinv
  obtain ⟨d1, _, d3, d4⟩ := double_step_facts g.board_.turn _ _ hside hfile hrank
  obtain ⟨_, _, hpbit⟩ := piece_type_at_occupied g.board_ g.board_.turn _ kPiecePawn hpawn
  rw [legal_moves_list_some g l hl, List.mem_append] at hm
  rcases hm with hm | hm
  · rcases mem_pseudolegal_cases g.board_ m (List.mem_filter.1 hm).1 with
      ⟨hf, _, hmem⟩ | ⟨piece, p1, p5, a1, _⟩
    · obtain ⟨_, hto, hk⟩ := mem_pawn_moves_from g.board_ _ m hf hmem
      rcases hk with ⟨_, _, hbit⟩ | ⟨_, _, hbit⟩ | ⟨_, hepf, _⟩
      · rcases (pawn_push_board_bit g.board_ _ _ hside hf hto).1 hbit with
          ⟨h1, _⟩ | ⟨_, _, _, u, _, hu1, hufree⟩
        · exact (ranks_ahead_excl _ _ _ h1 d1).elim
        · rw [d4 u hu1]
          exact (occupied_testBit_false_iff g.board_ hocc u).1 hufree
      · exact (ranks_diagonal_excl _ _ _ _ d1
          ((pawn_capture_board_bit g.board_ _ _ hside hf hto).1 hbit).1).elim
      · exact absurd hfile (pawn_ep_move_file g.board_ _ m hf hmem hepf)
    · have := hd _ hside piece (by omega) _ hside kPiecePawn (by decide) _ m.from_.isLt a1 hpbit
      have h0 : piece = 0 := this.2
      omega
  · split at hm
    · exact absurd hm (List.not_mem_nil _)
    · obtain ⟨_, t2, _⟩ := castling_targets g m hinv0 hm
      exact absurd t2 d3

theorem king_disjoint_of_disjoint (b : Board) (side : Nat) (hside : side < 2)
    (hd : pieces_disjoint b) : king_disjoint b side := by
  intro piece hp sq hsq hc
  have := hd _ hside piece (by omega) _ hside kPieceKing (by decide) sq hsq hc.1 hc.2
  have h5 : piece = 5 := this.2
  omega

/-- A move of the legal list keeps the conditions of play. -/
theorem legal_move_invariant (g g1 : Game) (l : List Move) (m : Move)
    (hinv : play_invariant g.board_) (hl : legal_moves_list g = some l) (hm : m ∈ l)
    (h : g.make_move m = some g1) : play_invariant g1.board_ := by
  have hinv0 := hinv
  have hm0 := hm
  obtain ⟨hd, hocc, hside, _⟩ := hinv
  obtain ⟨b1, b2, hb1, hb2, hpieces⟩ := make_move_pieces g g1 m h
  obtain ⟨hturn, _, _, hepsq⟩ := make_move_fields g g1 m h
  obtain ⟨x, hx⟩ := make_move_updated g g1 m h
  have hkd := king_disjoint_of_disjoint g.board_ _ hside hd
  rw [legal_moves_list_some g l hl, List.mem_append] at hm
  have key : pieces_disjoint b2 ∧
      (g1.board_.ep_square < 64 → square_empty b2 g1.board_.ep_square) := by
    by_cases hc : m.castling g.board_ = true
    · rw [if_pos hc] at hb1
      injection hb1 with hb1
      have hmc : m ∈ castling_moves_of g := by
        rcases hm with hm | hm
        · have := pseudolegal_not_castling g.board_ hkd m (List.mem_filter.1 hm).1
          rw [hc] at this
          exact Bool.noConfusion this
        · split at hm
          · exact absurd hm (List.not_mem_nil _)
          · exact hm
      obtain ⟨t1, t2, t3, t4, t5⟩ := castling_targets g m hinv0 hmc
      have hb21 : b2.pieces_ = b1.pieces_ := by
        rcases capture_piece_pieces b1 b2 _ m hb2 with ⟨_, e⟩ | ⟨e, _⟩
        · exact e
        · rw [t1] at e
          exact Bool.noConfusion e
      refine ⟨pieces_disjoint_congr _ b2 hb21
        (by rw [← hb1]; exact castle_disjoint g.board_ _ _ _ hd t3 t4 t5), ?_⟩
      intro hlt
      exfalso
      rw [hepsq] at hlt
      by_cases hcond : g.board_.piece_type_at g.board_.turn m.from_.val = kPiecePawn ∧
          Square.file m.to_.val = Square.file m.from_.val ∧
          (if g.board_.turn = kSideWhite then
            Square.rank m.to_.val = Square.rank m.from_.val + 2
          else Square.rank m.from_.val = Square.rank m.to_.val + 2)
      · exact (double_step_facts _ _ _ hside hcond.2.1 hcond.2.2).2.2.1 t2
      · rw [if_neg hcond] at hlt
        exact absurd hlt (by decide)
    · rw [if_neg hc] at hb1
      have hnn : ¬ g.board_.piece_type_at g.board_.turn m.from_.val < 0 := by
        intro hneg
        unfold Game.move_piece at hb1
        rw [if_pos hneg] at hb1
        exact Option.noConfusion hb1
      have hk : g.board_.piece_type_at g.board_.turn m.from_.val =
          (((g.board_.piece_type_at g.board_.turn m.from_.val).toNat : Nat) : Int) :=
        (Int.toNat_of_nonneg (by omega)).symm
      rw [hk] at hb1
      have htg : (∀ p, p < 6 → (g.board_.pieces_ g.board_.turn p).testBit m.to_.val = false) ∧
          ((m.capture_ = true ∧ m.ep_ = false) ∨
            ∀ p, p < 6 →
              (g.board_.pieces_ (not_side g.board_.turn) p).testBit m.to_.val = false) := by
        rcases hm with hm | hm
        · exact pseudolegal_targets g.board_ m hinv0 (List.mem_filter.1 hm).1
        · split at hm
          · exact absurd hm (List.not_mem_nil _)
          · obtain ⟨_, _, t3, _⟩ := castling_targets g m hinv0 hm
            exact ⟨fun p hp => t3 _ hside p hp, Or.inr (fun p hp => t3 _ (not_side_lt _) p hp)⟩
      obtain ⟨hdis, hkeep⟩ := plain_move_disjoint g.board_ b1 b2 _ _ m hside hd hb1 hb2
        htg.1 htg.2
      refine ⟨hdis, ?_⟩
      intro hlt
      rw [hepsq] at hlt ⊢
      by_cases hcond : g.board_.piece_type_at g.board_.turn m.from_.val = kPiecePawn ∧
          Square.file m.to_.val = Square.file m.from_.val ∧
          (if g.board_.turn = kSideWhite then
            Square.rank m.to_.val = Square.rank m.from_.val + 2
          else Square.rank m.from_.val = Square.rank m.to_.val + 2)
      · rw [if_pos hcond] at hlt ⊢
        have hold := passed_square_empty g l m hinv0 hl hm0 hcond.1 hcond.2.1 hcond.2.2
        have hne := (double_step_facts _ _ _ hside hcond.2.1 hcond.2.2).2.1
        intro s hs p hp
        rw [Bool.eq_false_iff]
        intro hbit
        have := hkeep s hs p hp _ hlt hne hbit
        rw [hold s hs p hp] at this
        exact Bool.noConfusion this
      · rw [if_neg hcond] at hlt
        exact absurd hlt (by decide)
  refine ⟨pieces_disjoint_congr b2 _ hpieces key.1, ?_, ?_, ?_⟩
  · rw [hx]
    exact occupancy_invariant_update x
  · rw [hturn]
    exact not_side_lt _
  · intro hlt s hs p hp
    rw [hpieces]
    exact key.2 hlt s hs p hp

/-- One step of play keeps the conditions of play on the current board and on every board of
the history. -/
theorem play_invariant_step (g g1 : Game) (p : Play) (h0 : play_invariant g.board_)
    (hh : ∀ b, b ∈ g.old_boards_ → play_invariant b) (h : g.play p = some g1) :
    play_invariant g1.board_ ∧ ∀ b, b ∈ g1.old_boards_ → play_invariant b := by
  cases p with
  | move m =>
    have h1 : (match legal_moves_list g with
      | none => none
      | some moves => if m ∈ moves then g.make_move m else none) = some g1 := h
    cases hl : legal_moves_list g with
    | none =>
      rw [hl] at h1
      exact Option.noConfusion h1
    | some l =>
      rw [hl] at h1
      by_cases hm : m ∈ l
      · have h2 : g.make_move m = some g1 := by
          rw [← h1]
          exact (if_pos hm).symm
        refine ⟨legal_move_invariant g g1 l m h0 hl hm h2, ?_⟩
        intro b hb
        rw [make_move_old_boards g g1 m h2, List.mem_append, List.mem_singleton] at hb
        rcases hb with hb | hb
        · exact hh b hb
        · rw [hb]
          exact h0
      · have h2 : (none : Option Game) = some g1 := by
          rw [← h1]
          exact (if_neg hm).symm
        exact Option.noConfusion h2
  | unmake =>
    have h1 : g.unmake_move = some g1 := h
    unfold Game.unmake_move at h1
    split at h1
    · exact Option.noConfusion h1
    · rename_i last hlast
      injection h1 with h1
      rw [← h1]
      refine ⟨hh last (List.mem_of_getLast?_eq_some hlast), ?_⟩
      intro b hb
      exact hh b (List.dropLast_subset _ hb)

theorem plays_invariant (ps : List Play) :
    ∀ (g g1 : Game), play_invariant g.board_ →
      (∀ b, b ∈ g.old_boards_ → play_invariant b) → g.plays ps = some g1 →
      play_invariant g1.board_ ∧ ∀ b, b ∈ g1.old_boards_ → play_invariant b := by
  induction ps with
  | nil =>
    intro g g1 h0 hh h
    have h1 : some g = some g1 := h
    injection h1 with h1
    rw [← h1]
    exact ⟨h0, hh⟩
  | cons p ps ih =>
    intro g g1 h0 hh h
    unfold Game.plays at h
    split at h
    · exact Option.noConfusion h
    · rename_i g2 hg2
      obtain ⟨a0, ah⟩ := play_invariant_step g g2 p h0 hh hg2
      exact ih g2 g1 a0 ah h

theorem start_invariant : play_invariant (game_of_fen Game.default_fen).board_ := by
  refine ⟨pieces_disjoint_of_check _ (by decide!), by decide!, by decide!, ?_⟩
  intro h
  exact absurd h (by decide!)

theorem isSome_of_map {α β : Type} (o : Option α) (f : α → β) (v : β)
    (h : o.map f = some v) : o.isSome = true := by
  cases o with
  | none => exact Option.noConfusion h
  | some x => rfl

theorem opening_play_result :
    ((game_of_fen Game.default_fen).plays opening_play).map
      (fun g => ((g.board_.pawns 0).testBit 28, (g.board_.pawns 1).testBit 52,
        g.old_boards_.length)) = some (true, true, 1) := by
  decide!

/-! ## The leaper tables as sets of offsets -/

theorem knight_step_offsets (s t : Nat) :
    knight_step s t ↔
      ∃ df dr : Int, ((df.natAbs = 1 ∧ dr.natAbs = 2) ∨ (df.natAbs = 2 ∧ dr.natAbs = 1)) ∧
        (Square.file t : Int) = (Square.file s : Int) + df ∧
        (Square.rank t : Int) = (Square.rank s : Int) + dr := by
  unfold knight_step
  constructor
  · intro h
    refine ⟨(Square.file t : Int) - Square.file s, (Square.rank t : Int) - Square.rank s, ?_,
      by omega, by omega⟩
    rcases h with ⟨h1, h2⟩ | ⟨h1, h2⟩
    · exact Or.inl ⟨by omega, by omega⟩
    · exact Or.inr ⟨by omega, by omega⟩
  · rintro ⟨df, dr, h, hf, hr⟩
    rcases h with ⟨h1, h2⟩ | ⟨h1, h2⟩
    · exact Or.inl ⟨by omega, by omega⟩
    · exact Or.inr ⟨by omega, by omega⟩

theorem king_step_offsets (s t : Nat) :
    king_step s t ↔
      ∃ df dr : Int, max df.natAbs dr.natAbs = 1 ∧
        (Square.file t : Int) = (Square.file s : Int) + df ∧
        (Square.rank t : Int) = (Square.rank s : Int) + dr := by
  unfold king_step
  constructor
  · rintro ⟨hne, h1, h2, h3, h4⟩
    refine ⟨(Square.file t : Int) - Square.file s, (Square.rank t : Int) - Square.rank s, ?_,
      by omega, by omega⟩
    have hdiff : Square.file s ≠ Square.file t ∨ Square.rank s ≠ Square.rank t := by
      by_contra hc
      push_neg at hc
      exact hne (square_eq_of_file_rank s t hc.1 hc.2)
    omega
  · rintro ⟨df, dr, hmax, hf, hr⟩
    refine ⟨?_, by omega, by omega, by omega, by omega⟩
    intro hst
    rw [hst] at hf hr
    omega

/-- The knight and king tables, bit by bit: a bit is set exactly for the squares of the board
reached by one of the offsets of the piece. -/
theorem leaper_tables_spec (s : Nat) (hs : s < 64) :
    (∀ t, (knight_attack_board s).testBit t = true ↔
      t < 64 ∧ ∃ df dr : Int,
        ((df.natAbs = 1 ∧ dr.natAbs = 2) ∨ (df.natAbs = 2 ∧ dr.natAbs = 1)) ∧
        (Square.file t : Int) = (Square.file s : Int) + df ∧
        (Square.rank t : Int) = (Square.rank s : Int) + dr) ∧
    (∀ t, (king_attack_board s).testBit t = true ↔
      t < 64 ∧ ∃ df dr : Int, max df.natAbs dr.natAbs = 1 ∧
        (Square.file t : Int) = (Square.file s : Int) + df ∧
        (Square.rank t : Int) = (Square.rank s : Int) + dr) ∧
    (knight_attack_board s).testBit s = false ∧ (king_attack_board s).testBit s = false := by
  obtain ⟨_, _, _, w4, w5⟩ := leaper_tables_word 0 (by decide) s hs
  refine ⟨?_, ?_, ?_, ?_⟩
  · intro t
    by_cases ht : t < 64
    · rw [knight_table_check s hs t ht, decide_eq_true_eq, knight_step_offsets]
      exact ⟨fun h => ⟨ht, h⟩, fun h => h.2⟩
    · rw [testBit_false_of_word w4 (by omega)]
      exact ⟨fun h => Bool.noConfusion h, fun h => absurd h.1 ht⟩
  · intro t
    by_cases ht : t < 64
    · rw [king_table_check s hs t ht, decide_eq_true_eq, king_step_offsets s t]
      exact ⟨fun h => ⟨ht, h⟩, fun h => h.2⟩
    · rw [testBit_false_of_word w5 (by omega)]
      exact ⟨fun h => Bool.noConfusion h, fun h => absurd h.1 ht⟩
  · rw [knight_table_check s hs s hs, decide_eq_false_iff_not]
    unfold knight_step
    omega
  · rw [king_table_check s hs s hs, decide_eq_false_iff_not]
    unfold king_step
    omega

/-! ## Generated moves and the null sentinel -/

/-- The scan of `generate_castling_moves` over the move array reads every generated move when
none of them is the null move. -/
theorem scan_reads_all (l : List Move) (hnn : ∀ m, m ∈ l → m.null = false) :
    (MoveList.moves l).takeWhile (fun move => !move.null) = l := by
  unfold MoveList.moves
  rw [List.takeWhile_append_of_pos (by
    intro a ha
    rw [hnn a ha]
    rfl)]
  rw [List.takeWhile_replicate]
  simp only [null_move_null, Bool.not_true, Bool.false_eq_true, if_false, List.append_nil]

theorem bare_kings_legal_defined :
    (MoveGenerator.generate_legal_moves bare_kings_position).isSome = true := by
  decide!

/-! ## Real moves never repeat a board -/

/-- Every `make_move` raises the counter `2 * fullmove + side`, by exactly one when the side
to move is 0 or 1. -/
theorem make_move_counter (g g1 : Game) (m : Move) (h : g.make_move m = some g1) :
    move_counter g.board_ < move_counter g1.board_ ∧
    (g.board_.turn < 2 → move_counter g1.board_ = move_counter g.board_ + 1) := by
  obtain ⟨hturn, hfull, _, _⟩ := make_move_fields g g1 m h
  unfold move_counter
  rw [hturn, hfull]
  rcases not_side_cases g.board_.turn with ⟨h0, h1⟩ | ⟨h0, h1⟩
  · rw [h1, h0]
    constructor
    · push_cast
      omega
    · intro _
      push_cast
      omega
  · rw [h1]
    constructor
    · push_cast
      omega
    · intro hlt
      push_cast
      omega

theorem beq_counter (a b : Board) (h : Board.beq a b = true) :
    move_counter a = move_counter b := by
  obtain ⟨_, _, ht, _, _, hf⟩ := (beq_iff a b).1 h
  unfold move_counter
  rw [ht, hf]

/-- One call other than `make_null_move` keeps the boards of the history followed by the
current board in strictly increasing order of the counter. -/
theorem call_counter (g g1 : Game) (c : Call) (hc : c ≠ Call.make_null_move)
    (hp : List.Pairwise (fun a b => move_counter a < move_counter b)
      (g.old_boards_ ++ [g.board_]))
    (h : g.call c = some g1) :
    List.Pairwise (fun a b => move_counter a < move_counter b)
      (g1.old_boards_ ++ [g1.board_]) := by
  cases c with
  | make_move m =>
    have h1 : g.make_move m = some g1 := h
    obtain ⟨hlt, _⟩ := make_move_counter g g1 m h1
    rw [make_move_old_boards g g1 m h1, List.pairwise_append]
    refine ⟨hp, List.pairwise_singleton _ _, ?_⟩
    intro a ha b hb
    rw [List.mem_singleton] at hb
    rw [hb]
    rw [List.mem_append, List.mem_singleton] at ha
    rcases ha with ha | ha
    · have := (List.pairwise_append.1 hp).2.2 a ha g.board_ (List.mem_singleton.2 rfl)
      omega
    · rw [ha]
      exact hlt
  | make_null_move => exact absurd rfl hc
  | unmake_move =>
    have h1 : g.unmake_move = some g1 := h
    unfold Game.unmake_move at h1
    split at h1
    · exact Option.noConfusion h1
    · rename_i last hlast
      injection h1 with h1
      rw [← h1]
      have hl : g.old_boards_ = g.old_boards_.dropLast ++ [last] := by
        obtain ⟨ys, hys⟩ := List.getLast?_eq_some_iff.1 hlast
        rw [hys, List.dropLast_concat]
      rw [hl] at hp
      exact (List.pairwise_append.1 hp).1

theorem calls_counter (cs : List Call) :
    ∀ (g g1 : Game), Call.make_null_move ∉ cs →
      List.Pairwise (fun a b => move_counter a < move_counter b)
        (g.old_boards_ ++ [g.board_]) →
      g.calls cs = some g1 →
      List.Pairwise (fun a b => move_counter a < move_counter b)
        (g1.old_boards_ ++ [g1.board_]) := by
  induction cs with
  | nil =>
    intro g g1 _ hp h
    have h1 : some g = some g1 := h
    injection h1 with h1
    rw [← h1]
    exact hp
  | cons c cs ih =>
    intro g g1 hn hp h
    unfold Game.calls at h
    split at h
    · exact Option.noConfusion h
    · rename_i g2 hg2
      have hc : c ≠ Call.make_null_move := fun hx => hn (by rw [hx]; exact List.mem_cons_self _ _)
      exact ih g2 g1 (fun hx => hn (List.mem_cons_of_mem _ hx))
        (call_counter g g2 c hc hp hg2) h

/-- In a game whose history followed by the current board is strictly increasing in the
counter, no board of the history equals the current board, and `drawn()` is decided by the
occupancy count and the halfmove clock. -/
theorem no_repetition_of_counter (g : Game)
    (hp : List.Pairwise (fun a b => move_counter a < move_counter b)
      (g.old_boards_ ++ [g.board_])) :
    (∀ old, old ∈ g.old_boards_ → Board.beq old g.board_ = false) ∧
    g.is_repetition = false ∧ g.drawn = (g.is_stalemate || g.is_fifty_move) := by
  have hne : ∀ old, old ∈ g.old_boards_ → Board.beq old g.board_ = false := by
    intro old hold
    have hlt := (List.pairwise_append.1 hp).2.2 old hold g.board_ (List.mem_singleton.2 rfl)
    rw [Bool.eq_false_iff]
    intro hb
    have := beq_counter old g.board_ hb
    omega
  have hrep : g.is_repetition = false := by
    unfold Game.is_repetition
    rw [decide_eq_false_iff_not]
    have hnil : g.old_boards_.filter (fun b => Board.beq b g.board_) = [] := by
      rw [List.filter_eq_nil_iff]
      intro b hb
      rw [hne b hb]
      exact Bool.false_ne_true
    rw [hnil]
    decide
  refine ⟨hne, hrep, ?_⟩
  unfold Game.drawn
  rw [hrep, Bool.or_false]

/-! ## The bitboard iterator, call by call -/

theorem mem_set_bits (b i : Nat) : i ∈ set_bits b ↔ i < 64 ∧ b.testBit i = true := by
  unfold set_bits
  rw [List.mem_filter, List.mem_range]

theorem set_bits_sorted (b : Nat) : List.Sorted (fun x y => x < y) (set_bits b) :=
  List.Sorted.filter _ (List.sorted_lt_range 64)

theorem set_bits_length (b : Nat) : (set_bits b).length = Bitboard.count b := rfl

theorem set_bits_eq_nil (b : Nat) (hb : b < 2 ^ 64) (h : set_bits b = []) : b = 0 := by
  by_contra hz
  obtain ⟨j, hj⟩ := Nat.ne_zero_implies_bit_true hz
  have hj64 : j < 64 := by
    by_contra hc
    rw [testBit_false_of_word hb (by omega)] at hj
    exact Bool.noConfusion hj
  have : j ∈ set_bits b := (mem_set_bits b j).2 ⟨hj64, hj⟩
  rw [h] at this
  exact List.not_mem_nil _ this

theorem set_bits_zero : set_bits 0 = [] := by
  unfold set_bits
  rw [List.filter_eq_nil_iff]
  intro a _
  rw [Nat.zero_testBit]
  exact Bool.false_ne_true

/-- What one call of `next()` does on a non-empty word: it returns the lowest set bit and
clears it. -/
theorem next_spec (w : Nat) (hw : w < 2 ^ 64) (hz : w ≠ 0) :
    (BitboardIterator.next w).1 < 64 ∧ w.testBit (BitboardIterator.next w).1 = true ∧
    (∀ j, j < (BitboardIterator.next w).1 → w.testBit j = false) ∧
    (∀ i, ((BitboardIterator.next w).2).testBit i =
      (w.testBit i && decide (i ≠ (BitboardIterator.next w).1))) ∧
    (BitboardIterator.next w).2 < 2 ^ 64 := by
  obtain ⟨j, hj⟩ := Nat.ne_zero_implies_bit_true hz
  have hj64 : j < 64 := by
    by_contra hc
    rw [testBit_false_of_word hw (by omega)] at hj
    exact Bool.noConfusion hj
  obtain ⟨f1, f2, f3⟩ := find_first_spec w ⟨j, hj64, hj⟩
  unfold BitboardIterator.next
  simp only []
  refine ⟨f2, f1, f3, ?_, lt_of_le_of_lt Nat.and_le_left hw⟩
  intro i
  rw [unset_testBit]
  by_cases hi : i < 64
  · have d3 : decide (Bitboard.find_first w ≠ i) = decide (i ≠ Bitboard.find_first w) :=
      decide_eq_decide.2 ne_comm
    rw [decide_eq_true hi, Bool.true_and, d3]
  · rw [testBit_false_of_word hw (by omega)]
    rfl

theorem set_bits_next (w : Nat) (hw : w < 2 ^ 64) (hz : w ≠ 0) :
    set_bits w = (BitboardIterator.next w).1 :: set_bits (BitboardIterator.next w).2 := by
  obtain ⟨n1, n2, n3, n4, _⟩ := next_spec w hw hz
  have hs2 : List.Sorted (fun x y => x < y)
      ((BitboardIterator.next w).1 :: set_bits (BitboardIterator.next w).2) := by
    refine List.sorted_cons.2 ⟨?_, set_bits_sorted _⟩
    intro a ha
    obtain ⟨_, ha2⟩ := (mem_set_bits _ a).1 ha
    rw [n4 a, Bool.and_eq_true, decide_eq_true_eq] at ha2
    by_contra hc
    have hlt : a < (BitboardIterator.next w).1 := by
      have := ha2.2
      omega
    rw [n3 a hlt] at ha2
    exact Bool.noConfusion ha2.1
  apply List.eq_of_perm_of_sorted _ (set_bits_sorted w) hs2
  rw [List.perm_ext_iff_of_nodup (set_bits_sorted w).nodup hs2.nodup]
  intro a
  rw [List.mem_cons, mem_set_bits, mem_set_bits, n4 a, Bool.and_eq_true, decide_eq_true_eq]
  constructor
  · rintro ⟨h1, h2⟩
    by_cases hx : a = (BitboardIterator.next w).1
    · exact Or.inl hx
    · exact Or.inr ⟨h1, h2, hx⟩
  · rintro (h | ⟨h1, h2, _⟩)
    · rw [h]
      exact ⟨n1, n2⟩
    · exact ⟨h1, h2⟩

/-- With room for at least `count` calls, the loop returns the set bits in ascending order
and leaves an empty working copy. -/
theorem iterate_done :
    ∀ (n w : Nat), w < 2 ^ 64 → (set_bits w).length ≤ n →
      BitboardIterator.iterate n w = (set_bits w, 0) := by
  intro n
  induction n with
  | zero =>
    intro w hw hlen
    have hnil : set_bits w = [] := List.length_eq_zero.1 (by omega)
    rw [hnil, set_bits_eq_nil w hw hnil]
    rfl
  | succ n ih =>
    intro w hw hlen
    unfold BitboardIterator.iterate
    by_cases hz : w = 0
    · rw [hz, set_bits_zero]
      rfl
    · have hd : BitboardIterator.has_data w = true := by
        unfold BitboardIterator.has_data
        exact decide_eq_true hz
      rw [if_pos hd]
      obtain ⟨_, _, _, _, n5⟩ := next_spec w hw hz
      have hs := set_bits_next w hw hz
      rw [hs, List.length_cons] at hlen
      rw [ih _ n5 (by omega), hs]

/-- After `k` calls, for `k` up to `count`, the loop has returned the first `k` set bits and
its working copy holds the others. -/
theorem iterate_partial :
    ∀ (k w : Nat), w < 2 ^ 64 → k ≤ (set_bits w).length →
      (BitboardIterator.iterate k w).1 = (set_bits w).take k ∧
      set_bits (BitboardIterator.iterate k w).2 = (set_bits w).drop k ∧
      (BitboardIterator.iterate k w).2 < 2 ^ 64 := by
  intro k
  induction k with
  | zero =>
    intro w hw _
    exact ⟨rfl, rfl, hw⟩
  | succ k ih =>
    intro w hw hlen
    have hz : w ≠ 0 := by
      intro hz
      rw [hz, set_bits_zero] at hlen
      simp at hlen
    have hd : BitboardIterator.has_data w = true := by
      unfold BitboardIterator.has_data
      exact decide_eq_true hz
    obtain ⟨_, _, _, _, n5⟩ := next_spec w hw hz
    have hs := set_bits_next w hw hz
    rw [hs, List.length_cons] at hlen
    obtain ⟨i1, i2, i3⟩ := ih _ n5 (by omega)
    unfold BitboardIterator.iterate
    rw [if_pos hd, hs]
    exact ⟨by rw [List.take_succ_cons, i1], by rw [List.drop_succ_cons, i2], i3⟩

theorem drain_eq_iterate :
    ∀ (n w : Nat), BitboardIterator.drain n w = (BitboardIterator.iterate n w).1 := by
  intro n
  induction n with
  | zero =>
    intro w
    rfl
  | succ n ih =>
    intro w
    unfold BitboardIterator.drain BitboardIterator.iterate
    by_cases hz : w = 0
    · have hd : ¬ BitboardIterator.has_data w = true := by
        unfold BitboardIterator.has_data
        rw [decide_eq_true_eq]
        exact not_not.2 hz
      rw [if_pos hz, if_neg hd]
    · have hd : BitboardIterator.has_data w = true := by
        unfold BitboardIterator.has_data
        exact decide_eq_true hz
      rw [if_neg hz, if_pos hd]
      simp only []
      rw [ih]
      rfl

theorem set_bits_length_le (w : Nat) : (set_bits w).length ≤ 64 := by
  unfold set_bits
  have := List.length_filter_le (fun i => w.testBit i) (List.range 64)
  rw [List.length_range] at this
  exact this

/-- The iteration used by the generators returns the set bits in ascending order. -/
theorem squares_eq_set_bits (b : Nat) (hb : b < 2 ^ 64) :
    BitboardIterator.squares b = set_bits b := by
  unfold BitboardIterator.squares
  rw [Nat.mod_eq_of_lt hb, drain_eq_iterate, iterate_done 64 b hb (set_bits_length_le b)]

/-- The iteration over a 64-bit word, call by call. -/
theorem iterator_spec (b : Nat) (hb : b < 2 ^ 64) :
    (∀ n, Bitboard.count b ≤ n → BitboardIterator.iterate n b = (set_bits b, 0)) ∧
    (∀ k, k < Bitboard.count b →
      (BitboardIterator.iterate k b).1 = (set_bits b).take k ∧
      BitboardIterator.has_data (BitboardIterator.iterate k b).2 = true) ∧
    BitboardIterator.has_data (BitboardIterator.iterate (Bitboard.count b) b).2 = false ∧
    (BitboardIterator.iterate (Bitboard.count b) b).1.length = Bitboard.count b ∧
    List.Sorted (fun x y => x < y) (set_bits b) ∧
    (∀ i, i ∈ set_bits b ↔ i < 64 ∧ b.testBit i = true) ∧
    BitboardIterator.squares b = set_bits b := by
  have hdone := iterate_done (Bitboard.count b) b hb (le_of_eq (set_bits_length b))
  refine ⟨fun n hn => iterate_done n b hb (by rw [set_bits_length]; exact hn), ?_, ?_, ?_,
    set_bits_sorted b, mem_set_bits b, squares_eq_set_bits b hb⟩
  · intro k hk
    rw [← set_bits_length] at hk
    obtain ⟨i1, i2, _⟩ := iterate_partial k b hb (by omega)
    refine ⟨i1, ?_⟩
    unfold BitboardIterator.has_data
    apply decide_eq_true
    intro hz
    rw [hz, set_bits_zero] at i2
    have := congrArg List.length i2
    rw [List.length_drop, List.length_nil] at this
    omega
  · rw [hdone]
    rfl
  · rw [hdone]
    exact set_bits_length b

/-! ## Move counts of a lone piece -/

theorem side_union_congr (b c : Board) (s : Nat)
    (h : ∀ p, p < 6 → b.pieces_ s p = c.pieces_ s p) : b.side_union s = c.side_union s := by
  have hr : List.range 6 = [0, 1, 2, 3, 4, 5] := by decide
  unfold Board.side_union Board.piece_board
  rw [hr]
  simp only [List.foldl]
  rw [h 0 (by decide), h 1 (by decide), h 2 (by decide), h 3 (by decide), h 4 (by decide),
    h 5 (by decide)]

/-- The pseudo-legal list reads the side to move, the six piece boards of that side, both
occupancy words and the en-passant square, and nothing else. -/
theorem pseudolegal_congr (b c : Board) (hside : b.turn < 2) (ht : b.turn = c.turn)
    (hp : ∀ p, p < 6 → b.pieces_ b.turn p = c.pieces_ c.turn p)
    (ho : ∀ s, s < 2 → b.occupied_ s = c.occupied_ s) (he : b.ep_square = c.ep_square) :
    MoveGenerator.generate_pseudolegal_moves b = MoveGenerator.generate_pseudolegal_moves c := by
  have hocc : b.occupied = c.occupied := by
    unfold Board.occupied
    rw [ho 0 (by decide), ho 1 (by decide)]
  have hown : b.occupied_side b.turn = c.occupied_side b.turn := ho _ hside
  have hen : b.occupied_side (not_side b.turn) = c.occupied_side (not_side b.turn) :=
    ho _ (not_side_lt _)
  have h0 : b.pawns b.turn = c.pawns b.turn := by
    have := hp 0 (by decide)
    rw [← ht] at this
    exact this
  have h1 : b.knights b.turn = c.knights b.turn := by
    have := hp 1 (by decide)
    rw [← ht] at this
    exact this
  have h2 : b.bishops b.turn = c.bishops b.turn := by
    have := hp 2 (by decide)
    rw [← ht] at this
    exact this
  have h3 : b.rooks b.turn = c.rooks b.turn := by
    have := hp 3 (by decide)
    rw [← ht] at this
    exact this
  have h4 : b.queens b.turn = c.queens b.turn := by
    have := hp 4 (by decide)
    rw [← ht] at this
    exact this
  have h5 : b.kings b.turn = c.kings b.turn := by
    have := hp 5 (by decide)
    rw [← ht] at this
    exact this
  have e0 : MoveGenerator.generate_pawn_moves b = MoveGenerator.generate_pawn_moves c := by
    unfold MoveGenerator.generate_pawn_moves MoveGenerator.pawn_moves_from
      MoveGenerator.ep_board
    rw [← ht, h0, hocc]
    dsimp only
    rw [hen, he]
  have e1 : MoveGenerator.generate_knight_moves b = MoveGenerator.generate_knight_moves c := by
    unfold MoveGenerator.generate_knight_moves MoveGenerator.moves_to
    rw [← ht, h1, hown, hen]
  have e2 : MoveGenerator.generate_bishop_moves b = MoveGenerator.generate_bishop_moves c := by
    unfold MoveGenerator.generate_bishop_moves MoveGenerator.generate_ray_moves
      MoveGenerator.moves_to
    rw [← ht, h2, hown, hen, hocc]
  have e3 : MoveGenerator.generate_rook_moves b = MoveGenerator.generate_rook_moves c := by
    unfold MoveGenerator.generate_rook_moves MoveGenerator.generate_ray_moves
      MoveGenerator.moves_to
    rw [← ht, h3, hown, hen, hocc]
  have e4 : MoveGenerator.generate_queen_moves b = MoveGenerator.generate_queen_moves c := by
    unfold MoveGenerator.generate_queen_moves MoveGenerator.generate_ray_moves
      MoveGenerator.moves_to
    rw [← ht, h4, hown, hen, hocc]
  have e5 : MoveGenerator.generate_king_moves b = MoveGenerator.generate_king_moves c := by
    unfold MoveGenerator.generate_king_moves MoveGenerator.moves_to
    rw [← ht, h5, hown, hen]
  unfold MoveGenerator.generate_pseudolegal_moves
  rw [e0, e1, e2, e3, e4, e5]

theorem word_board_fields (side piece word : Nat) :
    (word_board side piece word).turn = side ∧
    (word_board side piece word).ep_square = null_square ∧
    occupancy_invariant (word_board side piece word) ∧
    ∀ s, s < 2 → ∀ p, p < 6 →
      (word_board side piece word).pieces_ s p = if s = side ∧ p = piece then word else 0 := by
  refine ⟨rfl, rfl, ?_, ?_⟩
  · unfold word_board Board.new
    exact occupancy_invariant_update _
  · intro s hs p hp
    interval_cases s <;> interval_cases p <;> rfl

/-- A board whose only pieces are those of one type of the side to move has the pseudo-legal
list of the board the constructor builds from the same piece word. -/
theorem only_pieces_moves (b : Board) (piece word : Nat) (h : only_pieces b piece word) :
    MoveGenerator.generate_pseudolegal_moves b =
      MoveGenerator.generate_pseudolegal_moves (word_board b.turn piece word) := by
  obtain ⟨hside, hinv, hep, hp⟩ := h
  obtain ⟨w1, w2, w3, w4⟩ := word_board_fields b.turn piece word
  have hpieces : ∀ s, s < 2 → ∀ p, p < 6 →
      b.pieces_ s p = (word_board b.turn piece word).pieces_ s p := by
    intro s hs p hp6
    rw [hp s hs p hp6, w4 s hs p hp6]
  apply pseudolegal_congr b _ hside w1.symm
  · intro p hp6
    rw [w1]
    exact hpieces _ hside p hp6
  · intro s hs
    rw [hinv s hs, w3 s hs]
    exact side_union_congr _ _ s (hpieces s hs)
  · rw [hep, w2]

theorem lone_rook_count : ∀ side, side < 2 → ∀ sq, sq < 64 →
    (MoveGenerator.generate_pseudolegal_moves
      (word_board side kPieceRook (Bitboard.mask sq))).length = 14 := by
  decide!

theorem lone_queen_count : ∀ side, side < 2 → ∀ sq, sq ∈ [27, 28, 35, 36] →
    (MoveGenerator.generate_pseudolegal_moves
      (word_board side kPieceQueen (Bitboard.mask sq))).length = 27 := by
  decide!

theorem lone_king_count : ∀ side, side < 2 → ∀ f, f ∈ [1, 2, 3, 4, 5, 6] →
    ∀ r, r ∈ [1, 2, 3, 4, 5, 6] →
    (MoveGenerator.generate_pseudolegal_moves
      (word_board side kPieceKing (Bitboard.mask (r * 8 + f)))).length = 8 := by
  decide!

theorem corner_king_count : ∀ side, side < 2 → ∀ sq, sq ∈ [0, 7, 56, 63] →
    (MoveGenerator.generate_pseudolegal_moves
      (word_board side kPieceKing (Bitboard.mask sq))).length = 3 := by
  decide!

theorem lone_knight_count : ∀ side, side < 2 → ∀ sq, sq ∈ [0, 7, 56, 63] →
    (MoveGenerator.generate_pseudolegal_moves
      (word_board side kPieceKnight (Bitboard.mask sq))).length = 2 := by
  decide!

theorem two_rooks_count : ∀ side, side < 2 →
    (MoveGenerator.generate_pseudolegal_moves
      (word_board side kPieceRook (Bitboard.mask 0 ||| Bitboard.mask 1))).length = 20 := by
  decide!

/-! ## The header fields of a FEN text -/

theorem no_space_of_spaces (f : List Char) (h : spaces f = 0) : ∀ c, c ∈ f → c ≠ ' ' := by
  unfold spaces at h
  have hnil := List.length_eq_zero.1 h
  rw [List.filter_eq_nil_iff] at hnil
  intro c hc hsp
  exact hnil c hc (by simp [hsp])

theorem space_fields_ne_nil (s : List Char) : space_fields s ≠ [] := by
  cases s with
  | nil => simp [space_fields]
  | cons c r =>
    unfold space_fields
    split
    · simp
    · split <;> simp

theorem space_fields_no_space (f : List Char) (h : ∀ c, c ∈ f → c ≠ ' ') :
    space_fields f = [f] := by
  induction f with
  | nil => rfl
  | cons c r ih =>
    unfold space_fields
    rw [if_neg (h c (List.mem_cons_self _ _)), ih (fun x hx => h x (List.mem_cons_of_mem _ hx))]

theorem space_fields_append (f t : List Char) (h : ∀ c, c ∈ f → c ≠ ' ') :
    space_fields (f ++ ' ' :: t) = f :: space_fields t := by
  induction f with
  | nil =>
    rw [List.nil_append, space_fields, if_pos rfl]
  | cons c r ih =>
    rw [List.cons_append, space_fields, if_neg (h c (List.mem_cons_self _ _)),
      ih (fun x hx => h x (List.mem_cons_of_mem _ hx))]

theorem match_plus_form (rest : List Char → Option (List (List Char))) (s : List Char) :
    ∀ n gs, n ≤ s.length → fen_codec.match_plus rest s n = some gs →
      ∃ k gs1, 1 ≤ k ∧ k ≤ s.length ∧ rest (s.drop k) = some gs1 ∧ gs = s.take k :: gs1 := by
  intro n
  induction n with
  | zero =>
    intro gs _ h
    exact Option.noConfusion h
  | succ n ih =>
    intro gs hn h
    unfold fen_codec.match_plus at h
    cases hr : rest (s.drop (n + 1)) with
    | some gs1 =>
      rw [hr] at h
      simp only [Option.some.injEq] at h
      exact ⟨n + 1, gs1, by omega, hn, hr, h.symm⟩
    | none =>
      rw [hr] at h
      exact ih gs (by omega) h

theorem match_here_dot_plus (p : List fen_codec.Item) (s : List Char) (gs : List (List Char))
    (h : fen_codec.match_here (fen_codec.Item.dot_plus :: p) s = some gs) :
    ∃ g t gs1, g ≠ [] ∧ s = g ++ t ∧ fen_codec.match_here p t = some gs1 ∧ gs = g :: gs1 := by
  rw [fen_codec.match_here] at h
  obtain ⟨k, gs1, hk1, hk2, hr, hgs⟩ :=
    match_plus_form _ s _ gs (List.takeWhile_sublist _).length_le h
  refine ⟨s.take k, s.drop k, gs1, ?_, (List.take_append_drop k s).symm, hr, hgs⟩
  intro hnil
  have hlen := congrArg List.length hnil
  rw [List.length_take, List.length_nil] at hlen
  omega

theorem match_here_space (p : List fen_codec.Item) (s : List Char) (gs : List (List Char))
    (h : fen_codec.match_here (fen_codec.Item.space :: p) s = some gs) :
    ∃ t, s = ' ' :: t ∧ fen_codec.match_here p t = some gs := by
  cases s with
  | nil =>
    rw [fen_codec.match_here] at h
    exact Option.noConfusion h
  | cons c r =>
    rw [fen_codec.match_here] at h
    by_cases hc : c = ' '
    · rw [if_pos hc] at h
      exact ⟨r, by rw [hc], h⟩
    · rw [if_neg hc] at h
      exact Option.noConfusion h

theorem match_here_dot (p : List fen_codec.Item) (s : List Char) (gs : List (List Char))
    (h : fen_codec.match_here (fen_codec.Item.dot :: p) s = some gs) :
    ∃ c t gs1, s = c :: t ∧ fen_codec.match_here p t = some gs1 ∧ gs = [c] :: gs1 := by
  cases s with
  | nil =>
    rw [fen_codec.match_here] at h
    exact Option.noConfusion h
  | cons c r =>
    rw [fen_codec.match_here] at h
    by_cases hc : fen_codec.is_dot c = true
    · rw [if_pos hc] at h
      cases hm : fen_codec.match_here p r with
      | none =>
        rw [hm] at h
        exact Option.noConfusion h
      | some gs1 =>
        rw [hm] at h
        simp only [Option.map_some', Option.some.injEq] at h
        exact ⟨c, r, gs1, rfl, hm, h.symm⟩
    · rw [if_neg hc] at h
      exact Option.noConfusion h

/-- A match of `fen_exp` at the head of a text: the text starts with the six captured groups,
separated by single spaces; the second group is one character and no group is empty. -/
theorem fen_exp_form (s : List Char) (gs : List (List Char))
    (h : fen_codec.match_here fen_codec.fen_exp s = some gs) :
    ∃ (g1 g3 g4 g5 g6 rest : List Char) (c2 : Char),
      g1 ≠ [] ∧ g3 ≠ [] ∧ g4 ≠ [] ∧ g5 ≠ [] ∧ g6 ≠ [] ∧
      gs = [g1, [c2], g3, g4, g5, g6] ∧
      s = g1 ++ ' ' :: c2 :: ' ' :: (g3 ++ ' ' :: (g4 ++ ' ' :: (g5 ++ ' ' :: (g6 ++ rest)))) := by
  unfold fen_codec.fen_exp at h
  obtain ⟨g1, t1, gs1, hg1, hs1, hm1, hgs1⟩ := match_here_dot_plus _ _ _ h
  obtain ⟨t2, hs2, hm2⟩ := match_here_space _ _ _ hm1
  obtain ⟨c2, t3, gs3, hs3, hm3, hgs3⟩ := match_here_dot _ _ _ hm2
  obtain ⟨t4, hs4, hm4⟩ := match_here_space _ _ _ hm3
  obtain ⟨g3, t5, gs5, hg3, hs5, hm5, hgs5⟩ := match_here_dot_plus _ _ _ hm4
  obtain ⟨t6, hs6, hm6⟩ := match_here_space _ _ _ hm5
  obtain ⟨g4, t7, gs7, hg4, hs7, hm7, hgs7⟩ := match_here_dot_plus _ _ _ hm6
  obtain ⟨t8, hs8, hm8⟩ := match_here_space _ _ _ hm7
  obtain ⟨g5, t9, gs9, hg5, hs9, hm9, hgs9⟩ := match_here_dot_plus _ _ _ hm8
  obtain ⟨t10, hs10, hm10⟩ := match_here_space _ _ _ hm9
  obtain ⟨g6, t11, gs11, hg6, hs11, hm11, hgs11⟩ := match_here_dot_plus _ _ _ hm10
  rw [fen_codec.match_here] at hm11
  simp only [Option.some.injEq] at hm11
  refine ⟨g1, g3, g4, g5, g6, t11, c2, hg1, hg3, hg4, hg5, hg6, ?_, ?_⟩
  · rw [hgs1, hgs3, hgs5, hgs7, hgs9, hgs11, ← hm11]
  · rw [hs1, hs2, hs3, hs4, hs5, hs6, hs7, hs8, hs9, hs10, hs11]

theorem regex_search_form (p : List fen_codec.Item) :
    ∀ (s : List Char) (gs : List (List Char)), fen_codec.regex_search p s = some gs →
      ∃ pre t, s = pre ++ t ∧ fen_codec.match_here p t = some gs := by
  intro s
  induction s with
  | nil =>
    intro gs h
    rw [fen_codec.regex_search] at h
    exact ⟨[], [], rfl, h⟩
  | cons c r ih =>
    intro gs h
    rw [fen_codec.regex_search] at h
    cases hm : fen_codec.match_here p (c :: r) with
    | some gs1 =>
      rw [hm] at h
      simp only [Option.some.injEq] at h
      rw [h] at hm
      exact ⟨[], c :: r, rfl, hm⟩
    | none =>
      rw [hm] at h
      obtain ⟨pre, t, e, ht⟩ := ih gs h
      exact ⟨c :: pre, t, by rw [e]; rfl, ht⟩

/-- The groups `fen_exp` captures: six non-empty runs of the text, the second one character
long, separated by single spaces. -/
theorem fen_match_form (s : List Char) (gs : List (List Char))
    (h : Board.fen_match s = some gs) :
    ∃ (pre g1 g3 g4 g5 g6 rest : List Char) (c2 : Char),
      g1 ≠ [] ∧ g3 ≠ [] ∧ g4 ≠ [] ∧ g5 ≠ [] ∧ g6 ≠ [] ∧
      gs = [g1, [c2], g3, g4, g5, g6] ∧
      s = pre ++
        (g1 ++ ' ' :: c2 :: ' ' :: (g3 ++ ' ' :: (g4 ++ ' ' :: (g5 ++ ' ' :: (g6 ++ rest))))) := by
  unfold Board.fen_match at h
  obtain ⟨pre, t, hs, hm⟩ := regex_search_form _ s gs h
  obtain ⟨g1, g3, g4, g5, g6, rest, c2, h1, h3, h4, h5, h6, hgs, ht⟩ := fen_exp_form t gs hm
  exact ⟨pre, g1, g3, g4, g5, g6, rest, c2, h1, h3, h4, h5, h6, hgs, by rw [hs, ht]⟩

/-- On a text with exactly five spaces the captured groups two to five are the fields of the
text; the first group ends the first field and the sixth group starts the sixth. -/
theorem fen_match_space_fields (s : List Char) (pre g1 g3 g4 g5 g6 rest : List Char) (c2 : Char)
    (hs : s = pre ++
      (g1 ++ ' ' :: c2 :: ' ' :: (g3 ++ ' ' :: (g4 ++ ' ' :: (g5 ++ ' ' :: (g6 ++ rest))))))
    (hsp : spaces s = 5) :
    space_fields s = [pre ++ g1, [c2], g3, g4, g5, g6 ++ rest] := by
  have hc : ∀ (c : Char) (t : List Char), spaces (c :: t) = spaces [c] + spaces t :=
    fun c t => spaces_append [c] t
  rw [hs, spaces_append, spaces_append, spaces_cons_space, hc c2, spaces_cons_space,
    spaces_append, spaces_cons_space, spaces_append, spaces_cons_space, spaces_append,
    spaces_cons_space, spaces_append] at hsp
  have n0 := no_space_of_spaces pre (by omega)
  have n1 := no_space_of_spaces g1 (by omega)
  have n2 := no_space_of_spaces [c2] (by omega)
  have n3 := no_space_of_spaces g3 (by omega)
  have n4 := no_space_of_spaces g4 (by omega)
  have n5 := no_space_of_spaces g5 (by omega)
  have n6 := no_space_of_spaces g6 (by omega)
  have n7 := no_space_of_spaces rest (by omega)
  have n01 : ∀ c, c ∈ pre ++ g1 → c ≠ ' ' := by
    intro c hc
    rcases List.mem_append.1 hc with h | h
    · exact n0 c h
    · exact n1 c h
  have n67 : ∀ c, c ∈ g6 ++ rest → c ≠ ' ' := by
    intro c hc
    rcases List.mem_append.1 hc with h | h
    · exact n6 c h
    · exact n7 c h
  have e2 : c2 :: ' ' :: (g3 ++ ' ' :: (g4 ++ ' ' :: (g5 ++ ' ' :: (g6 ++ rest)))) =
      [c2] ++ ' ' :: (g3 ++ ' ' :: (g4 ++ ' ' :: (g5 ++ ' ' :: (g6 ++ rest)))) := rfl
  rw [hs, ← List.append_assoc, space_fields_append _ _ n01, e2, space_fields_append _ _ n2,
    space_fields_append _ _ n3, space_fields_append _ _ n4, space_fields_append _ _ n5,
    space_fields_no_space _ n67]

/-- What `from_fields` stores for the side to move, the castling rights and the en-passant
square. -/
theorem from_fields_header (g1 g3 g4 g5 g6 : List Char) (c2 : Char) (b : Board)
    (h1 : g1 ≠ []) (h : Board.from_fields [g1, [c2], g3, g4, g5, g6] = some b) :
    b.turn = (if c2 = 'w' then kSideWhite else kSideBlack) ∧
    b.castling 0 = (decide (g3 ≠ ['-']) && fen_codec.contains g3 'K') ∧
    b.castling 1 = (decide (g3 ≠ ['-']) && fen_codec.contains g3 'Q') ∧
    b.castling 2 = (decide (g3 ≠ ['-']) && fen_codec.contains g3 'k') ∧
    b.castling 3 = (decide (g3 ≠ ['-']) && fen_codec.contains g3 'q') ∧
    (g4 = ['-'] → b.ep_square = null_square) ∧
    (g4 ≠ ['-'] → ∃ c0 c1 r, g4 = c0 :: c1 :: r ∧
      b.ep_square = u8 (((c0.toNat : Int) - 97) + ((c1.toNat : Int) - 49) * 8)) := by
  have hpos : 0 < g1.length := List.length_pos.2 h1
  unfold Board.from_fields at h
  simp only [] at h
  rw [if_neg (by simp only [List.length_singleton]; omega)] at h
  by_cases hlong : g1.length ≥ 1024
  · rw [if_pos hlong] at h
    exact absurd h (by simp)
  · rw [if_neg hlong] at h
    by_cases htok :
        (fen_codec.strtok_all (g1.takeWhile (fun c => c ≠ Char.ofNat 0)) []).length < 8
    · rw [if_pos htok] at h
      exact absurd h (by simp)
    · rw [if_neg htok] at h
      split at h
      · exact absurd h (by simp)
      · rename_i pout hparse
        split at h
        · rename_i x half full hx hhalf hfull
          simp only [Option.some.injEq] at h
          rw [← h]
          refine ⟨?_, rfl, rfl, rfl, rfl, ?_, ?_⟩
          · by_cases hw : c2 = 'w'
            · rw [if_pos hw, hw]
              rfl
            · rw [if_neg hw]
              have hne : ¬ [c2] = ['w'] := by
                intro hl
                exact hw (List.head_eq_of_cons_eq hl)
              show (if [c2] = ['w'] then kSideWhite else kSideBlack) = kSideBlack
              rw [if_neg hne]
          · intro hdash
            rw [if_neg (not_not.2 hdash)] at hx
            simp only [Option.some.injEq] at hx
            show u8 x = null_square
            rw [← hx]
            decide
          · intro hdash
            rw [if_pos hdash] at hx
            unfold fen_codec.square_name_to_offset at hx
            split at hx
            · rename_i c0 c1 r
              simp only [Option.some.injEq] at hx
              refine ⟨c0, c1, r, rfl, ?_⟩
              show u8 x = _
              rw [← hx]
              rfl
            · exact absurd hx (by simp)
        · exact absurd h (by simp)

theorem contains_iff (f : List Char) (c : Char) : fen_codec.contains f c = true ↔ c ∈ f := by
  unfold fen_codec.contains
  simp only [List.any_eq_true, decide_eq_true_eq]
  constructor
  · rintro ⟨x, hx, e⟩
    rw [← e]
    exact hx
  · intro h
    exact ⟨c, h, rfl⟩

theorem right_iff (f : List Char) (c : Char) (v : Bool)
    (h : v = (decide (f ≠ ['-']) && fen_codec.contains f c)) :
    v = true ↔ f ≠ ['-'] ∧ c ∈ f := by
  rw [h, Bool.and_eq_true, decide_eq_true_eq, contains_iff]

/-- The header of every board `from_fen` parses out of a matched text, in terms of the captured
groups, and the groups in terms of the fields of the text when it has exactly five spaces. -/
theorem fen_header (s : String) (groups : List (List Char)) (b : Board)
    (hm : Board.fen_match s.toList = some groups) (hb : Board.from_fen s = some b) :
    ∃ (g1 g3 g4 g5 g6 : List Char) (c2 : Char),
      groups = [g1, [c2], g3, g4, g5, g6] ∧
      (b.turn = kSideWhite ↔ [c2] = ['w']) ∧
      (b.turn = kSideWhite ∨ b.turn = kSideBlack) ∧
      (b.castling 0 = true ↔ g3 ≠ ['-'] ∧ 'K' ∈ g3) ∧
      (b.castling 1 = true ↔ g3 ≠ ['-'] ∧ 'Q' ∈ g3) ∧
      (b.castling 2 = true ↔ g3 ≠ ['-'] ∧ 'k' ∈ g3) ∧
      (b.castling 3 = true ↔ g3 ≠ ['-'] ∧ 'q' ∈ g3) ∧
      (g4 = ['-'] → b.ep_square = null_square) ∧
      (g4 ≠ ['-'] → ∃ c0 c1 r, g4 = c0 :: c1 :: r ∧
        b.ep_square = u8 (((c0.toNat : Int) - 'a'.toNat) + 8 * ((c1.toNat : Int) - '1'.toNat)) ∧
        ('a'.toNat ≤ c0.toNat ∧ c0.toNat ≤ 'h'.toNat ∧ '1'.toNat ≤ c1.toNat ∧
            c1.toNat ≤ '8'.toNat →
          (b.ep_square : Int) =
            ((c0.toNat : Int) - 'a'.toNat) + 8 * ((c1.toNat : Int) - '1'.toNat) ∧
          b.ep_square < 64)) ∧
      (spaces s.toList = 5 →
        ∃ f1 f6, space_fields s.toList = [f1, [c2], g3, g4, g5, f6]) := by
  obtain ⟨pre, g1, g3, g4, g5, g6, rest, c2, h1, _, _, _, _, hgs, hs⟩ :=
    fen_match_form s.toList groups hm
  rw [from_fen_match s groups hm, hgs] at hb
  obtain ⟨ht, k0, k1, k2, k3, hnull, hep⟩ := from_fields_header g1 g3 g4 g5 g6 c2 b h1 hb
  refine ⟨g1, g3, g4, g5, g6, c2, hgs, ?_, ?_, right_iff _ _ _ k0, right_iff _ _ _ k1,
    right_iff _ _ _ k2, right_iff _ _ _ k3, hnull, ?_, ?_⟩
  · rw [ht]
    by_cases hw : c2 = 'w'
    · rw [if_pos hw, hw]
      exact ⟨fun _ => rfl, fun _ => rfl⟩
    · rw [if_neg hw]
      constructor
      · intro hk
        exact absurd hk (by decide)
      · intro hl
        exact absurd (List.head_eq_of_cons_eq hl) hw
  · rw [ht]
    by_cases hw : c2 = 'w'
    · rw [if_pos hw]
      exact Or.inl rfl
    · rw [if_neg hw]
      exact Or.inr rfl
  · intro hdash
    obtain ⟨c0, c1, r, hg4, he⟩ := hep hdash
    have ha : ('a'.toNat : Int) = 97 := by decide
    have h1' : ('1'.toNat : Int) = 49 := by decide
    have hh : 'h'.toNat = 104 := by decide
    have h8 : '8'.toNat = 56 := by decide
    have han : 'a'.toNat = 97 := by decide
    have h1n : '1'.toNat = 49 := by decide
    refine ⟨c0, c1, r, hg4, ?_, ?_⟩
    · rw [he, ha, h1']
      congr 1
      ring
    · rw [han, hh, h1n, h8]
      intro hr
      rw [he]
      unfold u8
      omega
  · intro hsp
    exact ⟨pre ++ g1, g6 ++ rest, fen_match_space_fields s.toList pre g1 g3 g4 g5 g6 rest c2 hs hsp⟩

/-! ## The placement field read by `from_fen` -/

theorem rank_chars_facts : ∀ c, c ∈ rank_chars →
    (fen_codec.isdigit c = true ↔ ('1'.toNat ≤ c.toNat ∧ c.toNat ≤ '8'.toNat)) ∧
    c.toNat < 128 ∧ c ≠ '/' ∧ c ≠ ' ' ∧ c ≠ Char.ofNat 0 ∧ fen_codec.is_dot c = true := by
  decide

theorem rank_chars_letter : ∀ c, c ∈ rank_chars → fen_codec.isdigit c = false →
    ∃ piece, piece < 6 ∧ (fen_codec.piece_of_letter (fen_codec.tolower c) = some piece ∧
      ∀ side, side < 2 → ∀ p, p < 6 →
        (c = piece_letter side p ↔
          side = (if fen_codec.isupper c = true then 0 else 1) ∧ p = piece)) := by
  decide

theorem expand_cons (c : Char) (r : List Char) :
    expand_rank (c :: r) =
      (if '1'.toNat ≤ c.toNat ∧ c.toNat ≤ '8'.toNat then
        List.replicate (c.toNat - '0'.toNat) none else [some c]) ++ expand_rank r := rfl

theorem cons_get (a : Option Char) (E : List (Option Char)) (L : Char) (i base : Nat) :
    (∃ j, i = base + j ∧ (a :: E)[j]? = some (some L)) ↔
      (a = some L ∧ i = base) ∨ ∃ j, i = base + 1 + j ∧ E[j]? = some (some L) := by
  constructor
  · rintro ⟨j, hi, hj⟩
    cases j with
    | zero =>
      rw [List.getElem?_cons_zero] at hj
      exact Or.inl ⟨Option.some.inj hj, hi⟩
    | succ j =>
      rw [List.getElem?_cons_succ] at hj
      exact Or.inr ⟨j, by omega, hj⟩
  · rintro (⟨ha, hi⟩ | ⟨j, hi, hj⟩)
    · exact ⟨0, hi, by rw [List.getElem?_cons_zero, ha]⟩
    · exact ⟨j + 1, by omega, by rw [List.getElem?_cons_succ]; exact hj⟩

theorem replicate_get (d : Nat) (E : List (Option Char)) (L : Char) (i base : Nat) :
    (∃ j, i = base + j ∧ (List.replicate d none ++ E)[j]? = some (some L)) ↔
      ∃ j, i = base + d + j ∧ E[j]? = some (some L) := by
  induction d generalizing base with
  | zero =>
    rw [List.replicate_zero, List.nil_append, Nat.add_zero]
  | succ d ih =>
    rw [List.replicate_succ, List.cons_append, cons_get, ih (base + 1)]
    constructor
    · rintro (⟨ha, _⟩ | ⟨j, hi, hj⟩)
      · exact Option.noConfusion ha
      · exact ⟨j, by omega, hj⟩
    · rintro ⟨j, hi, hj⟩
      exact Or.inr ⟨j, by omega, hj⟩

/-- One rank text: the loop of `from_fen` over its characters sets, for every piece letter of
the expanded rank, the bit of the square in the board of that letter, and nothing else. -/
theorem parse_rank_spec (R : Nat) (hR : R < 8) :
    ∀ (text : List Char) (k : Nat) (pin : Nat → Nat → Nat),
      (∀ c, c ∈ text → c ∈ rank_chars) → k + (expand_rank text).length ≤ 8 →
      ∃ pout, fen_codec.parse_rank (8 * (R : Int)) text (k : Int) pin = some pout ∧
        ∀ side, side < 2 → ∀ piece, piece < 6 → ∀ i,
          ((pout side piece).testBit i = true ↔
            (pin side piece).testBit i = true ∨
            ∃ j, i = 8 * R + k + j ∧
              (expand_rank text)[j]? = some (some (piece_letter side piece))) := by
  have h0 : '0'.toNat = 48 := rfl
  have h1 : '1'.toNat = 49 := rfl
  have h8 : '8'.toNat = 56 := rfl
  intro text
  induction text with
  | nil =>
    intro k pin _ _
    refine ⟨pin, by rw [fen_codec.parse_rank], ?_⟩
    intro side _ piece _ i
    constructor
    · intro h
      exact Or.inl h
    · rintro (h | ⟨j, _, hj⟩)
      · exact h
      · exact absurd hj (by simp [expand_rank])
  | cons c rest ih =>
    intro k pin hall hlen
    have hc := hall c (List.mem_cons_self _ _)
    have hrest : ∀ x, x ∈ rest → x ∈ rank_chars :=
      fun x hx => hall x (List.mem_cons_of_mem _ hx)
    obtain ⟨hdig, h128, _⟩ := rank_chars_facts c hc
    rw [expand_cons] at hlen
    by_cases hd : fen_codec.isdigit c = true
    · have hr := hdig.1 hd
      rw [if_pos hr, List.length_append, List.length_replicate, h0] at hlen
      rw [h1, h8] at hr
      have hk : (k : Int) + fen_codec.char_to_int c = ((k + (c.toNat - 48) : Nat) : Int) := by
        unfold fen_codec.char_to_int
        omega
      obtain ⟨pout, hp, hbits⟩ := ih (k + (c.toNat - 48)) pin hrest (by omega)
      refine ⟨pout, ?_, ?_⟩
      · rw [fen_codec.parse_rank, if_neg (by omega), if_pos hd, hk]
        exact hp
      · intro side hs piece hp6 i
        rw [hbits side hs piece hp6 i, expand_cons, if_pos (by rw [h1, h8]; exact hr), h0,
          replicate_get, Nat.add_assoc]
    · have hd' : fen_codec.isdigit c = false := by
        cases hx : fen_codec.isdigit c with
        | true => exact absurd hx hd
        | false => rfl
      have hr : ¬ ('1'.toNat ≤ c.toNat ∧ c.toNat ≤ '8'.toNat) := fun h => hd (hdig.2 h)
      rw [if_neg hr, List.length_append, List.length_singleton] at hlen
      obtain ⟨piece0, _, hpiece, hletter⟩ := rank_chars_letter c hc hd'
      have hu8 : u8 (8 * (R : Int) + (k : Int)) = 8 * R + k := by
        unfold u8
        omega
      have hk : (k : Int) + 1 = ((k + 1 : Nat) : Int) := by omega
      obtain ⟨pout, hp, hbits⟩ := ih (k + 1)
        (fun s p => if s = (if fen_codec.isupper c = true then 0 else 1) ∧ p = piece0 then
          Bitboard.set (pin (if fen_codec.isupper c = true then 0 else 1) piece0) (8 * R + k)
          else pin s p) hrest (by omega)
      refine ⟨pout, ?_, ?_⟩
      · rw [parse_rank_symbol (8 * (R : Int)) c _ piece0 (8 * R + k) rest k pin hd' (by omega)
          rfl hpiece hu8 (by omega), hk]
        exact hp
      · intro side hs piece hp6 i
        rw [hbits side hs piece hp6 i, expand_cons, if_neg hr, List.singleton_append, cons_get]
        have hl := hletter side hs piece hp6
        by_cases hsp : side = (if fen_codec.isupper c = true then 0 else 1) ∧ piece = piece0
        · rw [if_pos hsp, set_testBit, ← hsp.1, ← hsp.2]
          have hcl : c = piece_letter side piece := hl.2 hsp
          simp only [Bool.or_eq_true, decide_eq_true_eq]
          constructor
          · rintro ((h | ⟨_, h⟩) | h)
            · exact Or.inl h
            · exact Or.inr (Or.inl ⟨by rw [hcl], h.symm⟩)
            · exact Or.inr (Or.inr h)
          · rintro (h | ⟨_, h⟩ | h)
            · exact Or.inl (Or.inl h)
            · exact Or.inl (Or.inr ⟨by omega, h.symm⟩)
            · exact Or.inr h
        · rw [if_neg hsp]
          constructor
          · rintro (h | h)
            · exact Or.inl h
            · exact Or.inr (Or.inr h)
          · rintro (h | ⟨hcl, _⟩ | h)
            · exact Or.inl h
            · exact absurd (hl.1 (Option.some.inj hcl)) hsp
            · exact Or.inr h

/-- The rank texts in turn, highest rank first. -/
theorem parse_ranks_spec :
    ∀ (ranks : List (List Char)) (i0 : Nat) (pin : Nat → Nat → Nat),
      i0 + ranks.length ≤ 8 →
      (∀ rank, rank ∈ ranks →
        (∀ c, c ∈ rank → c ∈ rank_chars) ∧ (expand_rank rank).length = 8) →
      ∃ pout, fen_codec.parse_ranks ranks i0 pin = some pout ∧
        ∀ side, side < 2 → ∀ piece, piece < 6 → ∀ i,
          ((pout side piece).testBit i = true ↔
            (pin side piece).testBit i = true ∨
            ∃ n j, i = 8 * (7 - (i0 + n)) + j ∧
              (expand_rank (ranks.getD n []))[j]? = some (some (piece_letter side piece))) := by
  intro ranks
  induction ranks with
  | nil =>
    intro i0 pin _ _
    refine ⟨pin, by rw [fen_codec.parse_ranks], ?_⟩
    intro side _ piece _ i
    constructor
    · intro h
      exact Or.inl h
    · rintro (h | ⟨n, j, _, hj⟩)
      · exact h
      · exact absurd hj (by simp [expand_rank])
  | cons rank rest ih =>
    intro i0 pin hlen hall
    rw [List.length_cons] at hlen
    obtain ⟨hchars, hexp⟩ := hall rank (List.mem_cons_self _ _)
    have hcast : 8 * (7 - (i0 : Int)) = 8 * (((7 - i0 : Nat)) : Int) := by omega
    obtain ⟨p1, hp1, hb1⟩ := parse_rank_spec (7 - i0) (by omega) rank 0 pin hchars (by omega)
    obtain ⟨pout, hp, hb⟩ := ih (i0 + 1) p1 (by omega)
      (fun r hr => hall r (List.mem_cons_of_mem _ hr))
    refine ⟨pout, ?_, ?_⟩
    · rw [fen_codec.parse_ranks, hcast]
      have hp1' : fen_codec.parse_rank (8 * (((7 - i0 : Nat)) : Int)) rank 0 pin = some p1 := hp1
      rw [hp1']
      exact hp
    · intro side hs piece hp6 i
      rw [hb side hs piece hp6 i, hb1 side hs piece hp6 i]
      constructor
      · rintro ((h | ⟨j, hi, hj⟩) | ⟨n, j, hi, hj⟩)
        · exact Or.inl h
        · exact Or.inr ⟨0, j, by omega, by rw [List.getD_cons_zero]; exact hj⟩
        · exact Or.inr ⟨n + 1, j, by omega, by rw [List.getD_cons_succ]; exact hj⟩
      · rintro (h | ⟨n, j, hi, hj⟩)
        · exact Or.inl (Or.inl h)
        · cases n with
          | zero =>
            rw [List.getD_cons_zero] at hj
            exact Or.inl (Or.inr ⟨j, by omega, hj⟩)
          | succ n =>
            rw [List.getD_cons_succ] at hj
            exact Or.inr ⟨n, j, by omega, hj⟩

/-- Eight rank texts of eight squares each: bit `r * 8 + f` of a piece board is set exactly
when the letter of that board stands at file `f` of the expanded text of rank `r`. -/
theorem placement_ranks_spec (ranks : List (List Char)) (hlen : ranks.length = 8)
    (hall : ∀ rank, rank ∈ ranks →
      (∀ c, c ∈ rank → c ∈ rank_chars) ∧ (expand_rank rank).length = 8) :
    ∃ pout, fen_codec.parse_ranks ranks 0 (fun _ _ => 0) = some pout ∧
      ∀ side, side < 2 → ∀ piece, piece < 6 → ∀ f, f < 8 → ∀ r, r < 8 →
        ((pout side piece).testBit (r * 8 + f) = true ↔
          (expand_rank (ranks.getD (7 - r) []))[f]? = some (some (piece_letter side piece))) := by
  obtain ⟨pout, hp, hb⟩ := parse_ranks_spec ranks 0 (fun _ _ => 0) (by omega) hall
  refine ⟨pout, hp, ?_⟩
  intro side hs piece hp6 f hf r hr
  rw [hb side hs piece hp6]
  constructor
  · rintro (h | ⟨n, j, hi, hj⟩)
    · rw [Nat.zero_testBit] at h
      exact Bool.noConfusion h
    · by_cases hn : n < ranks.length
      · have hmem : ranks.getD n [] ∈ ranks := by
          rw [List.getD_eq_getElem _ _ hn]
          exact List.getElem_mem _
        have hj8 : j < 8 := by
          by_contra hge
          rw [List.getElem?_eq_none (by rw [(hall _ hmem).2]; omega)] at hj
          exact Option.noConfusion hj
        have hnr : n = 7 - r := by omega
        have hjf : j = f := by omega
        rw [← hnr, ← hjf]
        exact hj
      · rw [List.getD_eq_default _ _ (by omega)] at hj
        exact absurd hj (by simp [expand_rank])
  · intro h
    exact Or.inr ⟨7 - r, f, by omega, h⟩

theorem rank_length_le : ∀ rank : List Char, (∀ c, c ∈ rank → c ∈ rank_chars) →
    rank.length ≤ (expand_rank rank).length := by
  intro rank
  induction rank with
  | nil =>
    intro _
    exact Nat.zero_le _
  | cons c rest ih =>
    intro hall
    have := ih (fun x hx => hall x (List.mem_cons_of_mem _ hx))
    rw [expand_cons, List.length_append, List.length_cons]
    by_cases hr : '1'.toNat ≤ c.toNat ∧ c.toNat ≤ '8'.toNat
    · rw [if_pos hr, List.length_replicate]
      have h0 : '0'.toNat = 48 := rfl
      have h1 : '1'.toNat = 49 := rfl
      rw [h1] at hr
      rw [h0]
      omega
    · rw [if_neg hr, List.length_singleton]
      omega

theorem join_ranks_cons (r r1 : List Char) (rs : List (List Char)) :
    join_ranks (r :: r1 :: rs) = r ++ '/' :: join_ranks (r1 :: rs) := rfl

theorem strtok_join : ∀ ranks : List (List Char),
    (∀ r, r ∈ ranks → r ≠ [] ∧ ∀ c, c ∈ r → c ≠ '/') →
    fen_codec.strtok_all (join_ranks ranks) [] = ranks := by
  intro ranks
  induction ranks with
  | nil =>
    intro _
    rfl
  | cons r rest ih =>
    intro hall
    obtain ⟨hne, hslash⟩ := hall r (List.mem_cons_self _ _)
    cases rest with
    | nil => exact strtok_last r hne hslash
    | cons r1 rs =>
      rw [join_ranks_cons, strtok_token r _ hne hslash,
        ih (fun x hx => hall x (List.mem_cons_of_mem _ hx))]

theorem mem_join_ranks : ∀ (ranks : List (List Char)) (c : Char), c ∈ join_ranks ranks →
    c = '/' ∨ ∃ r, r ∈ ranks ∧ c ∈ r := by
  intro ranks
  induction ranks with
  | nil =>
    intro c hc
    exact absurd hc (by simp [join_ranks])
  | cons r rest ih =>
    intro c hc
    cases rest with
    | nil => exact Or.inr ⟨r, List.mem_cons_self _ _, hc⟩
    | cons r1 rs =>
      rw [join_ranks_cons] at hc
      rcases List.mem_append.1 hc with h | h
      · exact Or.inr ⟨r, List.mem_cons_self _ _, h⟩
      · rcases List.mem_cons.1 h with h | h
        · exact Or.inl h
        · rcases ih c h with h | ⟨x, hx, hcx⟩
          · exact Or.inl h
          · exact Or.inr ⟨x, List.mem_cons_of_mem _ hx, hcx⟩

theorem join_ranks_length : ∀ ranks : List (List Char), (∀ r, r ∈ ranks → r.length ≤ 8) →
    (join_ranks ranks).length ≤ 9 * ranks.length := by
  intro ranks
  induction ranks with
  | nil =>
    intro _
    exact Nat.zero_le _
  | cons r rest ih =>
    intro hall
    have hr := hall r (List.mem_cons_self _ _)
    cases rest with
    | nil =>
      show r.length ≤ 9 * 1
      omega
    | cons r1 rs =>
      have := ih (fun x hx => hall x (List.mem_cons_of_mem _ hx))
      rw [join_ranks_cons, List.length_append]
      simp only [List.length_cons] at this ⊢
      omega

/-- From a text of six fields whose placement field is eight rank texts of eight squares each,
`from_fen` returns a board whose piece boards hold exactly the letters of the expanded ranks. -/
theorem from_fen_placement (ranks : List (List Char)) (c2 : Char) (f3 f4 f5 f6 : List Char)
    (half full : Int) (hlen : ranks.length = 8)
    (hall : ∀ rank, rank ∈ ranks →
      (∀ c, c ∈ rank → c ∈ rank_chars) ∧ (expand_rank rank).length = 8)
    (h2 : fen_field [c2]) (h3 : fen_field f3) (h4 : fen_field f4) (h5 : fen_field f5)
    (h6 : fen_field f6) (hep : f4 = ['-'] ∨ 2 ≤ f4.length)
    (hhalf : fen_codec.stoi f5 = some half) (hfull : fen_codec.stoi f6 = some full) :
    ∃ b, Board.from_fen (String.mk (join_ranks ranks ++
        ' ' :: c2 :: ' ' :: (f3 ++ ' ' :: (f4 ++ ' ' :: (f5 ++ ' ' :: f6))))) = some b ∧
      ∀ side, side < 2 → ∀ piece, piece < 6 → ∀ f, f < 8 → ∀ r, r < 8 →
        ((b.piece_board side piece).testBit (r * 8 + f) = true ↔
          (expand_rank (ranks.getD (7 - r) []))[f]? = some (some (piece_letter side piece))) := by
  obtain ⟨pout, hparse, hbits⟩ := placement_ranks_spec ranks hlen hall
  have hrank : ∀ r, r ∈ ranks → r ≠ [] ∧ ∀ c, c ∈ r → c ≠ '/' := by
    intro r hr
    obtain ⟨hchars, hexp⟩ := hall r hr
    constructor
    · intro hnil
      rw [hnil] at hexp
      exact absurd hexp (by simp [expand_rank])
    · intro c hc
      exact (rank_chars_facts c (hchars c hc)).2.2.1
  have htok := strtok_join ranks hrank
  have hchar : ∀ c, c ∈ join_ranks ranks →
      c ≠ ' ' ∧ c ≠ Char.ofNat 0 ∧ fen_codec.is_dot c = true := by
    intro c hc
    rcases mem_join_ranks ranks c hc with h | ⟨r, hr, hcr⟩
    · rw [h]
      decide
    · obtain ⟨_, _, _, a, b, d⟩ := rank_chars_facts c ((hall r hr).1 c hcr)
      exact ⟨a, b, d⟩
  have hne : join_ranks ranks ≠ [] := by
    intro hnil
    rw [hnil] at htok
    rw [← htok] at hlen
    exact absurd hlen (by decide)
  have h1 : fen_field (join_ranks ranks) :=
    ⟨hne, fun c hc => ⟨(hchar c hc).1, (hchar c hc).2.2⟩⟩
  have hlong : (join_ranks ranks).length < 1024 := by
    have := join_ranks_length ranks (fun r hr => by
      have := rank_length_le r (hall r hr).1
      rw [(hall r hr).2] at this
      exact this)
    rw [hlen] at this
    omega
  have htake : (join_ranks ranks).takeWhile (fun c => c ≠ Char.ofNat 0) = join_ranks ranks :=
    List.takeWhile_eq_self_iff.2 (fun c hc => by simpa using (hchar c hc).2.1)
  have hx : ∃ x, (if f4 ≠ ['-'] then fen_codec.square_name_to_offset f4 else some (-1)) =
      some x := by
    by_cases hd : f4 = ['-']
    · exact ⟨-1, by rw [if_neg (not_not.2 hd)]⟩
    · rw [if_pos hd]
      rcases hep with h | h
      · exact absurd h hd
      · cases f4 with
        | nil => simp at h
        | cons a t =>
          cases t with
          | nil => simp at h
          | cons a1 t1 => exact ⟨_, rfl⟩
  obtain ⟨x, hx⟩ := hx
  have hmatch := fen_match_fields (join_ranks ranks) f3 f4 f5 f6 c2 h1 h2 h3 h4 h5 h6
  have heval := from_fields_eval (join_ranks ranks) f3 f4 f5 f6 c2 pout x half full hne hlong
    (by rw [htake, htok, hlen])
    (by rw [htake, htok, List.take_of_length_le (by omega)]; exact hparse) hx hhalf hfull
  refine ⟨_, by rw [from_fen_of_match _ _ hmatch]; exact heval, ?_⟩
  intro side hs piece hp6 f hf r hr
  unfold Board.piece_board
  rw [board_of_pieces _ _ _ _ _ _ side piece hs hp6]
  exact hbits side hs piece hp6 f hf r hr

/-! ## The text of `fen()` read again -/

theorem foldl_set_bits (i : Nat) :
    ∀ (l : List Nat) (acc : Nat),
      (l.foldl Bitboard.set acc).testBit i = true ↔
        acc.testBit i = true ∨ (i < 64 ∧ i ∈ l) := by
  intro l
  induction l with
  | nil =>
    intro acc
    simp
  | cons x rest ih =>
    intro acc
    rw [List.foldl_cons, ih, set_testBit]
    simp only [Bool.or_eq_true, decide_eq_true_eq, List.mem_cons]
    constructor
    · rintro ((h | ⟨h1, h2⟩) | ⟨h1, h2⟩)
      · exact Or.inl h
      · exact Or.inr ⟨h1, Or.inl h2.symm⟩
      · exact Or.inr ⟨h1, Or.inr h2⟩
    · rintro (h | ⟨h1, h2 | h2⟩)
      · exact Or.inl (Or.inl h)
      · exact Or.inl (Or.inr ⟨h1, h2.symm⟩)
      · exact Or.inr ⟨h1, h2⟩

theorem foldl_set_word : ∀ (l : List Nat) (acc : Nat), acc < 2 ^ 64 →
    l.foldl Bitboard.set acc < 2 ^ 64 := by
  intro l
  induction l with
  | nil =>
    intro acc h
    exact h
  | cons x rest ih =>
    intro acc h
    rw [List.foldl_cons]
    exact ih _ (set_word acc x h)

theorem shown_testBit (b : Board) (s p i : Nat) :
    (shown_pieces b s p).testBit i = true ↔
      i < 64 ∧ ((s = kSideWhite ∧ b.piece_type_at kSideWhite i = (p : Int)) ∨
        (s = kSideBlack ∧ b.piece_type_at kSideWhite i = -1 ∧
          b.piece_type_at kSideBlack i = (p : Int))) := by
  unfold shown_pieces
  rw [foldl_set_bits, Nat.zero_testBit, List.mem_filter, List.mem_range, decide_eq_true_eq]
  constructor
  · rintro (h | ⟨h1, _, h2⟩)
    · exact Bool.noConfusion h
    · exact ⟨h1, h2⟩
  · rintro ⟨h1, h2⟩
    exact Or.inr ⟨h1, h1, h2⟩

theorem shown_word (b : Board) (s p : Nat) : shown_pieces b s p < 2 ^ 64 := by
  unfold shown_pieces
  exact foldl_set_word _ 0 (by norm_num)

/-- The answer of `piece_type_at` is `-1` or a piece type. -/
theorem piece_type_at_range (b : Board) (hinv : occupancy_invariant b) (side sq : Nat)
    (hs : side < 2) (hsq : sq < 64) :
    b.piece_type_at side sq = -1 ∨ ∃ k : Nat, k < 6 ∧ b.piece_type_at side sq = (k : Int) := by
  rcases piece_type_at_cases b hinv side sq hs hsq with ⟨h, _⟩ | ⟨k, hk, h, _⟩
  · exact Or.inl h
  · exact Or.inr ⟨k, hk, h⟩

/-- On a board where at most the piece board `v` of a side holds a square, `piece_type_at`
answers `v`. -/
theorem piece_type_at_unique (b : Board) (hinv : occupancy_invariant b) (side sq : Nat)
    (hs : side < 2) (hsq : sq < 64) (v : Int)
    (hv : v = -1 ∨ ∃ k : Nat, k < 6 ∧ v = (k : Int))
    (h : ∀ p, p < 6 → ((b.pieces_ side p).testBit sq = true ↔ v = (p : Int))) :
    b.piece_type_at side sq = v := by
  rcases piece_type_at_cases b hinv side sq hs hsq with ⟨h1, h2⟩ | ⟨k, hk, h1, h2⟩
  · rcases hv with hv | ⟨k, hk, hv⟩
    · rw [h1, hv]
    · have := (h k hk).2 hv
      rw [h2 k hk] at this
      exact Bool.noConfusion this
  · rw [h1]
    exact ((h k hk).1 h2).symm

theorem shown_board_invariant (b : Board) : occupancy_invariant (shown_board b) := by
  unfold shown_board board_of Board.new
  exact occupancy_invariant_update _

theorem shown_board_pieces (b : Board) (s p : Nat) (hs : s < 2) (hp : p < 6) :
    (shown_board b).pieces_ s p = shown_pieces b s p := by
  unfold shown_board
  exact board_of_pieces _ _ _ _ _ _ s p hs hp

/-- What `piece_type_at` answers on the shown board. -/
theorem shown_piece_type_at (b : Board) (hinv : occupancy_invariant b) (sq : Nat)
    (hsq : sq < 64) :
    (shown_board b).piece_type_at kSideWhite sq = b.piece_type_at kSideWhite sq ∧
    (shown_board b).piece_type_at kSideBlack sq =
      (if b.piece_type_at kSideWhite sq = -1 then b.piece_type_at kSideBlack sq else -1) := by
  have hw := piece_type_at_range b hinv kSideWhite sq (by decide) hsq
  have hb := piece_type_at_range b hinv kSideBlack sq (by decide) hsq
  constructor
  · apply piece_type_at_unique (shown_board b) (shown_board_invariant b) kSideWhite sq
      (by decide) hsq _ hw
    intro p hp
    rw [shown_board_pieces b kSideWhite p (by decide) hp, shown_testBit]
    constructor
    · rintro ⟨_, ⟨_, h⟩ | ⟨h, _⟩⟩
      · exact h
      · exact absurd h (by decide)
    · intro h
      exact ⟨hsq, Or.inl ⟨rfl, h⟩⟩
  · by_cases hwm : b.piece_type_at kSideWhite sq = -1
    · rw [if_pos hwm]
      apply piece_type_at_unique (shown_board b) (shown_board_invariant b) kSideBlack sq
        (by decide) hsq _ hb
      intro p hp
      rw [shown_board_pieces b kSideBlack p (by decide) hp, shown_testBit]
      constructor
      · rintro ⟨_, ⟨h, _⟩ | ⟨_, _, h⟩⟩
        · exact absurd h (by decide)
        · exact h
      · intro h
        exact ⟨hsq, Or.inr ⟨rfl, hwm, h⟩⟩
    · rw [if_neg hwm]
      apply piece_type_at_unique (shown_board b) (shown_board_invariant b) kSideBlack sq
        (by decide) hsq _ (Or.inl rfl)
      intro p hp
      rw [shown_board_pieces b kSideBlack p (by decide) hp, shown_testBit]
      constructor
      · rintro ⟨_, ⟨h, _⟩ | ⟨_, h, _⟩⟩
        · exact absurd h (by decide)
        · exact absurd h hwm
      · intro h
        omega

theorem shown_board_disjoint (b : Board) : pieces_disjoint (shown_board b) := by
  intro s hs p hp s' hs' p' hp' sq _ h1 h2
  rw [shown_board_pieces b s p hs hp, shown_testBit] at h1
  rw [shown_board_pieces b s' p' hs' hp', shown_testBit] at h2
  rcases h1.2 with ⟨a1, a2⟩ | ⟨a1, a2, a3⟩ <;> rcases h2.2 with ⟨b1, b2⟩ | ⟨b1, b2, b3⟩
  · rw [a2] at b2
    exact ⟨by rw [a1, b1], by omega⟩
  · rw [a2] at b2
    omega
  · rw [b2] at a2
    omega
  · rw [a3] at b3
    exact ⟨by rw [a1, b1], by omega⟩

/-- The rank texts of two boards agree when `piece_type_at` of the first answers, on every
square of the rank, what `fen()` reads of the second. -/
theorem rank_text_congr (v b : Board) (rank : Nat)
    (h : ∀ file : Nat, file < 8 →
      v.piece_type_at kSideWhite (Square.mk (file : Int) (rank : Int)) =
        b.piece_type_at kSideWhite (Square.mk (file : Int) (rank : Int)) ∧
      v.piece_type_at kSideBlack (Square.mk (file : Int) (rank : Int)) =
        (if b.piece_type_at kSideWhite (Square.mk (file : Int) (rank : Int)) = -1 then
          b.piece_type_at kSideBlack (Square.mk (file : Int) (rank : Int)) else -1) ∧
      (b.piece_type_at kSideWhite (Square.mk (file : Int) (rank : Int)) = -1 ∨
        0 ≤ b.piece_type_at kSideWhite (Square.mk (file : Int) (rank : Int)))) :
    ∀ fuel file empty, file + fuel = 8 →
      fen_codec.rank_text v rank fuel file empty = fen_codec.rank_text b rank fuel file empty := by
  intro fuel
  induction fuel with
  | zero =>
    intro file empty _
    rw [fen_codec.rank_text, fen_codec.rank_text]
  | succ n ih =>
    intro file empty hf
    obtain ⟨hw, hb, hr⟩ := h file (by omega)
    rw [fen_codec.rank_text, fen_codec.rank_text]
    dsimp only
    rw [hw, hb]
    generalize b.piece_type_at kSideWhite (Square.mk (file : Int) (rank : Int)) = W at hr ⊢
    generalize b.piece_type_at kSideBlack (Square.mk (file : Int) (rank : Int)) = K
    by_cases hwm : W = -1
    · rw [if_pos hwm, ih (file + 1) (empty + 1) (by omega), ih (file + 1) 0 (by omega)]
    · have hge : W ≥ 0 := by
        rcases hr with hr | hr
        · exact absurd hr hwm
        · exact hr
      rw [if_neg hwm, if_neg (show ¬ (W = -1 ∧ (-1 : Int) = -1) from fun hc => hwm hc.1),
        if_neg (show ¬ (W = -1 ∧ K = -1) from fun hc => hwm hc.1), if_pos hge,
        if_pos hge, ih (file + 1) 0 (by omega)]

theorem shown_rank_text (b : Board) (hinv : occupancy_invariant b) (rank : Nat)
    (hr : rank < 8) :
    fen_codec.rank_text (shown_board b) rank 8 0 0 = fen_codec.rank_text b rank 8 0 0 := by
  apply rank_text_congr (shown_board b) b rank _ 8 0 0 rfl
  intro file hf
  have hsq : Square.mk (file : Int) (rank : Int) < 64 := by
    rw [square_mk_nat file rank hf hr]
    omega
  obtain ⟨h1, h2⟩ := shown_piece_type_at b hinv _ hsq
  refine ⟨h1, h2, ?_⟩
  rcases piece_type_at_range b hinv kSideWhite _ (by decide) hsq with h | ⟨k, _, h⟩
  · exact Or.inl h
  · right
    rw [h]
    exact Int.ofNat_nonneg k

/-- The shown board has the text of the board itself. -/
theorem shown_board_fen (b : Board) (hinv : occupancy_invariant b) :
    (shown_board b).fen = b.fen := by
  have hp : fen_codec.placement_text (shown_board b) = fen_codec.placement_text b := by
    rw [placement_text_eq, placement_text_eq, shown_rank_text b hinv 7 (by decide),
      shown_rank_text b hinv 6 (by decide), shown_rank_text b hinv 5 (by decide),
      shown_rank_text b hinv 4 (by decide), shown_rank_text b hinv 3 (by decide),
      shown_rank_text b hinv 2 (by decide), shown_rank_text b hinv 1 (by decide),
      shown_rank_text b hinv 0 (by decide)]
  unfold Board.fen
  rw [hp]
  rfl

/-- The text `fen()` writes for a board `from_fen` has returned is read by `from_fen` as the
shown board, for which `fen()` writes the same text. -/
theorem fen_text_reproduced (s0 : String) (b : Board) (t : String)
    (h : Board.from_fen s0 = some b) (ht : b.fen = some t) :
    Board.fen_match t.toList ≠ none ∧ Board.from_fen t = some (shown_board b) ∧
      (shown_board b).fen = some t := by
  obtain ⟨pieces, c0, c1, c2, c3, side, ep, half, full, hb, _, hside, hep, hhalf, hfull⟩ :=
    from_fen_shape s0 b h
  have hinv : occupancy_invariant b := by
    rw [hb]
    unfold board_of Board.new
    exact occupancy_invariant_update _
  have hturn : b.turn = side := by rw [hb]; rfl
  have hepsq : b.ep_square = ep := by rw [hb]; rfl
  have hhm : b.half_move = half := by rw [hb]; rfl
  have hfm : b.full_move = full := by rw [hb]; rfl
  obtain ⟨t1, h1, h2, h3⟩ := board_of_round_trip (shown_pieces b) (b.castling 0) (b.castling 1)
    (b.castling 2) (b.castling 3) b.turn b.ep_square b.half_move b.full_move
    (fun s p => shown_word b s p) (by rw [hturn]; exact hside) (by rw [hepsq]; exact hep)
    (by rw [hhm]; exact hhalf) (by rw [hfm]; exact hfull) (shown_board_disjoint b)
  have hfen : (shown_board b).fen = some t1 := h1
  rw [shown_board_fen b hinv, ht] at hfen
  have ht1 : t = t1 := Option.some.inj hfen
  rw [ht1]
  exact ⟨h2, h3, h1⟩

/-- Member `fen()` is defined on every board `from_fen` returns. -/
theorem from_fen_fen_defined (s0 : String) (b : Board) (h : Board.from_fen s0 = some b) :
    ∃ t, b.fen = some t := by
  obtain ⟨pieces, c0, c1, c2, c3, side, ep, half, full, hb, _, hside, _, _, _⟩ :=
    from_fen_shape s0 b h
  have hturn : b.turn = side := by rw [hb]; rfl
  unfold Board.fen
  rw [if_neg (by rw [hturn]; omega)]
  exact ⟨_, rfl⟩

/-! ## The properties of the specification -/

/-- C1. For every game and every non-null move whose from-square holds a piece of the side to
move and whose capture square, when the move is flagged capture, holds an enemy piece,
`make_move` is defined and `unmake_move` after it gives back the game: the same current board
in every field and the same history. -/
theorem make_move_unmake_move_inverse (g : Game) (m : Move) (hnull : m.null = false)
    (hfrom : 0 ≤ g.board_.piece_type_at g.board_.turn m.from_.val)
    (hcap : m.capture_ = true →
      0 ≤ g.board_.piece_type_at (not_side g.board_.turn)
        (Game.capture_square g.board_.turn m)) :
    ∃ g1, g.make_move m = some g1 ∧ g1.unmake_move = some g := by
  obtain ⟨g1, h1⟩ := make_move_defined g m hnull (Or.inr hfrom) hcap
  exact ⟨g1, h1, make_move_unmake g g1 m h1⟩

/-- Witness for C1: the capture e4xd5 in a game with one earlier board in its history. -/
theorem make_move_unmake_move_inverse_witness :
    (Move.new 28 35 true false kPromoteQueen).null = false ∧
    ∃ g1,
      Game.make_move
          { board_ := (game_of_fen "rnbqkbnr/ppp1pppp/8/3p4/4P3/8/PPPP1PPP/RNBQKBNR w KQkq d6 0 2").board_
            old_boards_ := [(game_of_fen Game.default_fen).board_] }
          (Move.new 28 35 true false kPromoteQueen) = some g1 ∧
        g1.unmake_move = some
          { board_ := (game_of_fen "rnbqkbnr/ppp1pppp/8/3p4/4P3/8/PPPP1PPP/RNBQKBNR w KQkq d6 0 2").board_
            old_boards_ := [(game_of_fen Game.default_fen).board_] } :=
  ⟨by decide,
    make_move_unmake_move_inverse _ (Move.new 28 35 true false kPromoteQueen) (by decide)
      (by decide!) (by decide!)⟩

/-- C2 fails on the code as stated: `from_fen` of `8/8/8/8/8/8/P7/8p w - - 0 1` matches the
pattern and returns a board; its last rank text `8p` puts the black pawn on a2, the square of
the white pawn.  `fen()` of that board prints only the white pawn, so parsing the printed text
gives a board that `operator==` tells apart from the first one. -/
theorem fen_round_trip_loses_piece :
    (Board.fen_match "8/8/8/8/8/8/P7/8p w - - 0 1".toList).isSome = true ∧
    (Board.from_fen "8/8/8/8/8/8/P7/8p w - - 0 1").bind (fun b =>
      b.fen.bind (fun t =>
        (Board.from_fen t).map (fun b' => (t, Board.beq b' b)))) =
      some ("8/8/8/8/8/8/P7/8 w - - 0 1", false) := by
  decide!

/-- C2, amended. For every input string on which `from_fen` returns a board `b` (the parsed
board, or `null_board` on the failure path) in which no square is set in two of the twelve
piece boards, `fen()` of `b` is defined, is matched by the FEN pattern, and `from_fen` of it
returns `b` itself: the same piece boards, occupancy, castling rights, side to move,
en-passant square and both clocks. -/
theorem from_fen_fen_round_trip (s : String) (b : Board) (h : Board.from_fen s = some b)
    (hdisj : pieces_disjoint b) :
    ∃ t, b.fen = some t ∧ Board.fen_match t.toList ≠ none ∧ Board.from_fen t = some b :=
  fen_round_trip s b h hdisj

theorem from_fen_fen_round_trip_witness :
    Board.from_fen Game.default_fen = some (game_of_fen Game.default_fen).board_ ∧
    pieces_disjoint (game_of_fen Game.default_fen).board_ ∧
    ∃ t, (game_of_fen Game.default_fen).board_.fen = some t ∧
      Board.fen_match t.toList ≠ none ∧
      Board.from_fen t = some (game_of_fen Game.default_fen).board_ :=
  ⟨some_getD_of_isSome (Board.from_fen Game.default_fen) null_board (by decide!), pieces_disjoint_of_check _ (by decide!),
    from_fen_fen_round_trip Game.default_fen (game_of_fen Game.default_fen).board_
      (some_getD_of_isSome (Board.from_fen Game.default_fen) null_board (by decide!)) (pieces_disjoint_of_check _ (by decide!))⟩

/-- C4. For every occupancy word and every square `s` below 64, the rook attack board holds
exactly the squares `t ≠ s` on the file or rank of `s` such that no square strictly between
`s` and `t` is occupied. -/
theorem rook_attack_board_spec (occ s t : Nat) (hs : s < 64) :
    (rook_attack_board occ s).testBit t = true ↔
      t < 64 ∧ t ≠ s ∧ (Square.file t = Square.file s ∨ Square.rank t = Square.rank s) ∧
        ∀ u, u < 64 → rook_between s t u → occ.testBit u = false :=
  rook_attack_iff occ s t hs

/-- Witness for C4: a rook on d4 with a blocker on d6, asked about d6. -/
theorem rook_attack_board_spec_witness :
    27 < 64 ∧
    ((rook_attack_board (2 ^ 43) 27).testBit 43 = true ↔
      43 < 64 ∧ 43 ≠ 27 ∧ (Square.file 43 = Square.file 27 ∨ Square.rank 43 = Square.rank 27) ∧
        ∀ u, u < 64 → rook_between 27 43 u → (2 ^ 43).testBit u = false) :=
  ⟨by decide, rook_attack_board_spec (2 ^ 43) 27 43 (by decide)⟩

/-- C5. For every occupancy word and every square `s` below 64, the bishop attack board holds
exactly the squares `t ≠ s` on a diagonal through `s` such that no square strictly between
`s` and `t` on that diagonal is occupied. -/
theorem bishop_attack_board_spec (occ s t : Nat) (hs : s < 64) :
    (bishop_attack_board occ s).testBit t = true ↔
      t < 64 ∧ t ≠ s ∧ common_diagonal s t ∧
        ∀ u, u < 64 → bishop_between s t u → occ.testBit u = false :=
  bishop_attack_iff occ s t hs

/-- Witness for C5: a bishop on d4 with a blocker on f6, asked about g7 behind it. -/
theorem bishop_attack_board_spec_witness :
    27 < 64 ∧
    ((bishop_attack_board (2 ^ 45) 27).testBit 54 = true ↔
      54 < 64 ∧ 54 ≠ 27 ∧ common_diagonal 27 54 ∧
        ∀ u, u < 64 → bishop_between 27 54 u → (2 ^ 45).testBit u = false) :=
  ⟨by decide, bishop_attack_board_spec (2 ^ 45) 27 54 (by decide)⟩

/-- C6 fails on the code: after 1. h4 a5 the en-passant target is a6; the white pawn on h4
is offered the en-passant capture h4xa6 although a6 is not in `pawn_attack_board(White, h4)`,
and the move even survives the legality filter. -/
theorem en_passant_wraps_around_the_board :
    (game_of_fen "rnbqkbnr/1ppppppp/8/p7/7P/8/PPPPPPP1/RNBQKBNR w KQkq a6 0 2").board_.ep_square
      = 40 ∧
    ((game_of_fen "rnbqkbnr/1ppppppp/8/p7/7P/8/PPPPPPP1/RNBQKBNR w KQkq a6 0 2").board_.pawns
      kSideWhite).testBit 31 = true ∧
    Move.new 31 40 true true kPromoteQueen ∈ MoveGenerator.generate_pseudolegal_moves
      (game_of_fen "rnbqkbnr/1ppppppp/8/p7/7P/8/PPPPPPP1/RNBQKBNR w KQkq a6 0 2").board_ ∧
    (pawn_attack_board kSideWhite 31).testBit 40 = false ∧
    Square.file 40 = 0 ∧ Square.file 31 = 7 ∧
    (legal_moves_list
      (game_of_fen "rnbqkbnr/1ppppppp/8/p7/7P/8/PPPPPPP1/RNBQKBNR w KQkq a6 0 2")).map
        (fun l => decide (Move.new 31 40 true true kPromoteQueen ∈ l)) = some true := by
  decide!

/-- C7 fails on the code: with a black pawn on e2 the square f1 is attacked
(`attacks_to_square(Black, f1)` is non-zero), White is not in check, and
`generate_legal_moves` still returns the king-side castling move e1-g1. -/
theorem castling_through_pawn_attack :
    (game_of_fen "4k3/8/8/8/8/8/4p3/4K2R w K - 0 1").board_.attacks_to_square kSideBlack
      (Square.mk 5 0) ≠ 0 ∧
    (game_of_fen "4k3/8/8/8/8/8/4p3/4K2R w K - 0 1").board_.check kSideWhite = false ∧
    (legal_moves_list (game_of_fen "4k3/8/8/8/8/8/4p3/4K2R w K - 0 1")).map
      (fun l => decide (castle_move kSideWhite false ∈ l)) = some true ∧
    (castle_move kSideWhite false).castling
      (game_of_fen "4k3/8/8/8/8/8/4p3/4K2R w K - 0 1").board_ = true := by
  decide!

/-- C10 fails on the code as stated: `from_fen` of `k3q3/8/8/8/8/8/4K3/84R w - - 0 1` puts the
white king and a white rook both on e2; White is in check from the queen on e8, and the
returned list holds the rook move e2-g2, for which `Move::castling(board)` holds. -/
theorem castling_shaped_move_in_check :
    (game_of_fen "k3q3/8/8/8/8/8/4K3/84R w - - 0 1").board_.check
      (game_of_fen "k3q3/8/8/8/8/8/4K3/84R w - - 0 1").board_.turn = true ∧
    (legal_moves_list (game_of_fen "k3q3/8/8/8/8/8/4K3/84R w - - 0 1")).map
      (fun l => decide (Move.new 12 14 false false kPromoteQueen ∈ l)) = some true ∧
    (Move.new 12 14 false false kPromoteQueen).castling
      (game_of_fen "k3q3/8/8/8/8/8/4K3/84R w - - 0 1").board_ = true := by
  decide!

/-- C10, amended. For every game in which the mover is in check and no square of the mover's
king board is set in another of its piece boards, the list returned by `generate_legal_moves`
holds no move for which `Move::castling(board)` holds, whatever castling rights are held. -/
theorem no_castling_in_check (g : Game) (l : List Move)
    (hdisj : king_disjoint g.board_ g.board_.turn)
    (hcheck : g.board_.check g.board_.turn = true)
    (hl : legal_moves_list g = some l) :
    ∀ m, m ∈ l → m.castling g.board_ = false := by
  intro m hm
  rw [legal_moves_list_some g l hl, if_pos hcheck, List.append_nil] at hm
  exact pseudolegal_not_castling g.board_ hdisj m (List.mem_filter.1 hm).1

/-- Witness for C10 amended: White, in check from the rook on e4, holds the king-side right. -/
theorem no_castling_in_check_witness :
    (game_of_fen "4k3/8/8/8/4r3/8/8/4K2R w K - 0 1").board_.check
      (game_of_fen "4k3/8/8/8/4r3/8/8/4K2R w K - 0 1").board_.turn = true ∧
    (game_of_fen "4k3/8/8/8/4r3/8/8/4K2R w K - 0 1").board_.castling kCastleWhiteKingSide = true ∧
    ∀ m, m ∈ [Move.new 4 3 false false 0, Move.new 4 5 false false 0,
        Move.new 4 11 false false 0, Move.new 4 13 false false 0] →
      m.castling (game_of_fen "4k3/8/8/8/4r3/8/8/4K2R w K - 0 1").board_ = false :=
  ⟨by decide!, by decide!,
    no_castling_in_check (game_of_fen "4k3/8/8/8/4r3/8/8/4K2R w K - 0 1") _ (by decide!)
      (by decide!) (by decide!)⟩

/-- C11 fails on the code as stated: `from_fen` of `rn2k3/93r/8/8/8/8/8/4K3 b q - 0 1` puts the
black king and a black rook both on e8 (square 60), with a black knight on b8 (square 57)
between the king's home square and the a8 corner.  Black holds the queen-side right, and the
returned list holds the move e8-c8 (a rook move along the rank), for which
`Move::castling(board)` holds and which `make_move` plays as queen-side castling. -/
theorem castling_shaped_move_over_occupied_square :
    (game_of_fen "rn2k3/93r/8/8/8/8/8/4K3 b q - 0 1").board_.castling
      (castle_right (game_of_fen "rn2k3/93r/8/8/8/8/8/4K3 b q - 0 1").board_.turn true) = true ∧
    57 ∈ wing_between (game_of_fen "rn2k3/93r/8/8/8/8/8/4K3 b q - 0 1").board_.turn true ∧
    (game_of_fen "rn2k3/93r/8/8/8/8/8/4K3 b q - 0 1").board_.square_occupied 57 = true ∧
    (legal_moves_list (game_of_fen "rn2k3/93r/8/8/8/8/8/4K3 b q - 0 1")).map
      (fun l => decide (Move.new 60 58 false false kPromoteQueen ∈ l)) = some true ∧
    (Move.new 60 58 false false kPromoteQueen).castling
      (game_of_fen "rn2k3/93r/8/8/8/8/8/4K3 b q - 0 1").board_ = true ∧
    (Move.new 60 58 false false kPromoteQueen).to_.val =
      castle_dest (game_of_fen "rn2k3/93r/8/8/8/8/8/4K3 b q - 0 1").board_.turn true ∧
    ((game_of_fen "rn2k3/93r/8/8/8/8/8/4K3 b q - 0 1").make_move
        (Move.new 60 58 false false kPromoteQueen)).map
      (fun g1 => (g1.board_.kings 1).testBit 58) = some true := by
  decide!

/-- C11, amended. For every game in which no square of the mover's king board is set in
another of its piece boards, and each wing: if a square strictly between the king's home
square and that wing's corner is occupied, the list returned by `generate_legal_moves` holds no
move for which `Move::castling(board)` holds and which goes to that wing's castling
destination, whether or not the right is held. -/
theorem no_castling_over_occupied_square (g : Game) (l : List Move) (q : Bool) (sq : Nat)
    (hdisj : king_disjoint g.board_ g.board_.turn)
    (hsq : sq ∈ wing_between g.board_.turn q)
    (hocc : g.board_.square_occupied sq = true)
    (hl : legal_moves_list g = some l) :
    ∀ m, m ∈ l → ¬ (m.castling g.board_ = true ∧ m.to_.val = castle_dest g.board_.turn q) := by
  intro m hm hx
  have h := (castling_in_legal_list g l q m hdisj hl hm hx.1 hx.2).2.2.1 sq hsq
  rw [hocc] at h
  exact Bool.noConfusion h.1

/-- Witness for C11 amended: the test position `8/8/8/8/8/8/8/4KN1R w K - 0 1`, where the
knight on f1 stands between king and rook. -/
theorem no_castling_over_occupied_square_witness :
    (game_of_fen "8/8/8/8/8/8/8/4KN1R w K - 0 1").board_.castling
      (castle_right (game_of_fen "8/8/8/8/8/8/8/4KN1R w K - 0 1").board_.turn false) = true ∧
    (legal_moves_list (game_of_fen "8/8/8/8/8/8/8/4KN1R w K - 0 1")).isSome = true ∧
    ∀ m, m ∈ (legal_moves_list (game_of_fen "8/8/8/8/8/8/8/4KN1R w K - 0 1")).getD [] →
      ¬ (m.castling (game_of_fen "8/8/8/8/8/8/8/4KN1R w K - 0 1").board_ = true ∧
        m.to_.val =
          castle_dest (game_of_fen "8/8/8/8/8/8/8/4KN1R w K - 0 1").board_.turn false) :=
  ⟨by decide!, by decide!,
    no_castling_over_occupied_square (game_of_fen "8/8/8/8/8/8/8/4KN1R w K - 0 1")
      ((legal_moves_list (game_of_fen "8/8/8/8/8/8/8/4KN1R w K - 0 1")).getD []) false 5
      (by decide!) (by decide!) (by decide!)
      (some_getD_of_isSome (legal_moves_list (game_of_fen "8/8/8/8/8/8/8/4KN1R w K - 0 1")) []
        (by decide!))⟩

/-- C12 fails on the code as stated: in `4k3/8/8/8/8/8/8/4K2N w K - 0 1` White holds the
king-side right and a white knight, not a rook, stands on h1 (square 7); the generator tests
only that the corner is occupied, and the returned list holds the castling move e1-g1. -/
theorem castling_without_rook_on_corner :
    (legal_moves_list (game_of_fen "4k3/8/8/8/8/8/8/4K2N w K - 0 1")).map
      (fun l => decide (Move.new 4 6 false false kPromoteQueen ∈ l)) = some true ∧
    (Move.new 4 6 false false kPromoteQueen).castling
      (game_of_fen "4k3/8/8/8/8/8/8/4K2N w K - 0 1").board_ = true ∧
    (Move.new 4 6 false false kPromoteQueen).to_.val =
      castle_dest (game_of_fen "4k3/8/8/8/8/8/8/4K2N w K - 0 1").board_.turn false ∧
    rook_corner (game_of_fen "4k3/8/8/8/8/8/8/4K2N w K - 0 1").board_.turn false = 7 ∧
    ((game_of_fen "4k3/8/8/8/8/8/8/4K2N w K - 0 1").board_.rooks
      (game_of_fen "4k3/8/8/8/8/8/8/4K2N w K - 0 1").board_.turn).testBit 7 = false ∧
    (game_of_fen "4k3/8/8/8/8/8/8/4K2N w K - 0 1").board_.piece_type_at
      (game_of_fen "4k3/8/8/8/8/8/8/4K2N w K - 0 1").board_.turn 7 = kPieceKnight := by
  decide!

/-- C12, amended. For every game in which no square of the mover's king board is set in
another of its piece boards, and each wing: the list returned by `generate_legal_moves` holds a
move for which `Move::castling(board)` holds and which goes to that wing's castling
destination only if the mover holds the right of that wing and that wing's corner square
(a1/h1 for White, a8/h8 for Black) is occupied, by a piece of either side. -/
theorem castling_needs_right_and_corner (g : Game) (l : List Move) (q : Bool) (m : Move)
    (hdisj : king_disjoint g.board_ g.board_.turn)
    (hl : legal_moves_list g = some l) (hm : m ∈ l) (hc : m.castling g.board_ = true)
    (hto : m.to_.val = castle_dest g.board_.turn q) :
    g.board_.castling (castle_right g.board_.turn q) = true ∧
    g.board_.square_occupied (rook_corner g.board_.turn q) = true :=
  ⟨(castling_in_legal_list g l q m hdisj hl hm hc hto).2.1,
    (castling_in_legal_list g l q m hdisj hl hm hc hto).2.2.2⟩

/-- Witness for C12 amended: the test position `8/8/8/8/8/8/8/4K2R w K - 0 1` and its castling
move e1-g1. -/
theorem castling_needs_right_and_corner_witness :
    Move.new 4 6 false false kPromoteQueen ∈
      (legal_moves_list (game_of_fen "8/8/8/8/8/8/8/4K2R w K - 0 1")).getD [] ∧
    (game_of_fen "8/8/8/8/8/8/8/4K2R w K - 0 1").board_.castling
      (castle_right (game_of_fen "8/8/8/8/8/8/8/4K2R w K - 0 1").board_.turn false) = true ∧
    (game_of_fen "8/8/8/8/8/8/8/4K2R w K - 0 1").board_.square_occupied
      (rook_corner (game_of_fen "8/8/8/8/8/8/8/4K2R w K - 0 1").board_.turn false) = true :=
  ⟨by decide!,
    castling_needs_right_and_corner (game_of_fen "8/8/8/8/8/8/8/4K2R w K - 0 1")
      ((legal_moves_list (game_of_fen "8/8/8/8/8/8/8/4K2R w K - 0 1")).getD []) false
      (Move.new 4 6 false false kPromoteQueen) (by decide!)
      (some_getD_of_isSome (legal_moves_list (game_of_fen "8/8/8/8/8/8/8/4K2R w K - 0 1")) []
        (by decide!))
      (by decide!) (by decide!) (by decide!)⟩

/-- C13 fails on the code as stated: in `k7/3pP3/8/8/8/8/8/4K3 w - d8 0 1` the white pawn on e7
(square 52) is offered the en-passant capture to d8 (square 59); d8 is empty and the black
pawn on d7 (square 51) stands one rank behind it.  `make_move` of that move treats the pawn as
promoting: the pawn board does not get d8, and the queen board, which the claim says is
unchanged, gets it. -/
theorem en_passant_onto_promotion_rank :
    (game_of_fen "k7/3pP3/8/8/8/8/8/4K3 w - d8 0 1").board_.piece_type_at
      (game_of_fen "k7/3pP3/8/8/8/8/8/4K3 w - d8 0 1").board_.turn 52 = kPiecePawn ∧
    (game_of_fen "k7/3pP3/8/8/8/8/8/4K3 w - d8 0 1").board_.square_occupied 59 = false ∧
    (game_of_fen "k7/3pP3/8/8/8/8/8/4K3 w - d8 0 1").board_.piece_type_at
      (not_side (game_of_fen "k7/3pP3/8/8/8/8/8/4K3 w - d8 0 1").board_.turn) 51 = kPiecePawn ∧
    (legal_moves_list (game_of_fen "k7/3pP3/8/8/8/8/8/4K3 w - d8 0 1")).map
      (fun l => decide (Move.new 52 59 true true kPromoteQueen ∈ l)) = some true ∧
    ((game_of_fen "k7/3pP3/8/8/8/8/8/4K3 w - d8 0 1").make_move
        (Move.new 52 59 true true kPromoteQueen)).map
      (fun g1 => ((g1.board_.pawns 0).testBit 59, (g1.board_.queens 0).testBit 59)) =
      some (false, true) ∧
    ((game_of_fen "k7/3pP3/8/8/8/8/8/4K3 w - d8 0 1").board_.queens 0).testBit 59 = false := by
  decide!

/-- C13, amended. For every board on which the side to move has a pawn on `from`, the square
`to` is empty and not on the mover's promotion rank, an enemy pawn stands on the square one
rank behind `to` (`to - 8` for a White mover, `to + 8` otherwise), and `Move::castling(board)`
is false for the move, `make_move` of the move from `from` to `to` flagged capture and en
passant is defined, clears the enemy pawn bit on the square behind `to`, moves the mover's pawn
bit from `from` to `to`, and changes no other piece board. -/
theorem make_move_en_passant (g : Game) (m : Move) (behind : Nat)
    (hpawn : g.board_.piece_type_at g.board_.turn m.from_.val = (kPiecePawn : Int))
    (hempty : g.board_.square_occupied m.to_.val = false)
    (hbehind : if g.board_.turn = kSideWhite then m.to_.val = behind + 8
      else behind = m.to_.val + 8)
    (henemy : g.board_.piece_type_at (not_side g.board_.turn) behind = (kPiecePawn : Int))
    (hcap : m.capture_ = true) (hep : m.ep_ = true)
    (hrank : Square.rank m.to_.val ≠ promotion_rank g.board_.turn)
    (hcastle : m.castling g.board_ = false) :
    ∃ g1, g.make_move m = some g1 ∧
      (∀ sq, sq < 64 →
        (g1.board_.pawns g.board_.turn).testBit sq =
          (decide (sq = m.to_.val) ||
            ((g.board_.pawns g.board_.turn).testBit sq && decide (sq ≠ m.from_.val)))) ∧
      (∀ sq, sq < 64 →
        (g1.board_.pawns (not_side g.board_.turn)).testBit sq =
          ((g.board_.pawns (not_side g.board_.turn)).testBit sq && decide (sq ≠ behind))) ∧
      (∀ s p, p ≠ kPiecePawn → g1.board_.pieces_ s p = g.board_.pieces_ s p) :=
  ep_apply g m behind hpawn hempty hbehind henemy hcap hep hrank hcastle

/-- Witness for C13 amended: the black pawn on d4 takes the white pawn that has just moved
e2-e4 en passant on e3; the board then prints as
`rnbqkbnr/ppp1pppp/8/8/8/4p3/PPPP1PPP/RNBQKBNR w KQkq - 0 4`. -/
theorem make_move_en_passant_witness :
    (∃ g1, (game_of_fen "rnbqkbnr/ppp1pppp/8/8/3pP3/8/PPPP1PPP/RNBQKBNR b KQkq e3 0 3").make_move
        (Move.new 27 20 true true kPromoteQueen) = some g1 ∧
      (∀ sq, sq < 64 →
        (g1.board_.pawns
            (game_of_fen "rnbqkbnr/ppp1pppp/8/8/3pP3/8/PPPP1PPP/RNBQKBNR b KQkq e3 0 3").board_.turn
          ).testBit sq =
          (decide (sq = (Move.new 27 20 true true kPromoteQueen).to_.val) ||
            (((game_of_fen
                "rnbqkbnr/ppp1pppp/8/8/3pP3/8/PPPP1PPP/RNBQKBNR b KQkq e3 0 3").board_.pawns
              (game_of_fen
                "rnbqkbnr/ppp1pppp/8/8/3pP3/8/PPPP1PPP/RNBQKBNR b KQkq e3 0 3").board_.turn
              ).testBit sq &&
              decide (sq ≠ (Move.new 27 20 true true kPromoteQueen).from_.val)))) ∧
      (∀ sq, sq < 64 →
        (g1.board_.pawns (not_side
            (game_of_fen "rnbqkbnr/ppp1pppp/8/8/3pP3/8/PPPP1PPP/RNBQKBNR b KQkq e3 0 3").board_.turn)
          ).testBit sq =
          (((game_of_fen
              "rnbqkbnr/ppp1pppp/8/8/3pP3/8/PPPP1PPP/RNBQKBNR b KQkq e3 0 3").board_.pawns
            (not_side (game_of_fen
              "rnbqkbnr/ppp1pppp/8/8/3pP3/8/PPPP1PPP/RNBQKBNR b KQkq e3 0 3").board_.turn)
            ).testBit sq && decide (sq ≠ 28))) ∧
      (∀ s p, p ≠ kPiecePawn →
        g1.board_.pieces_ s p =
          (game_of_fen
            "rnbqkbnr/ppp1pppp/8/8/3pP3/8/PPPP1PPP/RNBQKBNR b KQkq e3 0 3").board_.pieces_ s p)) ∧
    ((game_of_fen "rnbqkbnr/ppp1pppp/8/8/3pP3/8/PPPP1PPP/RNBQKBNR b KQkq e3 0 3").make_move
        (Move.new 27 20 true true kPromoteQueen)).bind (fun g1 => g1.board_.fen) =
      some "rnbqkbnr/ppp1pppp/8/8/8/4p3/PPPP1PPP/RNBQKBNR w KQkq - 0 4" :=
  ⟨make_move_en_passant
      (game_of_fen "rnbqkbnr/ppp1pppp/8/8/3pP3/8/PPPP1PPP/RNBQKBNR b KQkq e3 0 3")
      (Move.new 27 20 true true kPromoteQueen) 28 (by decide!) (by decide!) (by decide!)
      (by decide!) rfl rfl (by decide!) (by decide!),
    by decide!⟩

/-- C14 fails on the code as stated: in `k2r4/3pP3/8/8/8/8/8/4K3 w - d8 0 1` the white pawn on
e7 (square 52) is offered the move to d8 (square 59, on the promotion rank) flagged capture and
en passant.  `make_move` of it removes the black pawn on d7, not the black rook on d8: the
enemy piece on `to` is still there after the move. -/
theorem promotion_capture_keeps_piece :
    (game_of_fen "k2r4/3pP3/8/8/8/8/8/4K3 w - d8 0 1").board_.piece_type_at
      (game_of_fen "k2r4/3pP3/8/8/8/8/8/4K3 w - d8 0 1").board_.turn 52 = kPiecePawn ∧
    Square.rank 59 = 7 ∧
    (game_of_fen "k2r4/3pP3/8/8/8/8/8/4K3 w - d8 0 1").board_.piece_type_at
      (not_side (game_of_fen "k2r4/3pP3/8/8/8/8/8/4K3 w - d8 0 1").board_.turn) 59 = kPieceRook ∧
    (legal_moves_list (game_of_fen "k2r4/3pP3/8/8/8/8/8/4K3 w - d8 0 1")).map
      (fun l => decide (Move.new 52 59 true true kPromoteQueen ∈ l)) = some true ∧
    (Move.new 52 59 true true kPromoteQueen).capture_ = true ∧
    ((game_of_fen "k2r4/3pP3/8/8/8/8/8/4K3 w - d8 0 1").make_move
        (Move.new 52 59 true true kPromoteQueen)).map
      (fun g1 => ((g1.board_.rooks 1).testBit 59, (g1.board_.queens 0).testBit 59,
        (g1.board_.pawns 1).testBit 51)) = some (true, true, false) := by
  decide!

/-- C14, amended. For every board on which a pawn of the side to move stands on `from`, and
`to` is on that side's promotion rank and holds no pawn of the mover, `make_move` of a move
from `from` to `to` that is not flagged en passant, for which `Move::castling(board)` is false
and which, when flagged capture, finds an enemy piece on `to`, is defined; after it the
mover's pawn board contains neither `from` nor `to` and the mover's board of the selected
promotion type contains `to`; when the move is flagged capture, the board of the enemy piece
found on `to` no longer contains `to`. -/
theorem make_move_promotes (g : Game) (m : Move)
    (hpawn : g.board_.piece_type_at g.board_.turn m.from_.val = (kPiecePawn : Int))
    (hrank : Square.rank m.to_.val = promotion_rank g.board_.turn)
    (hcastle : m.castling g.board_ = false)
    (hown : (g.board_.pawns g.board_.turn).testBit m.to_.val = false)
    (hep : m.ep_ = false)
    (hcap : m.capture_ = true →
      0 ≤ g.board_.piece_type_at (not_side g.board_.turn) m.to_.val) :
    ∃ g1, g.make_move m = some g1 ∧
      (g1.board_.pawns g.board_.turn).testBit m.from_.val = false ∧
      (g1.board_.pawns g.board_.turn).testBit m.to_.val = false ∧
      (g1.board_.pieces_ g.board_.turn m.promotion_piece_type).testBit m.to_.val = true ∧
      (m.capture_ = true →
        ∃ k : Nat, g.board_.piece_type_at (not_side g.board_.turn) m.to_.val = (k : Int) ∧
          (g1.board_.pieces_ (not_side g.board_.turn) k).testBit m.to_.val = false) :=
  promotion_apply g m hpawn hrank hcastle hown hep hcap

/-- Witness for C14 amended: the white pawn on e7 takes the rook on d8 and promotes to a
knight; the board then prints as `3N4/8/8/8/8/8/8/k3K3 b - - 0 1`. -/
theorem make_move_promotes_witness :
    (∃ g1, (game_of_fen "3r4/4P3/8/8/8/8/8/k3K3 w - - 0 1").make_move
        (Move.new 52 59 true false kPromoteKnight) = some g1 ∧
      (g1.board_.pawns (game_of_fen "3r4/4P3/8/8/8/8/8/k3K3 w - - 0 1").board_.turn).testBit
        (Move.new 52 59 true false kPromoteKnight).from_.val = false ∧
      (g1.board_.pawns (game_of_fen "3r4/4P3/8/8/8/8/8/k3K3 w - - 0 1").board_.turn).testBit
        (Move.new 52 59 true false kPromoteKnight).to_.val = false ∧
      (g1.board_.pieces_ (game_of_fen "3r4/4P3/8/8/8/8/8/k3K3 w - - 0 1").board_.turn
        (Move.new 52 59 true false kPromoteKnight).promotion_piece_type).testBit
        (Move.new 52 59 true false kPromoteKnight).to_.val = true ∧
      ((Move.new 52 59 true false kPromoteKnight).capture_ = true →
        ∃ k : Nat,
          (game_of_fen "3r4/4P3/8/8/8/8/8/k3K3 w - - 0 1").board_.piece_type_at
            (not_side (game_of_fen "3r4/4P3/8/8/8/8/8/k3K3 w - - 0 1").board_.turn)
            (Move.new 52 59 true false kPromoteKnight).to_.val = (k : Int) ∧
          (g1.board_.pieces_
            (not_side (game_of_fen "3r4/4P3/8/8/8/8/8/k3K3 w - - 0 1").board_.turn) k).testBit
            (Move.new 52 59 true false kPromoteKnight).to_.val = false)) ∧
    ((game_of_fen "3r4/4P3/8/8/8/8/8/k3K3 w - - 0 1").make_move
        (Move.new 52 59 true false kPromoteKnight)).bind (fun g1 => g1.board_.fen) =
      some "3N4/8/8/8/8/8/8/k3K3 b - - 0 1" :=
  ⟨make_move_promotes (game_of_fen "3r4/4P3/8/8/8/8/8/k3K3 w - - 0 1")
      (Move.new 52 59 true false kPromoteKnight) (by decide!) (by decide!) (by decide!)
      (by decide!) rfl (fun _ => by decide!),
    by decide!⟩

/-- C15. For either side to move (0 or 1) with its king on the e-file home square, `make_move`
of a move flagged no capture from the home square to the g-file (king side) or c-file (queen
side) square of the same rank is defined, moves the king bit to the destination, clears the
rook bit on the h-file (a-file) corner and sets it on the f-file (d-file) square, leaves every
other piece board unchanged and makes both castling rights of the mover false.  The rook on
the corner is not needed for this: the corner bit is cleared and the new bit set whether or
not it was there. -/
theorem make_move_castles (g : Game) (m : Move) (q : Bool) (hside : g.board_.turn < 2)
    (hking : g.board_.piece_type_at g.board_.turn (king_home g.board_.turn) = (kPieceKing : Int))
    (hfrom : m.from_.val = king_home g.board_.turn)
    (hto : m.to_.val = castle_dest g.board_.turn q) (hcap : m.capture_ = false) :
    ∃ g1, g.make_move m = some g1 ∧
      (∀ sq, sq < 64 →
        (g1.board_.kings g.board_.turn).testBit sq =
          (decide (sq = castle_dest g.board_.turn q) ||
            ((g.board_.kings g.board_.turn).testBit sq &&
              decide (sq ≠ king_home g.board_.turn)))) ∧
      (∀ sq, sq < 64 →
        (g1.board_.rooks g.board_.turn).testBit sq =
          (decide (sq = castle_rook_dest g.board_.turn q) ||
            ((g.board_.rooks g.board_.turn).testBit sq &&
              decide (sq ≠ rook_corner g.board_.turn q)))) ∧
      (∀ s p, ¬ (s = g.board_.turn ∧ (p = kPieceKing ∨ p = kPieceRook)) →
        g1.board_.pieces_ s p = g.board_.pieces_ s p) ∧
      (∀ q' : Bool, g1.board_.castling (castle_right g.board_.turn q') = false) :=
  castle_apply g m q hside hking hfrom hto hcap

/-- Witness for C15: Black castles queen-side in `r3k2r/8/8/8/8/8/8/R3K2R b KQkq - 0 1`; the
board after the move prints as `2kr3r/8/8/8/8/8/8/R3K2R w KQ - 1 2`. -/
theorem make_move_castles_witness :
    (∃ g1, (game_of_fen "r3k2r/8/8/8/8/8/8/R3K2R b KQkq - 0 1").make_move
        (Move.new 60 58 false false kPromoteQueen) = some g1 ∧
      (∀ sq, sq < 64 →
        (g1.board_.kings (game_of_fen "r3k2r/8/8/8/8/8/8/R3K2R b KQkq - 0 1").board_.turn).testBit
            sq =
          (decide (sq = castle_dest
              (game_of_fen "r3k2r/8/8/8/8/8/8/R3K2R b KQkq - 0 1").board_.turn true) ||
            (((game_of_fen "r3k2r/8/8/8/8/8/8/R3K2R b KQkq - 0 1").board_.kings
                (game_of_fen "r3k2r/8/8/8/8/8/8/R3K2R b KQkq - 0 1").board_.turn).testBit sq &&
              decide (sq ≠ king_home
                (game_of_fen "r3k2r/8/8/8/8/8/8/R3K2R b KQkq - 0 1").board_.turn)))) ∧
      (∀ sq, sq < 64 →
        (g1.board_.rooks (game_of_fen "r3k2r/8/8/8/8/8/8/R3K2R b KQkq - 0 1").board_.turn).testBit
            sq =
          (decide (sq = castle_rook_dest
              (game_of_fen "r3k2r/8/8/8/8/8/8/R3K2R b KQkq - 0 1").board_.turn true) ||
            (((game_of_fen "r3k2r/8/8/8/8/8/8/R3K2R b KQkq - 0 1").board_.rooks
                (game_of_fen "r3k2r/8/8/8/8/8/8/R3K2R b KQkq - 0 1").board_.turn).testBit sq &&
              decide (sq ≠ rook_corner
                (game_of_fen "r3k2r/8/8/8/8/8/8/R3K2R b KQkq - 0 1").board_.turn true)))) ∧
      (∀ s p,
        ¬ (s = (game_of_fen "r3k2r/8/8/8/8/8/8/R3K2R b KQkq - 0 1").board_.turn ∧
          (p = kPieceKing ∨ p = kPieceRook)) →
        g1.board_.pieces_ s p =
          (game_of_fen "r3k2r/8/8/8/8/8/8/R3K2R b KQkq - 0 1").board_.pieces_ s p) ∧
      (∀ q' : Bool,
        g1.board_.castling
          (castle_right (game_of_fen "r3k2r/8/8/8/8/8/8/R3K2R b KQkq - 0 1").board_.turn q') =
          false)) ∧
    ((game_of_fen "r3k2r/8/8/8/8/8/8/R3K2R b KQkq - 0 1").make_move
        (Move.new 60 58 false false kPromoteQueen)).bind (fun g1 => g1.board_.fen) =
      some "2kr3r/8/8/8/8/8/8/R3K2R w KQ - 1 2" :=
  ⟨make_move_castles (game_of_fen "r3k2r/8/8/8/8/8/8/R3K2R b KQkq - 0 1")
      (Move.new 60 58 false false kPromoteQueen) true (by decide!) (by decide!) (by decide!)
      (by decide!) rfl,
    by decide!⟩

/-- C16. For every game with side to move 0 or 1 and every move on which `make_move` is
defined, each castling right (of side `s`, on wing `q`) after `make_move` is its old value
and not (the moved piece is a king and `s` is the mover) and not (the moved piece is a rook,
`s` is the mover and the from-square is the corner of the right) and not (the move is flagged
capture, the captured piece is a rook, `s` is the other side and the to-square is the corner
of the right).  The moved piece is `piece_type_at(side, from)`, the captured piece
`piece_type_at(!side, capture_square)`. -/
theorem make_move_castling_rights (g : Game) (m : Move) (hside : g.board_.turn < 2)
    (hnull : m.null = false)
    (hfrom : m.castling g.board_ = true ∨
      0 ≤ g.board_.piece_type_at g.board_.turn m.from_.val)
    (hcap : m.capture_ = true →
      0 ≤ g.board_.piece_type_at (not_side g.board_.turn)
        (Game.capture_square g.board_.turn m)) :
    ∃ g1, g.make_move m = some g1 ∧
      ∀ s, s < 2 → ∀ q : Bool,
        g1.board_.castling (castle_right s q) =
          (g.board_.castling (castle_right s q) &&
            !decide (g.board_.piece_type_at g.board_.turn m.from_.val = kPieceKing ∧
              g.board_.turn = s) &&
            !decide (g.board_.piece_type_at g.board_.turn m.from_.val = kPieceRook ∧
              g.board_.turn = s ∧ m.from_.val = rook_corner s q) &&
            !decide (m.capture_ = true ∧
              g.board_.piece_type_at (not_side g.board_.turn)
                (Game.capture_square g.board_.turn m) = kPieceRook ∧
              not_side g.board_.turn = s ∧ m.to_.val = rook_corner s q)) := by
  obtain ⟨g1, h1⟩ := make_move_defined g m hnull hfrom hcap
  exact ⟨g1, h1, fun s hs q => make_move_castling g g1 m hside h1 s hs q⟩

/-- Witness for C16: the white rook on h1 takes the black rook on h8; both king-side rights
are cleared and both queen-side rights are kept. -/
theorem make_move_castling_rights_witness :
    (∃ g1, (game_of_fen "r3k2r/8/8/8/8/8/8/R3K2R w KQkq - 0 1").make_move
        (Move.new 7 63 true false kPromoteQueen) = some g1 ∧
      ∀ s, s < 2 → ∀ q : Bool,
        g1.board_.castling (castle_right s q) =
          ((game_of_fen "r3k2r/8/8/8/8/8/8/R3K2R w KQkq - 0 1").board_.castling
              (castle_right s q) &&
            !decide ((game_of_fen "r3k2r/8/8/8/8/8/8/R3K2R w KQkq - 0 1").board_.piece_type_at
                (game_of_fen "r3k2r/8/8/8/8/8/8/R3K2R w KQkq - 0 1").board_.turn
                (Move.new 7 63 true false kPromoteQueen).from_.val = kPieceKing ∧
              (game_of_fen "r3k2r/8/8/8/8/8/8/R3K2R w KQkq - 0 1").board_.turn = s) &&
            !decide ((game_of_fen "r3k2r/8/8/8/8/8/8/R3K2R w KQkq - 0 1").board_.piece_type_at
                (game_of_fen "r3k2r/8/8/8/8/8/8/R3K2R w KQkq - 0 1").board_.turn
                (Move.new 7 63 true false kPromoteQueen).from_.val = kPieceRook ∧
              (game_of_fen "r3k2r/8/8/8/8/8/8/R3K2R w KQkq - 0 1").board_.turn = s ∧
              (Move.new 7 63 true false kPromoteQueen).from_.val = rook_corner s q) &&
            !decide ((Move.new 7 63 true false kPromoteQueen).capture_ = true ∧
              (game_of_fen "r3k2r/8/8/8/8/8/8/R3K2R w KQkq - 0 1").board_.piece_type_at
                (not_side (game_of_fen "r3k2r/8/8/8/8/8/8/R3K2R w KQkq - 0 1").board_.turn)
                (Game.capture_square
                  (game_of_fen "r3k2r/8/8/8/8/8/8/R3K2R w KQkq - 0 1").board_.turn
                  (Move.new 7 63 true false kPromoteQueen)) = kPieceRook ∧
              not_side (game_of_fen "r3k2r/8/8/8/8/8/8/R3K2R w KQkq - 0 1").board_.turn = s ∧
              (Move.new 7 63 true false kPromoteQueen).to_.val = rook_corner s q))) ∧
    ((game_of_fen "r3k2r/8/8/8/8/8/8/R3K2R w KQkq - 0 1").make_move
        (Move.new 7 63 true false kPromoteQueen)).map
      (fun g1 => [g1.board_.castling 0, g1.board_.castling 1, g1.board_.castling 2,
        g1.board_.castling 3]) = some [false, true, false, true] :=
  ⟨make_move_castling_rights (game_of_fen "r3k2r/8/8/8/8/8/8/R3K2R w KQkq - 0 1")
      (Move.new 7 63 true false kPromoteQueen) (by decide!) (by decide) (Or.inr (by decide!))
      (fun _ => by decide!),
    by decide!⟩

/-- C17. For every game and every move on which `make_move` is defined (non-null, a piece of
the mover on the from-square or a castling move, an enemy piece on the capture square of a
move flagged capture), the en-passant target after `make_move` is the square midway between
from and to when the moved piece is a pawn and the to-square is on the same file two ranks
ahead in the mover's direction, and the null square `0xff` in every other case, whatever the
previous target was. -/
theorem make_move_ep_target (g : Game) (m : Move) (hnull : m.null = false)
    (hfrom : m.castling g.board_ = true ∨
      0 ≤ g.board_.piece_type_at g.board_.turn m.from_.val)
    (hcap : m.capture_ = true →
      0 ≤ g.board_.piece_type_at (not_side g.board_.turn)
        (Game.capture_square g.board_.turn m)) :
    ∃ g1, g.make_move m = some g1 ∧
      g1.board_.ep_square =
        (if g.board_.piece_type_at g.board_.turn m.from_.val = kPiecePawn ∧
            Square.file m.to_.val = Square.file m.from_.val ∧
            (if g.board_.turn = kSideWhite then
              Square.rank m.to_.val = Square.rank m.from_.val + 2
            else Square.rank m.from_.val = Square.rank m.to_.val + 2) then
          (m.from_.val + m.to_.val) / 2
        else 0xff) := by
  obtain ⟨g1, h1⟩ := make_move_defined g m hnull hfrom hcap
  exact ⟨g1, h1, (make_move_fields g g1 m h1).2.2.2⟩

/-- Witness for C17: 1. a2-a4 from the start position gives the target a3 (square 16), and the
board prints as `rnbqkbnr/pppppppp/8/8/P7/8/1PPPPPPP/RNBQKBNR b KQkq a3 0 1`. -/
theorem make_move_ep_target_witness :
    (∃ g1, (game_of_fen Game.default_fen).make_move (Move.new 8 24 false false kPromoteQueen)
        = some g1 ∧
      g1.board_.ep_square =
        (if (game_of_fen Game.default_fen).board_.piece_type_at
              (game_of_fen Game.default_fen).board_.turn 8 = kPiecePawn ∧
            Square.file 24 = Square.file 8 ∧
            (if (game_of_fen Game.default_fen).board_.turn = kSideWhite then
              Square.rank 24 = Square.rank 8 + 2
            else Square.rank 8 = Square.rank 24 + 2) then
          (8 + 24) / 2
        else 0xff)) ∧
    ((game_of_fen Game.default_fen).make_move (Move.new 8 24 false false kPromoteQueen)).bind
        (fun g1 => g1.board_.fen) =
      some "rnbqkbnr/pppppppp/8/8/P7/8/1PPPPPPP/RNBQKBNR b KQkq a3 0 1" :=
  ⟨make_move_ep_target (game_of_fen Game.default_fen) (Move.new 8 24 false false kPromoteQueen)
      (by decide) (Or.inr (by decide!)) (by decide),
    by decide!⟩

/-- C23. For every game, `drawn()` is true iff exactly two squares are occupied on the current
board, or the halfmove clock is at least 50, or at least two boards of the history are equal
to the current board; and two boards are equal under `operator==` iff they agree on the twelve
piece boards, the four castling rights, the side to move, the en-passant square, the halfmove
clock and the fullmove counter (the occupancy boards are not compared). -/
theorem drawn_iff (g : Game) :
    (g.drawn = true ↔
      ((List.range 64).filter (fun sq => g.board_.occupied.testBit sq)).length = 2 ∨
      g.board_.half_move ≥ 50 ∨
      (g.old_boards_.filter (fun b => Board.beq b g.board_)).length ≥ 2) ∧
    ∀ a b : Board, Board.beq a b = true ↔
      (∀ side, side < 2 → ∀ piece, piece < 6 →
        a.piece_board side piece = b.piece_board side piece) ∧
      (∀ c, c < 4 → a.castling c = b.castling c) ∧
      a.turn = b.turn ∧ a.ep_square = b.ep_square ∧ a.half_move = b.half_move ∧
      a.full_move = b.full_move :=
  ⟨drawn_cases g, beq_iff⟩

/-- C24. For every board satisfying the occupancy invariant and each side: `check(side)` is
false when the king board of the side is empty (no bit below 64 set); otherwise, with `k` the
lowest-index king square of the side, `check(side)` is true iff a piece of the opposite side
attacks `k` under chess geometry: a pawn for which `k` is diagonally ahead (neighbouring file,
next rank in the pawn's direction, no wrap-around), a knight a knight's move away, a king on an
adjacent square, a bishop or queen on a common diagonal, or a rook or queen on a common file or
rank, with every square strictly in between holding no piece. -/
theorem check_detection (b : Board) (side : Nat) (hinv : occupancy_invariant b) :
    ((∀ k, k < 64 → (b.kings side).testBit k = false) → b.check side = false) ∧
    (∀ k, k < 64 → (b.kings side).testBit k = true →
      (∀ j, j < k → (b.kings side).testBit j = false) →
      (b.check side = true ↔ attacked_by b (not_side side) k)) :=
  ⟨check_no_king b side, fun k hk hbit hlow => check_iff_attacked b side k hinv hk hbit hlow⟩

/-- Witness for C24: in `4k3/8/8/8/8/8/4R3/4K3 b - - 0 1` the black king on e8 (square 60) is
in check from the rook on e2, and the white king on e1 is not in check. -/
theorem check_detection_witness :
    occupancy_invariant rook_check_position ∧
    (((∀ k, k < 64 → (rook_check_position.kings 1).testBit k = false) →
        rook_check_position.check 1 = false) ∧
      (∀ k, k < 64 → (rook_check_position.kings 1).testBit k = true →
        (∀ j, j < k → (rook_check_position.kings 1).testBit j = false) →
        (rook_check_position.check 1 = true ↔
          attacked_by rook_check_position (not_side 1) k))) ∧
    (rook_check_position.kings 1).testBit 60 = true ∧
    rook_check_position.check 1 = true ∧ rook_check_position.check 0 = false :=
  ⟨by decide!, check_detection rook_check_position 1 (by decide!), by decide!, by decide!,
    by decide!⟩

/-- C25. For every game, `make_null_move` pushes the prior board onto the history, makes the
side to move 1 if it was 0 and 0 otherwise, sets the halfmove clock to 0 and leaves the piece
boards, the occupancy boards, the castling rights, the en-passant square and the fullmove
counter as they were; `unmake_move` after it gives back the prior game, board and history. -/
theorem make_null_move_spec (g : Game) :
    g.make_null_move.old_boards_ = g.old_boards_ ++ [g.board_] ∧
    g.make_null_move.board_.turn = (if g.board_.turn = 0 then 1 else 0) ∧
    g.make_null_move.board_.half_move = 0 ∧
    g.make_null_move.board_.pieces_ = g.board_.pieces_ ∧
    g.make_null_move.board_.occupied_ = g.board_.occupied_ ∧
    g.make_null_move.board_.castling_ = g.board_.castling_ ∧
    g.make_null_move.board_.ep_square = g.board_.ep_square ∧
    g.make_null_move.board_.full_move = g.board_.full_move ∧
    g.make_null_move.unmake_move = some g :=
  ⟨rfl, rfl, rfl, rfl, rfl, rfl, rfl, rfl, make_null_move_unmake g⟩

/-- C26. For every board built by the `Board` constructor or returned by `from_fen`, and every
game reached from the game on that board by a sequence of calls of `make_move` (on moves for
which it is defined), `make_null_move` and `unmake_move`: on the current board, and on every
board kept in the history, `occupied(side)` is the union of the six piece boards of the side,
for both sides. -/
theorem occupancy_invariant_holds (b : Board) (cs : List Call) (g1 : Game)
    (hb : b.constructed) (h : (Game.of_board b).calls cs = some g1) :
    occupancy_invariant g1.board_ ∧
    (∀ old, old ∈ g1.old_boards_ → occupancy_invariant old) ∧
    (∀ side, side < 2 → ∀ i, ((g1.board_.occupied_side side).testBit i = true ↔
      ∃ piece, piece < 6 ∧ (g1.board_.piece_board side piece).testBit i = true)) := by
  obtain ⟨a0, ah⟩ := calls_invariant cs (Game.of_board b) g1 (constructed_invariant b hb)
    (fun x hx => absurd hx (List.not_mem_nil x)) h
  refine ⟨a0, ah, ?_⟩
  intro side hs i
  unfold Board.occupied_side Board.piece_board
  rw [a0 side hs]
  exact side_union_testBit g1.board_ side i

/-- Witness for C26: the starting position, after 1. e4, a null move, Nf3 and one
`unmake_move`. -/
theorem occupancy_invariant_holds_witness :
    (Board.from_fen Game.default_fen).isSome = true ∧
    ((Game.of_board ((Board.from_fen Game.default_fen).getD null_board)).calls
      opening_calls).isSome = true ∧
    (occupancy_invariant
        (((Game.of_board ((Board.from_fen Game.default_fen).getD null_board)).calls
          opening_calls).getD (Game.of_board null_board)).board_ ∧
      (∀ old, old ∈ (((Game.of_board ((Board.from_fen Game.default_fen).getD null_board)).calls
          opening_calls).getD (Game.of_board null_board)).old_boards_ →
        occupancy_invariant old) ∧
      (∀ side, side < 2 → ∀ i,
        (((((Game.of_board ((Board.from_fen Game.default_fen).getD null_board)).calls
          opening_calls).getD (Game.of_board null_board)).board_.occupied_side side).testBit i
            = true ↔
          ∃ piece, piece < 6 ∧
            ((((Game.of_board ((Board.from_fen Game.default_fen).getD null_board)).calls
              opening_calls).getD (Game.of_board null_board)).board_.piece_board side
                piece).testBit i = true))) ∧
    ((((Game.of_board ((Board.from_fen Game.default_fen).getD null_board)).calls
      opening_calls).getD (Game.of_board null_board)).old_boards_).length = 2 :=
  ⟨by decide!, by decide!,
    occupancy_invariant_holds ((Board.from_fen Game.default_fen).getD null_board) opening_calls
      (((Game.of_board ((Board.from_fen Game.default_fen).getD null_board)).calls
        opening_calls).getD (Game.of_board null_board))
      (Or.inr ⟨Game.default_fen,
        some_getD_of_isSome (Board.from_fen Game.default_fen) null_board (by decide!)⟩)
      (some_getD_of_isSome
        ((Game.of_board ((Board.from_fen Game.default_fen).getD null_board)).calls
          opening_calls) (Game.of_board null_board) (by decide!)),
    by decide!⟩

/-- C27. In every game reached from the default starting position by steps of play, each step
being `make_move` of a move of the list returned by `generate_legal_moves` on the current game
or `unmake_move`: no square is set in more than one of the twelve piece boards (neither two
piece types of one side nor pieces of both sides share a square), on the current board and on
every board kept in the history. -/
theorem pieces_disjoint_in_play (ps : List Play) (g1 : Game)
    (h : (game_of_fen Game.default_fen).plays ps = some g1) :
    pieces_disjoint g1.board_ ∧ ∀ old, old ∈ g1.old_boards_ → pieces_disjoint old := by
  obtain ⟨a0, ah⟩ := plays_invariant ps (game_of_fen Game.default_fen) g1 start_invariant
    (fun x hx => absurd hx (List.not_mem_nil x)) h
  exact ⟨a0.1, fun old hold => (ah old hold).1⟩

/-- Witness for C27: the starting position after 1. e4 e5 and the reply taken back. -/
theorem pieces_disjoint_in_play_witness :
    (Board.from_fen Game.default_fen).isSome = true ∧
    ((game_of_fen Game.default_fen).plays opening_play).isSome = true ∧
    (pieces_disjoint
        (((game_of_fen Game.default_fen).plays opening_play).getD
          (Game.of_board null_board)).board_ ∧
      ∀ old, old ∈ (((game_of_fen Game.default_fen).plays opening_play).getD
          (Game.of_board null_board)).old_boards_ → pieces_disjoint old) ∧
    ((game_of_fen Game.default_fen).plays opening_play).map
      (fun g => ((g.board_.pawns 0).testBit 28, (g.board_.pawns 1).testBit 52,
        g.old_boards_.length)) = some (true, true, 1) :=
  ⟨by decide!, isSome_of_map _ _ _ opening_play_result,
    pieces_disjoint_in_play opening_play
      (((game_of_fen Game.default_fen).plays opening_play).getD (Game.of_board null_board))
      (some_getD_of_isSome ((game_of_fen Game.default_fen).plays opening_play)
        (Game.of_board null_board) (isSome_of_map _ _ _ opening_play_result)),
    opening_play_result⟩

/-- C28. For every game and every move on which `make_move` is defined, every castling right
that is false before `make_move` is false after it; and `make_null_move` leaves every right
as it was, so a right that is false before it is false after it. -/
theorem castling_rights_only_cleared (g : Game) (m : Move) (hnull : m.null = false)
    (hfrom : m.castling g.board_ = true ∨
      0 ≤ g.board_.piece_type_at g.board_.turn m.from_.val)
    (hcap : m.capture_ = true →
      0 ≤ g.board_.piece_type_at (not_side g.board_.turn)
        (Game.capture_square g.board_.turn m)) :
    (∃ g1, g.make_move m = some g1 ∧
      ∀ x, g.board_.castling x = false → g1.board_.castling x = false) ∧
    ∀ x, g.board_.castling x = false → g.make_null_move.board_.castling x = false := by
  obtain ⟨g1, h1⟩ := make_move_defined g m hnull hfrom hcap
  refine ⟨⟨g1, h1, ?_⟩, fun x hx => hx⟩
  intro x hx
  cases hc : g1.board_.castling x
  · rfl
  · rw [make_move_castling_mono g g1 m x h1 hc] at hx
    exact Bool.noConfusion hx

/-- Witness for C28: in `r3k2r/8/8/8/8/8/8/R3K2R w Qkq - 0 1` White, without the king-side
right, plays Ra1-a8 and takes the rook; the rights after the move are only Black's king-side
one. -/
theorem castling_rights_only_cleared_witness :
    ((∃ g1, (game_of_fen "r3k2r/8/8/8/8/8/8/R3K2R w Qkq - 0 1").make_move
          (Move.new 0 56 true false kPromoteQueen) = some g1 ∧
        ∀ x, (game_of_fen "r3k2r/8/8/8/8/8/8/R3K2R w Qkq - 0 1").board_.castling x = false →
          g1.board_.castling x = false) ∧
      ∀ x, (game_of_fen "r3k2r/8/8/8/8/8/8/R3K2R w Qkq - 0 1").board_.castling x = false →
        (game_of_fen "r3k2r/8/8/8/8/8/8/R3K2R w Qkq - 0 1").make_null_move.board_.castling x =
          false) ∧
    ((game_of_fen "r3k2r/8/8/8/8/8/8/R3K2R w Qkq - 0 1").make_move
        (Move.new 0 56 true false kPromoteQueen)).map
      (fun g1 => [g1.board_.castling 0, g1.board_.castling 1, g1.board_.castling 2,
        g1.board_.castling 3]) = some [false, false, true, false] :=
  ⟨castling_rights_only_cleared (game_of_fen "r3k2r/8/8/8/8/8/8/R3K2R w Qkq - 0 1")
      (Move.new 0 56 true false kPromoteQueen) (by decide) (Or.inr (by decide!))
      (fun _ => by decide!),
    by decide!⟩

/-- C29. For every input string with fewer than five space characters, the empty string
included, `from_fen` returns `null_board`. -/
theorem from_fen_too_few_fields (s : String) (h : spaces s.toList < 5) :
    Board.from_fen s = some null_board :=
  from_fen_no_match s (fen_match_few_spaces s.toList h)

/-- Witness for C29: the empty string and a text of five fields. -/
theorem from_fen_too_few_fields_witness :
    Board.from_fen "" = some null_board ∧
    spaces "8/8/8/8/8/8/8/8 w - - 0".toList < 5 ∧
    Board.from_fen "8/8/8/8/8/8/8/8 w - - 0" = some null_board :=
  ⟨from_fen_too_few_fields "" (by decide), by decide,
    from_fen_too_few_fields "8/8/8/8/8/8/8/8 w - - 0" (by decide)⟩

/-- C31. FEN piece placement: for every text of six fields separated by single spaces (second
field one character, en-passant field `-` or at least two characters, both clock fields read by
`stoi`) whose placement field is 8 rank texts separated by `/`, each made of the digits 1-8 and
the letters pnbrqkPNBRQK and describing exactly 8 squares, `from_fen` returns a board, and for
every side, piece type, file `f` and rank `r` in 0..7, bit `r * 8 + f` of the board of that side
and type is set iff the rank text number `7 - r` (counted from 0, highest rank first) has that
type's letter, upper case for White and lower case for Black, at file `f` after expanding digits
into empty squares. -/
theorem fen_piece_placement (ranks : List (List Char)) (c2 : Char) (f3 f4 f5 f6 : List Char)
    (half full : Int) (hlen : ranks.length = 8)
    (hall : ∀ rank, rank ∈ ranks →
      (∀ c, c ∈ rank → c ∈ rank_chars) ∧ (expand_rank rank).length = 8)
    (h2 : fen_field [c2]) (h3 : fen_field f3) (h4 : fen_field f4) (h5 : fen_field f5)
    (h6 : fen_field f6) (hep : f4 = ['-'] ∨ 2 ≤ f4.length)
    (hhalf : fen_codec.stoi f5 = some half) (hfull : fen_codec.stoi f6 = some full) :
    ∃ b, Board.from_fen (String.mk (join_ranks ranks ++
        ' ' :: c2 :: ' ' :: (f3 ++ ' ' :: (f4 ++ ' ' :: (f5 ++ ' ' :: f6))))) = some b ∧
      ∀ side, side < 2 → ∀ piece, piece < 6 → ∀ f, f < 8 → ∀ r, r < 8 →
        ((b.piece_board side piece).testBit (r * 8 + f) = true ↔
          (expand_rank (ranks.getD (7 - r) []))[f]? = some (some (piece_letter side piece))) :=
  from_fen_placement ranks c2 f3 f4 f5 f6 half full hlen hall h2 h3 h4 h5 h6 hep hhalf hfull

/-- Witness for C31: the pawn test input `8/pppppppp/8/8/8/8/PPPPPPPP/8 w - - 0 1`, whose white
pawns are `0x000000000000ff00` and whose black pawns are `0x00ff000000000000`. -/
theorem fen_piece_placement_witness :
    pawn_rows.length = 8 ∧
    (∀ rank, rank ∈ pawn_rows →
      (∀ c, c ∈ rank → c ∈ rank_chars) ∧ (expand_rank rank).length = 8) ∧
    String.mk (join_ranks pawn_rows ++
        ' ' :: 'w' :: ' ' :: (['-'] ++ ' ' :: (['-'] ++ ' ' :: (['0'] ++ ' ' :: ['1'])))) =
      "8/pppppppp/8/8/8/8/PPPPPPPP/8 w - - 0 1" ∧
    (∃ b, Board.from_fen (String.mk (join_ranks pawn_rows ++
        ' ' :: 'w' :: ' ' :: (['-'] ++ ' ' :: (['-'] ++ ' ' :: (['0'] ++ ' ' :: ['1']))))) =
          some b ∧
      ∀ side, side < 2 → ∀ piece, piece < 6 → ∀ f, f < 8 → ∀ r, r < 8 →
        ((b.piece_board side piece).testBit (r * 8 + f) = true ↔
          (expand_rank (pawn_rows.getD (7 - r) []))[f]? =
            some (some (piece_letter side piece)))) ∧
    ((Board.from_fen "8/pppppppp/8/8/8/8/PPPPPPPP/8 w - - 0 1").getD null_board).pawns
      kSideWhite = 0x000000000000ff00 ∧
    ((Board.from_fen "8/pppppppp/8/8/8/8/PPPPPPPP/8 w - - 0 1").getD null_board).pawns
      kSideBlack = 0x00ff000000000000 :=
  ⟨by decide, by decide, by decide,
    fen_piece_placement pawn_rows 'w' ['-'] ['-'] ['0'] ['1'] 0 1 (by decide) (by decide)
      (by decide) (by decide) (by decide) (by decide) (by decide) (Or.inl (Eq.refl _))
      (by decide) (by decide),
    by decide!, by decide!⟩

/-- C32 fails on the code as stated: the pattern is matched greedily and `from_fen` reads the
captured groups, not the fields between the spaces.  On `8/8/8/8/8/8/8/8 x w - - 0 1` the
pattern matches, a board is returned and White is to move although the second field is `x`; on
`8/8/8/8/8/8/8/8 w - a0 0 1` the fourth field is `a0`, for which
(file letter - 'a') + 8 * (rank digit - '1') is -8, and the stored en-passant square is 248. -/
theorem fen_header_not_by_position :
    Board.fen_match "8/8/8/8/8/8/8/8 x w - - 0 1".toList =
      some ["8/8/8/8/8/8/8/8 x".toList, ['w'], ['-'], ['-'], ['0'], ['1']] ∧
    (Board.from_fen "8/8/8/8/8/8/8/8 x w - - 0 1").isSome = true ∧
    space_fields "8/8/8/8/8/8/8/8 x w - - 0 1".toList =
      ["8/8/8/8/8/8/8/8".toList, ['x'], ['w'], ['-'], ['-'], ['0'], ['1']] ∧
    ((Board.from_fen "8/8/8/8/8/8/8/8 x w - - 0 1").getD null_board).turn = kSideWhite ∧
    Board.fen_match "8/8/8/8/8/8/8/8 w - a0 0 1".toList =
      some ["8/8/8/8/8/8/8/8".toList, ['w'], ['-'], ['a', '0'], ['0'], ['1']] ∧
    (Board.from_fen "8/8/8/8/8/8/8/8 w - a0 0 1").isSome = true ∧
    space_fields "8/8/8/8/8/8/8/8 w - a0 0 1".toList =
      ["8/8/8/8/8/8/8/8".toList, ['w'], ['-'], ['a', '0'], ['0'], ['1']] ∧
    ((Board.from_fen "8/8/8/8/8/8/8/8 w - a0 0 1").getD null_board).ep_square = 248 ∧
    (('a'.toNat : Int) - 'a'.toNat) + 8 * (('0'.toNat : Int) - '1'.toNat) = -8 := by
  decide!

/-- C32, amended.  FEN header fields: for every input on which the pattern matches (captured
groups `groups`) and `from_fen` returns a board, there are six groups, the second one character
long; the side to move is White iff the second group is exactly `w`, and Black otherwise; each
castling right is true iff the third group is not `-` and contains that right's letter (K, Q, k,
q respectively); the en-passant target is the null square when the fourth group is `-`, and
otherwise the fourth group has at least two characters and the target is
(first character - 'a') + 8 * (second character - '1') reduced modulo 256, which is that value
itself, a square index below 64, when the group starts with a file letter a-h and a rank digit
1-8.  When the input has exactly five spaces, the second to fifth groups are its second to fifth
space-separated fields. -/
theorem fen_header_fields (s : String) (groups : List (List Char)) (b : Board)
    (hm : Board.fen_match s.toList = some groups) (hb : Board.from_fen s = some b) :
    ∃ (g1 g3 g4 g5 g6 : List Char) (c2 : Char),
      groups = [g1, [c2], g3, g4, g5, g6] ∧
      (b.turn = kSideWhite ↔ [c2] = ['w']) ∧
      (b.turn = kSideWhite ∨ b.turn = kSideBlack) ∧
      (b.castling 0 = true ↔ g3 ≠ ['-'] ∧ 'K' ∈ g3) ∧
      (b.castling 1 = true ↔ g3 ≠ ['-'] ∧ 'Q' ∈ g3) ∧
      (b.castling 2 = true ↔ g3 ≠ ['-'] ∧ 'k' ∈ g3) ∧
      (b.castling 3 = true ↔ g3 ≠ ['-'] ∧ 'q' ∈ g3) ∧
      (g4 = ['-'] → b.ep_square = null_square) ∧
      (g4 ≠ ['-'] → ∃ c0 c1 r, g4 = c0 :: c1 :: r ∧
        b.ep_square =
          u8 (((c0.toNat : Int) - 'a'.toNat) + 8 * ((c1.toNat : Int) - '1'.toNat)) ∧
        ('a'.toNat ≤ c0.toNat ∧ c0.toNat ≤ 'h'.toNat ∧ '1'.toNat ≤ c1.toNat ∧
            c1.toNat ≤ '8'.toNat →
          (b.ep_square : Int) =
            ((c0.toNat : Int) - 'a'.toNat) + 8 * ((c1.toNat : Int) - '1'.toNat) ∧
          b.ep_square < 64)) ∧
      (spaces s.toList = 5 →
        ∃ f1 f6, space_fields s.toList = [f1, [c2], g3, g4, g5, f6]) :=
  fen_header s groups b hm hb

/-- Witness for C32: the header test input `8/8/8/8/8/8/8/P7 b KQq h8 0 1` gives Black to move,
no black king-side right and the en-passant square 63. -/
theorem fen_header_fields_witness :
    Board.fen_match header_test_fen.toList = some
      ["8/8/8/8/8/8/8/P7".toList, ['b'], "KQq".toList, "h8".toList, ['0'], ['1']] ∧
    Board.from_fen header_test_fen = some ((Board.from_fen header_test_fen).getD null_board) ∧
    (∃ (g1 g3 g4 g5 g6 : List Char) (c2 : Char),
      ["8/8/8/8/8/8/8/P7".toList, ['b'], "KQq".toList, "h8".toList, ['0'], ['1']] = [g1, [c2], g3, g4, g5, g6] ∧
      (((Board.from_fen header_test_fen).getD null_board).turn = kSideWhite ↔ [c2] = ['w']) ∧
      (((Board.from_fen header_test_fen).getD null_board).turn = kSideWhite ∨ ((Board.from_fen header_test_fen).getD null_board).turn = kSideBlack) ∧
      (((Board.from_fen header_test_fen).getD null_board).castling 0 = true ↔ g3 ≠ ['-'] ∧ 'K' ∈ g3) ∧
      (((Board.from_fen header_test_fen).getD null_board).castling 1 = true ↔ g3 ≠ ['-'] ∧ 'Q' ∈ g3) ∧
      (((Board.from_fen header_test_fen).getD null_board).castling 2 = true ↔ g3 ≠ ['-'] ∧ 'k' ∈ g3) ∧
      (((Board.from_fen header_test_fen).getD null_board).castling 3 = true ↔ g3 ≠ ['-'] ∧ 'q' ∈ g3) ∧
      (g4 = ['-'] → ((Board.from_fen header_test_fen).getD null_board).ep_square = null_square) ∧
      (g4 ≠ ['-'] → ∃ c0 c1 r, g4 = c0 :: c1 :: r ∧
        ((Board.from_fen header_test_fen).getD null_board).ep_square =
          u8 (((c0.toNat : Int) - 'a'.toNat) + 8 * ((c1.toNat : Int) - '1'.toNat)) ∧
        ('a'.toNat ≤ c0.toNat ∧ c0.toNat ≤ 'h'.toNat ∧ '1'.toNat ≤ c1.toNat ∧
            c1.toNat ≤ '8'.toNat →
          (((Board.from_fen header_test_fen).getD null_board).ep_square : Int) =
            ((c0.toNat : Int) - 'a'.toNat) + 8 * ((c1.toNat : Int) - '1'.toNat) ∧
          ((Board.from_fen header_test_fen).getD null_board).ep_square < 64)) ∧
      (spaces header_test_fen.toList = 5 →
        ∃ f1 f6, space_fields header_test_fen.toList = [f1, [c2], g3, g4, g5, f6])) ∧
    ((Board.from_fen header_test_fen).getD null_board).turn = kSideBlack ∧
    ((Board.from_fen header_test_fen).getD null_board).castling 2 = false ∧
    ((Board.from_fen header_test_fen).getD null_board).ep_square = 63 ∧
    spaces header_test_fen.toList = 5 :=
  ⟨by decide!, some_getD_of_isSome (Board.from_fen header_test_fen) null_board (by decide!),
    fen_header_fields header_test_fen _ _ (by decide!)
      (some_getD_of_isSome (Board.from_fen header_test_fen) null_board (by decide!)),
    by decide!⟩

/-- C33. Canonical FEN strings are reproduced: for every board `b` that `from_fen` returns,
`fen()` of `b` is a string `t`; the pattern matches `t`, `from_fen` of `t` returns a board, and
`fen()` of that board is `t` again, character for character.  The board read back is the board
of the pieces `fen()` writes, which is `b` itself when no square of `b` holds two pieces. -/
theorem canonical_fen_reproduced (s0 : String) (b : Board)
    (h : Board.from_fen s0 = some b) :
    ∃ t, b.fen = some t ∧ Board.fen_match t.toList ≠ none ∧
      ∃ b1, Board.from_fen t = some b1 ∧ b1.fen = some t ∧ b1 = shown_board b ∧
        (pieces_disjoint b → b1 = b) := by
  obtain ⟨t, ht⟩ := from_fen_fen_defined s0 b h
  obtain ⟨h1, h2, h3⟩ := fen_text_reproduced s0 b t h ht
  refine ⟨t, ht, h1, shown_board b, h2, h3, rfl, ?_⟩
  intro hdisj
  obtain ⟨t1, g1, _, g3⟩ := fen_round_trip s0 b h hdisj
  rw [ht] at g1
  rw [← Option.some.inj g1, h2] at g3
  exact Option.some.inj g3

/-- Witness for C33: the starting position, whose text is the default FEN string. -/
theorem canonical_fen_reproduced_witness :
    Board.from_fen Game.default_fen = some (game_of_fen Game.default_fen).board_ ∧
    (game_of_fen Game.default_fen).board_.fen =
      some "rnbqkbnr/pppppppp/8/8/8/8/PPPPPPPP/RNBQKBNR w KQkq - 0 1" ∧
    ∃ t, (game_of_fen Game.default_fen).board_.fen = some t ∧
      Board.fen_match t.toList ≠ none ∧
      ∃ b1, Board.from_fen t = some b1 ∧ b1.fen = some t ∧
        b1 = shown_board (game_of_fen Game.default_fen).board_ ∧
        (pieces_disjoint (game_of_fen Game.default_fen).board_ →
          b1 = (game_of_fen Game.default_fen).board_) :=
  ⟨some_getD_of_isSome (Board.from_fen Game.default_fen) null_board (by decide!), by decide!,
    canonical_fen_reproduced Game.default_fen (game_of_fen Game.default_fen).board_
      (some_getD_of_isSome (Board.from_fen Game.default_fen) null_board (by decide!))⟩

/-- C34. Lone-piece move counts: on a board whose only pieces are those of one type of the side to
move, standing on the squares of `word` (occupancy words in step with the piece boards, no
en-passant target), `generate_pseudolegal_moves` returns exactly 14 moves when the piece is a rook
alone on any of the 64 squares, exactly 27 when it is a queen alone on d4, e4, d5 or e5 (squares
27, 28, 35, 36), exactly 8 when it is a king alone on a square off the board edge and exactly 3
when the king is alone in a corner (squares 0, 7, 56, 63), exactly 2 when it is a knight alone in
a corner, and exactly 20 when the pieces are two rooks on a1 and b1. -/
theorem lone_piece_move_counts (b : Board) (piece word : Nat) (h : only_pieces b piece word) :
    (∀ sq, sq < 64 → piece = kPieceRook → word = Bitboard.mask sq →
      (MoveGenerator.generate_pseudolegal_moves b).length = 14) ∧
    (∀ sq, sq ∈ [27, 28, 35, 36] → piece = kPieceQueen → word = Bitboard.mask sq →
      (MoveGenerator.generate_pseudolegal_moves b).length = 27) ∧
    (∀ sq, sq < 64 → 1 ≤ Square.file sq → Square.file sq ≤ 6 → 1 ≤ Square.rank sq →
      Square.rank sq ≤ 6 → piece = kPieceKing → word = Bitboard.mask sq →
      (MoveGenerator.generate_pseudolegal_moves b).length = 8) ∧
    (∀ sq, sq ∈ [0, 7, 56, 63] → piece = kPieceKing → word = Bitboard.mask sq →
      (MoveGenerator.generate_pseudolegal_moves b).length = 3) ∧
    (∀ sq, sq ∈ [0, 7, 56, 63] → piece = kPieceKnight → word = Bitboard.mask sq →
      (MoveGenerator.generate_pseudolegal_moves b).length = 2) ∧
    (piece = kPieceRook → word = Bitboard.mask 0 ||| Bitboard.mask 1 →
      (MoveGenerator.generate_pseudolegal_moves b).length = 20) := by
  have hside : b.turn < 2 := h.1
  have hgen := only_pieces_moves b piece word h
  refine ⟨?_, ?_, ?_, ?_, ?_, ?_⟩
  · intro sq hsq hp hw
    rw [hgen, hp, hw]
    exact lone_rook_count _ hside sq hsq
  · intro sq hsq hp hw
    rw [hgen, hp, hw]
    exact lone_queen_count _ hside sq hsq
  · intro sq hsq hf1 hf6 hr1 hr6 hp hw
    have hsplit : sq = Square.rank sq * 8 + Square.file sq := by
      unfold Square.rank Square.file
      omega
    have hf : Square.file sq ∈ [1, 2, 3, 4, 5, 6] := by
      simp only [List.mem_cons, List.mem_singleton]
      omega
    have hr : Square.rank sq ∈ [1, 2, 3, 4, 5, 6] := by
      simp only [List.mem_cons, List.mem_singleton]
      omega
    rw [hgen, hp, hw, hsplit]
    exact lone_king_count _ hside _ hf _ hr
  · intro sq hsq hp hw
    rw [hgen, hp, hw]
    exact corner_king_count _ hside sq hsq
  · intro sq hsq hp hw
    rw [hgen, hp, hw]
    exact lone_knight_count _ hside sq hsq
  · intro hp hw
    rw [hgen, hp, hw]
    exact two_rooks_count _ hside

/-- Witness for C34: the queen test position, a lone white queen on d4, has 27 moves. -/
theorem lone_piece_move_counts_witness :
    only_pieces lone_queen_position kPieceQueen (Bitboard.mask 27) ∧
    (MoveGenerator.generate_pseudolegal_moves lone_queen_position).length = 27 :=
  ⟨by decide!,
    (lone_piece_move_counts lone_queen_position kPieceQueen (Bitboard.mask 27)
      (by decide!)).2.1 27 (by decide) (Eq.refl _) (Eq.refl _)⟩

/-- C35. For every 64-bit word `b`: the loop calling `next()` while `has_data()` holds stops
after exactly `count(b)` calls (before that `has_data()` is true, then it is false, however
many more calls are allowed), and the squares returned are exactly the indices of the set
bits of `b`, each once, in strictly ascending order; each call on a non-empty working copy
returns the index of its lowest set bit and clears that bit only.  The iterator works on its
own copy of the word. -/
theorem bitboard_iteration (b : Nat) (hb : b < 2 ^ 64) :
    ((∀ n, Bitboard.count b ≤ n → BitboardIterator.iterate n b = (set_bits b, 0)) ∧
    (∀ k, k < Bitboard.count b →
      (BitboardIterator.iterate k b).1 = (set_bits b).take k ∧
      BitboardIterator.has_data (BitboardIterator.iterate k b).2 = true) ∧
    BitboardIterator.has_data (BitboardIterator.iterate (Bitboard.count b) b).2 = false ∧
    (BitboardIterator.iterate (Bitboard.count b) b).1.length = Bitboard.count b ∧
    List.Sorted (fun x y => x < y) (set_bits b) ∧
    (∀ i, i ∈ set_bits b ↔ i < 64 ∧ b.testBit i = true) ∧
    BitboardIterator.squares b = set_bits b) ∧
    (∀ w, w < 2 ^ 64 → w ≠ 0 →
      (BitboardIterator.next w).1 < 64 ∧ w.testBit (BitboardIterator.next w).1 = true ∧
      (∀ j, j < (BitboardIterator.next w).1 → w.testBit j = false) ∧
      (∀ i, ((BitboardIterator.next w).2).testBit i =
        (w.testBit i && decide (i ≠ (BitboardIterator.next w).1))) ∧
      (BitboardIterator.next w).2 < 2 ^ 64) :=
  ⟨iterator_spec b hb, next_spec⟩

/-- Witness for C35: the word `0x8001000000008100`, whose set bits are 8, 15, 48 and 63. -/
theorem bitboard_iteration_witness :
    (0x8001000000008100 : Nat) < 2 ^ 64 ∧
    (((∀ n, Bitboard.count 0x8001000000008100 ≤ n →
      BitboardIterator.iterate n 0x8001000000008100 = (set_bits 0x8001000000008100, 0)) ∧
    (∀ k, k < Bitboard.count 0x8001000000008100 →
      (BitboardIterator.iterate k 0x8001000000008100).1 =
        (set_bits 0x8001000000008100).take k ∧
      BitboardIterator.has_data (BitboardIterator.iterate k 0x8001000000008100).2 = true) ∧
    BitboardIterator.has_data
      (BitboardIterator.iterate (Bitboard.count 0x8001000000008100)
        0x8001000000008100).2 = false ∧
    (BitboardIterator.iterate (Bitboard.count 0x8001000000008100)
      0x8001000000008100).1.length = Bitboard.count 0x8001000000008100 ∧
    List.Sorted (fun x y => x < y) (set_bits 0x8001000000008100) ∧
    (∀ i, i ∈ set_bits 0x8001000000008100 ↔
      i < 64 ∧ (0x8001000000008100 : Nat).testBit i = true) ∧
    BitboardIterator.squares 0x8001000000008100 = set_bits 0x8001000000008100) ∧
    (∀ w, w < 2 ^ 64 → w ≠ 0 →
      (BitboardIterator.next w).1 < 64 ∧ w.testBit (BitboardIterator.next w).1 = true ∧
      (∀ j, j < (BitboardIterator.next w).1 → w.testBit j = false) ∧
      (∀ i, ((BitboardIterator.next w).2).testBit i =
        (w.testBit i && decide (i ≠ (BitboardIterator.next w).1))) ∧
      (BitboardIterator.next w).2 < 2 ^ 64)) ∧
    BitboardIterator.iterate 4 0x8001000000008100 = ([8, 15, 48, 63], 0) ∧
    Bitboard.count 0x8001000000008100 = 4 :=
  ⟨by decide, bitboard_iteration 0x8001000000008100 (by decide), by decide!, by decide!⟩

/-- C36. For every square `s` below 64, with file `f` and rank `r`: the knight table entry of
`s` holds exactly the squares of the board with file `f + df` and rank `r + dr` where
`{|df|, |dr|} = {1, 2}`, and the king table entry exactly those where
`max(|df|, |dr|) = 1`; files and ranks are compared without wrap-around, and neither entry
holds `s` itself. -/
theorem leaper_tables (s : Nat) (hs : s < 64) :
    (∀ t, (knight_attack_board s).testBit t = true ↔
      t < 64 ∧ ∃ df dr : Int,
        ((df.natAbs = 1 ∧ dr.natAbs = 2) ∨ (df.natAbs = 2 ∧ dr.natAbs = 1)) ∧
        (Square.file t : Int) = (Square.file s : Int) + df ∧
        (Square.rank t : Int) = (Square.rank s : Int) + dr) ∧
    (∀ t, (king_attack_board s).testBit t = true ↔
      t < 64 ∧ ∃ df dr : Int, max df.natAbs dr.natAbs = 1 ∧
        (Square.file t : Int) = (Square.file s : Int) + df ∧
        (Square.rank t : Int) = (Square.rank s : Int) + dr) ∧
    (knight_attack_board s).testBit s = false ∧ (king_attack_board s).testBit s = false :=
  leaper_tables_spec s hs

/-- Witness for C36: the corner a1 (square 0), whose knight entry is b3 and c2 and whose king
entry is b1, a2 and b2. -/
theorem leaper_tables_witness :
    (0 : Nat) < 64 ∧
    ((∀ t, (knight_attack_board 0).testBit t = true ↔
      t < 64 ∧ ∃ df dr : Int,
        ((df.natAbs = 1 ∧ dr.natAbs = 2) ∨ (df.natAbs = 2 ∧ dr.natAbs = 1)) ∧
        (Square.file t : Int) = (Square.file 0 : Int) + df ∧
        (Square.rank t : Int) = (Square.rank 0 : Int) + dr) ∧
    (∀ t, (king_attack_board 0).testBit t = true ↔
      t < 64 ∧ ∃ df dr : Int, max df.natAbs dr.natAbs = 1 ∧
        (Square.file t : Int) = (Square.file 0 : Int) + df ∧
        (Square.rank t : Int) = (Square.rank 0 : Int) + dr) ∧
    (knight_attack_board 0).testBit 0 = false ∧ (king_attack_board 0).testBit 0 = false) ∧
    knight_attack_board 0 = 2 ^ 10 + 2 ^ 17 ∧ king_attack_board 0 = 2 ^ 1 + 2 ^ 8 + 2 ^ 9 :=
  ⟨by decide, leaper_tables 0 (by decide), by decide!, by decide!⟩

/-- C38. The six-field text `8/8/8/8/8/8/8/8 w KQkq - 0 0` is matched by the FEN pattern, its
six fields are captured as they stand, and `from_fen` parses them into a board that
`operator==` finds equal to `null_board`: equality with `null_board` does not tell a failed
parse from this successful one. -/
theorem null_board_from_well_formed_fen :
    Board.fen_match "8/8/8/8/8/8/8/8 w KQkq - 0 0".toList =
      some ["8/8/8/8/8/8/8/8".toList, "w".toList, "KQkq".toList, "-".toList, "0".toList,
        "0".toList] ∧
    (Board.from_fen "8/8/8/8/8/8/8/8 w KQkq - 0 0").map (fun b => Board.beq b null_board) =
      some true ∧
    (Board.from_fen "").map (fun b => Board.beq b null_board) = some true ∧
    Board.fen_match "".toList = none := by
  decide!

/-- C39. For every game on which `generate_legal_moves` is defined, the game after the call
is the game before it: the same current board in every field, occupancy included, and the
same history. -/
theorem generate_legal_moves_keeps_game (g : Game) (st : Game × MoveList)
    (h : MoveGenerator.generate_legal_moves g = some st) :
    st.1 = g ∧ st.1.board_ = g.board_ ∧ st.1.old_boards_ = g.old_boards_ := by
  rw [generate_legal_moves_some g st h]
  exact ⟨rfl, rfl, rfl⟩

/-- Witness for C39: the position with the two kings only. -/
theorem generate_legal_moves_keeps_game_witness :
    (MoveGenerator.generate_legal_moves bare_kings_position).isSome = true ∧
    (((MoveGenerator.generate_legal_moves bare_kings_position).getD
        (bare_kings_position, [])).1 = bare_kings_position ∧
      ((MoveGenerator.generate_legal_moves bare_kings_position).getD
        (bare_kings_position, [])).1.board_ = bare_kings_position.board_ ∧
      ((MoveGenerator.generate_legal_moves bare_kings_position).getD
        (bare_kings_position, [])).1.old_boards_ = bare_kings_position.old_boards_) :=
  ⟨bare_kings_legal_defined,
    generate_legal_moves_keeps_game bare_kings_position
      ((MoveGenerator.generate_legal_moves bare_kings_position).getD (bare_kings_position, []))
      (some_getD_of_isSome (MoveGenerator.generate_legal_moves bare_kings_position)
        (bare_kings_position, []) bare_kings_legal_defined)⟩

/-- C40. For every board, every move of the pseudo-legal list has a from-square different
from its to-square, so `Move::null()` is false for it; consequently, when fewer than 256 moves
were generated, the scan of `generate_castling_moves` over the move array, which stops at the
first null move, reads exactly the generated moves, and the attacked board it builds holds
exactly their destinations. -/
theorem generated_moves_not_null (b : Board)
    (hlen : (MoveGenerator.generate_pseudolegal_moves b).length < 256) :
    (∀ m, m ∈ MoveGenerator.generate_pseudolegal_moves b →
      m.from_.val ≠ m.to_.val ∧ m.null = false) ∧
    (MoveList.moves (MoveGenerator.generate_pseudolegal_moves b)).takeWhile
      (fun move => !move.null) = MoveGenerator.generate_pseudolegal_moves b ∧
    (∀ t, (MoveGenerator.attacked_squares
        (MoveGenerator.generate_pseudolegal_moves b)).testBit t = true ↔
      ∃ m, m ∈ MoveGenerator.generate_pseudolegal_moves b ∧ m.to_.val = t) ∧
    (MoveList.moves (MoveGenerator.generate_pseudolegal_moves b)).length = 256 :=
  ⟨fun m hm => ⟨(mem_generate_pseudolegal_moves b m hm).1, pseudolegal_not_null b m hm⟩,
    scan_reads_all _ (pseudolegal_not_null b),
    attacked_squares_testBit _ (pseudolegal_not_null b),
    by unfold MoveList.moves; rw [List.length_append, List.length_replicate]; omega⟩

/-- Witness for C40: the starting position, with its 20 pseudo-legal moves. -/
theorem generated_moves_not_null_witness :
    (MoveGenerator.generate_pseudolegal_moves (game_of_fen Game.default_fen).board_).length
      < 256 ∧
    ((∀ m, m ∈ MoveGenerator.generate_pseudolegal_moves (game_of_fen Game.default_fen).board_ →
      m.from_.val ≠ m.to_.val ∧ m.null = false) ∧
    (MoveList.moves
        (MoveGenerator.generate_pseudolegal_moves
          (game_of_fen Game.default_fen).board_)).takeWhile
      (fun move => !move.null) =
        MoveGenerator.generate_pseudolegal_moves (game_of_fen Game.default_fen).board_ ∧
    (∀ t, (MoveGenerator.attacked_squares
        (MoveGenerator.generate_pseudolegal_moves
          (game_of_fen Game.default_fen).board_)).testBit t = true ↔
      ∃ m, m ∈ MoveGenerator.generate_pseudolegal_moves (game_of_fen Game.default_fen).board_ ∧
        m.to_.val = t) ∧
    (MoveList.moves
      (MoveGenerator.generate_pseudolegal_moves
        (game_of_fen Game.default_fen).board_)).length = 256) ∧
    (MoveGenerator.generate_pseudolegal_moves (game_of_fen Game.default_fen).board_).length
      = 20 :=
  ⟨by decide!, generated_moves_not_null (game_of_fen Game.default_fen).board_ (by decide!),
    by decide!⟩

end chess
